import Mathlib

/-!
# Verification of the realm-cli local app-data converter (`AppDataV2`)

Shallow embedding of `internal/local/app_data_v2.go` (the v2 load/write
converter between an on-disk Realm app directory tree and the in-memory
`AppStructureV2` model), together with the document codec, directory walker
and naming constants that the converter uses.

Filesystem state is modelled explicitly: a file system is an association
list from paths (lists of name components) to file contents, plus the list
of directories that exist.  JSON documents are modelled as a tagged-union
`JValue`; Go's `map[string]interface{}` becomes an association list of
string keys to `JValue`s, wrapped in `Option` to keep Go's nil-map /
empty-map distinction, and Go's `json.Marshal` key-sorting is modelled by a
recursive canonicalization that sorts object keys.
-/

namespace RealmCLI

/-- A JSON-representable value, the model of Go's `interface{}` holding
decoded JSON.  Numbers are abstracted to `Int` (the claims never do
arithmetic on them). -/
inductive JValue where
  | null : JValue
  | bool (b : Bool) : JValue
  | num (n : Int) : JValue
  | str (s : String) : JValue
  | arr (elems : List JValue) : JValue
  | obj (fields : List (String × JValue)) : JValue
deriving Repr

mutual
/-- Decidable equality for `JValue` (the nested inductive blocks automatic
derivation, so it is spelled out). -/
def decEqJ : (a b : JValue) → Decidable (a = b)
  | .null, .null => .isTrue rfl
  | .null, .bool _ => .isFalse (fun h => JValue.noConfusion h)
  | .null, .num _ => .isFalse (fun h => JValue.noConfusion h)
  | .null, .str _ => .isFalse (fun h => JValue.noConfusion h)
  | .null, .arr _ => .isFalse (fun h => JValue.noConfusion h)
  | .null, .obj _ => .isFalse (fun h => JValue.noConfusion h)
  | .bool _, .null => .isFalse (fun h => JValue.noConfusion h)
  | .bool x, .bool y =>
    match decEq x y with
    | .isTrue h => .isTrue (congrArg JValue.bool h)
    | .isFalse h => .isFalse (fun c => h (JValue.bool.inj c))
  | .bool _, .num _ => .isFalse (fun h => JValue.noConfusion h)
  | .bool _, .str _ => .isFalse (fun h => JValue.noConfusion h)
  | .bool _, .arr _ => .isFalse (fun h => JValue.noConfusion h)
  | .bool _, .obj _ => .isFalse (fun h => JValue.noConfusion h)
  | .num _, .null => .isFalse (fun h => JValue.noConfusion h)
  | .num _, .bool _ => .isFalse (fun h => JValue.noConfusion h)
  | .num x, .num y =>
    match decEq x y with
    | .isTrue h => .isTrue (congrArg JValue.num h)
    | .isFalse h => .isFalse (fun c => h (JValue.num.inj c))
  | .num _, .str _ => .isFalse (fun h => JValue.noConfusion h)
  | .num _, .arr _ => .isFalse (fun h => JValue.noConfusion h)
  | .num _, .obj _ => .isFalse (fun h => JValue.noConfusion h)
  | .str _, .null => .isFalse (fun h => JValue.noConfusion h)
  | .str _, .bool _ => .isFalse (fun h => JValue.noConfusion h)
  | .str _, .num _ => .isFalse (fun h => JValue.noConfusion h)
  | .str x, .str y =>
    match decEq x y with
    | .isTrue h => .isTrue (congrArg JValue.str h)
    | .isFalse h => .isFalse (fun c => h (JValue.str.inj c))
  | .str _, .arr _ => .isFalse (fun h => JValue.noConfusion h)
  | .str _, .obj _ => .isFalse (fun h => JValue.noConfusion h)
  | .arr _, .null => .isFalse (fun h => JValue.noConfusion h)
  | .arr _, .bool _ => .isFalse (fun h => JValue.noConfusion h)
  | .arr _, .num _ => .isFalse (fun h => JValue.noConfusion h)
  | .arr _, .str _ => .isFalse (fun h => JValue.noConfusion h)
  | .arr xs, .arr ys =>
    match decEqArr xs ys with
    | .isTrue h => .isTrue (congrArg JValue.arr h)
    | .isFalse h => .isFalse (fun c => h (JValue.arr.inj c))
  | .arr _, .obj _ => .isFalse (fun h => JValue.noConfusion h)
  | .obj _, .null => .isFalse (fun h => JValue.noConfusion h)
  | .obj _, .bool _ => .isFalse (fun h => JValue.noConfusion h)
  | .obj _, .num _ => .isFalse (fun h => JValue.noConfusion h)
  | .obj _, .str _ => .isFalse (fun h => JValue.noConfusion h)
  | .obj _, .arr _ => .isFalse (fun h => JValue.noConfusion h)
  | .obj xs, .obj ys =>
    match decEqFields xs ys with
    | .isTrue h => .isTrue (congrArg JValue.obj h)
    | .isFalse h => .isFalse (fun c => h (JValue.obj.inj c))

def decEqArr : (a b : List JValue) → Decidable (a = b)
  | [], [] => .isTrue rfl
  | [], _ :: _ => .isFalse (fun h => List.noConfusion h)
  | _ :: _, [] => .isFalse (fun h => List.noConfusion h)
  | x :: xs, y :: ys =>
    match decEqJ x y with
    | .isFalse h => .isFalse (fun c => h (List.cons.inj c).1)
    | .isTrue h1 =>
      match decEqArr xs ys with
      | .isTrue h2 => .isTrue (by rw [h1, h2])
      | .isFalse h => .isFalse (fun c => h (List.cons.inj c).2)

def decEqFields : (a b : List (String × JValue)) → Decidable (a = b)
  | [], [] => .isTrue rfl
  | [], _ :: _ => .isFalse (fun h => List.noConfusion h)
  | _ :: _, [] => .isFalse (fun h => List.noConfusion h)
  | (k, v) :: xs, (k', v') :: ys =>
    match decEq k k' with
    | .isFalse h => .isFalse (fun c => h (congrArg Prod.fst (List.cons.inj c).1))
    | .isTrue hk =>
      match decEqJ v v' with
      | .isFalse h => .isFalse (fun c => h (congrArg Prod.snd (List.cons.inj c).1))
      | .isTrue hv =>
        match decEqFields xs ys with
        | .isTrue h2 => .isTrue (by rw [hk, hv, h2])
        | .isFalse h => .isFalse (fun c => h (List.cons.inj c).2)
end

instance : DecidableEq JValue := decEqJ

/-- A decoded JSON object: the model of Go's non-nil `map[string]interface{}`.
Well-formed documents are sorted by key and duplicate-free (Go maps are
unordered; `json.Marshal` iterates keys in sorted order). -/
abbrev Doc := List (String × JValue)

/-- The model of a Go `map[string]interface{}` variable, which may be nil
(`none`) or a (possibly empty) map (`some doc`). -/
abbrev GoMap := Option Doc

/-- Character order by code point (kernel-computable). -/
def charLt (a b : Char) : Bool := Nat.blt a.toNat b.toNat

/-- Lexicographic order on character lists. -/
def strLtL : List Char → List Char → Bool
  | [], [] => false
  | [], _ :: _ => true
  | _ :: _, [] => false
  | a :: as, b :: bs =>
    if charLt a b then true else if charLt b a then false else strLtL as bs

/-- Lexicographic string order by code points — the order `json.Marshal`
sorts object keys in and the walker visits entries in (spec §4.2).
(`String.lt`'s library decision procedure does not reduce in the kernel,
so the order is spelled out over the character lists.) -/
def strLt (a b : String) : Bool := strLtL a.data b.data

/-- Does `s` end with `suffix`?  (`String.endsWith` does not reduce in the
kernel, so this is spelled out over the character lists.) -/
def strEndsWith (s suffix : String) : Bool := suffix.data.isSuffixOf s.data

/-- Insert a binding into a key-sorted association list, replacing any
existing binding for the key. -/
def Doc.insert : Doc → String → JValue → Doc
  | [], k, v => [(k, v)]
  | (k', v') :: rest, k, v =>
    if strLt k k' then (k, v) :: (k', v') :: rest
    else if k = k' then (k, v) :: rest
    else (k', v') :: Doc.insert rest k v

/-- Look up a key in a document (first binding wins, like Go map access). -/
def Doc.get : Doc → String → Option JValue
  | [], _ => none
  | (k', v') :: rest, k => if k' = k then some v' else Doc.get rest k

/-- Remove all bindings for a key (the model of Go's `delete(m, k)`). -/
def Doc.erase (d : Doc) (k : String) : Doc :=
  d.filter (fun kv => kv.1 ≠ k)

mutual
/-- Recursive canonicalization of a JSON value: sorts the keys of every
object (dropping earlier duplicates, as Go's decoder keeps the last
occurrence of a duplicated key).  This is the normal form produced by
decoding into Go maps and re-encoding with `json.Marshal`. -/
def canonJ : JValue → JValue
  | .null => .null
  | .bool b => .bool b
  | .num n => .num n
  | .str s => .str s
  | .arr es => .arr (canonArr es)
  | .obj fs => .obj (canonFields fs)

def canonArr : List JValue → List JValue
  | [] => []
  | v :: vs => canonJ v :: canonArr vs

def canonFields : List (String × JValue) → Doc
  | [] => []
  | (k, v) :: rest => Doc.insert (canonFields rest) k (canonJ v)
end

/-- Canonicalize a decoded JSON object. -/
def canonDoc (fs : List (String × JValue)) : Doc := canonFields fs

/-- Go map indexing `m[k]`: reading a nil map yields the zero value. -/
def goIndex (m : GoMap) (k : String) : Option JValue :=
  match m with
  | none => none
  | some d => d.get k

/-- `v, ok := m[k].(string)`: the string type assertion on a map read. -/
def goIndexStr (m : GoMap) (k : String) : Option String :=
  match goIndex m k with
  | some (.str s) => some s
  | _ => none

/-- `json.Marshal` of an `interface{}` holding a map read: a missing key or
nil value marshals as JSON `null`. -/
def jsonOfOpt (o : Option JValue) : JValue := canonJ (o.getD .null)

/-- `json.Marshal` of a `map[string]interface{}`: nil marshals as `null`,
a map marshals as an object with sorted keys. -/
def marshalGoMap : GoMap → JValue
  | none => .null
  | some d => .obj (canonDoc d)

/-- `json.Marshal` of a `[]map[string]interface{}` value modelled as a plain
list (the spec does not distinguish nil from empty sequences). -/
def marshalGoMapList (ms : List GoMap) : JValue :=
  .arr (ms.map marshalGoMap)

/-! ## Naming constants

The names under `src/` come from the `Name*`/`File*` constants of the
`local` package; the constant definitions themselves are not in `src/`, so
their values are taken from the on-disk layout fixed by spec §6. -/

def NameAuth : String := "auth"
def NameFunctions : String := "functions"
def NameDataSources : String := "data_sources"
def NameHTTPEndpoints : String := "http_endpoints"
def NameSync : String := "sync"
def NameValues : String := "values"
def NameTriggers : String := "triggers"
def NameSecrets : String := "secrets"
def NameEnvironments : String := "environments"
def NameGraphQL : String := "graphql"
def NameServices : String := "services"
/-- The reserved document key under which a rule's sibling `schema.json` is
merged in memory (spec §4.3(d)). -/
def NameSchema : String := "schema"
/-- The reserved document key under which a webhook's sibling source file is
merged in memory (spec §4.3(f)). -/
def NameSource : String := "source"
def FileConfig : String := "config.json"
def FileRules : String := "rules.json"
def FileSchema : String := "schema.json"
def FileProviders : String := "providers.json"
def FileCustomUserData : String := "custom_user_data.json"
def FileSource : String := "source.js"
def extJS : String := ".js"

/-! ## Filesystem model

Paths are lists of name components relative to the process root; the
`rootDir` argument that every parser and writer receives is itself a path.
A filesystem holds an association list of files (first binding wins, as a
real filesystem has no duplicate paths) and the list of directories that
exist.  `writeFile` models the repository's `WriteFile` helper (create
parent directories, then create-or-truncate the file), and `mkdirAll`
models `os.MkdirAll`. -/

abbrev Path := List String

/-- The content of one file: either a serialized JSON value or raw text
(function/webhook source code). -/
inductive FileContent where
  | json (v : JValue) : FileContent
  | text (s : String) : FileContent
deriving DecidableEq, Repr

mutual
/-- A fixed rendering of a JSON value to text, standing in for Go's
`json.MarshalIndent` output (the exact byte format is irrelevant to the
claims; only that it is a function of the value matters). -/
def renderJ : JValue → String
  | .null => "null"
  | .bool true => "true"
  | .bool false => "false"
  | .num n => toString n
  | .str s => "\"" ++ s ++ "\""
  | .arr es => "[" ++ renderArr es ++ "]"
  | .obj fs => "\x7b" ++ renderFields fs ++ "\x7d"

def renderArr : List JValue → String
  | [] => ""
  | [v] => renderJ v
  | v :: vs => renderJ v ++ "," ++ renderArr vs

def renderFields : List (String × JValue) → String
  | [] => ""
  | [(k, v)] => "\"" ++ k ++ "\":" ++ renderJ v
  | (k, v) :: fs => "\"" ++ k ++ "\":" ++ renderJ v ++ "," ++ renderFields fs
end

/-- The bytes of a file as seen by `ioutil.ReadFile`. -/
def FileContent.asText : FileContent → String
  | .json v => renderJ v
  | .text s => s

structure FS where
  files : List (Path × FileContent)
  dirs : List Path
deriving DecidableEq, Repr

instance : Inhabited FileContent := ⟨.text ""⟩

def FS.empty : FS := ⟨[], []⟩

/-- First matching binding for a path in a file list, if any. -/
def lookupL (F : List (Path × FileContent)) (p : Path) : Option FileContent :=
  match F with
  | [] => none
  | f :: rest => if f.1 = p then some f.2 else lookupL rest p

/-- First matching file content at a path, if any. -/
def FS.lookupFile (fs : FS) (p : Path) : Option FileContent :=
  lookupL fs.files p

def FS.isFile (fs : FS) (p : Path) : Bool :=
  (fs.lookupFile p).isSome

def FS.isDir (fs : FS) (p : Path) : Bool :=
  fs.dirs.contains p
    || fs.files.any (fun f => p.isPrefixOf f.1 && p != f.1)
    || fs.dirs.any (fun d => p.isPrefixOf d && p != d)

/-- `os.Stat` succeeding: the path exists as a file or a directory. -/
def FS.statOk (fs : FS) (p : Path) : Bool :=
  fs.isFile p || fs.isDir p

/-- Record a directory in a directory list if not already recorded. -/
def addDirL (ds : List Path) (p : Path) : List Path :=
  if p ∈ ds then ds else ds ++ [p]

/-- All prefixes of a path, shortest first, including `[]` and the path
itself. -/
def pathPrefixes : Path → List Path
  | [] => [[]]
  | x :: rest => [] :: (pathPrefixes rest).map (x :: ·)

/-- Record a directory and all its ancestors in a directory list. -/
def mkdirL (ds : List Path) (p : Path) : List Path :=
  (pathPrefixes p).foldl addDirL ds

/-- Record a directory if not already recorded. -/
def FS.addDir (fs : FS) (p : Path) : FS :=
  { fs with dirs := addDirL fs.dirs p }

/-- `os.MkdirAll`: create the directory and every ancestor. -/
def FS.mkdirAll (fs : FS) (p : Path) : FS :=
  { fs with dirs := mkdirL fs.dirs p }

/-- Replace the first binding for a path in place, else append. -/
def replaceFile : List (Path × FileContent) → Path → FileContent →
    List (Path × FileContent)
  | [], p, c => [(p, c)]
  | f :: rest, p, c =>
    if f.1 = p then (p, c) :: rest else f :: replaceFile rest p c

/-- The repository's `WriteFile` helper: create parent directories, then
create-or-overwrite the file (spec §4.1). -/
def FS.writeFile (fs : FS) (p : Path) (c : FileContent) : FS :=
  { files := replaceFile fs.files p c, dirs := mkdirL fs.dirs p.dropLast }

/-! ### Directory listing (the deterministic walker order, spec §4.2) -/

/-- Insert a string into a sorted duplicate-free list. -/
def insSortStr (x : String) : List String → List String
  | [] => [x]
  | y :: ys =>
    if strLt x y then x :: y :: ys
    else if x = y then y :: ys
    else y :: insSortStr x ys

/-- Sort a list of strings, removing duplicates. -/
def sortDedup (xs : List String) : List String :=
  xs.foldr insSortStr []

/-- The name of the entry directly below `p` on the way to `q`, when `q` is
strictly below `p`. -/
def childNameOf (p q : Path) : Option String :=
  if p.isPrefixOf q then
    match q.drop p.length with
    | x :: _ => some x
    | [] => none
  else none

/-- All entry names (files and directories) directly under a path, in the
walker's deterministic lexicographic order. -/
def FS.childNames (fs : FS) (p : Path) : List String :=
  sortDedup ((fs.dirs ++ fs.files.map (·.1)).filterMap (childNameOf p))

/-- The names of the directory entries under `p` (what a walker with
`onlyDirs` visits). -/
def FS.childDirNames (fs : FS) (p : Path) : List String :=
  (fs.childNames p).filter (fun x => fs.isDir (p ++ [x]))

/-- The names of the plain-file entries under `p`. -/
def FS.childFileNames (fs : FS) (p : Path) : List String :=
  (fs.childNames p).filter (fun x => fs.isFile (p ++ [x]))

/-- Lexicographic order on paths (component-wise by string order). -/
def pathLt : Path → Path → Bool
  | [], [] => false
  | [], _ :: _ => true
  | _ :: _, [] => false
  | a :: as, b :: bs =>
    if strLt a b then true else if strLt b a then false else pathLt as bs

/-- Insert into a list sorted by `pathLt`, keeping an existing binding for
an equal path (so the first binding wins, matching `lookupFile`). -/
def insSortRel (x : Path × FileContent) :
    List (Path × FileContent) → List (Path × FileContent)
  | [] => [x]
  | y :: ys =>
    if pathLt x.1 y.1 then x :: y :: ys
    else if x.1 = y.1 then y :: ys
    else y :: insSortRel x ys

/-- All files strictly below a path, with their paths relative to it, in
lexicographic path order (the recursive full-subtree walk of spec §4.2). -/
def FS.filesUnder (fs : FS) (p : Path) : List (Path × FileContent) :=
  (fs.files.filterMap (fun f =>
    if p.isPrefixOf f.1 ∧ p ≠ f.1 then some (f.1.drop p.length, f.2)
    else none)).foldl (fun acc x => insSortRel x acc) []

/-! ## The structured model (`AppStructureV2`)

Field-for-field from the Go struct, restricted to the fields that
`LoadData`/`WriteData` touch (the top-level metadata fields are handled by
the separate root `config.json` codec, spec §4.5, and `Hosting` is neither
loaded nor written by the code under verification).  Go's nil-map /
non-nil-map distinction is kept (`GoMap`); the spec's §3 declares nil and
empty *sequences* indistinguishable, so sequence fields are plain lists.
`Environments` is a Go map (`map[string]map[string]interface{}`), not a
sequence, and §3 keeps its absent state distinct from present-but-empty,
so it is modelled as an `Option` of its entry list. -/

structure AuthStructure where
  customUserData : GoMap
  providers : GoMap
deriving DecidableEq, Repr

structure FunctionsStructure where
  configs : List GoMap
  /-- `Sources map[string]string`, keyed by source path relative to the
  functions directory; keys are modelled as component lists. -/
  sources : List (Path × String)
deriving DecidableEq, Repr

structure DataSourceStructure where
  config : GoMap
  rules : List GoMap
deriving DecidableEq, Repr

structure HTTPEndpointStructure where
  config : GoMap
  incomingWebhooks : List GoMap
deriving DecidableEq, Repr

/-- Modelled from the spec: `ServiceStructure` is not under `src/`; §6 gives
`services/<name>/config.json` "plus per-service incoming webhooks, same
shape as HTTP endpoints". -/
structure ServiceStructure where
  config : GoMap
  incomingWebhooks : List GoMap
deriving DecidableEq, Repr

structure SyncStructure where
  config : GoMap
deriving DecidableEq, Repr

/-- Modelled from the spec: `GraphQLStructure` is not under `src/`; §6 gives
`graphql/config.json`. -/
structure GraphQLStructure where
  config : GoMap
deriving DecidableEq, Repr

/-- Modelled from the spec: `SecretsStructure` is not under `src/`; §6 gives
only `secrets/...`, modelled as a single document `secrets/config.json`. -/
structure SecretsStructure where
  config : GoMap
deriving DecidableEq, Repr

structure AppStructureV2 where
  /-- `Environments map[string]map[string]interface{}`: `none` is Go's nil
  map ("not present", spec §3); `some` is a present (possibly empty) map,
  with entries keyed by file name. -/
  environments : Option (List (String × GoMap))
  values : List GoMap
  auth : Option AuthStructure
  functions : Option FunctionsStructure
  triggers : List GoMap
  dataSources : List DataSourceStructure
  httpEndpoints : List HTTPEndpointStructure
  services : List ServiceStructure
  graphql : Option GraphQLStructure
  sync : Option SyncStructure
  secrets : Option SecretsStructure
deriving DecidableEq, Repr

/-- `AppDataV2` embeds `AppStructureV2` and adds no data relevant here. -/
abbrev AppDataV2 := AppStructureV2

/-- Errors surfaced by load/write.  `custom` carries the exact
`errors.New` message used in the source; `missingField` is the
spec-mandated missing-required-field error used by the writers that are
modelled from the spec (it names the section and the field, §4.4/§7). -/
inductive Err where
  | io (p : Path)
  | parse (p : Path)
  | notDir (p : Path)
  | custom (msg : String)
  | missingField (sec fld : String)
deriving DecidableEq, Repr

/-! ## Section parsers (load path)

The parsers for auth, sync, functions v2, data sources and HTTP endpoints
are embedded from `src/unnamed/part_001`.  The document codec
(`parseJSON`, `parseJSONArray`) and the remaining parsers are modelled
from spec §4.1–§4.3. -/

/-- Modelled from the spec (§4.1): `parseJSON` is not under `src/`.  A
missing file is "no data" (Go leaves the map nil, which a JSON `null`
does as well); a non-object is a fatal parse error carrying the path;
reading a directory is a fatal I/O error. -/
def parseJSON (fs : FS) (p : Path) : Except Err GoMap :=
  match fs.lookupFile p with
  | some (.json (.obj kvs)) => .ok (some (canonDoc kvs))
  | some (.json .null) => .ok none
  | some _ => .error (.parse p)
  | none => if fs.isDir p then .error (.io p) else .ok none

/-- Decode the elements of a JSON array into Go maps (a `null` element
decodes to a nil map, anything other than an object is fatal). -/
def decodeDocList (p : Path) : List JValue → Except Err (List GoMap)
  | [] => .ok []
  | .obj kvs :: rest => do
    let r ← decodeDocList p rest
    .ok (some (canonDoc kvs) :: r)
  | .null :: rest => do
    let r ← decodeDocList p rest
    .ok (none :: r)
  | _ => .error (.parse p)

/-- Modelled from the spec (§4.1): `parseJSONArray` is not under `src/`.
Absence yields an empty sequence; a non-array top level is fatal. -/
def parseJSONArray (fs : FS) (p : Path) : Except Err (List GoMap) :=
  match fs.lookupFile p with
  | some (.json (.arr es)) => decodeDocList p es
  | some (.json .null) => .ok []
  | some _ => .error (.parse p)
  | none => if fs.isDir p then .error (.io p) else .ok []

def parseAuth (fs : FS) (rootDir : Path) : Except Err (Option AuthStructure) :=
  let dir := rootDir ++ [NameAuth]
  if fs.statOk dir then do
    let customUserData ← parseJSON fs (dir ++ [FileCustomUserData])
    let providers ← parseJSON fs (dir ++ [FileProviders])
    .ok (some ⟨customUserData, providers⟩)
  else .ok none

def parseSync (fs : FS) (rootDir : Path) : Except Err (Option SyncStructure) :=
  let dir := rootDir ++ [NameSync]
  if fs.statOk dir then do
    let config ← parseJSON fs (dir ++ [FileConfig])
    .ok (some ⟨config⟩)
  else .ok none

/-- Does a relative path name a source file with the recognized extension
(`filepath.Ext(path) == extJS`)? -/
def jsFileName (p : Path) : Bool :=
  match p.getLast? with
  | some s => strEndsWith s extJS
  | none => false

def parseFunctionsV2 (fs : FS) (rootDir : Path) :
    Except Err (Option FunctionsStructure) :=
  let dir := rootDir ++ [NameFunctions]
  if fs.statOk dir then do
    let configs ← parseJSONArray fs (dir ++ [FileConfig])
    let sources := (fs.filesUnder dir).filterMap (fun f =>
      if jsFileName f.1 then some (f.1, f.2.asText) else none)
    .ok (some ⟨configs, sources⟩)
  else .ok none

/-- The collection-level visitor of `parseDataSources`: a collection
directory without `rules.json` is skipped (`none`); otherwise the rule is
parsed and the sibling `schema.json` merged under `NameSchema`. -/
def parseOneColl (fs : FS) (collPath : Path) : Except Err (Option GoMap) :=
  let rulePath := collPath ++ [FileRules]
  if fs.statOk rulePath then do
    let rule ← parseJSON fs rulePath
    let schema ← parseJSON fs (collPath ++ [FileSchema])
    .ok (some (some (Doc.insert (rule.getD []) NameSchema (marshalGoMap schema))))
  else .ok none

def parseColls (fs : FS) (dbPath : Path) : List String → Except Err (List GoMap)
  | [] => .ok []
  | c :: rest => do
    let r ← parseOneColl fs (dbPath ++ [c])
    let rs ← parseColls fs dbPath rest
    match r with
    | some rule => .ok (rule :: rs)
    | none => .ok rs

def parseDBs (fs : FS) (dsPath : Path) : List String → Except Err (List GoMap)
  | [] => .ok []
  | d :: rest => do
    let rs ← parseColls fs (dsPath ++ [d]) (fs.childDirNames (dsPath ++ [d]))
    let rest' ← parseDBs fs dsPath rest
    .ok (rs ++ rest')

def parseDataSourcesList (fs : FS) (dir : Path) :
    List String → Except Err (List DataSourceStructure)
  | [] => .ok []
  | name :: rest => do
    let config ← parseJSON fs (dir ++ [name, FileConfig])
    let rules ← parseDBs fs (dir ++ [name]) (fs.childDirNames (dir ++ [name]))
    let out ← parseDataSourcesList fs dir rest
    .ok (⟨config, rules⟩ :: out)

def parseDataSources (fs : FS) (rootDir : Path) :
    Except Err (List DataSourceStructure) :=
  let dir := rootDir ++ [NameDataSources]
  if fs.isFile dir then .error (.notDir dir)
  else parseDataSourcesList fs dir (fs.childDirNames dir)

/-- Modelled from the spec: the webhook parser `parseFunctions` (shared
with v1) is not under `src/`; §4.3(f): each endpoint directory's immediate
subdirectories are webhooks; each webhook's `config.json` is read and its
sibling source file merged into the document under the reserved source
key. -/
def parseWebhooksList (fs : FS) (dir : Path) : List String → Except Err (List GoMap)
  | [] => .ok []
  | w :: rest => do
    let config ← parseJSON fs (dir ++ [w, FileConfig])
    let srcText :=
      match fs.lookupFile (dir ++ [w, FileSource]) with
      | some c => c.asText
      | none => ""
    let out ← parseWebhooksList fs dir rest
    .ok (some (Doc.insert (config.getD []) NameSource (.str srcText)) :: out)

def parseFunctions (fs : FS) (path : Path) : Except Err (List GoMap) :=
  if fs.isFile path then .error (.notDir path)
  else parseWebhooksList fs path (fs.childDirNames path)

def parseHTTPEndpointsList (fs : FS) (dir : Path) :
    List String → Except Err (List HTTPEndpointStructure)
  | [] => .ok []
  | name :: rest => do
    let config ← parseJSON fs (dir ++ [name, FileConfig])
    let webhooks ← parseFunctions fs (dir ++ [name])
    let out ← parseHTTPEndpointsList fs dir rest
    .ok (⟨config, webhooks⟩ :: out)

def parseHTTPEndpoints (fs : FS) (rootDir : Path) :
    Except Err (List HTTPEndpointStructure) :=
  let dir := rootDir ++ [NameHTTPEndpoints]
  if fs.isFile dir then .error (.notDir dir)
  else parseHTTPEndpointsList fs dir (fs.childDirNames dir)

/-- Modelled from the spec: `parseServices` is not under `src/`; §6 gives
services the same per-entity shape as HTTP endpoints. -/
def parseServicesList (fs : FS) (dir : Path) :
    List String → Except Err (List ServiceStructure)
  | [] => .ok []
  | name :: rest => do
    let config ← parseJSON fs (dir ++ [name, FileConfig])
    let webhooks ← parseFunctions fs (dir ++ [name])
    let out ← parseServicesList fs dir rest
    .ok (⟨config, webhooks⟩ :: out)

def parseServices (fs : FS) (rootDir : Path) : Except Err (List ServiceStructure) :=
  let dir := rootDir ++ [NameServices]
  if fs.isFile dir then .error (.notDir dir)
  else parseServicesList fs dir (fs.childDirNames dir)

/-- Modelled from the spec: `parseSecrets` is not under `src/`; absence of
the section directory yields "not present". -/
def parseSecrets (fs : FS) (rootDir : Path) : Except Err (Option SecretsStructure) :=
  let dir := rootDir ++ [NameSecrets]
  if fs.statOk dir then do
    let config ← parseJSON fs (dir ++ [FileConfig])
    .ok (some ⟨config⟩)
  else .ok none

/-- Modelled from the spec: `parseEnvironments` is not under `src/`; §6
gives `environments/<name>.json`, keyed by file name.  Environments is a
structured (non-sequence) section, so per §3/§4.3(a) an absent directory
yields the "not present" value (`none`), distinct from a present directory
with no documents (`some []`). -/
def parseEnvironmentsList (fs : FS) (dir : Path) :
    List String → Except Err (List (String × GoMap))
  | [] => .ok []
  | n :: rest => do
    let doc ← parseJSON fs (dir ++ [n])
    let out ← parseEnvironmentsList fs dir rest
    .ok ((n, doc) :: out)

def parseEnvironments (fs : FS) (rootDir : Path) :
    Except Err (Option (List (String × GoMap))) :=
  let dir := rootDir ++ [NameEnvironments]
  if fs.isFile dir then .error (.notDir dir)
  else if fs.statOk dir then do
    let out ← parseEnvironmentsList fs dir
      ((fs.childFileNames dir).filter (fun n => strEndsWith n ".json"))
    .ok (some out)
  else .ok none

/-- Modelled from the spec: `parseJSONFiles` is not under `src/`; it reads
every `.json` file directly under the directory as one document each, in
walker order (used for the `values` and `triggers` sections). -/
def parseJSONFilesList (fs : FS) (dir : Path) : List String → Except Err (List GoMap)
  | [] => .ok []
  | n :: rest => do
    let doc ← parseJSON fs (dir ++ [n])
    let out ← parseJSONFilesList fs dir rest
    .ok (doc :: out)

def parseJSONFiles (fs : FS) (dir : Path) : Except Err (List GoMap) :=
  if fs.isFile dir then .error (.notDir dir)
  else
    parseJSONFilesList fs dir
      ((fs.childFileNames dir).filter (fun n => strEndsWith n ".json"))

/-- Modelled from the spec: `parseGraphQL` is not under `src/`; it reports
through its second component whether the section directory exists. -/
def parseGraphQL (fs : FS) (rootDir : Path) : Except Err (GraphQLStructure × Bool) :=
  let dir := rootDir ++ [NameGraphQL]
  if fs.statOk dir then do
    let config ← parseJSON fs (dir ++ [FileConfig])
    .ok (⟨config⟩, true)
  else .ok (⟨none⟩, false)

/-- `AppDataV2.LoadData`, section for section in source order. -/
def AppDataV2.LoadData (fs : FS) (rootDir : Path) : Except Err AppStructureV2 := do
  let secrets ← parseSecrets fs rootDir
  let environments ← parseEnvironments fs rootDir
  let values ← parseJSONFiles fs (rootDir ++ [NameValues])
  let auth ← parseAuth fs rootDir
  let sync ← parseSync fs rootDir
  let functions ← parseFunctionsV2 fs rootDir
  let triggers ← parseJSONFiles fs (rootDir ++ [NameTriggers])
  let gq ← parseGraphQL fs rootDir
  let graphql := if gq.2 then some gq.1 else none
  let services ← parseServices fs rootDir
  let dataSources ← parseDataSources fs rootDir
  let httpEndpoints ← parseHTTPEndpoints fs rootDir
  .ok
    { environments := environments
      values := values
      auth := auth
      functions := functions
      triggers := triggers
      dataSources := dataSources
      httpEndpoints := httpEndpoints
      services := services
      graphql := graphql
      sync := sync
      secrets := secrets }

/-! ## Section writers (write path)

`writeFunctionsV2`, `writeAuth`, `writeSync`, `writeDataSources` and
`writeHTTPEndpoints` are embedded from `src/unnamed/part_001`; the
remaining writers are modelled from spec §4.4.  A writer returns the
mutated filesystem; on a fatal error it returns the error together with
the filesystem as mutated so far (Go aborts with no rollback, spec §5). -/

/-- Write results: either the new filesystem, or the first error paired
with the filesystem state at the moment of failure. -/
abbrev WriteRes := Except (Err × FS) FS

/-- `fmt.Sprintf("%s", v)` on a document field read: Go renders a missing
field (nil interface) as `%!s(<nil>)`; the rendering of other non-string
values is abstracted by `renderJ`. -/
def sprintfVal : Option JValue → String
  | some (.str s) => s
  | none => "%!s(<nil>)"
  | some v => renderJ v

def writeFunctionsV2 (rootDir : Path) (functions : Option FunctionsStructure)
    (fs : FS) : WriteRes :=
  let configs := match functions with | none => [] | some f => f.configs
  let sources := match functions with | none => [] | some f => f.sources
  let dir := rootDir ++ [NameFunctions]
  let fs1 := fs.writeFile (dir ++ [FileConfig]) (.json (marshalGoMapList configs))
  .ok (sources.foldl (fun acc ps => acc.writeFile (dir ++ ps.1) (.text ps.2)) fs1)

def writeAuth (rootDir : Path) (auth : Option AuthStructure) (fs : FS) : WriteRes :=
  match auth with
  | none => .ok fs
  | some a =>
    let dir := rootDir ++ [NameAuth]
    let fs1 :=
      if a.providers.isSome then
        fs.writeFile (dir ++ [FileProviders]) (.json (marshalGoMap a.providers))
      else fs
    let fs2 :=
      if a.customUserData.isSome then
        fs1.writeFile (dir ++ [FileCustomUserData]) (.json (marshalGoMap a.customUserData))
      else fs1
    .ok fs2

def writeSync (rootDir : Path) (sync : Option SyncStructure) (fs : FS) : WriteRes :=
  match sync with
  | none => .ok fs
  | some s =>
    if s.config.isSome then
      .ok (fs.writeFile (rootDir ++ [NameSync, FileConfig]) (.json (marshalGoMap s.config)))
    else .ok fs

/-- The rule loop of `writeDataSources`: strips the merged schema key out
of `rules.json` and writes the schema as the sibling `schema.json`; the
database/collection path components are formatted from the rule document
with `%s`, without any check. -/
def writeRules (dsDir : Path) : List GoMap → FS → FS
  | [], fs => fs
  | rule :: rest, fs =>
    let dataSchema := jsonOfOpt (goIndex rule NameSchema)
    let ruleTemp := (rule.getD []).erase NameSchema
    let db := sprintfVal (goIndex rule "database")
    let coll := sprintfVal (goIndex rule "collection")
    let fs1 := fs.writeFile (dsDir ++ [db, coll, FileRules]) (.json (.obj (canonDoc ruleTemp)))
    let fs2 := fs1.writeFile (dsDir ++ [db, coll, FileSchema]) (.json dataSchema)
    writeRules dsDir rest fs2

def writeDataSourcesList (dir : Path) :
    List DataSourceStructure → FS → WriteRes
  | [], fs => .ok fs
  | ds :: rest, fs =>
    match goIndexStr ds.config "name" with
    | none => .error (.custom "error writing datasources", fs)
    | some name =>
      let fs1 := fs.writeFile (dir ++ [name, FileConfig]) (.json (marshalGoMap ds.config))
      let fs2 := writeRules (dir ++ [name]) ds.rules fs1
      writeDataSourcesList dir rest fs2

def writeDataSources (rootDir : Path) (dataSources : List DataSourceStructure)
    (fs : FS) : WriteRes :=
  let dir := rootDir ++ [NameDataSources]
  writeDataSourcesList dir dataSources (fs.mkdirAll dir)

/-- The webhook loop of `writeHTTPEndpoints`: asserts the webhook's
`source` and `name` string fields, strips the merged source key out of the
webhook's `config.json` and writes the source as a sibling file. -/
def writeWebhooks (epDir : Path) : List GoMap → FS → WriteRes
  | [], fs => .ok fs
  | webhook :: rest, fs =>
    match goIndexStr webhook NameSource with
    | none => .error (.custom "error writing http endpoints", fs)
    | some src =>
      match goIndexStr webhook "name" with
      | none => .error (.custom "error writing http endpoints", fs)
      | some name =>
        let webhookTemp := (webhook.getD []).erase NameSource
        let fs1 := fs.writeFile (epDir ++ [name, FileConfig]) (.json (.obj (canonDoc webhookTemp)))
        let fs2 := fs1.writeFile (epDir ++ [name, FileSource]) (.text src)
        writeWebhooks epDir rest fs2

def writeHTTPEndpointsList (dir : Path) :
    List HTTPEndpointStructure → FS → WriteRes
  | [], fs => .ok fs
  | ep :: rest, fs =>
    match goIndexStr ep.config "name" with
    | none => .error (.custom "error writing http endpoints", fs)
    | some name => do
      let fs1 := fs.writeFile (dir ++ [name, FileConfig]) (.json (marshalGoMap ep.config))
      let fs2 ← writeWebhooks (dir ++ [name]) ep.incomingWebhooks fs1
      writeHTTPEndpointsList dir rest fs2

def writeHTTPEndpoints (rootDir : Path) (httpEndpoints : List HTTPEndpointStructure)
    (fs : FS) : WriteRes :=
  let dir := rootDir ++ [NameHTTPEndpoints]
  writeHTTPEndpointsList dir httpEndpoints (fs.mkdirAll dir)

/-- Modelled from the spec: `writeSecrets` is not under `src/`; a nil
section is skipped (§4.4). -/
def writeSecrets (rootDir : Path) (secrets : Option SecretsStructure)
    (fs : FS) : WriteRes :=
  match secrets with
  | none => .ok fs
  | some s =>
    .ok (fs.writeFile (rootDir ++ [NameSecrets, FileConfig]) (.json (marshalGoMap s.config)))

/-- Modelled from the spec: `writeEnvironments` is not under `src/`; a nil
section is skipped entirely with no directory created, while a present
section — even an empty one — has its directory created (§4.4), and each
entry is written to `environments/<name>.json`, keyed by file name (§6). -/
def writeEnvironments (rootDir : Path) (environments : Option (List (String × GoMap)))
    (fs : FS) : WriteRes :=
  match environments with
  | none => .ok fs
  | some l =>
    .ok (l.foldl
      (fun acc kv => acc.writeFile (rootDir ++ [NameEnvironments, kv.1]) (.json (marshalGoMap kv.2)))
      (fs.mkdirAll (rootDir ++ [NameEnvironments])))

/-- Modelled from the spec: `writeValues` is not under `src/`; each value
document is written to `values/<name>.json` where `name` is the required
naming field, validated before the path is derived (§4.4), and the section
directory is always created (collection-typed section). -/
def writeValuesList (dir : Path) : List GoMap → FS → WriteRes
  | [], fs => .ok fs
  | v :: rest, fs =>
    match goIndexStr v "name" with
    | none => .error (.missingField "values" "name", fs)
    | some name =>
      writeValuesList dir rest (fs.writeFile (dir ++ [name ++ ".json"]) (.json (marshalGoMap v)))

def writeValues (rootDir : Path) (values : List GoMap) (fs : FS) : WriteRes :=
  let dir := rootDir ++ [NameValues]
  writeValuesList dir values (fs.mkdirAll dir)

/-- Modelled from the spec: `writeTriggers` is not under `src/`; same
shape as `writeValues` (§4.4, §6). -/
def writeTriggersList (dir : Path) : List GoMap → FS → WriteRes
  | [], fs => .ok fs
  | v :: rest, fs =>
    match goIndexStr v "name" with
    | none => .error (.missingField "triggers" "name", fs)
    | some name =>
      writeTriggersList dir rest (fs.writeFile (dir ++ [name ++ ".json"]) (.json (marshalGoMap v)))

def writeTriggers (rootDir : Path) (triggers : List GoMap) (fs : FS) : WriteRes :=
  let dir := rootDir ++ [NameTriggers]
  writeTriggersList dir triggers (fs.mkdirAll dir)

/-- Modelled from the spec: `writeGraphQL` is not under `src/`; the section
directory is always created (`WriteData` substitutes an empty structure for
a nil one, and §4.4 materializes present-but-empty sections). -/
def writeGraphQL (rootDir : Path) (graphql : GraphQLStructure) (fs : FS) : WriteRes :=
  let dir := rootDir ++ [NameGraphQL]
  let fs1 := fs.mkdirAll dir
  if graphql.config.isSome then
    .ok (fs1.writeFile (dir ++ [FileConfig]) (.json (marshalGoMap graphql.config)))
  else .ok fs1

/-- Modelled from the spec: `writeServices` is not under `src/`; same
shape as the HTTP endpoint writer (§6), with the spec's
missing-required-field errors (§4.4). -/
def writeServiceWebhooks (svcDir : Path) : List GoMap → FS → WriteRes
  | [], fs => .ok fs
  | webhook :: rest, fs =>
    match goIndexStr webhook NameSource with
    | none => .error (.missingField "services" "source", fs)
    | some src =>
      match goIndexStr webhook "name" with
      | none => .error (.missingField "services" "name", fs)
      | some name =>
        let webhookTemp := (webhook.getD []).erase NameSource
        let fs1 := fs.writeFile (svcDir ++ [name, FileConfig]) (.json (.obj (canonDoc webhookTemp)))
        let fs2 := fs1.writeFile (svcDir ++ [name, FileSource]) (.text src)
        writeServiceWebhooks svcDir rest fs2

def writeServicesList (dir : Path) : List ServiceStructure → FS → WriteRes
  | [], fs => .ok fs
  | svc :: rest, fs =>
    match goIndexStr svc.config "name" with
    | none => .error (.missingField "services" "name", fs)
    | some name => do
      let fs1 := fs.writeFile (dir ++ [name, FileConfig]) (.json (marshalGoMap svc.config))
      let fs2 ← writeServiceWebhooks (dir ++ [name]) svc.incomingWebhooks fs1
      writeServicesList dir rest fs2

def writeServices (rootDir : Path) (services : List ServiceStructure) (fs : FS) : WriteRes :=
  let dir := rootDir ++ [NameServices]
  writeServicesList dir services (fs.mkdirAll dir)

/-- `AppDataV2.WriteData`, section for section in source order — including
the repeated `writeHTTPEndpoints` invocation present in the source. -/
def AppDataV2.WriteData (rootDir : Path) (a : AppStructureV2) (fs : FS) : WriteRes := do
  let fs ← writeSecrets rootDir a.secrets fs
  let fs ← writeEnvironments rootDir a.environments fs
  let fs ← writeValues rootDir a.values fs
  let graphQL := match a.graphql with
    | none => ({ config := none } : GraphQLStructure)
    | some g => g
  let fs ← writeGraphQL rootDir graphQL fs
  let fs ← writeServices rootDir a.services fs
  let fs ← writeFunctionsV2 rootDir a.functions fs
  let fs ← writeAuth rootDir a.auth fs
  let fs ← writeSync rootDir a.sync fs
  let fs ← writeDataSources rootDir a.dataSources fs
  let fs ← writeHTTPEndpoints rootDir a.httpEndpoints fs
  let fs ← writeHTTPEndpoints rootDir a.httpEndpoints fs
  let fs ← writeTriggers rootDir a.triggers fs
  .ok fs

/-! ## Write plans

Every writer performs a fixed sequence of `writeFile`/`mkdirAll` operations
determined by its arguments alone (no writer reads the filesystem; a
writer's error conditions also depend only on its arguments).  A `WPlan`
records that sequence — the file writes in order and the directory-creation
targets in order — so that all writers can be reasoned about uniformly. -/

structure WPlan where
  wfiles : List (Path × FileContent)
  wdirs : List Path
deriving Repr

instance : Append WPlan :=
  ⟨fun P Q => ⟨P.wfiles ++ Q.wfiles, P.wdirs ++ Q.wdirs⟩⟩

/-- Apply a sequence of file writes (replace-or-append, in order). -/
def applyW (F : List (Path × FileContent)) (ws : List (Path × FileContent)) :
    List (Path × FileContent) :=
  ws.foldl (fun acc w => replaceFile acc w.1 w.2) F

/-- Apply a sequence of directory-creation targets. -/
def applyDirs (D : List Path) (ts : List Path) : List Path :=
  ts.foldl mkdirL D

def FS.applyPlan (fs : FS) (P : WPlan) : FS :=
  ⟨applyW fs.files P.wfiles, applyDirs fs.dirs P.wdirs⟩

/-- The "name" field of a document, defaulted (only used where the writer
has already asserted the field). -/
def nameOf (m : GoMap) : String := (goIndexStr m "name").getD ""

def srcOf (m : GoMap) : String := (goIndexStr m NameSource).getD ""

def dbOf (r : GoMap) : String := sprintfVal (goIndex r "database")

def collOf (r : GoMap) : String := sprintfVal (goIndex r "collection")

def secretsPlan (rootDir : Path) (s : Option SecretsStructure) : WPlan :=
  match s with
  | none => ⟨[], []⟩
  | some s =>
    ⟨[(rootDir ++ [NameSecrets, FileConfig], .json (marshalGoMap s.config))],
     [rootDir ++ [NameSecrets]]⟩

def environmentsPlan (rootDir : Path) (envs : Option (List (String × GoMap))) : WPlan :=
  match envs with
  | none => ⟨[], []⟩
  | some l =>
    ⟨l.map (fun kv => (rootDir ++ [NameEnvironments, kv.1], .json (marshalGoMap kv.2))),
     (rootDir ++ [NameEnvironments]) :: l.map (fun _ => rootDir ++ [NameEnvironments])⟩

def valuesPlan (rootDir : Path) (vals : List GoMap) : WPlan :=
  ⟨vals.map (fun v => ((rootDir ++ [NameValues]) ++ [nameOf v ++ ".json"], .json (marshalGoMap v))),
   (rootDir ++ [NameValues]) :: vals.map (fun _ => rootDir ++ [NameValues])⟩

def valuesOkB (vals : List GoMap) : Bool :=
  vals.all (fun v => (goIndexStr v "name").isSome)

def triggersPlan (rootDir : Path) (trs : List GoMap) : WPlan :=
  ⟨trs.map (fun v => ((rootDir ++ [NameTriggers]) ++ [nameOf v ++ ".json"], .json (marshalGoMap v))),
   (rootDir ++ [NameTriggers]) :: trs.map (fun _ => rootDir ++ [NameTriggers])⟩

def graphqlPlan (rootDir : Path) (g : GraphQLStructure) : WPlan :=
  ⟨if g.config.isSome then
      [((rootDir ++ [NameGraphQL]) ++ [FileConfig], .json (marshalGoMap g.config))]
    else [],
   (rootDir ++ [NameGraphQL]) ::
     (if g.config.isSome then [rootDir ++ [NameGraphQL]] else [])⟩

/-- The plan of the webhook loop shared (in shape) by the HTTP endpoint and
service writers. -/
def webhooksPlan (epDir : Path) (whs : List GoMap) : WPlan :=
  ⟨whs.flatMap (fun wh =>
      [(epDir ++ [nameOf wh, FileConfig], .json (.obj (canonDoc ((wh.getD []).erase NameSource)))),
       (epDir ++ [nameOf wh, FileSource], .text (srcOf wh))]),
   whs.flatMap (fun wh => [epDir ++ [nameOf wh], epDir ++ [nameOf wh]])⟩

def webhooksOkB (whs : List GoMap) : Bool :=
  whs.all (fun wh => (goIndexStr wh NameSource).isSome && (goIndexStr wh "name").isSome)

def endpointsListPlan (dir : Path) (eps : List HTTPEndpointStructure) : WPlan :=
  match eps with
  | [] => ⟨[], []⟩
  | ep :: rest =>
    (⟨[(dir ++ [nameOf ep.config, FileConfig], .json (marshalGoMap ep.config))],
      [dir ++ [nameOf ep.config]]⟩
      ++ webhooksPlan (dir ++ [nameOf ep.config]) ep.incomingWebhooks)
      ++ endpointsListPlan dir rest

def httpEndpointsPlan (rootDir : Path) (eps : List HTTPEndpointStructure) : WPlan :=
  ⟨(endpointsListPlan (rootDir ++ [NameHTTPEndpoints]) eps).wfiles,
   (rootDir ++ [NameHTTPEndpoints]) ::
     (endpointsListPlan (rootDir ++ [NameHTTPEndpoints]) eps).wdirs⟩

def endpointsOkB (eps : List HTTPEndpointStructure) : Bool :=
  eps.all (fun ep =>
    (goIndexStr ep.config "name").isSome && webhooksOkB ep.incomingWebhooks)

def servicesListPlan (dir : Path) (svcs : List ServiceStructure) : WPlan :=
  match svcs with
  | [] => ⟨[], []⟩
  | svc :: rest =>
    (⟨[(dir ++ [nameOf svc.config, FileConfig], .json (marshalGoMap svc.config))],
      [dir ++ [nameOf svc.config]]⟩
      ++ webhooksPlan (dir ++ [nameOf svc.config]) svc.incomingWebhooks)
      ++ servicesListPlan dir rest

def servicesPlan (rootDir : Path) (svcs : List ServiceStructure) : WPlan :=
  ⟨(servicesListPlan (rootDir ++ [NameServices]) svcs).wfiles,
   (rootDir ++ [NameServices]) ::
     (servicesListPlan (rootDir ++ [NameServices]) svcs).wdirs⟩

def servicesOkB (svcs : List ServiceStructure) : Bool :=
  svcs.all (fun svc =>
    (goIndexStr svc.config "name").isSome && webhooksOkB svc.incomingWebhooks)

def functionsPlan (rootDir : Path) (functions : Option FunctionsStructure) : WPlan :=
  let configs := match functions with | none => [] | some f => f.configs
  let sources := match functions with | none => [] | some f => f.sources
  let dir := rootDir ++ [NameFunctions]
  ⟨(dir ++ [FileConfig], .json (marshalGoMapList configs))
     :: sources.map (fun ps => (dir ++ ps.1, .text ps.2)),
   dir :: sources.map (fun ps => (dir ++ ps.1).dropLast)⟩

def authPlan (rootDir : Path) (auth : Option AuthStructure) : WPlan :=
  match auth with
  | none => ⟨[], []⟩
  | some a =>
    let dir := rootDir ++ [NameAuth]
    ⟨(if a.providers.isSome then
        [(dir ++ [FileProviders], .json (marshalGoMap a.providers))]
      else [])
      ++ (if a.customUserData.isSome then
            [(dir ++ [FileCustomUserData], .json (marshalGoMap a.customUserData))]
          else []),
     (if a.providers.isSome then [dir] else [])
       ++ (if a.customUserData.isSome then [dir] else [])⟩


def syncPlan (rootDir : Path) (sync : Option SyncStructure) : WPlan :=
  match sync with
  | none => ⟨[], []⟩
  | some s =>
    if s.config.isSome then
      ⟨[(rootDir ++ [NameSync, FileConfig], .json (marshalGoMap s.config))],
       [rootDir ++ [NameSync]]⟩
    else ⟨[], []⟩

def rulesPlan (dsDir : Path) (rules : List GoMap) : WPlan :=
  ⟨rules.flatMap (fun r =>
      [(dsDir ++ [dbOf r, collOf r, FileRules],
        .json (.obj (canonDoc ((r.getD []).erase NameSchema)))),
       (dsDir ++ [dbOf r, collOf r, FileSchema],
        .json (jsonOfOpt (goIndex r NameSchema)))]),
   rules.flatMap (fun r => [dsDir ++ [dbOf r, collOf r], dsDir ++ [dbOf r, collOf r]])⟩

def dataSourcesListPlan (dir : Path) (dss : List DataSourceStructure) : WPlan :=
  match dss with
  | [] => ⟨[], []⟩
  | ds :: rest =>
    (⟨[(dir ++ [nameOf ds.config, FileConfig], .json (marshalGoMap ds.config))],
      [dir ++ [nameOf ds.config]]⟩
      ++ rulesPlan (dir ++ [nameOf ds.config]) ds.rules)
      ++ dataSourcesListPlan dir rest

def dataSourcesPlan (rootDir : Path) (dss : List DataSourceStructure) : WPlan :=
  ⟨(dataSourcesListPlan (rootDir ++ [NameDataSources]) dss).wfiles,
   (rootDir ++ [NameDataSources]) ::
     (dataSourcesListPlan (rootDir ++ [NameDataSources]) dss).wdirs⟩

def dataSourcesOkB (dss : List DataSourceStructure) : Bool :=
  dss.all (fun ds => (goIndexStr ds.config "name").isSome)

/-- The graphql structure that `WriteData` actually passes to the graphql
writer (a nil section is replaced by an empty structure). -/
def graphqlArg (a : AppStructureV2) : GraphQLStructure :=
  match a.graphql with
  | none => { config := none }
  | some g => g

/-- The complete operation sequence of a successful `WriteData`, in source
order — including the repeated HTTP-endpoints segment. -/
def fullPlan (rootDir : Path) (a : AppStructureV2) : WPlan :=
  secretsPlan rootDir a.secrets
    ++ environmentsPlan rootDir a.environments
    ++ valuesPlan rootDir a.values
    ++ graphqlPlan rootDir (graphqlArg a)
    ++ servicesPlan rootDir a.services
    ++ functionsPlan rootDir a.functions
    ++ authPlan rootDir a.auth
    ++ syncPlan rootDir a.sync
    ++ dataSourcesPlan rootDir a.dataSources
    ++ httpEndpointsPlan rootDir a.httpEndpoints
    ++ httpEndpointsPlan rootDir a.httpEndpoints
    ++ triggersPlan rootDir a.triggers

/-- The plan of `writeDataOnce` (single HTTP-endpoints segment). -/
def oncePlan (rootDir : Path) (a : AppStructureV2) : WPlan :=
  secretsPlan rootDir a.secrets
    ++ environmentsPlan rootDir a.environments
    ++ valuesPlan rootDir a.values
    ++ graphqlPlan rootDir (graphqlArg a)
    ++ servicesPlan rootDir a.services
    ++ functionsPlan rootDir a.functions
    ++ authPlan rootDir a.auth
    ++ syncPlan rootDir a.sync
    ++ dataSourcesPlan rootDir a.dataSources
    ++ httpEndpointsPlan rootDir a.httpEndpoints
    ++ triggersPlan rootDir a.triggers

/-- Two file lists that agree everywhere except possibly at the value of
the first binding whose path is `p` (the only binding `replaceFile` can
touch). -/
def EqExceptFirst (p : Path) :
    List (Path × FileContent) → List (Path × FileContent) → Prop
  | [], [] => True
  | f :: F, f' :: F' =>
    (f = f' ∧ f.1 ≠ p ∧ EqExceptFirst p F F') ∨ (f.1 = p ∧ f'.1 = p ∧ F = F')
  | _, _ => False

/-- Move a plan's targets below a root directory. -/
def planShift (rootDir : Path) (P : WPlan) : WPlan :=
  ⟨P.wfiles.map (fun f => (rootDir ++ f.1, f.2)), P.wdirs.map (rootDir ++ ·)⟩

/-- Strip a root prefix from a directory list, keeping only entries below
the root. -/
def stripD (rootDir : Path) (D : List Path) : List Path :=
  D.filterMap (fun d =>
    if rootDir.isPrefixOf d = true then some (d.drop rootDir.length) else none)

/-- The file tree below a directory: files and directories that extend the
root, with the root prefix stripped (what "the contents of the directory"
denotes when two write targets are compared). -/
def FS.under (fs : FS) (rootDir : Path) : FS :=
  ⟨fs.files.filterMap (fun f =>
      if rootDir.isPrefixOf f.1 = true then some (f.1.drop rootDir.length, f.2) else none),
   stripD rootDir fs.dirs⟩

/-- All argument-level checks of all fallible writers. -/
def writeOkB (a : AppStructureV2) : Bool :=
  valuesOkB a.values && servicesOkB a.services && dataSourcesOkB a.dataSources
    && endpointsOkB a.httpEndpoints && valuesOkB a.triggers

/-- The variant of `WriteData` described by claim C10's words: identical
except that the HTTP endpoints writer is invoked only once. -/
def writeDataOnce (rootDir : Path) (a : AppStructureV2) (fs : FS) : WriteRes := do
  let fs ← writeSecrets rootDir a.secrets fs
  let fs ← writeEnvironments rootDir a.environments fs
  let fs ← writeValues rootDir a.values fs
  let graphQL := match a.graphql with
    | none => ({ config := none } : GraphQLStructure)
    | some g => g
  let fs ← writeGraphQL rootDir graphQL fs
  let fs ← writeServices rootDir a.services fs
  let fs ← writeFunctionsV2 rootDir a.functions fs
  let fs ← writeAuth rootDir a.auth fs
  let fs ← writeSync rootDir a.sync fs
  let fs ← writeDataSources rootDir a.dataSources fs
  let fs ← writeHTTPEndpoints rootDir a.httpEndpoints fs
  let fs ← writeTriggers rootDir a.triggers fs
  .ok fs

/-- Decidable equality of `Except` results (not provided by the library). -/
def exceptDecEq {ε α : Type} [DecidableEq ε] [DecidableEq α] :
    (a b : Except ε α) → Decidable (a = b)
  | .error e, .error e' =>
    if h : e = e' then .isTrue (by rw [h])
    else .isFalse (fun c => h (Except.error.inj c))
  | .error _, .ok _ => .isFalse (fun c => Except.noConfusion c)
  | .ok _, .error _ => .isFalse (fun c => Except.noConfusion c)
  | .ok v, .ok v' =>
    if h : v = v' then .isTrue (by rw [h])
    else .isFalse (fun c => h (Except.ok.inj c))

instance {ε α : Type} [DecidableEq ε] [DecidableEq α] : DecidableEq (Except ε α) :=
  exceptDecEq

/-! ## Concrete fixtures used by witnesses and counterexamples -/

/-- The model with every section absent/empty. -/
def emptyModel : AppStructureV2 :=
  { environments := none, values := [], auth := none, functions := none,
    triggers := [], dataSources := [], httpEndpoints := [], services := [],
    graphql := none, sync := none, secrets := none }

/-- A model whose only content is a present-but-contentless Auth section. -/
def authEmptyModel : AppStructureV2 :=
  { emptyModel with auth := some ⟨none, none⟩ }

/-- A model whose only content is a present Sync section with a nil config. -/
def syncEmptyModel : AppStructureV2 :=
  { emptyModel with sync := some ⟨none⟩ }

/-- A model with two data sources whose names are not in lexicographic
order. -/
def dsUnsortedModel : AppStructureV2 :=
  { emptyModel with dataSources :=
      [⟨some [("name", .str "zz"), ("type", .str "local")], []⟩,
       ⟨some [("name", .str "aa"), ("type", .str "local")], []⟩] }

/-- The §8 schema/rule fixture: `data_sources/ds1/db1/coll1/rules.json`
with sibling `schema.json` (and the data source's `config.json`). -/
def c3FS : FS :=
  { files :=
      [([NameDataSources, "ds1", FileConfig], .json (.obj [("name", .str "ds1")])),
       ([NameDataSources, "ds1", "db1", "coll1", FileRules],
         .json (.obj [("collection", .str "coll1"), ("database", .str "db1")])),
       ([NameDataSources, "ds1", "db1", "coll1", FileSchema],
         .json (.obj [("properties", .obj [])]))],
    dirs := pathPrefixes [NameDataSources, "ds1", "db1", "coll1"] }

/-- The one Rule document that loading `c3FS` must produce: rule fields
plus the schema merged under the reserved key. -/
def c3Rule : GoMap :=
  some [("collection", .str "coll1"), ("database", .str "db1"),
        ("schema", .obj [("properties", .obj [])])]

def c3Loaded : List DataSourceStructure :=
  [⟨some [("name", .str "ds1")], [c3Rule]⟩]

/-- A data source whose single rule lacks the "database" field. -/
def dsNoDatabase : List DataSourceStructure :=
  [⟨some [("name", .str "d")], [some [("collection", .str "c")]]⟩]

/-- `c3FS` with an extra empty collection directory
`data_sources/ds1/db1/zz/` that contains no `rules.json`. -/
def c8FS : FS :=
  { c3FS with dirs := c3FS.dirs ++ [[NameDataSources, "ds1", "db1", "zz"]] }

/-- A functions tree with one `.js` source nested three levels deep and a
sibling file with a different extension. -/
def c9FS : FS :=
  { files :=
      [([NameFunctions, FileConfig], .json (.arr [])),
       ([NameFunctions, "sub", "deep", "fn.js"], .text "x"),
       ([NameFunctions, "sub", "deep", "note.txt"], .text "y")],
    dirs := pathPrefixes [NameFunctions, "sub", "deep"] }

/-- The functions structure that loading `c9FS` produces. -/
def c9Funcs : FunctionsStructure :=
  ⟨[], [(["sub", "deep", "fn.js"], "x")]⟩

/-! ## Normal-form models (claim C1)

The round trip `LoadData ∘ WriteData` is the identity exactly on models in
the *normal form* that a load produces: every document in `json.Marshal`
key order, every sequence sorted the way the deterministic walker revisits
it, the always-materialized sections present, contentful auth/sync, and
every rule carrying its schema under the reserved key. -/

/-- `pairwiseB lt l`: every element is `lt`-below every later element
(strict sortedness for a strict order). -/
def pairwiseB {α : Type} (lt : α → α → Bool) : List α → Bool
  | [] => true
  | x :: rest => rest.all (fun y => lt x y) && pairwiseB lt rest

/-- Is a document in `json.Marshal` normal form (keys sorted and
duplicate-free, nested values canonical)? -/
def wfDocB (d : Doc) : Bool := decide (canonDoc d = d)

def wfGoMapB : GoMap → Bool
  | none => true
  | some d => wfDocB d

/-- The file name a `values`/`triggers` document is written to. -/
def valueFileName (v : GoMap) : String := nameOf v ++ ".json"

/-- A named-document section (`values`, `triggers`) in normal form. -/
def wfNamedB (sec : List GoMap) : Bool :=
  sec.all (fun v => (goIndexStr v "name").isSome && wfGoMapB v)
    && pairwiseB (fun x y => strLt (valueFileName x) (valueFileName y)) sec

/-- An incoming-webhook document in normal form: canonical (also after the
reserved source key is stripped), with string `source` and `name`. -/
def wfWebhookB (wh : GoMap) : Bool :=
  match wh with
  | none => false
  | some d =>
    (goIndexStr wh NameSource).isSome && (goIndexStr wh "name").isSome
      && wfDocB d && wfDocB (d.erase NameSource)

/-- An endpoint- or service-shaped entity in normal form. -/
def wfEndpointB (cfg : GoMap) (whs : List GoMap) : Bool :=
  (goIndexStr cfg "name").isSome && wfGoMapB cfg
    && whs.all wfWebhookB
    && pairwiseB (fun x y => strLt (nameOf x) (nameOf y)) whs

/-- The schema value a loaded rule carries under the reserved key: JSON
`null` or a canonical object. -/
def wfSchemaVal : Option JValue → Bool
  | some .null => true
  | some (.obj s) => wfDocB s
  | _ => false

/-- The walker revisits rules grouped by database directory, then by
collection directory, both in lexicographic order. -/
def ruleLt (r s : GoMap) : Bool :=
  strLt (dbOf r) (dbOf s) || (decide (dbOf r = dbOf s) && strLt (collOf r) (collOf s))

/-- A rule document in normal form: canonical (also after the schema key
is stripped), with the schema key present as `null` or a canonical
object. -/
def wfRuleB (r : GoMap) : Bool :=
  match r with
  | none => false
  | some d => wfDocB d && wfDocB (d.erase NameSchema) && wfSchemaVal (d.get NameSchema)

def wfDataSourceB (ds : DataSourceStructure) : Bool :=
  (goIndexStr ds.config "name").isSome && wfGoMapB ds.config
    && ds.rules.all wfRuleB
    && pairwiseB ruleLt ds.rules

/-- A model in load normal form. -/
def wfModel (a : AppStructureV2) : Bool :=
  (match a.secrets with | none => true | some s => wfGoMapB s.config)
  && (a.environments.getD []).all (fun kv => strEndsWith kv.1 ".json" && wfGoMapB kv.2)
  && pairwiseB (fun x y => strLt x.1 y.1) (a.environments.getD [])
  && wfNamedB a.values
  && wfNamedB a.triggers
  && (match a.auth with
      | none => true
      | some au => (au.providers.isSome || au.customUserData.isSome)
          && wfGoMapB au.providers && wfGoMapB au.customUserData)
  && (match a.sync with
      | none => true
      | some s => s.config.isSome && wfGoMapB s.config)
  && (match a.functions with
      | none => false
      | some f => f.configs.all wfGoMapB
          && f.sources.all (fun ps => jsFileName ps.1)
          && pairwiseB (fun x y => pathLt x.1 y.1) f.sources)
  && (match a.graphql with
      | none => false
      | some g => wfGoMapB g.config)
  && a.services.all (fun svc => wfEndpointB svc.config svc.incomingWebhooks)
  && pairwiseB (fun x y => strLt (nameOf x.config) (nameOf y.config)) a.services
  && a.httpEndpoints.all (fun ep => wfEndpointB ep.config ep.incomingWebhooks)
  && pairwiseB (fun x y => strLt (nameOf x.config) (nameOf y.config)) a.httpEndpoints
  && a.dataSources.all wfDataSourceB
  && pairwiseB (fun x y => strLt (nameOf x.config) (nameOf y.config)) a.dataSources
  && a.services.all (fun svc => svc.incomingWebhooks.all (fun wh => decide (nameOf wh ≠ FileConfig)))
  && a.httpEndpoints.all (fun ep => ep.incomingWebhooks.all (fun wh => decide (nameOf wh ≠ FileConfig)))
  && a.dataSources.all (fun ds => ds.rules.all (fun r => decide (dbOf r ≠ FileConfig)))

/-- The tree a successful `WriteData` leaves in an empty filesystem
(through the collapsed single-pass plan). -/
def writtenFS (a : AppStructureV2) : FS :=
  FS.empty.applyPlan (oncePlan [] a)

/-- Every path a section writer touches lies below its own section
directory `root/S/` (or is the root itself, for the parent-directory
creation of a degenerate function source path). -/
def secShape (root : Path) (S : String) (p : Path) : Prop :=
  p = root ∨ ∃ r, p = root ++ S :: r

/-- A normal-form model exercising every section (claim C1's witness). -/
def c1Model : AppStructureV2 :=
  { environments := some
      [("development.json", some [("values", .obj [])]),
       ("production.json", none)],
    values := [some [("name", .str "apiKey"), ("value", .num 1)]],
    auth := some ⟨some [("enabled", .bool true)], some []⟩,
    functions := some
      ⟨[some [("name", .str "f1")], none],
       [(["f1", "source.js"], "exports = 1;"), (["shared", "util.js"], "x")]⟩,
    triggers := [some [("name", .str "t1")]],
    dataSources :=
      [⟨some [("name", .str "mongodb-atlas")],
        [some [("collection", .str "users"), ("database", .str "app"),
               ("schema", .obj [("title", .str "users")])],
         some [("collection", .str "logs"), ("database", .str "ops"),
               ("schema", .null)]]⟩],
    httpEndpoints :=
      [⟨some [("name", .str "epA")],
        [some [("name", .str "hookB"), ("source", .str "s")]]⟩],
    services :=
      [⟨some [("name", .str "svcA")],
        [some [("name", .str "wh1"), ("source", .str "exports=2;")]]⟩],
    graphql := some ⟨some [("use_natural_pluralization", .bool true)]⟩,
    sync := some ⟨some [("state", .str "enabled")]⟩,
    secrets := some ⟨some [("k", .str "v")]⟩ }

/-- A model distinguishing the directory-materialization conditions
(claim C5's witness): nil secrets/auth, a present sync with nil config,
and a present-but-empty environments section (whose directory must be
created with zero children). -/
def c5Model : AppStructureV2 :=
  { emptyModel with sync := some ⟨none⟩, environments := some [] }

/-- The tree `WriteData ["app"] c5Model` leaves in an empty filesystem. -/
def c5FSw : FS := FS.empty.applyPlan (fullPlan ["app"] c5Model)

/-! ## Theorems

First, the write path is characterized through its operation plan: every
writer, when its argument checks pass, equals `applyPlan` of its plan, and
a writer returns `.ok` only if its checks pass. -/

theorem wplan_append_wfiles (P Q : WPlan) : (P ++ Q).wfiles = P.wfiles ++ Q.wfiles := rfl

theorem wplan_append_wdirs (P Q : WPlan) : (P ++ Q).wdirs = P.wdirs ++ Q.wdirs := rfl

theorem applyW_append (F : List (Path × FileContent)) (a b : List (Path × FileContent)) :
    applyW F (a ++ b) = applyW (applyW F a) b :=
  List.foldl_append ..

theorem applyDirs_append (D : List Path) (a b : List Path) :
    applyDirs D (a ++ b) = applyDirs (applyDirs D a) b :=
  List.foldl_append ..

theorem wplan_ext (P Q : WPlan) (hf : P.wfiles = Q.wfiles) (hd : P.wdirs = Q.wdirs) :
    P = Q := by
  cases P; cases Q; cases hf; cases hd; rfl

theorem wplan_assoc (P Q R : WPlan) : (P ++ Q) ++ R = P ++ (Q ++ R) :=
  wplan_ext _ _ (by simp [wplan_append_wfiles]) (by simp [wplan_append_wdirs])

theorem applyPlan_append (fs : FS) (P Q : WPlan) :
    fs.applyPlan (P ++ Q) = (fs.applyPlan P).applyPlan Q := by
  simp [FS.applyPlan, wplan_append_wfiles, wplan_append_wdirs, applyW_append,
    applyDirs_append]

theorem writeFile_plan (fs : FS) (p : Path) (c : FileContent) :
    fs.writeFile p c = fs.applyPlan ⟨[(p, c)], [p.dropLast]⟩ := rfl

theorem mkdirAll_plan (fs : FS) (p : Path) :
    fs.mkdirAll p = fs.applyPlan ⟨[], [p]⟩ := rfl

theorem applyPlan_nil (fs : FS) : fs.applyPlan ⟨[], []⟩ = fs := rfl

theorem dropLast_append_two (xs : List String) (a b : String) :
    (xs ++ [a, b]).dropLast = xs ++ [a] := by
  rw [show xs ++ [a, b] = (xs ++ [a]) ++ [b] by simp, List.dropLast_concat]

theorem writeSecrets_plan (rootDir : Path) (s : Option SecretsStructure) (fs : FS) :
    writeSecrets rootDir s fs = .ok (fs.applyPlan (secretsPlan rootDir s)) := by
  cases s <;>
    simp [writeSecrets, secretsPlan, writeFile_plan, applyPlan_nil, dropLast_append_two]

/-- A fold of `writeFile` operations is the application of the
corresponding plan. -/
theorem foldWrite_plan {α : Type} (l : List α) (pf : α → Path) (cf : α → FileContent) :
    ∀ fs : FS, l.foldl (fun acc x => acc.writeFile (pf x) (cf x)) fs
      = fs.applyPlan ⟨l.map (fun x => (pf x, cf x)), l.map (fun x => (pf x).dropLast)⟩ := by
  induction l with
  | nil => intro fs; simp [applyPlan_nil]
  | cons x rest ih =>
    intro fs
    rw [List.foldl_cons, ih (fs.writeFile (pf x) (cf x)), writeFile_plan,
      ← applyPlan_append]
    rfl

theorem writeEnvironments_plan (rootDir : Path) (envs : Option (List (String × GoMap)))
    (fs : FS) :
    writeEnvironments rootDir envs fs = .ok (fs.applyPlan (environmentsPlan rootDir envs)) := by
  cases envs with
  | none => simp [writeEnvironments, environmentsPlan, applyPlan_nil]
  | some l =>
    rw [writeEnvironments,
      foldWrite_plan l (fun kv => rootDir ++ [NameEnvironments, kv.1])
        (fun kv => .json (marshalGoMap kv.2)) (fs.mkdirAll (rootDir ++ [NameEnvironments]))]
    have hd : List.map (fun kv : String × GoMap => (rootDir ++ [NameEnvironments, kv.1]).dropLast) l
        = List.map (fun _ : String × GoMap => rootDir ++ [NameEnvironments]) l :=
      List.map_congr_left (fun kv _ => dropLast_append_two ..)
    rw [hd, mkdirAll_plan, ← applyPlan_append]
    rfl

theorem dropLast_append_three (xs : List String) (a b c : String) :
    (xs ++ [a, b, c]).dropLast = xs ++ [a, b] := by
  rw [show xs ++ [a, b, c] = (xs ++ [a]) ++ [b, c] by simp,
    dropLast_append_two, List.append_assoc]
  rfl

theorem writeValuesList_plan (dir : Path) (vals : List GoMap) :
    ∀ fs : FS, valuesOkB vals = true →
      writeValuesList dir vals fs = .ok (fs.applyPlan
        ⟨vals.map (fun v => (dir ++ [nameOf v ++ ".json"], .json (marshalGoMap v))),
         vals.map (fun _ => dir)⟩) := by
  induction vals with
  | nil => intro fs _; simp [writeValuesList, applyPlan_nil]
  | cons v rest ih =>
    intro fs h
    simp only [valuesOkB, List.all_cons, Bool.and_eq_true] at h
    obtain ⟨h1, h2⟩ := h
    cases hn : goIndexStr v "name" with
    | none => rw [hn] at h1; simp at h1
    | some n =>
      simp only [writeValuesList, hn]
      rw [ih _ h2, writeFile_plan, List.dropLast_concat, ← applyPlan_append]
      have hnm : nameOf v = n := by simp [nameOf, hn]
      simp only [List.map_cons, hnm]
      rfl

theorem writeValues_plan (rootDir : Path) (vals : List GoMap) (fs : FS)
    (h : valuesOkB vals = true) :
    writeValues rootDir vals fs = .ok (fs.applyPlan (valuesPlan rootDir vals)) := by
  rw [writeValues, mkdirAll_plan, writeValuesList_plan _ _ _ h, ← applyPlan_append]
  rfl

theorem writeValuesList_ok (dir : Path) (vals : List GoMap) :
    ∀ fs fs', writeValuesList dir vals fs = .ok fs' → valuesOkB vals = true := by
  induction vals with
  | nil => intro fs fs' _; rfl
  | cons v rest ih =>
    intro fs fs' h
    cases hn : goIndexStr v "name" with
    | none => rw [writeValuesList, hn] at h; exact absurd h (by simp)
    | some n =>
      rw [writeValuesList, hn] at h
      simp only [valuesOkB, List.all_cons, Bool.and_eq_true]
      exact ⟨by simp [hn], ih _ _ h⟩

theorem writeValues_ok (rootDir : Path) (vals : List GoMap) (fs fs' : FS)
    (h : writeValues rootDir vals fs = .ok fs') : valuesOkB vals = true :=
  writeValuesList_ok _ _ _ _ h

theorem writeTriggersList_plan (dir : Path) (trs : List GoMap) :
    ∀ fs : FS, valuesOkB trs = true →
      writeTriggersList dir trs fs = .ok (fs.applyPlan
        ⟨trs.map (fun v => (dir ++ [nameOf v ++ ".json"], .json (marshalGoMap v))),
         trs.map (fun _ => dir)⟩) := by
  induction trs with
  | nil => intro fs _; simp [writeTriggersList, applyPlan_nil]
  | cons v rest ih =>
    intro fs h
    simp only [valuesOkB, List.all_cons, Bool.and_eq_true] at h
    obtain ⟨h1, h2⟩ := h
    cases hn : goIndexStr v "name" with
    | none => rw [hn] at h1; simp at h1
    | some n =>
      simp only [writeTriggersList, hn]
      rw [ih _ h2, writeFile_plan, List.dropLast_concat, ← applyPlan_append]
      have hnm : nameOf v = n := by simp [nameOf, hn]
      simp only [List.map_cons, hnm]
      rfl

theorem writeTriggers_plan (rootDir : Path) (trs : List GoMap) (fs : FS)
    (h : valuesOkB trs = true) :
    writeTriggers rootDir trs fs = .ok (fs.applyPlan (triggersPlan rootDir trs)) := by
  rw [writeTriggers, mkdirAll_plan, writeTriggersList_plan _ _ _ h, ← applyPlan_append]
  rfl

theorem writeTriggersList_ok (dir : Path) (trs : List GoMap) :
    ∀ fs fs', writeTriggersList dir trs fs = .ok fs' → valuesOkB trs = true := by
  induction trs with
  | nil => intro fs fs' _; rfl
  | cons v rest ih =>
    intro fs fs' h
    cases hn : goIndexStr v "name" with
    | none => rw [writeTriggersList, hn] at h; exact absurd h (by simp)
    | some n =>
      rw [writeTriggersList, hn] at h
      simp only [valuesOkB, List.all_cons, Bool.and_eq_true]
      exact ⟨by simp [hn], ih _ _ h⟩

theorem writeGraphQL_plan (rootDir : Path) (g : GraphQLStructure) (fs : FS) :
    writeGraphQL rootDir g fs = .ok (fs.applyPlan (graphqlPlan rootDir g)) := by
  cases hg : g.config with
  | none =>
    simp only [writeGraphQL, graphqlPlan, hg, Option.isSome_none, Bool.false_eq_true,
      if_false, mkdirAll_plan]
  | some d =>
    simp only [writeGraphQL, graphqlPlan, hg, Option.isSome_some, if_true]
    rw [mkdirAll_plan, writeFile_plan, List.dropLast_concat, ← applyPlan_append]
    rfl

theorem writeAuth_plan (rootDir : Path) (auth : Option AuthStructure) (fs : FS) :
    writeAuth rootDir auth fs = .ok (fs.applyPlan (authPlan rootDir auth)) := by
  cases auth with
  | none => simp [writeAuth, authPlan, applyPlan_nil]
  | some a =>
    cases hp : a.providers with
    | none =>
      cases hc : a.customUserData with
      | none =>
        simp only [writeAuth, hp, hc, Option.isSome_none, Bool.false_eq_true, if_false,
          authPlan, List.nil_append]
        rw [applyPlan_nil]
      | some d =>
        simp only [writeAuth, hp, hc, Option.isSome_none, Option.isSome_some,
          Bool.false_eq_true, if_false, if_true, authPlan, List.nil_append]
        rw [writeFile_plan, List.dropLast_concat]
    | some d1 =>
      cases hc : a.customUserData with
      | none =>
        simp only [writeAuth, hp, hc, Option.isSome_none, Option.isSome_some,
          Bool.false_eq_true, if_false, if_true, authPlan, List.append_nil]
        rw [writeFile_plan, List.dropLast_concat]
      | some d2 =>
        simp only [writeAuth, hp, hc, Option.isSome_some, if_true, authPlan]
        rw [writeFile_plan, writeFile_plan, List.dropLast_concat, List.dropLast_concat,
          ← applyPlan_append]
        rfl

theorem writeSync_plan (rootDir : Path) (sync : Option SyncStructure) (fs : FS) :
    writeSync rootDir sync fs = .ok (fs.applyPlan (syncPlan rootDir sync)) := by
  cases sync with
  | none => simp [writeSync, syncPlan, applyPlan_nil]
  | some s =>
    cases hc : s.config with
    | none =>
      simp [writeSync, syncPlan, hc, applyPlan_nil]
    | some d =>
      simp only [writeSync, syncPlan, hc, Option.isSome_some, if_true]
      rw [writeFile_plan, dropLast_append_two]

theorem writeFunctionsV2_plan (rootDir : Path) (functions : Option FunctionsStructure)
    (fs : FS) :
    writeFunctionsV2 rootDir functions fs = .ok (fs.applyPlan (functionsPlan rootDir functions)) := by
  cases functions with
  | none =>
    simp only [writeFunctionsV2, functionsPlan]
    rw [writeFile_plan, List.dropLast_concat]
    rfl
  | some f =>
    simp only [writeFunctionsV2, functionsPlan]
    rw [foldWrite_plan f.sources (fun ps => (rootDir ++ [NameFunctions]) ++ ps.1)
      (fun ps => .text ps.2), writeFile_plan, List.dropLast_concat, ← applyPlan_append]
    rfl

theorem writeWebhooks_plan (epDir : Path) (whs : List GoMap) :
    ∀ fs : FS, webhooksOkB whs = true →
      writeWebhooks epDir whs fs = .ok (fs.applyPlan (webhooksPlan epDir whs)) := by
  induction whs with
  | nil => intro fs _; simp [writeWebhooks, webhooksPlan, applyPlan_nil]
  | cons wh rest ih =>
    intro fs h
    simp only [webhooksOkB, List.all_cons, Bool.and_eq_true] at h
    obtain ⟨⟨hs, hn⟩, hrest⟩ := h
    cases hsv : goIndexStr wh NameSource with
    | none => rw [hsv] at hs; simp at hs
    | some src =>
      cases hnv : goIndexStr wh "name" with
      | none => rw [hnv] at hn; simp at hn
      | some n =>
        simp only [writeWebhooks, hsv, hnv]
        rw [ih _ hrest, writeFile_plan, writeFile_plan, dropLast_append_two,
          dropLast_append_two, ← applyPlan_append, ← applyPlan_append]
        have hnm : nameOf wh = n := by simp [nameOf, hnv]
        have hsm : srcOf wh = src := by simp [srcOf, hsv]
        simp only [webhooksPlan, List.flatMap_cons, hnm, hsm]
        rfl

theorem writeWebhooks_ok (epDir : Path) (whs : List GoMap) :
    ∀ fs fs', writeWebhooks epDir whs fs = .ok fs' → webhooksOkB whs = true := by
  induction whs with
  | nil => intro fs fs' _; rfl
  | cons wh rest ih =>
    intro fs fs' h
    cases hsv : goIndexStr wh NameSource with
    | none => rw [writeWebhooks, hsv] at h; exact absurd h (by simp)
    | some src =>
      cases hnv : goIndexStr wh "name" with
      | none => rw [writeWebhooks, hsv, hnv] at h; exact absurd h (by simp)
      | some n =>
        rw [writeWebhooks, hsv, hnv] at h
        simp only [webhooksOkB, List.all_cons, Bool.and_eq_true]
        exact ⟨⟨by simp [hsv], by simp [hnv]⟩, ih _ _ h⟩

theorem writeHTTPEndpointsList_plan (dir : Path) (eps : List HTTPEndpointStructure) :
    ∀ fs : FS, endpointsOkB eps = true →
      writeHTTPEndpointsList dir eps fs = .ok (fs.applyPlan (endpointsListPlan dir eps)) := by
  induction eps with
  | nil => intro fs _; simp [writeHTTPEndpointsList, endpointsListPlan, applyPlan_nil]
  | cons ep rest ih =>
    intro fs h
    simp only [endpointsOkB, List.all_cons, Bool.and_eq_true] at h
    obtain ⟨⟨hn, hwh⟩, hrest⟩ := h
    cases hnv : goIndexStr ep.config "name" with
    | none => rw [hnv] at hn; simp at hn
    | some n =>
      simp only [writeHTTPEndpointsList, hnv]
      rw [writeFile_plan, dropLast_append_two]
      rw [writeWebhooks_plan _ _ _ hwh]
      simp only [Bind.bind, Except.bind]
      rw [ih _ hrest, ← applyPlan_append, ← applyPlan_append]
      have hnm : nameOf ep.config = n := by simp [nameOf, hnv]
      simp only [endpointsListPlan, hnm]
      rfl

theorem writeHTTPEndpointsList_ok (dir : Path) (eps : List HTTPEndpointStructure) :
    ∀ fs fs', writeHTTPEndpointsList dir eps fs = .ok fs' → endpointsOkB eps = true := by
  induction eps with
  | nil => intro fs fs' _; rfl
  | cons ep rest ih =>
    intro fs fs' h
    cases hnv : goIndexStr ep.config "name" with
    | none => rw [writeHTTPEndpointsList, hnv] at h; exact absurd h (by simp)
    | some n =>
      simp only [writeHTTPEndpointsList, hnv] at h
      cases hw : writeWebhooks (dir ++ [n]) ep.incomingWebhooks
          (fs.writeFile (dir ++ [n, FileConfig]) (.json (marshalGoMap ep.config))) with
      | error e =>
        rw [hw] at h
        simp only [Bind.bind, Except.bind] at h
        exact absurd h (by simp)
      | ok fsw =>
        rw [hw] at h
        simp only [Bind.bind, Except.bind] at h
        simp only [endpointsOkB, List.all_cons, Bool.and_eq_true]
        exact ⟨⟨by simp [hnv], writeWebhooks_ok _ _ _ _ hw⟩, ih _ _ h⟩

theorem writeHTTPEndpoints_plan (rootDir : Path) (eps : List HTTPEndpointStructure)
    (fs : FS) (h : endpointsOkB eps = true) :
    writeHTTPEndpoints rootDir eps fs = .ok (fs.applyPlan (httpEndpointsPlan rootDir eps)) := by
  rw [writeHTTPEndpoints, mkdirAll_plan, writeHTTPEndpointsList_plan _ _ _ h,
    ← applyPlan_append]
  rfl

theorem writeHTTPEndpoints_ok (rootDir : Path) (eps : List HTTPEndpointStructure)
    (fs fs' : FS) (h : writeHTTPEndpoints rootDir eps fs = .ok fs') :
    endpointsOkB eps = true :=
  writeHTTPEndpointsList_ok _ _ _ _ h

theorem writeServiceWebhooks_plan (svcDir : Path) (whs : List GoMap) :
    ∀ fs : FS, webhooksOkB whs = true →
      writeServiceWebhooks svcDir whs fs = .ok (fs.applyPlan (webhooksPlan svcDir whs)) := by
  induction whs with
  | nil => intro fs _; simp [writeServiceWebhooks, webhooksPlan, applyPlan_nil]
  | cons wh rest ih =>
    intro fs h
    simp only [webhooksOkB, List.all_cons, Bool.and_eq_true] at h
    obtain ⟨⟨hs, hn⟩, hrest⟩ := h
    cases hsv : goIndexStr wh NameSource with
    | none => rw [hsv] at hs; simp at hs
    | some src =>
      cases hnv : goIndexStr wh "name" with
      | none => rw [hnv] at hn; simp at hn
      | some n =>
        simp only [writeServiceWebhooks, hsv, hnv]
        rw [ih _ hrest, writeFile_plan, writeFile_plan, dropLast_append_two,
          dropLast_append_two, ← applyPlan_append, ← applyPlan_append]
        have hnm : nameOf wh = n := by simp [nameOf, hnv]
        have hsm : srcOf wh = src := by simp [srcOf, hsv]
        simp only [webhooksPlan, List.flatMap_cons, hnm, hsm]
        rfl

theorem writeServiceWebhooks_ok (svcDir : Path) (whs : List GoMap) :
    ∀ fs fs', writeServiceWebhooks svcDir whs fs = .ok fs' → webhooksOkB whs = true := by
  induction whs with
  | nil => intro fs fs' _; rfl
  | cons wh rest ih =>
    intro fs fs' h
    cases hsv : goIndexStr wh NameSource with
    | none => rw [writeServiceWebhooks, hsv] at h; exact absurd h (by simp)
    | some src =>
      cases hnv : goIndexStr wh "name" with
      | none => rw [writeServiceWebhooks, hsv, hnv] at h; exact absurd h (by simp)
      | some n =>
        rw [writeServiceWebhooks, hsv, hnv] at h
        simp only [webhooksOkB, List.all_cons, Bool.and_eq_true]
        exact ⟨⟨by simp [hsv], by simp [hnv]⟩, ih _ _ h⟩

theorem writeServicesList_plan (dir : Path) (svcs : List ServiceStructure) :
    ∀ fs : FS, servicesOkB svcs = true →
      writeServicesList dir svcs fs = .ok (fs.applyPlan (servicesListPlan dir svcs)) := by
  induction svcs with
  | nil => intro fs _; simp [writeServicesList, servicesListPlan, applyPlan_nil]
  | cons svc rest ih =>
    intro fs h
    simp only [servicesOkB, List.all_cons, Bool.and_eq_true] at h
    obtain ⟨⟨hn, hwh⟩, hrest⟩ := h
    cases hnv : goIndexStr svc.config "name" with
    | none => rw [hnv] at hn; simp at hn
    | some n =>
      simp only [writeServicesList, hnv]
      rw [writeFile_plan, dropLast_append_two]
      rw [writeServiceWebhooks_plan _ _ _ hwh]
      simp only [Bind.bind, Except.bind]
      rw [ih _ hrest, ← applyPlan_append, ← applyPlan_append]
      have hnm : nameOf svc.config = n := by simp [nameOf, hnv]
      simp only [servicesListPlan, hnm]
      rfl

theorem writeServicesList_ok (dir : Path) (svcs : List ServiceStructure) :
    ∀ fs fs', writeServicesList dir svcs fs = .ok fs' → servicesOkB svcs = true := by
  induction svcs with
  | nil => intro fs fs' _; rfl
  | cons svc rest ih =>
    intro fs fs' h
    cases hnv : goIndexStr svc.config "name" with
    | none => rw [writeServicesList, hnv] at h; exact absurd h (by simp)
    | some n =>
      simp only [writeServicesList, hnv] at h
      cases hw : writeServiceWebhooks (dir ++ [n]) svc.incomingWebhooks
          (fs.writeFile (dir ++ [n, FileConfig]) (.json (marshalGoMap svc.config))) with
      | error e =>
        rw [hw] at h
        simp only [Bind.bind, Except.bind] at h
        exact absurd h (by simp)
      | ok fsw =>
        rw [hw] at h
        simp only [Bind.bind, Except.bind] at h
        simp only [servicesOkB, List.all_cons, Bool.and_eq_true]
        exact ⟨⟨by simp [hnv], writeServiceWebhooks_ok _ _ _ _ hw⟩, ih _ _ h⟩

theorem writeServices_plan (rootDir : Path) (svcs : List ServiceStructure)
    (fs : FS) (h : servicesOkB svcs = true) :
    writeServices rootDir svcs fs = .ok (fs.applyPlan (servicesPlan rootDir svcs)) := by
  rw [writeServices, mkdirAll_plan, writeServicesList_plan _ _ _ h, ← applyPlan_append]
  rfl

theorem writeServices_ok (rootDir : Path) (svcs : List ServiceStructure)
    (fs fs' : FS) (h : writeServices rootDir svcs fs = .ok fs') :
    servicesOkB svcs = true :=
  writeServicesList_ok _ _ _ _ h

theorem writeRules_plan (dsDir : Path) (rules : List GoMap) :
    ∀ fs : FS, writeRules dsDir rules fs = fs.applyPlan (rulesPlan dsDir rules) := by
  induction rules with
  | nil => intro fs; simp [writeRules, rulesPlan, applyPlan_nil]
  | cons r rest ih =>
    intro fs
    simp only [writeRules]
    rw [ih, writeFile_plan, writeFile_plan, dropLast_append_three, dropLast_append_three,
      ← applyPlan_append, ← applyPlan_append]
    simp only [rulesPlan, List.flatMap_cons]
    rfl

theorem writeDataSourcesList_plan (dir : Path) (dss : List DataSourceStructure) :
    ∀ fs : FS, dataSourcesOkB dss = true →
      writeDataSourcesList dir dss fs = .ok (fs.applyPlan (dataSourcesListPlan dir dss)) := by
  induction dss with
  | nil => intro fs _; simp [writeDataSourcesList, dataSourcesListPlan, applyPlan_nil]
  | cons ds rest ih =>
    intro fs h
    simp only [dataSourcesOkB, List.all_cons, Bool.and_eq_true] at h
    obtain ⟨hn, hrest⟩ := h
    cases hnv : goIndexStr ds.config "name" with
    | none => rw [hnv] at hn; simp at hn
    | some n =>
      simp only [writeDataSourcesList, hnv]
      rw [writeFile_plan, dropLast_append_two, writeRules_plan, ih _ hrest,
        ← applyPlan_append, ← applyPlan_append]
      have hnm : nameOf ds.config = n := by simp [nameOf, hnv]
      simp only [dataSourcesListPlan, hnm]
      rfl

theorem writeDataSourcesList_ok (dir : Path) (dss : List DataSourceStructure) :
    ∀ fs fs', writeDataSourcesList dir dss fs = .ok fs' → dataSourcesOkB dss = true := by
  induction dss with
  | nil => intro fs fs' _; rfl
  | cons ds rest ih =>
    intro fs fs' h
    cases hnv : goIndexStr ds.config "name" with
    | none => rw [writeDataSourcesList, hnv] at h; exact absurd h (by simp)
    | some n =>
      rw [writeDataSourcesList, hnv] at h
      simp only [dataSourcesOkB, List.all_cons, Bool.and_eq_true]
      exact ⟨by simp [hnv], ih _ _ h⟩

theorem writeDataSources_plan (rootDir : Path) (dss : List DataSourceStructure)
    (fs : FS) (h : dataSourcesOkB dss = true) :
    writeDataSources rootDir dss fs = .ok (fs.applyPlan (dataSourcesPlan rootDir dss)) := by
  rw [writeDataSources, mkdirAll_plan, writeDataSourcesList_plan _ _ _ h,
    ← applyPlan_append]
  rfl

theorem writeDataSources_ok (rootDir : Path) (dss : List DataSourceStructure)
    (fs fs' : FS) (h : writeDataSources rootDir dss fs = .ok fs') :
    dataSourcesOkB dss = true :=
  writeDataSourcesList_ok _ _ _ _ h

/-- A successful `WriteData` is exactly the application of its full
operation plan. -/
theorem writeData_plan (rootDir : Path) (a : AppStructureV2) (fs : FS)
    (h : writeOkB a = true) :
    AppDataV2.WriteData rootDir a fs = .ok (fs.applyPlan (fullPlan rootDir a)) := by
  simp only [writeOkB, Bool.and_eq_true] at h
  obtain ⟨⟨⟨⟨hv, hsvc⟩, hds⟩, hep⟩, htr⟩ := h
  rw [AppDataV2.WriteData]
  simp only [Bind.bind, Except.bind]
  rw [writeSecrets_plan]
  simp only []
  rw [writeEnvironments_plan]
  simp only []
  rw [writeValues_plan _ _ _ hv]
  simp only []
  rw [writeGraphQL_plan]
  simp only []
  rw [writeServices_plan _ _ _ hsvc]
  simp only []
  rw [writeFunctionsV2_plan]
  simp only []
  rw [writeAuth_plan]
  simp only []
  rw [writeSync_plan]
  simp only []
  rw [writeDataSources_plan _ _ _ hds]
  simp only []
  rw [writeHTTPEndpoints_plan _ _ _ hep]
  simp only []
  rw [writeHTTPEndpoints_plan _ _ _ hep]
  simp only []
  rw [writeTriggers_plan _ _ _ htr]
  simp only [fullPlan, graphqlArg]
  rw [← applyPlan_append, ← applyPlan_append, ← applyPlan_append, ← applyPlan_append,
    ← applyPlan_append, ← applyPlan_append, ← applyPlan_append, ← applyPlan_append,
    ← applyPlan_append, ← applyPlan_append, ← applyPlan_append]
  simp only [wplan_assoc]

/-- `writeDataOnce` is the application of the single-invocation plan. -/
theorem writeDataOnce_plan (rootDir : Path) (a : AppStructureV2) (fs : FS)
    (h : writeOkB a = true) :
    writeDataOnce rootDir a fs = .ok (fs.applyPlan (oncePlan rootDir a)) := by
  simp only [writeOkB, Bool.and_eq_true] at h
  obtain ⟨⟨⟨⟨hv, hsvc⟩, hds⟩, hep⟩, htr⟩ := h
  rw [writeDataOnce]
  simp only [Bind.bind, Except.bind]
  rw [writeSecrets_plan]
  simp only []
  rw [writeEnvironments_plan]
  simp only []
  rw [writeValues_plan _ _ _ hv]
  simp only []
  rw [writeGraphQL_plan]
  simp only []
  rw [writeServices_plan _ _ _ hsvc]
  simp only []
  rw [writeFunctionsV2_plan]
  simp only []
  rw [writeAuth_plan]
  simp only []
  rw [writeSync_plan]
  simp only []
  rw [writeDataSources_plan _ _ _ hds]
  simp only []
  rw [writeHTTPEndpoints_plan _ _ _ hep]
  simp only []
  rw [writeTriggers_plan _ _ _ htr]
  simp only [oncePlan, graphqlArg]
  rw [← applyPlan_append, ← applyPlan_append, ← applyPlan_append, ← applyPlan_append,
    ← applyPlan_append, ← applyPlan_append, ← applyPlan_append, ← applyPlan_append,
    ← applyPlan_append, ← applyPlan_append]
  simp only [wplan_assoc]

/-- A `WriteData` that returns `.ok` passed every writer's checks. -/
theorem writeData_ok (rootDir : Path) (a : AppStructureV2) (fs fs' : FS)
    (h : AppDataV2.WriteData rootDir a fs = .ok fs') : writeOkB a = true := by
  rw [AppDataV2.WriteData] at h
  simp only [Bind.bind, Except.bind] at h
  rw [writeSecrets_plan] at h
  simp only [] at h
  rw [writeEnvironments_plan] at h
  simp only [] at h
  cases hv : writeValues rootDir a.values
      ((fs.applyPlan (secretsPlan rootDir a.secrets)).applyPlan
        (environmentsPlan rootDir a.environments)) with
  | error e => rw [hv] at h; exact absurd h (by simp)
  | ok fs2 =>
    rw [hv] at h
    simp only [] at h
    rw [writeGraphQL_plan] at h
    simp only [] at h
    rw [show (match a.graphql with
      | none => ({ config := none } : GraphQLStructure)
      | some g => g) = graphqlArg a from rfl] at h
    cases hsvc : writeServices rootDir a.services
        ((fs2.applyPlan (graphqlPlan rootDir (graphqlArg a)))) with
    | error e => rw [hsvc] at h; exact absurd h (by simp)
    | ok fs3 =>
      rw [hsvc] at h
      simp only [] at h
      rw [writeFunctionsV2_plan] at h
      simp only [] at h
      rw [writeAuth_plan] at h
      simp only [] at h
      rw [writeSync_plan] at h
      simp only [] at h
      cases hds : writeDataSources rootDir a.dataSources
          ((((fs3.applyPlan (functionsPlan rootDir a.functions)).applyPlan
            (authPlan rootDir a.auth)).applyPlan (syncPlan rootDir a.sync))) with
      | error e => rw [hds] at h; exact absurd h (by simp)
      | ok fs4 =>
        rw [hds] at h
        simp only [] at h
        cases hep : writeHTTPEndpoints rootDir a.httpEndpoints fs4 with
        | error e => rw [hep] at h; exact absurd h (by simp)
        | ok fs5 =>
          rw [hep] at h
          simp only [] at h
          cases hep2 : writeHTTPEndpoints rootDir a.httpEndpoints fs5 with
          | error e => rw [hep2] at h; exact absurd h (by simp)
          | ok fs6 =>
            rw [hep2] at h
            simp only [] at h
            cases htr : writeTriggers rootDir a.triggers fs6 with
            | error e => rw [htr] at h; exact absurd h (by simp)
            | ok fs7 =>
              simp only [writeOkB, Bool.and_eq_true]
              exact ⟨⟨⟨⟨writeValues_ok _ _ _ _ hv, writeServices_ok _ _ _ _ hsvc⟩,
                writeDataSources_ok _ _ _ _ hds⟩, writeHTTPEndpoints_ok _ _ _ _ hep⟩,
                writeTriggersList_ok _ _ _ _ htr⟩

/-! ### Re-applying a plan is a no-op (write idempotence) -/

theorem lookupL_replace_self (F : List (Path × FileContent)) (p : Path) (c : FileContent)
    (h : lookupL F p = some c) : replaceFile F p c = F := by
  induction F with
  | nil => simp [lookupL] at h
  | cons f rest ih =>
    obtain ⟨fp, fc⟩ := f
    by_cases hf : fp = p
    · simp only [lookupL, hf, if_true] at h
      obtain rfl : fc = c := by injection h
      simp [replaceFile, hf]
    · simp only [lookupL, hf, if_false] at h
      simp [replaceFile, hf, ih h]

theorem lookupL_replace_same (F : List (Path × FileContent)) (p : Path) (c : FileContent) :
    lookupL (replaceFile F p c) p = some c := by
  induction F with
  | nil => simp [replaceFile, lookupL]
  | cons f rest ih =>
    by_cases hf : f.1 = p
    · simp [replaceFile, hf, lookupL]
    · simp [replaceFile, hf, lookupL, ih]

theorem lookupL_replace_other (F : List (Path × FileContent)) (p q : Path)
    (c : FileContent) (h : q ≠ p) : lookupL (replaceFile F q c) p = lookupL F p := by
  induction F with
  | nil => simp [replaceFile, lookupL, h]
  | cons f rest ih =>
    by_cases hf : f.1 = q
    · simp only [replaceFile, hf, if_true]
      simp only [lookupL, hf, h]
      simp
    · simp only [replaceFile, hf, if_false]
      simp only [lookupL, ih]

theorem lookupL_applyW_notmem (ws : List (Path × FileContent)) (p : Path) :
    ∀ F, p ∉ ws.map Prod.fst → lookupL (applyW F ws) p = lookupL F p := by
  induction ws with
  | nil => intro F _; rfl
  | cons w rest ih =>
    intro F h
    simp only [List.map_cons, List.mem_cons] at h
    push_neg at h
    rw [show applyW F (w :: rest) = applyW (replaceFile F w.1 w.2) rest from rfl,
      ih _ h.2, lookupL_replace_other _ _ _ _ (fun hq => h.1 hq.symm)]

theorem lookupL_replace_isSome (F : List (Path × FileContent)) (p q : Path)
    (c : FileContent) (h : (lookupL F p).isSome = true) :
    (lookupL (replaceFile F q c) p).isSome = true := by
  by_cases hq : q = p
  · subst hq; rw [lookupL_replace_same]; rfl
  · rw [lookupL_replace_other _ _ _ _ hq]; exact h

theorem lookupL_applyW_isSome (ws : List (Path × FileContent)) (p : Path) :
    ∀ F, (lookupL F p).isSome = true → (lookupL (applyW F ws) p).isSome = true := by
  induction ws with
  | nil => intro F h; exact h
  | cons w rest ih =>
    intro F h
    exact ih _ (lookupL_replace_isSome _ _ _ _ h)

theorem eqExceptFirst_refl (p : Path) (F : List (Path × FileContent)) :
    EqExceptFirst p F F := by
  induction F with
  | nil => trivial
  | cons f rest ih =>
    by_cases hf : f.1 = p
    · exact Or.inr ⟨hf, hf, rfl⟩
    · exact Or.inl ⟨rfl, hf, ih⟩

theorem replace_congr_eqExceptFirst (p : Path) (c : FileContent) :
    ∀ F F', EqExceptFirst p F F' → replaceFile F p c = replaceFile F' p c := by
  intro F
  induction F with
  | nil =>
    intro F' h
    cases F' with
    | nil => rfl
    | cons f' F'tl => exact absurd h (by simp [EqExceptFirst])
  | cons f Ftl ih =>
    intro F' h
    cases F' with
    | nil => exact absurd h (by simp [EqExceptFirst])
    | cons f' F'tl =>
      rcases h with ⟨rfl, hne, hrec⟩ | ⟨hp, hp', rfl⟩
      · simp only [replaceFile, hne, if_false]
        rw [ih _ hrec]
      · simp only [replaceFile, hp, hp', if_true]

theorem replace_preserves_eqExceptFirst (p q : Path) (c : FileContent) (hqp : q ≠ p) :
    ∀ F F', EqExceptFirst p F F' →
      EqExceptFirst p (replaceFile F q c) (replaceFile F' q c) := by
  intro F
  induction F with
  | nil =>
    intro F' h
    cases F' with
    | nil =>
      simp only [replaceFile]
      exact Or.inl ⟨rfl, hqp, trivial⟩
    | cons f' F'tl => exact absurd h (by simp [EqExceptFirst])
  | cons f Ftl ih =>
    intro F' h
    cases F' with
    | nil => exact absurd h (by simp [EqExceptFirst])
    | cons f' F'tl =>
      rcases h with ⟨rfl, hne, hrec⟩ | ⟨hp, hp', rfl⟩
      · by_cases hf : f.1 = q
        · simp only [replaceFile, hf, if_true]
          exact Or.inl ⟨rfl, hqp, hrec⟩
        · simp only [replaceFile, hf, if_false]
          exact Or.inl ⟨rfl, hne, ih _ hrec⟩
      · have hfq : f.1 ≠ q := by rw [hp]; exact fun hh => hqp hh.symm
        have hfq' : f'.1 ≠ q := by rw [hp']; exact fun hh => hqp hh.symm
        simp only [replaceFile, hfq, hfq', if_false]
        exact Or.inr ⟨hp, hp', rfl⟩

theorem applyW_congr_eqExceptFirst (p : Path) (ws : List (Path × FileContent)) :
    ∀ F F', EqExceptFirst p F F' → p ∈ ws.map Prod.fst →
      applyW F ws = applyW F' ws := by
  induction ws with
  | nil => intro F F' _ h; simp at h
  | cons w rest ih =>
    intro F F' hrel hmem
    by_cases hw : w.1 = p
    · have : replaceFile F w.1 w.2 = replaceFile F' w.1 w.2 := by
        rw [hw]; exact replace_congr_eqExceptFirst p w.2 _ _ hrel
      show applyW (replaceFile F w.1 w.2) rest = applyW (replaceFile F' w.1 w.2) rest
      rw [this]
    · have hmem' : p ∈ rest.map Prod.fst := by
        simp only [List.map_cons, List.mem_cons] at hmem
        rcases hmem with h | h
        · exact absurd h.symm hw
        · exact h
      exact ih _ _ (replace_preserves_eqExceptFirst p w.1 w.2 hw _ _ hrel) hmem'

theorem eqExceptFirst_replace (p : Path) (c : FileContent) :
    ∀ F, (lookupL F p).isSome = true → EqExceptFirst p (replaceFile F p c) F := by
  intro F
  induction F with
  | nil => intro h; simp [lookupL] at h
  | cons f rest ih =>
    intro h
    by_cases hf : f.1 = p
    · simp only [replaceFile, hf, if_true]
      exact Or.inr ⟨rfl, hf, rfl⟩
    · simp only [replaceFile, hf, if_false]
      simp only [lookupL, hf, if_false] at h
      exact Or.inl ⟨rfl, hf, ih h⟩

theorem applyW_idem (ws : List (Path × FileContent)) :
    ∀ F, applyW (applyW F ws) ws = applyW F ws := by
  induction ws with
  | nil => intro F; rfl
  | cons w rest ih =>
    intro F
    obtain ⟨p, c⟩ := w
    show applyW (replaceFile (applyW (replaceFile F p c) rest) p c) rest
      = applyW (replaceFile F p c) rest
    set A := applyW (replaceFile F p c) rest with hA
    by_cases hmem : p ∈ rest.map Prod.fst
    · have hsome : (lookupL A p).isSome = true := by
        rw [hA]
        exact lookupL_applyW_isSome _ _ _ (by rw [lookupL_replace_same]; rfl)
      calc applyW (replaceFile A p c) rest
          = applyW A rest :=
            applyW_congr_eqExceptFirst p rest _ _ (eqExceptFirst_replace p c A hsome) hmem
        _ = A := by rw [hA]; exact ih _
    · have : lookupL A p = some c := by
        rw [hA, lookupL_applyW_notmem _ _ _ hmem, lookupL_replace_same]
      rw [lookupL_replace_self _ _ _ this, hA]
      exact ih _

theorem mem_addDirL (D : List Path) (r q : Path) :
    q ∈ addDirL D r ↔ q ∈ D ∨ q = r := by
  rw [addDirL]
  by_cases h : r ∈ D
  · simp only [h, if_true]
    constructor
    · exact fun hq => Or.inl hq
    · rintro (hq | rfl)
      · exact hq
      · exact h
  · simp [h]

theorem addDirL_noop (D : List Path) (r : Path) (h : r ∈ D) : addDirL D r = D := by
  simp [addDirL, h]

theorem foldl_addDirL_noop (l : List Path) :
    ∀ D, (∀ q ∈ l, q ∈ D) → l.foldl addDirL D = D := by
  induction l with
  | nil => intro D _; rfl
  | cons x rest ih =>
    intro D h
    rw [List.foldl_cons, addDirL_noop D x (h x (by simp))]
    exact ih D (fun q hq => h q (by simp [hq]))

theorem mkdirL_noop (D : List Path) (t : Path)
    (h : ∀ q ∈ pathPrefixes t, q ∈ D) : mkdirL D t = D :=
  foldl_addDirL_noop _ _ h

theorem mem_foldl_addDirL (l : List Path) :
    ∀ D q, q ∈ l.foldl addDirL D ↔ q ∈ D ∨ q ∈ l := by
  induction l with
  | nil => intro D q; simp
  | cons x rest ih =>
    intro D q
    rw [List.foldl_cons, ih, mem_addDirL]
    simp only [List.mem_cons]
    tauto

theorem mem_mkdirL (D : List Path) (t q : Path) :
    q ∈ mkdirL D t ↔ q ∈ D ∨ q ∈ pathPrefixes t :=
  mem_foldl_addDirL _ _ _

theorem mem_applyDirs (ts : List Path) :
    ∀ D q, q ∈ applyDirs D ts ↔ q ∈ D ∨ ∃ t ∈ ts, q ∈ pathPrefixes t := by
  induction ts with
  | nil => intro D q; simp [applyDirs]
  | cons t rest ih =>
    intro D q
    rw [show applyDirs D (t :: rest) = applyDirs (mkdirL D t) rest from rfl, ih,
      mem_mkdirL]
    simp only [List.mem_cons]
    constructor
    · rintro ((h | h) | ⟨t', ht', hq⟩)
      · exact Or.inl h
      · exact Or.inr ⟨t, Or.inl rfl, h⟩
      · exact Or.inr ⟨t', Or.inr ht', hq⟩
    · rintro (h | ⟨t', ht' | ht', hq⟩)
      · exact Or.inl (Or.inl h)
      · subst ht'; exact Or.inl (Or.inr hq)
      · exact Or.inr ⟨t', ht', hq⟩

theorem applyDirs_noop (ts : List Path) :
    ∀ D, (∀ t ∈ ts, ∀ q ∈ pathPrefixes t, q ∈ D) → applyDirs D ts = D := by
  induction ts with
  | nil => intro D _; rfl
  | cons t rest ih =>
    intro D h
    rw [show applyDirs D (t :: rest) = applyDirs (mkdirL D t) rest from rfl,
      mkdirL_noop D t (h t (by simp))]
    exact ih D (fun t' ht' => h t' (by simp [ht']))

theorem applyDirs_idem (ts : List Path) (D : List Path) :
    applyDirs (applyDirs D ts) ts = applyDirs D ts :=
  applyDirs_noop ts _ (fun t ht q hq => (mem_applyDirs ts D q).mpr (Or.inr ⟨t, ht, hq⟩))

theorem applyPlan_idem (fs : FS) (P : WPlan) :
    (fs.applyPlan P).applyPlan P = fs.applyPlan P := by
  simp only [FS.applyPlan]
  rw [applyW_idem, applyDirs_idem]

theorem applyPlan_full_once (rootDir : Path) (a : AppStructureV2) (fs : FS) :
    fs.applyPlan (fullPlan rootDir a) = fs.applyPlan (oncePlan rootDir a) := by
  have key : ∀ (g : FS) (B EP TR : WPlan),
      g.applyPlan (B ++ EP ++ EP ++ TR) = g.applyPlan (B ++ EP ++ TR) := by
    intro g B EP TR
    simp only [applyPlan_append]
    rw [applyPlan_idem]
  rw [fullPlan, oncePlan]
  exact key fs _ _ _

/-! ## Claim theorems -/

/-- C10: `WriteData` invokes the HTTP endpoints writer twice in succession
on the same arguments; because the writer overwrites each target file with
identical content, a successful `WriteData` yields the same file tree as
the variant that invokes the HTTP endpoints writer only once. -/
theorem c10_double_endpoint_write (rootDir : Path) (a : AppStructureV2) (fs fs' : FS)
    (h : AppDataV2.WriteData rootDir a fs = .ok fs') :
    writeDataOnce rootDir a fs = .ok fs' := by
  have hok := writeData_ok rootDir a fs fs' h
  rw [writeData_plan rootDir a fs hok] at h
  have hfs : fs.applyPlan (fullPlan rootDir a) = fs' := Except.ok.inj h
  rw [writeDataOnce_plan rootDir a fs hok, ← applyPlan_full_once, hfs]

/-- C10 witness: on the empty model, `WriteData` succeeds and
`writeDataOnce` produces the same tree. -/
theorem c10_witness :
    writeDataOnce [] emptyModel FS.empty = .ok (FS.empty.applyPlan (fullPlan [] emptyModel)) :=
  c10_double_endpoint_write [] emptyModel FS.empty _ (by decide)

/-- C4: calling the data source writer on a model whose data source Config
lacks a "name" string field fails with the writer's missing-name error and
leaves the file list untouched (only the empty `data_sources/` directory is
created, no files). -/
theorem c4_missing_name_rejection (rootDir : Path) (cfg : GoMap) (rules : List GoMap)
    (rest : List DataSourceStructure) (fs : FS)
    (h : goIndexStr cfg "name" = none) :
    writeDataSources rootDir (⟨cfg, rules⟩ :: rest) fs
        = .error (.custom "error writing datasources",
            fs.mkdirAll (rootDir ++ [NameDataSources]))
      ∧ (fs.mkdirAll (rootDir ++ [NameDataSources])).files = fs.files := by
  refine ⟨?_, rfl⟩
  rw [writeDataSources, writeDataSourcesList]
  simp [h]

/-- C4 witness. -/
theorem c4_witness :
    writeDataSources [] [⟨some [("type", .str "local")], []⟩] FS.empty
        = .error (.custom "error writing datasources", FS.empty.mkdirAll [NameDataSources])
      ∧ (FS.empty.mkdirAll [NameDataSources]).files = FS.empty.files :=
  c4_missing_name_rejection [] (some [("type", .str "local")]) [] [] FS.empty (by decide)

/-- C8: a (database, collection) directory that contains no `rules.json`
is silently excluded from the parsed rule sequence: visiting it leaves the
collection walk's result (and error behavior) unchanged. -/
theorem c8_skip_no_rules_json (fs : FS) (dbPath : Path) (c : String) (rest : List String)
    (h : fs.statOk (dbPath ++ [c, FileRules]) = false) :
    parseColls fs dbPath (c :: rest) = parseColls fs dbPath rest := by
  rw [parseColls]
  rw [show parseOneColl fs (dbPath ++ [c]) = .ok none by rw [parseOneColl]; simp [h]]
  cases hrest : parseColls fs dbPath rest with
  | error e => simp [Bind.bind, Except.bind]
  | ok rs => simp [Bind.bind, Except.bind]

/-- C8 witness: the concrete empty collection directory in `c8FS` is
skipped and the data source still parses to exactly the one rule. -/
theorem c8_witness :
    c8FS.statOk ([NameDataSources, "ds1", "db1"] ++ ["zz", FileRules]) = false
      ∧ parseColls c8FS [NameDataSources, "ds1", "db1"] ["zz"]
          = parseColls c8FS [NameDataSources, "ds1", "db1"] []
      ∧ parseDataSources c8FS [] = .ok c3Loaded := by
  refine ⟨by decide, ?_, by decide⟩
  exact c8_skip_no_rules_json c8FS [NameDataSources, "ds1", "db1"] "zz" [] (by decide)

/-- C6: a missing `auth/` directory loads as a "not present" Auth with no
error, and an existing-but-empty `data_sources/` directory loads as an
empty sequence with no error. -/
theorem c6_absence_detection (fs : FS) (rootDir : Path)
    (hauth : fs.statOk (rootDir ++ [NameAuth]) = false)
    (hds1 : fs.isDir (rootDir ++ [NameDataSources]) = true)
    (hds2 : fs.isFile (rootDir ++ [NameDataSources]) = false)
    (hds3 : fs.childDirNames (rootDir ++ [NameDataSources]) = []) :
    parseAuth fs rootDir = .ok none ∧ parseDataSources fs rootDir = .ok [] := by
  constructor
  · rw [parseAuth]; simp [hauth]
  · rw [parseDataSources]; simp [hds2, hds3, parseDataSourcesList]

/-- C6 witness: a root with only an empty `data_sources/` directory. -/
theorem c6_witness :
    parseAuth (FS.empty.mkdirAll [NameDataSources]) [] = .ok none
      ∧ parseDataSources (FS.empty.mkdirAll [NameDataSources]) [] = .ok [] :=
  c6_absence_detection (FS.empty.mkdirAll [NameDataSources]) []
    (by decide) (by decide) (by decide) (by decide)

/-- C3: loading the §8 fixture produces one Rule holding both the rule
fields and the schema under the reserved key, and writing that Rule back
reproduces exactly the original files, the schema key absent from
`rules.json`. -/
theorem c3_schema_rule_merge :
    parseDataSources c3FS [] = .ok c3Loaded
      ∧ (writeDataSources [] c3Loaded FS.empty).toOption.map FS.files = some c3FS.files
      ∧ lookupL c3FS.files [NameDataSources, "ds1", "db1", "coll1", FileRules]
          = some (.json (.obj [("collection", .str "coll1"), ("database", .str "db1")])) := by
  decide

/-- C2 counterexample: the data source writer derives the rule path from
the rule's "database"/"collection" fields without checking them — a rule
lacking "database" is written successfully (no missing-required-field
error), under a directory literally named `%!s(<nil>)`. -/
theorem c2_counterexample :
    (writeDataSources [] dsNoDatabase FS.empty).isOk = true
      ∧ (writeDataSources [] dsNoDatabase FS.empty).toOption.map
          (fun fs' => (fs'.lookupFile
            [NameDataSources, "d", "%!s(<nil>)", "c", FileRules]).isSome) = some true := by
  decide

theorem writeDataSourcesList_err (dir : Path) (dss : List DataSourceStructure) :
    ∀ fs e efs, writeDataSourcesList dir dss fs = .error (e, efs) →
      e = .custom "error writing datasources" := by
  induction dss with
  | nil => intro fs e efs h; exact absurd h (by simp [writeDataSourcesList])
  | cons ds rest ih =>
    intro fs e efs h
    cases hnv : goIndexStr ds.config "name" with
    | none =>
      rw [writeDataSourcesList, hnv] at h
      exact (Prod.mk.inj (Except.error.inj h).symm).1
    | some n =>
      rw [writeDataSourcesList, hnv] at h
      exact ih _ _ _ h

theorem writeWebhooks_err (epDir : Path) (whs : List GoMap) :
    ∀ fs e efs, writeWebhooks epDir whs fs = .error (e, efs) →
      e = .custom "error writing http endpoints" := by
  induction whs with
  | nil => intro fs e efs h; exact absurd h (by simp [writeWebhooks])
  | cons wh rest ih =>
    intro fs e efs h
    cases hsv : goIndexStr wh NameSource with
    | none =>
      rw [writeWebhooks, hsv] at h
      exact (Prod.mk.inj (Except.error.inj h).symm).1
    | some src =>
      cases hnv : goIndexStr wh "name" with
      | none =>
        rw [writeWebhooks, hsv, hnv] at h
        exact (Prod.mk.inj (Except.error.inj h).symm).1
      | some n =>
        rw [writeWebhooks, hsv, hnv] at h
        exact ih _ _ _ h

theorem writeHTTPEndpointsList_err (dir : Path) (eps : List HTTPEndpointStructure) :
    ∀ fs e efs, writeHTTPEndpointsList dir eps fs = .error (e, efs) →
      e = .custom "error writing http endpoints" := by
  induction eps with
  | nil => intro fs e efs h; exact absurd h (by simp [writeHTTPEndpointsList])
  | cons ep rest ih =>
    intro fs e efs h
    cases hnv : goIndexStr ep.config "name" with
    | none =>
      rw [writeHTTPEndpointsList, hnv] at h
      exact (Prod.mk.inj (Except.error.inj h).symm).1
    | some n =>
      simp only [writeHTTPEndpointsList, hnv] at h
      cases hw : writeWebhooks (dir ++ [n]) ep.incomingWebhooks
          (fs.writeFile (dir ++ [n, FileConfig]) (.json (marshalGoMap ep.config))) with
      | error ep' =>
        rw [hw] at h
        simp only [Bind.bind, Except.bind] at h
        obtain ⟨e1, efs1⟩ := ep'
        have he : e1 = e := (Prod.mk.inj (Except.error.inj h)).1
        rw [← he]
        exact writeWebhooks_err _ _ _ _ _ hw
      | ok fsw =>
        rw [hw] at h
        simp only [Bind.bind, Except.bind] at h
        exact ih _ _ _ h

/-- C2 (amended): the data source writer checks only the data source
"name" string field, and the HTTP endpoint writer only the endpoint "name"
and each webhook's "source" and "name" string fields — the rule's
"database"/"collection" fields are never checked before the path is
derived from them — and a failed check aborts with the section's generic
`errors.New` message, which names the section but not the field. -/
theorem c2_name_checks (rootDir : Path) (dss : List DataSourceStructure)
    (eps : List HTTPEndpointStructure) (fs fs₂ : FS) :
    ((writeDataSources rootDir dss fs).isOk = true ↔ dataSourcesOkB dss = true)
      ∧ ((writeHTTPEndpoints rootDir eps fs₂).isOk = true ↔ endpointsOkB eps = true)
      ∧ (∀ e efs, writeDataSources rootDir dss fs = .error (e, efs) →
          e = .custom "error writing datasources")
      ∧ (∀ e efs, writeHTTPEndpoints rootDir eps fs₂ = .error (e, efs) →
          e = .custom "error writing http endpoints") := by
  refine ⟨⟨?_, ?_⟩, ⟨?_, ?_⟩, ?_, ?_⟩
  · intro h
    cases hw : writeDataSources rootDir dss fs with
    | error e => rw [hw] at h; exact absurd h (by simp [Except.isOk, Except.toBool])
    | ok fs' => exact writeDataSources_ok _ _ _ _ hw
  · intro h
    rw [writeDataSources_plan _ _ _ h]
    rfl
  · intro h
    cases hw : writeHTTPEndpoints rootDir eps fs₂ with
    | error e => rw [hw] at h; exact absurd h (by simp [Except.isOk, Except.toBool])
    | ok fs' => exact writeHTTPEndpoints_ok _ _ _ _ hw
  · intro h
    rw [writeHTTPEndpoints_plan _ _ _ h]
    rfl
  · exact fun e efs h => writeDataSourcesList_err _ _ _ _ _ h
  · exact fun e efs h => writeHTTPEndpointsList_err _ _ _ _ _ h

/-- C2 witness. -/
theorem c2_witness :
    (writeDataSources [] dsNoDatabase FS.empty).isOk = true
      ∧ (writeHTTPEndpoints [] [] FS.empty).isOk = true :=
  ⟨(c2_name_checks [] dsNoDatabase [] FS.empty FS.empty).1.mpr (by decide),
   (c2_name_checks [] dsNoDatabase [] FS.empty FS.empty).2.1.mpr (by decide)⟩

theorem key_mem_iff (l : List (Path × FileContent)) (p : Path) :
    (∃ s, (p, s) ∈ l) ↔ p ∈ l.map Prod.fst := by
  constructor
  · rintro ⟨s, hs⟩
    exact List.mem_map.mpr ⟨(p, s), hs, rfl⟩
  · intro h
    obtain ⟨a, ha, he⟩ := List.mem_map.mp h
    refine ⟨a.2, ?_⟩
    have hpa : (p, a.2) = a := by rw [← he]
    rw [hpa]
    exact ha

theorem fst_mem_insSortRel (x : Path × FileContent) (p : Path) :
    ∀ l, p ∈ (insSortRel x l).map Prod.fst ↔ p = x.1 ∨ p ∈ l.map Prod.fst := by
  intro l
  induction l with
  | nil =>
    simp [insSortRel]
  | cons y ys ih =>
    cases hlt : pathLt x.1 y.1 with
    | true =>
      simp only [insSortRel, hlt, if_true, List.map_cons, List.mem_cons]
    | false =>
      by_cases h2 : x.1 = y.1
      · rw [insSortRel, if_neg (by simp [hlt]), if_pos h2]
        simp only [List.map_cons, List.mem_cons]
        constructor
        · intro h
          exact Or.inr h
        · rintro (rfl | h)
          · exact Or.inl h2
          · exact h
      · rw [insSortRel, if_neg (by simp [hlt]), if_neg h2]
        simp only [List.map_cons, List.mem_cons]
        rw [ih]
        tauto

theorem mem_key_insFold (l : List (Path × FileContent)) (p : Path) :
    ∀ acc, p ∈ (l.foldl (fun a x => insSortRel x a) acc).map Prod.fst
      ↔ p ∈ acc.map Prod.fst ∨ p ∈ l.map Prod.fst := by
  induction l with
  | nil =>
    intro acc
    simp only [List.foldl_nil, List.map_nil, List.not_mem_nil, or_false]
  | cons x rest ih =>
    intro acc
    rw [List.foldl_cons, ih, fst_mem_insSortRel]
    simp only [List.map_cons, List.mem_cons]
    tauto

theorem dropSplit (dir q p : Path) :
    (dir.isPrefixOf q = true ∧ dir ≠ q ∧ q.drop dir.length = p)
      ↔ (q = dir ++ p ∧ p ≠ []) := by
  constructor
  · rintro ⟨hpre, hne, hdrop⟩
    obtain ⟨t, rfl⟩ := List.isPrefixOf_iff_prefix.mp hpre
    rw [List.drop_left] at hdrop
    subst hdrop
    refine ⟨rfl, fun hp => hne ?_⟩
    subst hp
    simp
  · rintro ⟨rfl, hp⟩
    refine ⟨List.isPrefixOf_iff_prefix.mpr ⟨p, rfl⟩, fun hq => hp ?_, List.drop_left ..⟩
    have hlen : dir.length = dir.length + p.length := by
      conv_lhs => rw [hq]
      rw [List.length_append]
    have : p.length = 0 := by omega
    exact List.eq_nil_of_length_eq_zero this

theorem mem_key_filesUnder (fs : FS) (dir p : Path) :
    (∃ c, (p, c) ∈ fs.filesUnder dir)
      ↔ (p ≠ [] ∧ ∃ c, (dir ++ p, c) ∈ fs.files) := by
  rw [key_mem_iff, FS.filesUnder, mem_key_insFold]
  simp only [List.map_nil, List.not_mem_nil, false_or]
  rw [← key_mem_iff]
  constructor
  · rintro ⟨s, hs⟩
    rw [List.mem_filterMap] at hs
    obtain ⟨⟨fp, fc⟩, hf, hsome⟩ := hs
    by_cases hc : dir.isPrefixOf fp = true ∧ dir ≠ fp
    · rw [if_pos (by exact hc)] at hsome
      obtain ⟨h1, h2⟩ := Prod.mk.inj (Option.some.inj hsome)
      obtain ⟨hq, hp⟩ := (dropSplit dir fp p).mp ⟨hc.1, hc.2, h1⟩
      subst hq
      subst h2
      exact ⟨hp, fc, hf⟩
    · rw [if_neg (by exact hc)] at hsome
      exact absurd hsome (by simp)
  · rintro ⟨hp, c, hc⟩
    refine ⟨c, ?_⟩
    rw [List.mem_filterMap]
    refine ⟨(dir ++ p, c), hc, ?_⟩
    have hcond := (dropSplit dir (dir ++ p) p).mpr ⟨rfl, hp⟩
    rw [if_pos (by exact ⟨hcond.1, hcond.2.1⟩)]
    rw [hcond.2.2]

theorem jsFileName_ne_nil (p : Path) (h : jsFileName p = true) : p ≠ [] := by
  intro hp
  subst hp
  simp [jsFileName] at h

/-- C9: a file below the functions directory is recorded in the parsed
source mapping, keyed by its path relative to that directory, exactly when
its extension is the recognized `.js` source extension. -/
theorem c9_function_source_discovery (fs : FS) (rootDir : Path)
    (F : FunctionsStructure) (p : Path)
    (h : parseFunctionsV2 fs rootDir = .ok (some F)) :
    (∃ s, (p, s) ∈ F.sources)
      ↔ (jsFileName p = true
          ∧ ∃ c, ((rootDir ++ [NameFunctions]) ++ p, c) ∈ fs.files) := by
  rw [parseFunctionsV2] at h
  by_cases hst : fs.statOk (rootDir ++ [NameFunctions]) = true
  · simp only [hst, if_true] at h
    cases hc : parseJSONArray fs ((rootDir ++ [NameFunctions]) ++ [FileConfig]) with
    | error e =>
      rw [hc] at h
      simp only [Bind.bind, Except.bind] at h
      exact absurd h (by simp)
    | ok configs =>
      rw [hc] at h
      simp only [Bind.bind, Except.bind] at h
      have hF := (Option.some.inj (Except.ok.inj h)).symm
      rw [hF]
      constructor
      · rintro ⟨s, hs⟩
        rw [List.mem_filterMap] at hs
        obtain ⟨f, hf, hsome⟩ := hs
        by_cases hjs : jsFileName f.1 = true
        · rw [if_pos hjs] at hsome
          obtain ⟨h1, _⟩ := Prod.mk.inj (Option.some.inj hsome)
          subst h1
          refine ⟨hjs, ?_⟩
          have := (mem_key_filesUnder fs (rootDir ++ [NameFunctions]) f.1).mp
            ⟨f.2, by rw [Prod.mk.eta]; exact hf⟩
          exact this.2
        · rw [if_neg hjs] at hsome
          exact absurd hsome (by simp)
      · rintro ⟨hjs, c, hcmem⟩
        obtain ⟨c', hc'⟩ := (mem_key_filesUnder fs (rootDir ++ [NameFunctions]) p).mpr
          ⟨jsFileName_ne_nil p hjs, c, hcmem⟩
        refine ⟨FileContent.asText c', ?_⟩
        rw [List.mem_filterMap]
        exact ⟨(p, c'), hc', by rw [if_pos hjs]⟩
  · simp only [hst] at h
    simp at h

/-- C9 witness: in the concrete functions tree, a nested `.js` file is in
the mapping and a sibling `.txt` file is not. -/
theorem c9_witness :
    (∃ s, (["sub", "deep", "fn.js"], s) ∈ c9Funcs.sources)
      ∧ ¬ (∃ s, (["sub", "deep", "note.txt"], s) ∈ c9Funcs.sources) := by
  constructor
  · exact (c9_function_source_discovery c9FS [] c9Funcs ["sub", "deep", "fn.js"]
      (by decide)).mpr ⟨by decide, .text "x", by decide⟩
  · intro hmem
    have := (c9_function_source_discovery c9FS [] c9Funcs ["sub", "deep", "note.txt"]
      (by decide)).mp hmem
    exact absurd this.1 (by decide)

/-! ### Relocating a write below a different root (C7) -/

theorem isPrefixOf_append_self (root p : Path) : root.isPrefixOf (root ++ p) = true :=
  List.isPrefixOf_iff_prefix.mpr ⟨p, rfl⟩

theorem replaceFile_shift (root : Path) (p : Path) (c : FileContent) :
    ∀ F, replaceFile (F.map (fun f => (root ++ f.1, f.2))) (root ++ p) c
      = (replaceFile F p c).map (fun f => (root ++ f.1, f.2)) := by
  intro F
  induction F with
  | nil => simp [replaceFile]
  | cons f rest ih =>
    by_cases hf : f.1 = p
    · simp [replaceFile, hf]
    · have hne : ¬ (root ++ f.1 = root ++ p) := by
        rw [List.append_right_inj]
        exact hf
      simp only [List.map_cons, replaceFile, hf, if_false, hne]
      rw [ih]

theorem applyW_shift (root : Path) (ws : List (Path × FileContent)) :
    ∀ F, applyW (F.map (fun f => (root ++ f.1, f.2)))
        (ws.map (fun w => (root ++ w.1, w.2)))
      = (applyW F ws).map (fun f => (root ++ f.1, f.2)) := by
  induction ws with
  | nil => intro F; rfl
  | cons w rest ih =>
    intro F
    show applyW (replaceFile (F.map _) (root ++ w.1) w.2) (rest.map _) = _
    rw [replaceFile_shift, ih]
    rfl

theorem strip_map_files (root : Path) (F : List (Path × FileContent)) :
    (F.map (fun f => (root ++ f.1, f.2))).filterMap (fun f =>
        if root.isPrefixOf f.1 = true then some (f.1.drop root.length, f.2) else none)
      = F := by
  induction F with
  | nil => rfl
  | cons f rest ih =>
    simp only [List.map_cons, List.filterMap_cons, isPrefixOf_append_self, if_true,
      List.drop_left]
    rw [ih]

theorem mem_stripD (root : Path) (D : List Path) (q : Path) :
    q ∈ stripD root D ↔ root ++ q ∈ D := by
  rw [stripD, List.mem_filterMap]
  constructor
  · rintro ⟨d, hd, hsome⟩
    by_cases hpre : root.isPrefixOf d = true
    · rw [if_pos hpre] at hsome
      obtain ⟨t, rfl⟩ := List.isPrefixOf_iff_prefix.mp hpre
      rw [List.drop_left] at hsome
      obtain rfl := Option.some.inj hsome
      exact hd
    · rw [if_neg hpre] at hsome
      exact absurd hsome (by simp)
  · intro h
    refine ⟨root ++ q, h, ?_⟩
    rw [if_pos (isPrefixOf_append_self ..), List.drop_left]

theorem stripD_addDirL_in (root q : Path) (D : List Path) :
    stripD root (addDirL D (root ++ q)) = addDirL (stripD root D) q := by
  rw [addDirL, addDirL]
  by_cases h : root ++ q ∈ D
  · rw [if_pos h, if_pos ((mem_stripD ..).mpr h)]
  · rw [if_neg h, if_neg (fun hc => h ((mem_stripD ..).mp hc))]
    rw [stripD, stripD, List.filterMap_append]
    simp [isPrefixOf_append_self, List.drop_left]

theorem stripD_addDirL_out (root r : Path) (D : List Path)
    (h : ¬ root.isPrefixOf r = true) :
    stripD root (addDirL D r) = stripD root D := by
  rw [addDirL]
  by_cases hm : r ∈ D
  · rw [if_pos hm]
  · rw [if_neg hm, stripD, stripD, List.filterMap_append]
    have h' : ¬ root <+: r := fun hc => h (List.isPrefixOf_iff_prefix.mpr hc)
    simp [h, h']

theorem stripD_foldl_out (root : Path) (l : List Path)
    (hl : ∀ q ∈ l, ¬ root.isPrefixOf q = true) :
    ∀ D, stripD root (l.foldl addDirL D) = stripD root D := by
  induction l with
  | nil => intro D; rfl
  | cons x rest ih =>
    intro D
    rw [List.foldl_cons, ih (fun q hq => hl q (by simp [hq])),
      stripD_addDirL_out root x D (hl x (by simp))]

theorem stripD_foldl_in (root : Path) (l : List Path) :
    ∀ D, stripD root ((l.map (root ++ ·)).foldl addDirL D)
      = l.foldl addDirL (stripD root D) := by
  induction l with
  | nil => intro D; rfl
  | cons x rest ih =>
    intro D
    rw [List.map_cons, List.foldl_cons, List.foldl_cons, ih, stripD_addDirL_in]

theorem pathPrefixes_ne_nil (p : Path) : pathPrefixes p ≠ [] := by
  cases p <;> simp [pathPrefixes]

theorem length_lt_of_mem_dropLast_pathPrefixes (p : Path) :
    ∀ q ∈ (pathPrefixes p).dropLast, q.length < p.length := by
  induction p with
  | nil => simp [pathPrefixes]
  | cons x rest ih =>
    intro q hq
    rw [pathPrefixes, List.dropLast_cons_of_ne_nil (by
      simp [pathPrefixes_ne_nil])] at hq
    rcases List.mem_cons.mp hq with rfl | hq'
    · simp
    · rw [← List.map_dropLast] at hq'
      obtain ⟨q', hq2, rfl⟩ := List.mem_map.mp hq'
      have := ih q' hq2
      simp only [List.length_cons]
      omega

theorem pathPrefixes_append (root t : Path) :
    pathPrefixes (root ++ t)
      = (pathPrefixes root).dropLast ++ (pathPrefixes t).map (root ++ ·) := by
  induction root with
  | nil =>
    simp [pathPrefixes]
  | cons x rest ih =>
    show pathPrefixes (x :: (rest ++ t)) = _
    rw [pathPrefixes, ih]
    rw [show pathPrefixes (x :: rest) = [] :: (pathPrefixes rest).map (x :: ·) from rfl]
    rw [List.dropLast_cons_of_ne_nil (by simp [pathPrefixes_ne_nil]), ← List.map_dropLast]
    simp [List.map_map, Function.comp_def, List.map_append]

theorem stripD_mkdirL (root t : Path) (D : List Path) :
    stripD root (mkdirL D (root ++ t)) = mkdirL (stripD root D) t := by
  rw [mkdirL, mkdirL, pathPrefixes_append, List.foldl_append, stripD_foldl_in]
  congr 1
  refine stripD_foldl_out root _ (fun q hq hpre => ?_) D
  have hlen := length_lt_of_mem_dropLast_pathPrefixes root q hq
  obtain ⟨t', rfl⟩ := List.isPrefixOf_iff_prefix.mp hpre
  simp at hlen

theorem stripD_applyDirs (root : Path) (ts : List Path) :
    ∀ D, stripD root (applyDirs D (ts.map (root ++ ·)))
      = applyDirs (stripD root D) ts := by
  induction ts with
  | nil => intro D; rfl
  | cons t rest ih =>
    intro D
    show stripD root (applyDirs (mkdirL D (root ++ t)) (rest.map _)) = _
    rw [ih, stripD_mkdirL]
    rfl

theorem fs_ext (a b : FS) (hf : a.files = b.files) (hd : a.dirs = b.dirs) : a = b := by
  cases a; cases b; cases hf; cases hd; rfl

theorem under_applyPlan_shift (root : Path) (P : WPlan) :
    (FS.empty.applyPlan (planShift root P)).under root = FS.empty.applyPlan P := by
  apply fs_ext
  · have h := applyW_shift root P.wfiles ([] : List (Path × FileContent))
    simp only [List.map_nil] at h
    simp only [FS.applyPlan, planShift, FS.under, FS.empty, h, strip_map_files]
  · have h := stripD_applyDirs root P.wdirs []
    have h0 : stripD root ([] : List Path) = [] := rfl
    rw [h0] at h
    simp only [FS.applyPlan, planShift, FS.under, FS.empty, h]

/-! ### Every section plan is the shift of its root-relative plan -/

theorem planShift_append (root : Path) (P Q : WPlan) :
    planShift root (P ++ Q) = planShift root P ++ planShift root Q := by
  apply wplan_ext <;>
    simp [planShift, wplan_append_wfiles, wplan_append_wdirs]

theorem secretsPlan_shift (root : Path) (s : Option SecretsStructure) :
    secretsPlan root s = planShift root (secretsPlan [] s) := by
  cases s <;> apply wplan_ext <;> simp [secretsPlan, planShift]

theorem environmentsPlan_shift (root : Path) (envs : Option (List (String × GoMap))) :
    environmentsPlan root envs = planShift root (environmentsPlan [] envs) := by
  cases envs <;> apply wplan_ext <;>
    simp [environmentsPlan, planShift, List.map_map, Function.comp_def]

theorem valuesPlan_shift (root : Path) (vals : List GoMap) :
    valuesPlan root vals = planShift root (valuesPlan [] vals) := by
  apply wplan_ext <;>
    simp [valuesPlan, planShift, List.map_map, Function.comp_def, List.append_assoc]

theorem triggersPlan_shift (root : Path) (trs : List GoMap) :
    triggersPlan root trs = planShift root (triggersPlan [] trs) := by
  apply wplan_ext <;>
    simp [triggersPlan, planShift, List.map_map, Function.comp_def, List.append_assoc]

theorem graphqlPlan_shift (root : Path) (g : GraphQLStructure) :
    graphqlPlan root g = planShift root (graphqlPlan [] g) := by
  cases hg : g.config <;> apply wplan_ext <;>
    simp [graphqlPlan, planShift, hg, List.append_assoc]

theorem webhooksPlan_shift (root epDir : Path) (whs : List GoMap) :
    webhooksPlan (root ++ epDir) whs = planShift root (webhooksPlan epDir whs) := by
  apply wplan_ext <;>
    simp [webhooksPlan, planShift, List.map_flatMap, List.append_assoc]

theorem endpointsListPlan_shift (root dir : Path) (eps : List HTTPEndpointStructure) :
    endpointsListPlan (root ++ dir) eps = planShift root (endpointsListPlan dir eps) := by
  induction eps with
  | nil => apply wplan_ext <;> simp [endpointsListPlan, planShift]
  | cons ep rest ih =>
    rw [endpointsListPlan, endpointsListPlan, planShift_append, planShift_append, ih]
    congr 1
    congr 1
    · apply wplan_ext <;> simp [planShift, List.append_assoc]
    · rw [show (root ++ dir) ++ [nameOf ep.config]
          = root ++ (dir ++ [nameOf ep.config]) from (List.append_assoc ..),
        webhooksPlan_shift]

theorem httpEndpointsPlan_shift (root : Path) (eps : List HTTPEndpointStructure) :
    httpEndpointsPlan root eps = planShift root (httpEndpointsPlan [] eps) := by
  have h := endpointsListPlan_shift root [NameHTTPEndpoints] eps
  apply wplan_ext <;>
    simp [httpEndpointsPlan, planShift, h, List.nil_append]

theorem servicesListPlan_shift (root dir : Path) (svcs : List ServiceStructure) :
    servicesListPlan (root ++ dir) svcs = planShift root (servicesListPlan dir svcs) := by
  induction svcs with
  | nil => apply wplan_ext <;> simp [servicesListPlan, planShift]
  | cons svc rest ih =>
    rw [servicesListPlan, servicesListPlan, planShift_append, planShift_append, ih]
    congr 1
    congr 1
    · apply wplan_ext <;> simp [planShift, List.append_assoc]
    · rw [show (root ++ dir) ++ [nameOf svc.config]
          = root ++ (dir ++ [nameOf svc.config]) from (List.append_assoc ..),
        webhooksPlan_shift]

theorem servicesPlan_shift (root : Path) (svcs : List ServiceStructure) :
    servicesPlan root svcs = planShift root (servicesPlan [] svcs) := by
  have h := servicesListPlan_shift root [NameServices] svcs
  apply wplan_ext <;>
    simp [servicesPlan, planShift, h, List.nil_append]

theorem functionsPlan_shift (root : Path) (functions : Option FunctionsStructure) :
    functionsPlan root functions = planShift root (functionsPlan [] functions) := by
  have hdl : ∀ ps : Path × String, ((root ++ [NameFunctions]) ++ ps.1).dropLast
      = root ++ (([NameFunctions] ++ ps.1).dropLast) := by
    intro ps
    rw [List.append_assoc, List.dropLast_append_of_ne_nil _ (by simp)]
  cases functions with
  | none =>
    apply wplan_ext <;> simp [functionsPlan, planShift, List.append_assoc]
  | some f =>
    apply wplan_ext
    · simp [functionsPlan, planShift, List.map_map, Function.comp_def, List.append_assoc]
    · simp only [functionsPlan, planShift, List.map_cons, List.map_map, List.nil_append]
      congr 1
      apply List.map_congr_left
      intro ps _
      simpa [Function.comp_def] using hdl ps

theorem authPlan_shift (root : Path) (auth : Option AuthStructure) :
    authPlan root auth = planShift root (authPlan [] auth) := by
  cases auth with
  | none => apply wplan_ext <;> simp [authPlan, planShift]
  | some a =>
    cases hp : a.providers.isSome <;> cases hc : a.customUserData.isSome <;>
      apply wplan_ext <;>
      simp [authPlan, planShift, hp, hc, List.append_assoc]

theorem syncPlan_shift (root : Path) (sync : Option SyncStructure) :
    syncPlan root sync = planShift root (syncPlan [] sync) := by
  cases sync with
  | none => apply wplan_ext <;> simp [syncPlan, planShift]
  | some s =>
    cases hc : s.config.isSome <;> apply wplan_ext <;>
      simp [syncPlan, planShift, hc, List.append_assoc]

theorem rulesPlan_shift (root dsDir : Path) (rules : List GoMap) :
    rulesPlan (root ++ dsDir) rules = planShift root (rulesPlan dsDir rules) := by
  apply wplan_ext <;>
    simp [rulesPlan, planShift, List.map_flatMap, List.append_assoc]

theorem dataSourcesListPlan_shift (root dir : Path) (dss : List DataSourceStructure) :
    dataSourcesListPlan (root ++ dir) dss
      = planShift root (dataSourcesListPlan dir dss) := by
  induction dss with
  | nil => apply wplan_ext <;> simp [dataSourcesListPlan, planShift]
  | cons ds rest ih =>
    rw [dataSourcesListPlan, dataSourcesListPlan, planShift_append, planShift_append, ih]
    congr 1
    congr 1
    · apply wplan_ext <;> simp [planShift, List.append_assoc]
    · rw [show (root ++ dir) ++ [nameOf ds.config]
          = root ++ (dir ++ [nameOf ds.config]) from (List.append_assoc ..),
        rulesPlan_shift]

theorem dataSourcesPlan_shift (root : Path) (dss : List DataSourceStructure) :
    dataSourcesPlan root dss = planShift root (dataSourcesPlan [] dss) := by
  have h := dataSourcesListPlan_shift root [NameDataSources] dss
  apply wplan_ext <;>
    simp [dataSourcesPlan, planShift, h, List.nil_append]

theorem fullPlan_shift (root : Path) (a : AppStructureV2) :
    fullPlan root a = planShift root (fullPlan [] a) := by
  rw [fullPlan, fullPlan, planShift_append, planShift_append, planShift_append,
    planShift_append, planShift_append, planShift_append, planShift_append,
    planShift_append, planShift_append, planShift_append, planShift_append,
    secretsPlan_shift, environmentsPlan_shift, valuesPlan_shift, graphqlPlan_shift,
    servicesPlan_shift, functionsPlan_shift, authPlan_shift, syncPlan_shift,
    dataSourcesPlan_shift, httpEndpointsPlan_shift, triggersPlan_shift]

/-- C7: Write is deterministic and idempotent — a successful `WriteData`
into an empty tree below any root produces the application of a plan that
is the root-shifted image of a root-independent plan, so the trees under
two different roots are identical; and re-running `WriteData` on its own
output returns it unchanged. -/
theorem c7_write_deterministic (rootDir rootDir' : Path) (a : AppStructureV2)
    (h : writeOkB a = true) :
    AppDataV2.WriteData rootDir a FS.empty
        = .ok (FS.empty.applyPlan (fullPlan rootDir a))
      ∧ (FS.empty.applyPlan (fullPlan rootDir a)).under rootDir
          = (FS.empty.applyPlan (fullPlan rootDir' a)).under rootDir'
      ∧ AppDataV2.WriteData rootDir a (FS.empty.applyPlan (fullPlan rootDir a))
          = .ok (FS.empty.applyPlan (fullPlan rootDir a)) := by
  refine ⟨writeData_plan _ _ _ h, ?_, ?_⟩
  · rw [fullPlan_shift rootDir a, fullPlan_shift rootDir' a,
      under_applyPlan_shift, under_applyPlan_shift]
  · rw [writeData_plan _ _ _ h, applyPlan_idem]

/-- C7 witness at two concrete roots. -/
theorem c7_witness :
    AppDataV2.WriteData ["rootA"] emptyModel FS.empty
        = .ok (FS.empty.applyPlan (fullPlan ["rootA"] emptyModel))
      ∧ (FS.empty.applyPlan (fullPlan ["rootA"] emptyModel)).under ["rootA"]
          = (FS.empty.applyPlan (fullPlan ["b", "c"] emptyModel)).under ["b", "c"]
      ∧ AppDataV2.WriteData ["rootA"] emptyModel
            (FS.empty.applyPlan (fullPlan ["rootA"] emptyModel))
          = .ok (FS.empty.applyPlan (fullPlan ["rootA"] emptyModel)) :=
  c7_write_deterministic ["rootA"] ["b", "c"] emptyModel (by decide)

/-- C5 counterexample: the nil Functions section is not skipped — its
directory (and config file) are created; while the present-but-empty Auth
section gets no directory at all. -/
theorem c5_counterexample :
    (AppDataV2.WriteData [] emptyModel FS.empty).toOption.map
        (fun fs => fs.isDir [NameFunctions] && fs.isFile [NameFunctions, FileConfig])
        = some true
      ∧ (AppDataV2.WriteData [] authEmptyModel FS.empty).toOption.map
          (fun fs => fs.isDir [NameAuth]) = some false := by
  decide

/-- C1 counterexample: the round trip is not the identity up to only the
stated normalizations — a present-but-contentless Auth (or Sync) section
reloads as absent, and data source sequences reload sorted by name. -/
theorem c1_counterexample :
    ((AppDataV2.WriteData [] authEmptyModel FS.empty).toOption.bind
        (fun fs => (AppDataV2.LoadData fs []).toOption)).map AppStructureV2.auth
        = some none
      ∧ authEmptyModel.auth = some ⟨none, none⟩
      ∧ ((AppDataV2.WriteData [] syncEmptyModel FS.empty).toOption.bind
          (fun fs => (AppDataV2.LoadData fs []).toOption)).map AppStructureV2.sync
          = some none
      ∧ syncEmptyModel.sync = some ⟨none⟩
      ∧ ((AppDataV2.WriteData [] dsUnsortedModel FS.empty).toOption.bind
          (fun fs => (AppDataV2.LoadData fs []).toOption)).map
            (fun m => m.dataSources.map (fun ds => nameOf ds.config))
          = some ["aa", "zz"]
      ∧ dsUnsortedModel.dataSources.map (fun ds => nameOf ds.config) = ["zz", "aa"] := by
  decide

/-! ### The walker's string and path orders are strict total orders -/

theorem bool_tf {C : Prop} (h : true = false) : C := absurd h (by decide)

theorem bnot_true {b : Bool} (h : ¬ b = true) : b = false := by
  cases b
  · rfl
  · exact absurd rfl h

theorem charLt_iff (a b : Char) : charLt a b = true ↔ a.toNat < b.toNat := by
  simp [charLt, Nat.blt_eq]

theorem charLt_irrefl (a : Char) : charLt a a = false := by
  rw [← Bool.not_eq_true, charLt_iff]
  omega

theorem charLt_trans {a b c : Char} (h1 : charLt a b = true)
    (h2 : charLt b c = true) : charLt a c = true := by
  rw [charLt_iff] at h1 h2 ⊢
  omega

theorem charLt_asymm {a b : Char} (h : charLt a b = true) : charLt b a = false := by
  rw [charLt_iff] at h
  rw [← Bool.not_eq_true, charLt_iff]
  omega

theorem char_eq_of_not_lt {a b : Char} (h1 : charLt a b = false)
    (h2 : charLt b a = false) : a = b := by
  have ha : ¬ a.toNat < b.toNat := fun hl => bool_tf ((charLt_iff a b).mpr hl ▸ h1)
  have hb : ¬ b.toNat < a.toNat := fun hl => bool_tf ((charLt_iff b a).mpr hl ▸ h2)
  refine Char.ext (UInt32.ext ?_)
  unfold Char.toNat at ha hb
  omega

theorem strLtL_irrefl : ∀ l, strLtL l l = false
  | [] => rfl
  | a :: as => by simp [strLtL, charLt_irrefl a, strLtL_irrefl as]

theorem strLtL_trans : ∀ {l1 l2 l3 : List Char}, strLtL l1 l2 = true →
    strLtL l2 l3 = true → strLtL l1 l3 = true
  | [], [], _, h1, _ => by simp [strLtL] at h1
  | [], _ :: _, [], _, h2 => by simp [strLtL] at h2
  | [], _ :: _, _ :: _, _, _ => rfl
  | _ :: _, [], _, h1, _ => by simp [strLtL] at h1
  | _ :: _, _ :: _, [], _, h2 => by simp [strLtL] at h2
  | a :: as, b :: bs, c :: cs, h1, h2 => by
    simp only [strLtL] at h1 h2 ⊢
    by_cases hab : charLt a b = true
    · by_cases hbc : charLt b c = true
      · simp [charLt_trans hab hbc]
      · by_cases hcb : charLt c b = true
        · rw [if_neg hbc, if_pos hcb] at h2
          exact absurd h2 (by decide)
        · obtain rfl := char_eq_of_not_lt (bnot_true hbc) (bnot_true hcb)
          simp [hab]
    · by_cases hba : charLt b a = true
      · rw [if_neg hab, if_pos hba] at h1
        exact absurd h1 (by decide)
      · obtain rfl := char_eq_of_not_lt (bnot_true hab) (bnot_true hba)
        rw [if_neg hab, if_neg hba] at h1
        by_cases hbc : charLt a c = true
        · simp [hbc]
        · by_cases hcb : charLt c a = true
          · rw [if_neg hbc, if_pos hcb] at h2
            exact absurd h2 (by decide)
          · obtain rfl := char_eq_of_not_lt (bnot_true hbc) (bnot_true hcb)
            rw [if_neg hbc, if_neg hcb] at h2
            rw [if_neg hbc, if_neg hcb]
            exact strLtL_trans h1 h2

theorem strLtL_asymm : ∀ {l1 l2 : List Char}, strLtL l1 l2 = true →
    strLtL l2 l1 = false
  | [], [], h => by simp [strLtL] at h
  | [], _ :: _, _ => rfl
  | _ :: _, [], h => by simp [strLtL] at h
  | a :: as, b :: bs, h => by
    simp only [strLtL] at h ⊢
    by_cases hab : charLt a b = true
    · rw [if_neg (by simp [charLt_asymm hab]), if_pos hab]
    · by_cases hba : charLt b a = true
      · rw [if_neg hab, if_pos hba] at h
        exact absurd h (by decide)
      · obtain rfl := char_eq_of_not_lt (bnot_true hab) (bnot_true hba)
        rw [if_neg hab, if_neg hba] at h
        rw [if_neg hab, if_neg hba]
        exact strLtL_asymm h

theorem strLtL_connex : ∀ {l1 l2 : List Char}, l1 ≠ l2 →
    strLtL l1 l2 = true ∨ strLtL l2 l1 = true
  | [], [], h => absurd rfl h
  | [], _ :: _, _ => Or.inl rfl
  | _ :: _, [], _ => Or.inr rfl
  | a :: as, b :: bs, h => by
    by_cases hab : charLt a b = true
    · exact Or.inl (by simp [strLtL, hab])
    · by_cases hba : charLt b a = true
      · exact Or.inr (by simp [strLtL, hba])
      · obtain rfl := char_eq_of_not_lt (bnot_true hab) (bnot_true hba)
        have hne : as ≠ bs := fun he => h (by rw [he])
        rcases strLtL_connex hne with hc | hc
        · exact Or.inl (by simp only [strLtL, if_neg hab]; exact hc)
        · exact Or.inr (by simp only [strLtL, if_neg hab]; exact hc)

theorem str_ext {a b : String} (h : a.data = b.data) : a = b := by
  cases a
  cases b
  exact congrArg String.mk h

theorem strLt_irrefl (s : String) : strLt s s = false := strLtL_irrefl _

theorem strLt_trans {a b c : String} (h1 : strLt a b = true)
    (h2 : strLt b c = true) : strLt a c = true := strLtL_trans h1 h2

theorem strLt_asymm {a b : String} (h : strLt a b = true) : strLt b a = false :=
  strLtL_asymm h

theorem strLt_connex {a b : String} (h : a ≠ b) :
    strLt a b = true ∨ strLt b a = true :=
  strLtL_connex (fun hd => h (str_ext hd))

theorem strLt_ne {a b : String} (h : strLt a b = true) : a ≠ b := by
  rintro rfl
  rw [strLt_irrefl a] at h
  exact bool_tf h.symm

theorem str_eq_of_not_lt {a b : String} (h1 : strLt a b = false)
    (h2 : strLt b a = false) : a = b := by
  by_contra hne
  rcases strLt_connex hne with hc | hc
  · rw [hc] at h1; exact bool_tf h1
  · rw [hc] at h2; exact bool_tf h2

theorem pathLt_irrefl : ∀ p, pathLt p p = false
  | [] => rfl
  | a :: as => by simp [pathLt, strLt_irrefl a, pathLt_irrefl as]

theorem pathLt_trans : ∀ {p q r : Path}, pathLt p q = true →
    pathLt q r = true → pathLt p r = true
  | [], [], _, h1, _ => by simp [pathLt] at h1
  | [], _ :: _, [], _, h2 => by simp [pathLt] at h2
  | [], _ :: _, _ :: _, _, _ => rfl
  | _ :: _, [], _, h1, _ => by simp [pathLt] at h1
  | _ :: _, _ :: _, [], _, h2 => by simp [pathLt] at h2
  | a :: as, b :: bs, c :: cs, h1, h2 => by
    simp only [pathLt] at h1 h2 ⊢
    by_cases hab : strLt a b = true
    · by_cases hbc : strLt b c = true
      · simp [strLt_trans hab hbc]
      · by_cases hcb : strLt c b = true
        · rw [if_neg hbc, if_pos hcb] at h2
          exact absurd h2 (by decide)
        · obtain rfl := str_eq_of_not_lt (bnot_true hbc) (bnot_true hcb)
          simp [hab]
    · by_cases hba : strLt b a = true
      · rw [if_neg hab, if_pos hba] at h1
        exact absurd h1 (by decide)
      · obtain rfl := str_eq_of_not_lt (bnot_true hab) (bnot_true hba)
        rw [if_neg hab, if_neg hba] at h1
        by_cases hbc : strLt a c = true
        · simp [hbc]
        · by_cases hcb : strLt c a = true
          · rw [if_neg hbc, if_pos hcb] at h2
            exact absurd h2 (by decide)
          · obtain rfl := str_eq_of_not_lt (bnot_true hbc) (bnot_true hcb)
            rw [if_neg hbc, if_neg hcb] at h2
            rw [if_neg hbc, if_neg hcb]
            exact pathLt_trans h1 h2

theorem pathLt_asymm : ∀ {p q : Path}, pathLt p q = true → pathLt q p = false
  | [], [], h => by simp [pathLt] at h
  | [], _ :: _, _ => rfl
  | _ :: _, [], h => by simp [pathLt] at h
  | a :: as, b :: bs, h => by
    simp only [pathLt] at h ⊢
    by_cases hab : strLt a b = true
    · rw [if_neg (by simp [strLt_asymm hab]), if_pos hab]
    · by_cases hba : strLt b a = true
      · rw [if_neg hab, if_pos hba] at h
        exact absurd h (by decide)
      · obtain rfl := str_eq_of_not_lt (bnot_true hab) (bnot_true hba)
        rw [if_neg hab, if_neg hba] at h
        rw [if_neg hab, if_neg hba]
        exact pathLt_asymm h

theorem pathLt_connex : ∀ {p q : Path}, p ≠ q →
    pathLt p q = true ∨ pathLt q p = true
  | [], [], h => absurd rfl h
  | [], _ :: _, _ => Or.inl rfl
  | _ :: _, [], _ => Or.inr rfl
  | a :: as, b :: bs, h => by
    by_cases hab : strLt a b = true
    · exact Or.inl (by simp [pathLt, hab])
    · by_cases hba : strLt b a = true
      · exact Or.inr (by simp [pathLt, hba])
      · obtain rfl := str_eq_of_not_lt (bnot_true hab) (bnot_true hba)
        have hne : as ≠ bs := fun he => h (by rw [he])
        rcases pathLt_connex hne with hc | hc
        · exact Or.inl (by simp only [pathLt, if_neg hab]; exact hc)
        · exact Or.inr (by simp only [pathLt, if_neg hab]; exact hc)

theorem ruleLt_key_ne {r s : GoMap} (h : ruleLt r s = true) :
    ¬ (dbOf r = dbOf s ∧ collOf r = collOf s) := by
  rintro ⟨hd, hc⟩
  rw [ruleLt, hd, hc] at h
  simp [strLt_irrefl] at h

theorem ruleLt_asymm {r s : GoMap} (h : ruleLt r s = true) : ruleLt s r = false := by
  rw [ruleLt, Bool.or_eq_true, Bool.and_eq_true, decide_eq_true_eq] at h
  rw [ruleLt, ← Bool.not_eq_true, Bool.or_eq_true, Bool.and_eq_true,
    decide_eq_true_eq]
  rintro (hc | ⟨hce, hcc⟩)
  · rcases h with h | ⟨he, _⟩
    · rw [strLt_asymm h] at hc
      exact bool_tf hc.symm
    · exact strLt_ne hc he.symm
  · rcases h with h | ⟨_, hcol⟩
    · exact strLt_ne h hce.symm
    · rw [strLt_asymm hcol] at hcc
      exact bool_tf hcc.symm

theorem ruleLt_trans {r s t : GoMap} (h1 : ruleLt r s = true)
    (h2 : ruleLt s t = true) : ruleLt r t = true := by
  rw [ruleLt, Bool.or_eq_true, Bool.and_eq_true, decide_eq_true_eq] at h1 h2 ⊢
  rcases h1 with h1 | ⟨h1e, h1c⟩
  · rcases h2 with h2 | ⟨h2e, h2c⟩
    · exact Or.inl (strLt_trans h1 h2)
    · exact Or.inl (h2e ▸ h1)
  · rcases h2 with h2 | ⟨h2e, h2c⟩
    · exact Or.inl (h1e ▸ h2)
    · exact Or.inr ⟨h1e.trans h2e, strLt_trans h1c h2c⟩

/-! ### Strict sortedness: `pairwiseB` -/

theorem pairwiseB_nil {α : Type} (lt : α → α → Bool) : pairwiseB lt [] = true := rfl

theorem pairwiseB_cons_iff {α : Type} (lt : α → α → Bool) (x : α) (l : List α) :
    pairwiseB lt (x :: l) = true ↔ (∀ y ∈ l, lt x y = true) ∧ pairwiseB lt l = true := by
  rw [pairwiseB, Bool.and_eq_true, List.all_eq_true]

theorem pairwiseB_irrefl_of_asymm {α : Type} (lt : α → α → Bool)
    (hasymm : ∀ {x y : α}, lt x y = true → lt y x = false) (x : α) :
    lt x x = false := by
  cases hx : lt x x with
  | false => rfl
  | true => rw [hasymm hx] at hx; exact bool_tf hx.symm

theorem pairwiseB_ext {α : Type} (lt : α → α → Bool)
    (hasymm : ∀ {x y : α}, lt x y = true → lt y x = false) :
    ∀ (l r : List α), pairwiseB lt l = true → pairwiseB lt r = true →
      (∀ x, x ∈ l ↔ x ∈ r) → l = r
  | [], [], _, _, _ => rfl
  | [], y :: r, _, _, hm => absurd ((hm y).mpr (by simp)) (by simp)
  | x :: l, [], _, _, hm => absurd ((hm x).mp (by simp)) (by simp)
  | x :: l, y :: r, hl, hr, hm => by
    obtain ⟨hxl, hl'⟩ := (pairwiseB_cons_iff lt x l).mp hl
    obtain ⟨hyr, hr'⟩ := (pairwiseB_cons_iff lt y r).mp hr
    have hxy : x = y := by
      by_contra hne
      have hx : x ∈ y :: r := (hm x).mp (by simp)
      have hy : y ∈ x :: l := (hm y).mpr (by simp)
      rw [List.mem_cons] at hx hy
      rcases hx with hx | hx
      · exact hne hx
      · rcases hy with hy | hy
        · exact hne hy.symm
        · have hlt : lt y x = true := hyr x hx
          rw [hasymm (hxl y hy)] at hlt
          exact bool_tf hlt.symm
    subst hxy
    have htails : ∀ z, z ∈ l ↔ z ∈ r := by
      intro z
      constructor
      · intro hz
        have hzx : z ≠ x := by
          rintro rfl
          have hlt := hxl z hz
          rw [pairwiseB_irrefl_of_asymm lt hasymm z] at hlt
          exact bool_tf hlt.symm
        have := (hm z).mp (List.mem_cons_of_mem x hz)
        rw [List.mem_cons] at this
        exact this.resolve_left hzx
      · intro hz
        have hzx : z ≠ x := by
          rintro rfl
          have hlt := hyr z hz
          rw [pairwiseB_irrefl_of_asymm lt hasymm z] at hlt
          exact bool_tf hlt.symm
        have := (hm z).mpr (List.mem_cons_of_mem x hz)
        rw [List.mem_cons] at this
        exact this.resolve_left hzx
    rw [pairwiseB_ext lt hasymm l r hl' hr' htails]

theorem pairwiseB_nodup {α : Type} (lt : α → α → Bool)
    (hasymm : ∀ {x y : α}, lt x y = true → lt y x = false) :
    ∀ (l : List α), pairwiseB lt l = true → l.Nodup
  | [], _ => List.nodup_nil
  | x :: l, h => by
    obtain ⟨hx, hl⟩ := (pairwiseB_cons_iff lt x l).mp h
    refine List.nodup_cons.mpr ⟨fun hmem => ?_, pairwiseB_nodup lt hasymm l hl⟩
    have := hx x hmem
    rw [pairwiseB_irrefl_of_asymm lt hasymm x] at this
    exact bool_tf this.symm

theorem pairwiseB_filter {α : Type} (lt : α → α → Bool) (P : α → Bool) :
    ∀ (l : List α), pairwiseB lt l = true → pairwiseB lt (l.filter P) = true
  | [], _ => rfl
  | x :: l, h => by
    obtain ⟨hx, hl⟩ := (pairwiseB_cons_iff lt x l).mp h
    rw [List.filter_cons]
    cases hp : P x with
    | true =>
      simp only [if_true]
      refine (pairwiseB_cons_iff lt x _).mpr ⟨?_, pairwiseB_filter lt P l hl⟩
      intro y hy
      exact hx y (List.mem_of_mem_filter hy)
    | false =>
      simp only [Bool.false_eq_true, if_false]
      exact pairwiseB_filter lt P l hl

theorem all_map_eq {α β : Type} (f : α → β) (p : β → Bool) :
    ∀ (l : List α), (l.map f).all p = l.all (fun y => p (f y))
  | [] => rfl
  | x :: l => by
    simp only [List.map_cons, List.all_cons, all_map_eq f p l]

theorem pairwiseB_map {α β : Type} (lt : β → β → Bool) (f : α → β) :
    ∀ (l : List α), pairwiseB lt (l.map f) =
      pairwiseB (fun x y => lt (f x) (f y)) l
  | [] => rfl
  | x :: l => by
    simp only [List.map_cons, pairwiseB]
    rw [pairwiseB_map lt f l, all_map_eq f (fun y => lt (f x) y) l]

/-! ### Insertion sort of entry names (`sortDedup`) -/

theorem mem_insSortStr (x y : String) :
    ∀ (l : List String), (y ∈ insSortStr x l ↔ y = x ∨ y ∈ l)
  | [] => by simp [insSortStr]
  | z :: l => by
    rw [insSortStr]
    by_cases h1 : strLt x z = true
    · rw [if_pos h1]
      simp only [List.mem_cons]
    · rw [if_neg h1]
      by_cases h2 : x = z
      · rw [if_pos h2]
        subst h2
        simp only [List.mem_cons]
        tauto
      · rw [if_neg h2]
        simp only [List.mem_cons, mem_insSortStr x y l]
        tauto

theorem pairwiseB_insSortStr (x : String) :
    ∀ (l : List String), pairwiseB strLt l = true →
      pairwiseB strLt (insSortStr x l) = true
  | [], _ => rfl
  | z :: l, h => by
    obtain ⟨hz, hl⟩ := (pairwiseB_cons_iff strLt z l).mp h
    rw [insSortStr]
    by_cases h1 : strLt x z = true
    · rw [if_pos h1]
      refine (pairwiseB_cons_iff strLt x _).mpr ⟨?_, h⟩
      intro y hy
      rw [List.mem_cons] at hy
      rcases hy with rfl | hy
      · exact h1
      · exact strLt_trans h1 (hz y hy)
    · rw [if_neg h1]
      by_cases h2 : x = z
      · rw [if_pos h2]
        exact h
      · rw [if_neg h2]
        refine (pairwiseB_cons_iff strLt z _).mpr
          ⟨?_, pairwiseB_insSortStr x l hl⟩
        intro y hy
        rw [mem_insSortStr] at hy
        rcases hy with rfl | hy
        · rcases strLt_connex h2 with hc | hc
          · exact absurd hc h1
          · exact hc
        · exact hz y hy

theorem mem_sortDedup (y : String) :
    ∀ (l : List String), y ∈ sortDedup l ↔ y ∈ l
  | [] => Iff.rfl
  | x :: l => by
    rw [sortDedup, List.foldr_cons, mem_insSortStr,
      show List.foldr insSortStr [] l = sortDedup l from rfl,
      mem_sortDedup y l, List.mem_cons]

theorem pairwiseB_sortDedup :
    ∀ (l : List String), pairwiseB strLt (sortDedup l) = true
  | [] => rfl
  | x :: l => pairwiseB_insSortStr x (sortDedup l) (pairwiseB_sortDedup l)

theorem sortDedup_eq_of {xs r : List String} (hr : pairwiseB strLt r = true)
    (hmem : ∀ x, x ∈ xs ↔ x ∈ r) : sortDedup xs = r :=
  pairwiseB_ext strLt (fun h => strLt_asymm h) _ _ (pairwiseB_sortDedup xs) hr
    (fun x => (mem_sortDedup x xs).trans (hmem x))

theorem sortDedup_sorted_id {l : List String} (h : pairwiseB strLt l = true) :
    sortDedup l = l :=
  sortDedup_eq_of h (fun _ => Iff.rfl)

theorem sortDedup_congr_mem {xs ys : List String}
    (h : ∀ x, x ∈ xs ↔ x ∈ ys) : sortDedup xs = sortDedup ys :=
  pairwiseB_ext strLt (fun hlt => strLt_asymm hlt) _ _ (pairwiseB_sortDedup xs)
    (pairwiseB_sortDedup ys)
    (fun x => (mem_sortDedup x xs).trans ((h x).trans (mem_sortDedup x ys).symm))

/-! ### Insertion sort of relative file entries (`insSortRel`) -/

theorem mem_insSortRel_fresh (x : Path × FileContent) :
    ∀ (l : List (Path × FileContent)), x.1 ∉ l.map Prod.fst →
      ∀ z, (z ∈ insSortRel x l ↔ z = x ∨ z ∈ l)
  | [], _, z => by simp [insSortRel]
  | y :: l, hfresh, z => by
    rw [insSortRel]
    have hne : x.1 ≠ y.1 := fun he =>
      hfresh (by rw [he]; exact List.mem_map_of_mem Prod.fst (List.mem_cons_self y l))
    by_cases h1 : pathLt x.1 y.1 = true
    · rw [if_pos h1]
      simp only [List.mem_cons]
    · rw [if_neg h1, if_neg hne]
      simp only [List.mem_cons,
        mem_insSortRel_fresh x l (fun hm => hfresh (by simp [hm])) z]
      tauto

theorem mem_of_mem_insSortRel (x z : Path × FileContent) :
    ∀ (l : List (Path × FileContent)), z ∈ insSortRel x l → z = x ∨ z ∈ l
  | [], h => by simpa [insSortRel] using h
  | y :: l, h => by
    rw [insSortRel] at h
    by_cases h1 : pathLt x.1 y.1 = true
    · rw [if_pos h1] at h
      simpa using h
    · rw [if_neg h1] at h
      by_cases h2 : x.1 = y.1
      · rw [if_pos h2] at h
        exact Or.inr h
      · rw [if_neg h2] at h
        rw [List.mem_cons] at h
        rcases h with rfl | h
        · exact Or.inr (by simp)
        · rcases mem_of_mem_insSortRel x z l h with h | h
          · exact Or.inl h
          · exact Or.inr (by simp [h])

theorem pairwiseB_keys_insSortRel (x : Path × FileContent) :
    ∀ (l : List (Path × FileContent)),
      pairwiseB (fun u v => pathLt u.1 v.1) l = true →
      pairwiseB (fun u v => pathLt u.1 v.1) (insSortRel x l) = true
  | [], _ => rfl
  | y :: l, h => by
    obtain ⟨hy, hl⟩ := (pairwiseB_cons_iff _ y l).mp h
    rw [insSortRel]
    by_cases h1 : pathLt x.1 y.1 = true
    · rw [if_pos h1]
      refine (pairwiseB_cons_iff _ x _).mpr ⟨?_, h⟩
      intro z hz
      rw [List.mem_cons] at hz
      rcases hz with rfl | hz
      · exact h1
      · exact pathLt_trans h1 (hy z hz)
    · rw [if_neg h1]
      by_cases h2 : x.1 = y.1
      · rw [if_pos h2]
        exact h
      · rw [if_neg h2]
        refine (pairwiseB_cons_iff _ y _).mpr
          ⟨?_, pairwiseB_keys_insSortRel x l hl⟩
        intro z hz
        rcases mem_of_mem_insSortRel x z l hz with rfl | hz
        · rcases pathLt_connex h2 with hc | hc
          · exact absurd hc h1
          · exact hc
        · exact hy z hz

theorem key_mem_insSortRel (x : Path × FileContent) (q : Path) :
    ∀ (l : List (Path × FileContent)),
      (q ∈ (insSortRel x l).map Prod.fst ↔ q = x.1 ∨ q ∈ l.map Prod.fst)
  | [] => by simp [insSortRel]
  | y :: l => by
    rw [insSortRel]
    by_cases h1 : pathLt x.1 y.1 = true
    · rw [if_pos h1]
      simp only [List.map_cons, List.mem_cons]
    · rw [if_neg h1]
      by_cases h2 : x.1 = y.1
      · rw [if_pos h2]
        simp only [List.map_cons, List.mem_cons]
        rw [h2]
        tauto
      · rw [if_neg h2]
        simp only [List.map_cons, List.mem_cons, key_mem_insSortRel x q l]
        tauto

theorem foldl_insSortRel_eval :
    ∀ (l acc : List (Path × FileContent)),
      (l.map Prod.fst).Nodup →
      pairwiseB (fun u v => pathLt u.1 v.1) acc = true →
      (∀ p ∈ l.map Prod.fst, p ∉ acc.map Prod.fst) →
      pairwiseB (fun u v => pathLt u.1 v.1)
          (l.foldl (fun a x => insSortRel x a) acc) = true ∧
        (∀ z, z ∈ l.foldl (fun a x => insSortRel x a) acc ↔ z ∈ acc ∨ z ∈ l)
  | [], acc, _, hacc, _ => ⟨hacc, by simp⟩
  | x :: l, acc, hnd, hacc, hdisj => by
    rw [List.foldl_cons]
    have hfresh : x.1 ∉ acc.map Prod.fst := hdisj x.1 (by simp)
    have hnd' : (l.map Prod.fst).Nodup := by
      rw [List.map_cons, List.nodup_cons] at hnd
      exact hnd.2
    have hx1 : x.1 ∉ l.map Prod.fst := by
      rw [List.map_cons, List.nodup_cons] at hnd
      exact hnd.1
    have hdisj' : ∀ p ∈ l.map Prod.fst, p ∉ (insSortRel x acc).map Prod.fst := by
      intro p hp hmem
      rw [key_mem_insSortRel] at hmem
      rcases hmem with rfl | hmem
      · exact hx1 hp
      · exact hdisj p (by simp [hp]) hmem
    obtain ⟨hpw, hmem⟩ := foldl_insSortRel_eval l (insSortRel x acc) hnd'
      (pairwiseB_keys_insSortRel x acc hacc) hdisj'
    refine ⟨hpw, fun z => ?_⟩
    rw [hmem z, mem_insSortRel_fresh x acc hfresh z, List.mem_cons]
    tauto

/-- A `filesUnder` result is determined by a strictly key-sorted list with
the same members, provided the input files below the root have distinct
paths. -/
theorem filesUnder_eq_of (fs : FS) (p : Path) (r : List (Path × FileContent))
    (hnd : ((fs.files.filterMap (fun f =>
        if p.isPrefixOf f.1 ∧ p ≠ f.1 then some (f.1.drop p.length, f.2)
        else none)).map Prod.fst).Nodup)
    (hr : pairwiseB (fun u v => pathLt u.1 v.1) r = true)
    (hmem : ∀ z, z ∈ fs.files.filterMap (fun f =>
        if p.isPrefixOf f.1 ∧ p ≠ f.1 then some (f.1.drop p.length, f.2)
        else none) ↔ z ∈ r) :
    fs.filesUnder p = r := by
  obtain ⟨hpw, hm⟩ := foldl_insSortRel_eval _ [] hnd rfl (by simp)
  show (fs.files.filterMap (fun f =>
      if p.isPrefixOf f.1 ∧ p ≠ f.1 then some (f.1.drop p.length, f.2)
      else none)).foldl (fun acc x => insSortRel x acc) [] = r
  refine pairwiseB_ext _ (fun h => pathLt_asymm h) _ _ hpw hr (fun z => ?_)
  rw [hm z]
  simp only [List.not_mem_nil, false_or]
  exact hmem z

/-! ### Lookup and membership in written file lists -/

theorem lookupL_none_of_ne (p : Path) :
    ∀ (F : List (Path × FileContent)), (∀ f ∈ F, f.1 ≠ p) → lookupL F p = none
  | [], _ => rfl
  | f :: F, h => by
    rw [lookupL, if_neg (h f (by simp))]
    exact lookupL_none_of_ne p F (fun g hg => h g (by simp [hg]))

theorem lookupL_isSome_of_mem {p : Path} {c : FileContent} :
    ∀ {F : List (Path × FileContent)}, (p, c) ∈ F → (lookupL F p).isSome = true
  | f :: F, h => by
    rw [lookupL]
    by_cases hf : f.1 = p
    · rw [if_pos hf]
      rfl
    · rw [if_neg hf]
      rcases List.mem_cons.mp h with rfl | h2
      · exact absurd rfl hf
      · exact lookupL_isSome_of_mem h2

theorem lookupL_append (p : Path) :
    ∀ (A B : List (Path × FileContent)), lookupL (A ++ B) p =
      match lookupL A p with
      | some c => some c
      | none => lookupL B p
  | [], B => rfl
  | f :: A, B => by
    rw [List.cons_append, lookupL, lookupL]
    by_cases hf : f.1 = p
    · rw [if_pos hf, if_pos hf]
    · rw [if_neg hf, if_neg hf]
      exact lookupL_append p A B

theorem lookupL_append_right {p : Path} {A : List (Path × FileContent)}
    (B : List (Path × FileContent)) (h : lookupL A p = none) :
    lookupL (A ++ B) p = lookupL B p := by
  rw [lookupL_append, h]

theorem lookupL_append_left {p : Path} {A : List (Path × FileContent)}
    {B : List (Path × FileContent)} {c : FileContent} (h : lookupL A p = some c) :
    lookupL (A ++ B) p = some c := by
  rw [lookupL_append, h]

theorem lookupL_skip {p : Path} {A : List (Path × FileContent)}
    (B : List (Path × FileContent)) (h : ∀ f ∈ A, f.1 ≠ p) :
    lookupL (A ++ B) p = lookupL B p :=
  lookupL_append_right B (lookupL_none_of_ne p A h)

theorem replaceFile_of_none (p : Path) (c : FileContent) :
    ∀ (F : List (Path × FileContent)), lookupL F p = none →
      replaceFile F p c = F ++ [(p, c)]
  | [], _ => rfl
  | f :: F, h => by
    rw [lookupL] at h
    by_cases hf : f.1 = p
    · rw [if_pos hf] at h
      exact absurd h (by simp)
    · rw [if_neg hf] at h
      rw [replaceFile, if_neg hf, List.cons_append,
        replaceFile_of_none p c F h]

theorem applyW_fresh :
    ∀ (ws F : List (Path × FileContent)),
      (∀ w ∈ ws, lookupL F w.1 = none) → (ws.map Prod.fst).Nodup →
      applyW F ws = F ++ ws
  | [], F, _, _ => by simp [applyW]
  | w :: ws, F, hfr, hnd => by
    rw [show applyW F (w :: ws) = applyW (replaceFile F w.1 w.2) ws from rfl,
      replaceFile_of_none w.1 w.2 F (hfr w (by simp))]
    rw [List.map_cons, List.nodup_cons] at hnd
    have hfr' : ∀ v ∈ ws, lookupL (F ++ [(w.1, w.2)]) v.1 = none := by
      intro v hv
      rw [lookupL_append, hfr v (by simp [hv])]
      have hvw : v.1 ≠ w.1 := fun he =>
        hnd.1 (he ▸ List.mem_map_of_mem Prod.fst hv)
      rw [lookupL, if_neg (by simpa using hvw.symm)]
      rfl
    rw [applyW_fresh ws (F ++ [(w.1, w.2)]) hfr' hnd.2, List.append_assoc]
    rfl

theorem applyW_nil_nodup (ws : List (Path × FileContent))
    (h : (ws.map Prod.fst).Nodup) : applyW [] ws = ws :=
  applyW_fresh ws [] (fun _ _ => rfl) h

theorem key_mem_replaceFile (p : Path) (c : FileContent) (q : Path) :
    ∀ (F : List (Path × FileContent)),
      (q ∈ (replaceFile F p c).map Prod.fst ↔ q ∈ F.map Prod.fst ∨ q = p)
  | [] => by simp [replaceFile]
  | f :: F => by
    rw [replaceFile]
    by_cases hf : f.1 = p
    · rw [if_pos hf]
      subst hf
      simp only [List.map_cons, List.mem_cons]
      tauto
    · rw [if_neg hf]
      simp only [List.map_cons, List.mem_cons, key_mem_replaceFile p c q F]
      tauto

theorem key_mem_applyW (q : Path) :
    ∀ (ws F : List (Path × FileContent)),
      (q ∈ (applyW F ws).map Prod.fst ↔ q ∈ F.map Prod.fst ∨ q ∈ ws.map Prod.fst)
  | [], F => by simp [applyW]
  | w :: ws, F => by
    rw [show applyW F (w :: ws) = applyW (replaceFile F w.1 w.2) ws from rfl]
    rw [key_mem_applyW q ws (replaceFile F w.1 w.2), key_mem_replaceFile]
    simp only [List.map_cons, List.mem_cons]
    tauto

/-! ### Prefixes, directory membership, child names -/

theorem mem_pathPrefixes : ∀ (t q : Path), q ∈ pathPrefixes t ↔ q <+: t
  | [], q => by
    rw [pathPrefixes]
    simp only [List.mem_singleton]
    constructor
    · rintro rfl; exact List.nil_prefix
    · intro h; exact List.prefix_nil.mp h
  | x :: t, q => by
    rw [pathPrefixes]
    simp only [List.mem_cons, List.mem_map]
    rw [List.prefix_cons_iff]
    constructor
    · rintro (rfl | ⟨q', hq', rfl⟩)
      · exact Or.inl rfl
      · exact Or.inr ⟨q', rfl, (mem_pathPrefixes t q').mp hq'⟩
    · rintro (rfl | ⟨q', rfl, hpre⟩)
      · exact Or.inl rfl
      · exact Or.inr ⟨q', (mem_pathPrefixes t q').mpr hpre, rfl⟩

theorem mem_dirs_iff {fs : FS} {ts : List Path} (hd : fs.dirs = applyDirs [] ts)
    (q : Path) : q ∈ fs.dirs ↔ ∃ t ∈ ts, q <+: t := by
  rw [hd, mem_applyDirs]
  simp only [List.not_mem_nil, false_or]
  constructor
  · rintro ⟨t, ht, hq⟩
    exact ⟨t, ht, (mem_pathPrefixes t q).mp hq⟩
  · rintro ⟨t, ht, hq⟩
    exact ⟨t, ht, (mem_pathPrefixes t q).mpr hq⟩

theorem isDir_iff {fs : FS} {ts : List Path} (hd : fs.dirs = applyDirs [] ts)
    (q : Path) :
    fs.isDir q = true ↔
      (∃ t ∈ ts, q <+: t) ∨ ∃ f ∈ fs.files, q <+: f.1 ∧ q ≠ f.1 := by
  rw [FS.isDir]
  simp only [Bool.or_eq_true, List.any_eq_true, Bool.and_eq_true,
    List.isPrefixOf_iff_prefix, bne_iff_ne, List.elem_iff]
  constructor
  · rintro ((hq | ⟨f, hf, hpre, hne⟩) | ⟨d, hdm, hpre, hne⟩)
    · exact Or.inl ((mem_dirs_iff hd q).mp hq)
    · exact Or.inr ⟨f, hf, hpre, hne⟩
    · obtain ⟨t, ht, hdt⟩ := (mem_dirs_iff hd d).mp hdm
      exact Or.inl ⟨t, ht, hpre.trans hdt⟩
  · rintro (⟨t, ht, hq⟩ | ⟨f, hf, hpre, hne⟩)
    · exact Or.inl (Or.inl ((mem_dirs_iff hd q).mpr ⟨t, ht, hq⟩))
    · exact Or.inl (Or.inr ⟨f, hf, hpre, hne⟩)

theorem childNameOf_eq_some (p q : Path) (x : String) :
    childNameOf p q = some x ↔ p ++ [x] <+: q := by
  rw [childNameOf]
  by_cases hpre : p.isPrefixOf q = true
  · rw [if_pos hpre]
    obtain ⟨r, rfl⟩ : ∃ r, q = p ++ r := by
      obtain ⟨r, hr⟩ := List.isPrefixOf_iff_prefix.mp hpre
      exact ⟨r, hr.symm⟩
    rw [List.drop_left]
    cases r with
    | nil =>
      simp only [List.prefix_append_right_inj]
      constructor
      · intro h; cases h
      · intro h; exact absurd (List.prefix_nil.mp h) (by simp)
    | cons y r =>
      simp only [List.prefix_append_right_inj, Option.some.injEq]
      rw [List.prefix_cons_iff]
      constructor
      · rintro rfl
        exact Or.inr ⟨[], rfl, List.nil_prefix⟩
      · rintro (h | ⟨t, ht, _⟩)
        · cases h
        · exact (List.cons.injEq _ _ _ _ ▸ ht).1.symm ▸ rfl
  · rw [if_neg hpre]
    constructor
    · intro h; cases h
    · intro h
      exact absurd (List.isPrefixOf_iff_prefix.mpr
        ((List.prefix_append p [x]).trans h)) hpre

theorem mem_childNames {fs : FS} {ts : List Path} (hd : fs.dirs = applyDirs [] ts)
    (p : Path) (x : String) :
    x ∈ fs.childNames p ↔
      (∃ t ∈ ts, p ++ [x] <+: t) ∨ ∃ f ∈ fs.files, p ++ [x] <+: f.1 := by
  rw [FS.childNames, mem_sortDedup, List.mem_filterMap]
  constructor
  · rintro ⟨q, hq, hcn⟩
    rw [childNameOf_eq_some] at hcn
    rcases List.mem_append.mp hq with hq | hq
    · obtain ⟨t, ht, hqt⟩ := (mem_dirs_iff hd q).mp hq
      exact Or.inl ⟨t, ht, hcn.trans hqt⟩
    · obtain ⟨f, hf, rfl⟩ := List.mem_map.mp hq
      exact Or.inr ⟨f, hf, hcn⟩
  · rintro (⟨t, ht, hx⟩ | ⟨f, hf, hx⟩)
    · refine ⟨p ++ [x], List.mem_append.mpr (Or.inl ?_), ?_⟩
      · exact (mem_dirs_iff hd _).mpr ⟨t, ht, hx⟩
      · rw [childNameOf_eq_some]
    · exact ⟨f.1, List.mem_append.mpr (Or.inr (List.mem_map_of_mem Prod.fst hf)),
        (childNameOf_eq_some p f.1 x).mpr hx⟩

theorem cancel_append_ne {root : Path} {x y : List String} (h : x ≠ y) :
    root ++ x ≠ root ++ y := fun he => h (List.append_cancel_left he)

theorem not_prefix_cons_ne {root : Path} {S T : String} {r q : List String}
    (hST : S ≠ T) : ¬ (root ++ S :: r <+: root ++ T :: q) := fun h =>
  hST (List.cons_prefix_cons.mp ((List.prefix_append_right_inj root).mp h)).1

/-! ### Every section plan stays below its own section directory -/

theorem secShape_npre {root : Path} {S T : String} {q t : Path}
    (ht : secShape root T t) (hST : S ≠ T) : ¬ root ++ S :: q <+: t := by
  rcases ht with rfl | ⟨r, rfl⟩
  · intro h
    have := h.length_le
    simp only [List.length_append, List.length_cons] at this
    omega
  · exact not_prefix_cons_ne hST

theorem secShape_ne {root : Path} {S T : String} {q t : Path}
    (ht : secShape root T t) (hST : S ≠ T) : root ++ S :: q ≠ t := by
  intro he
  exact @secShape_npre root S T q t ht hST (by rw [← he])

theorem secretsPlan_shape (root : Path) (s : Option SecretsStructure) :
    (∀ f ∈ (secretsPlan root s).wfiles, ∃ r, f.1 = root ++ NameSecrets :: r) ∧
    (∀ t ∈ (secretsPlan root s).wdirs, secShape root NameSecrets t) := by
  cases s with
  | none => exact ⟨by simp [secretsPlan], by simp [secretsPlan]⟩
  | some s =>
    constructor
    · intro f hf
      simp only [secretsPlan, List.mem_singleton] at hf
      subst hf
      exact ⟨[FileConfig], rfl⟩
    · intro t ht
      simp only [secretsPlan, List.mem_singleton] at ht
      subst ht
      exact Or.inr ⟨[], rfl⟩

theorem environmentsPlan_shape (root : Path) (envs : Option (List (String × GoMap))) :
    (∀ f ∈ (environmentsPlan root envs).wfiles, ∃ r, f.1 = root ++ NameEnvironments :: r) ∧
    (∀ t ∈ (environmentsPlan root envs).wdirs, secShape root NameEnvironments t) := by
  cases envs with
  | none => exact ⟨by simp [environmentsPlan], by simp [environmentsPlan]⟩
  | some l =>
    constructor
    · intro f hf
      simp only [environmentsPlan, List.mem_map] at hf
      obtain ⟨kv, _, rfl⟩ := hf
      exact ⟨[kv.1], rfl⟩
    · intro t ht
      simp only [environmentsPlan, List.mem_cons, List.mem_map] at ht
      rcases ht with rfl | ⟨kv, _, rfl⟩
      · exact Or.inr ⟨[], rfl⟩
      · exact Or.inr ⟨[], rfl⟩

theorem valuesPlan_shape (root : Path) (vals : List GoMap) :
    (∀ f ∈ (valuesPlan root vals).wfiles, ∃ r, f.1 = root ++ NameValues :: r) ∧
    (∀ t ∈ (valuesPlan root vals).wdirs, secShape root NameValues t) := by
  constructor
  · intro f hf
    simp only [valuesPlan, List.mem_map] at hf
    obtain ⟨v, _, rfl⟩ := hf
    exact ⟨[nameOf v ++ ".json"], by simp⟩
  · intro t ht
    simp only [valuesPlan, List.mem_cons, List.mem_map] at ht
    rcases ht with rfl | ⟨v, _, rfl⟩
    · exact Or.inr ⟨[], rfl⟩
    · exact Or.inr ⟨[], rfl⟩

theorem triggersPlan_shape (root : Path) (trs : List GoMap) :
    (∀ f ∈ (triggersPlan root trs).wfiles, ∃ r, f.1 = root ++ NameTriggers :: r) ∧
    (∀ t ∈ (triggersPlan root trs).wdirs, secShape root NameTriggers t) := by
  constructor
  · intro f hf
    simp only [triggersPlan, List.mem_map] at hf
    obtain ⟨v, _, rfl⟩ := hf
    exact ⟨[nameOf v ++ ".json"], by simp⟩
  · intro t ht
    simp only [triggersPlan, List.mem_cons, List.mem_map] at ht
    rcases ht with rfl | ⟨v, _, rfl⟩
    · exact Or.inr ⟨[], rfl⟩
    · exact Or.inr ⟨[], rfl⟩

theorem graphqlPlan_shape (root : Path) (g : GraphQLStructure) :
    (∀ f ∈ (graphqlPlan root g).wfiles, ∃ r, f.1 = root ++ NameGraphQL :: r) ∧
    (∀ t ∈ (graphqlPlan root g).wdirs, secShape root NameGraphQL t) := by
  constructor
  · intro f hf
    simp only [graphqlPlan] at hf
    by_cases hg : g.config.isSome = true
    · rw [if_pos hg] at hf
      simp only [List.mem_singleton] at hf
      subst hf
      exact ⟨[FileConfig], by simp⟩
    · rw [if_neg hg] at hf
      cases hf
  · intro t ht
    simp only [graphqlPlan, List.mem_cons] at ht
    rcases ht with rfl | ht
    · exact Or.inr ⟨[], rfl⟩
    · by_cases hg : g.config.isSome = true
      · rw [if_pos hg] at ht
        simp only [List.mem_singleton] at ht
        subst ht
        exact Or.inr ⟨[], rfl⟩
      · rw [if_neg hg] at ht
        cases ht

theorem webhooksPlan_rel (epDir : Path) (whs : List GoMap) :
    (∀ f ∈ (webhooksPlan epDir whs).wfiles, ∃ r, f.1 = epDir ++ r) ∧
    (∀ t ∈ (webhooksPlan epDir whs).wdirs, ∃ r, t = epDir ++ r) := by
  constructor
  · intro f hf
    simp only [webhooksPlan, List.mem_flatMap] at hf
    obtain ⟨wh, _, hm⟩ := hf
    simp only [List.mem_cons, List.mem_singleton] at hm
    rcases hm with rfl | rfl | h
    · exact ⟨[nameOf wh, FileConfig], rfl⟩
    · exact ⟨[nameOf wh, FileSource], rfl⟩
    · cases h
  · intro t ht
    simp only [webhooksPlan, List.mem_flatMap] at ht
    obtain ⟨wh, _, hm⟩ := ht
    simp only [List.mem_cons, List.mem_singleton] at hm
    rcases hm with rfl | rfl | h
    · exact ⟨[nameOf wh], rfl⟩
    · exact ⟨[nameOf wh], rfl⟩
    · cases h

theorem servicesListPlan_rel (dir : Path) :
    ∀ (svcs : List ServiceStructure),
      (∀ f ∈ (servicesListPlan dir svcs).wfiles, ∃ r, f.1 = dir ++ r) ∧
      (∀ t ∈ (servicesListPlan dir svcs).wdirs, ∃ r, t = dir ++ r)
  | [] => ⟨by simp [servicesListPlan], by simp [servicesListPlan]⟩
  | svc :: rest => by
    obtain ⟨ihf, ihd⟩ := servicesListPlan_rel dir rest
    obtain ⟨whf, whd⟩ := webhooksPlan_rel (dir ++ [nameOf svc.config])
      svc.incomingWebhooks
    constructor
    · intro f hf
      simp only [servicesListPlan, wplan_append_wfiles, List.mem_append,
        List.mem_singleton] at hf
      rcases hf with (rfl | hf) | hf
      · exact ⟨[nameOf svc.config, FileConfig], rfl⟩
      · obtain ⟨r, hr⟩ := whf f hf
        exact ⟨[nameOf svc.config] ++ r, by rw [hr, List.append_assoc]⟩
      · exact ihf f hf
    · intro t ht
      simp only [servicesListPlan, wplan_append_wdirs, List.mem_append,
        List.mem_singleton] at ht
      rcases ht with (rfl | ht) | ht
      · exact ⟨[nameOf svc.config], rfl⟩
      · obtain ⟨r, hr⟩ := whd t ht
        exact ⟨[nameOf svc.config] ++ r, by rw [hr, List.append_assoc]⟩
      · exact ihd t ht

theorem servicesPlan_shape (root : Path) (svcs : List ServiceStructure) :
    (∀ f ∈ (servicesPlan root svcs).wfiles, ∃ r, f.1 = root ++ NameServices :: r) ∧
    (∀ t ∈ (servicesPlan root svcs).wdirs, secShape root NameServices t) := by
  obtain ⟨hf, hd⟩ := servicesListPlan_rel (root ++ [NameServices]) svcs
  constructor
  · intro f hfm
    obtain ⟨r, hr⟩ := hf f hfm
    exact ⟨r, by rw [hr]; simp⟩
  · intro t ht
    simp only [servicesPlan, List.mem_cons] at ht
    rcases ht with rfl | ht
    · exact Or.inr ⟨[], rfl⟩
    · obtain ⟨r, hr⟩ := hd t ht
      exact Or.inr ⟨r, by rw [hr]; simp⟩

theorem endpointsListPlan_rel (dir : Path) :
    ∀ (eps : List HTTPEndpointStructure),
      (∀ f ∈ (endpointsListPlan dir eps).wfiles, ∃ r, f.1 = dir ++ r) ∧
      (∀ t ∈ (endpointsListPlan dir eps).wdirs, ∃ r, t = dir ++ r)
  | [] => ⟨by simp [endpointsListPlan], by simp [endpointsListPlan]⟩
  | ep :: rest => by
    obtain ⟨ihf, ihd⟩ := endpointsListPlan_rel dir rest
    obtain ⟨whf, whd⟩ := webhooksPlan_rel (dir ++ [nameOf ep.config])
      ep.incomingWebhooks
    constructor
    · intro f hf
      simp only [endpointsListPlan, wplan_append_wfiles, List.mem_append,
        List.mem_singleton] at hf
      rcases hf with (rfl | hf) | hf
      · exact ⟨[nameOf ep.config, FileConfig], rfl⟩
      · obtain ⟨r, hr⟩ := whf f hf
        exact ⟨[nameOf ep.config] ++ r, by rw [hr, List.append_assoc]⟩
      · exact ihf f hf
    · intro t ht
      simp only [endpointsListPlan, wplan_append_wdirs, List.mem_append,
        List.mem_singleton] at ht
      rcases ht with (rfl | ht) | ht
      · exact ⟨[nameOf ep.config], rfl⟩
      · obtain ⟨r, hr⟩ := whd t ht
        exact ⟨[nameOf ep.config] ++ r, by rw [hr, List.append_assoc]⟩
      · exact ihd t ht

theorem httpEndpointsPlan_shape (root : Path) (eps : List HTTPEndpointStructure) :
    (∀ f ∈ (httpEndpointsPlan root eps).wfiles, ∃ r, f.1 = root ++ NameHTTPEndpoints :: r) ∧
    (∀ t ∈ (httpEndpointsPlan root eps).wdirs, secShape root NameHTTPEndpoints t) := by
  obtain ⟨hf, hd⟩ := endpointsListPlan_rel (root ++ [NameHTTPEndpoints]) eps
  constructor
  · intro f hfm
    obtain ⟨r, hr⟩ := hf f hfm
    exact ⟨r, by rw [hr]; simp⟩
  · intro t ht
    simp only [httpEndpointsPlan, List.mem_cons] at ht
    rcases ht with rfl | ht
    · exact Or.inr ⟨[], rfl⟩
    · obtain ⟨r, hr⟩ := hd t ht
      exact Or.inr ⟨r, by rw [hr]; simp⟩

theorem rulesPlan_rel (dsDir : Path) (rules : List GoMap) :
    (∀ f ∈ (rulesPlan dsDir rules).wfiles, ∃ r, f.1 = dsDir ++ r) ∧
    (∀ t ∈ (rulesPlan dsDir rules).wdirs, ∃ r, t = dsDir ++ r) := by
  constructor
  · intro f hf
    simp only [rulesPlan, List.mem_flatMap] at hf
    obtain ⟨ru, _, hm⟩ := hf
    simp only [List.mem_cons, List.mem_singleton] at hm
    rcases hm with rfl | rfl | h
    · exact ⟨[dbOf ru, collOf ru, FileRules], rfl⟩
    · exact ⟨[dbOf ru, collOf ru, FileSchema], rfl⟩
    · cases h
  · intro t ht
    simp only [rulesPlan, List.mem_flatMap] at ht
    obtain ⟨ru, _, hm⟩ := ht
    simp only [List.mem_cons, List.mem_singleton] at hm
    rcases hm with rfl | rfl | h
    · exact ⟨[dbOf ru, collOf ru], rfl⟩
    · exact ⟨[dbOf ru, collOf ru], rfl⟩
    · cases h

theorem dataSourcesListPlan_rel (dir : Path) :
    ∀ (dss : List DataSourceStructure),
      (∀ f ∈ (dataSourcesListPlan dir dss).wfiles, ∃ r, f.1 = dir ++ r) ∧
      (∀ t ∈ (dataSourcesListPlan dir dss).wdirs, ∃ r, t = dir ++ r)
  | [] => ⟨by simp [dataSourcesListPlan], by simp [dataSourcesListPlan]⟩
  | ds :: rest => by
    obtain ⟨ihf, ihd⟩ := dataSourcesListPlan_rel dir rest
    obtain ⟨ruf, rud⟩ := rulesPlan_rel (dir ++ [nameOf ds.config]) ds.rules
    constructor
    · intro f hf
      simp only [dataSourcesListPlan, wplan_append_wfiles, List.mem_append,
        List.mem_singleton] at hf
      rcases hf with (rfl | hf) | hf
      · exact ⟨[nameOf ds.config, FileConfig], rfl⟩
      · obtain ⟨r, hr⟩ := ruf f hf
        exact ⟨[nameOf ds.config] ++ r, by rw [hr, List.append_assoc]⟩
      · exact ihf f hf
    · intro t ht
      simp only [dataSourcesListPlan, wplan_append_wdirs, List.mem_append,
        List.mem_singleton] at ht
      rcases ht with (rfl | ht) | ht
      · exact ⟨[nameOf ds.config], rfl⟩
      · obtain ⟨r, hr⟩ := rud t ht
        exact ⟨[nameOf ds.config] ++ r, by rw [hr, List.append_assoc]⟩
      · exact ihd t ht

theorem dataSourcesPlan_shape (root : Path) (dss : List DataSourceStructure) :
    (∀ f ∈ (dataSourcesPlan root dss).wfiles, ∃ r, f.1 = root ++ NameDataSources :: r) ∧
    (∀ t ∈ (dataSourcesPlan root dss).wdirs, secShape root NameDataSources t) := by
  obtain ⟨hf, hd⟩ := dataSourcesListPlan_rel (root ++ [NameDataSources]) dss
  constructor
  · intro f hfm
    obtain ⟨r, hr⟩ := hf f hfm
    exact ⟨r, by rw [hr]; simp⟩
  · intro t ht
    simp only [dataSourcesPlan, List.mem_cons] at ht
    rcases ht with rfl | ht
    · exact Or.inr ⟨[], rfl⟩
    · obtain ⟨r, hr⟩ := hd t ht
      exact Or.inr ⟨r, by rw [hr]; simp⟩

theorem functionsPlan_shape (root : Path) (functions : Option FunctionsStructure) :
    (∀ f ∈ (functionsPlan root functions).wfiles, ∃ r, f.1 = root ++ NameFunctions :: r) ∧
    (∀ t ∈ (functionsPlan root functions).wdirs, secShape root NameFunctions t) := by
  constructor
  · intro f hf
    simp only [functionsPlan, List.mem_cons, List.mem_map] at hf
    rcases hf with rfl | ⟨ps, _, rfl⟩
    · exact ⟨[FileConfig], by simp⟩
    · exact ⟨ps.1, by simp⟩
  · intro t ht
    simp only [functionsPlan, List.mem_cons, List.mem_map] at ht
    rcases ht with rfl | ⟨ps, _, rfl⟩
    · exact Or.inr ⟨[], rfl⟩
    · cases hp : ps.1 with
      | nil =>
        rw [List.append_nil]
        exact Or.inl (by rw [List.dropLast_concat])
      | cons y p =>
        rw [List.dropLast_append_of_ne_nil _ (by simp)]
        exact Or.inr ⟨(y :: p).dropLast, by simp⟩

theorem authPlan_shape (root : Path) (auth : Option AuthStructure) :
    (∀ f ∈ (authPlan root auth).wfiles, ∃ r, f.1 = root ++ NameAuth :: r) ∧
    (∀ t ∈ (authPlan root auth).wdirs, secShape root NameAuth t) := by
  cases auth with
  | none => exact ⟨by simp [authPlan], by simp [authPlan]⟩
  | some au =>
    constructor
    · intro f hf
      simp only [authPlan, List.mem_append] at hf
      rcases hf with hf | hf
      · by_cases hc : au.providers.isSome = true
        · rw [if_pos hc] at hf
          simp only [List.mem_singleton] at hf
          subst hf
          exact ⟨[FileProviders], by simp⟩
        · rw [if_neg hc] at hf
          cases hf
      · by_cases hc : au.customUserData.isSome = true
        · rw [if_pos hc] at hf
          simp only [List.mem_singleton] at hf
          subst hf
          exact ⟨[FileCustomUserData], by simp⟩
        · rw [if_neg hc] at hf
          cases hf
    · intro t ht
      simp only [authPlan, List.mem_append] at ht
      rcases ht with ht | ht
      · by_cases hc : au.providers.isSome = true
        · rw [if_pos hc] at ht
          simp only [List.mem_singleton] at ht
          subst ht
          exact Or.inr ⟨[], rfl⟩
        · rw [if_neg hc] at ht
          cases ht
      · by_cases hc : au.customUserData.isSome = true
        · rw [if_pos hc] at ht
          simp only [List.mem_singleton] at ht
          subst ht
          exact Or.inr ⟨[], rfl⟩
        · rw [if_neg hc] at ht
          cases ht

theorem syncPlan_shape (root : Path) (sync : Option SyncStructure) :
    (∀ f ∈ (syncPlan root sync).wfiles, ∃ r, f.1 = root ++ NameSync :: r) ∧
    (∀ t ∈ (syncPlan root sync).wdirs, secShape root NameSync t) := by
  cases sync with
  | none => exact ⟨by simp [syncPlan], by simp [syncPlan]⟩
  | some s =>
    by_cases hc : s.config.isSome = true
    · constructor
      · intro f hf
        simp only [syncPlan, if_pos hc, List.mem_singleton] at hf
        subst hf
        exact ⟨[FileConfig], rfl⟩
      · intro t ht
        simp only [syncPlan, if_pos hc, List.mem_singleton] at ht
        subst ht
        exact Or.inr ⟨[], rfl⟩
    · constructor
      · intro f hf
        simp only [syncPlan, if_neg hc] at hf
        cases hf
      · intro t ht
        simp only [syncPlan, if_neg hc] at ht
        cases ht

/-! ### Which section directories a write materializes (claim C5) -/

theorem mem_fullPlan_wdirs {rootDir : Path} {a : AppStructureV2} {t : Path}
    (ht : t ∈ (fullPlan rootDir a).wdirs) :
    t ∈ (secretsPlan rootDir a.secrets).wdirs ∨
    t ∈ (environmentsPlan rootDir a.environments).wdirs ∨
    t ∈ (valuesPlan rootDir a.values).wdirs ∨
    t ∈ (graphqlPlan rootDir (graphqlArg a)).wdirs ∨
    t ∈ (servicesPlan rootDir a.services).wdirs ∨
    t ∈ (functionsPlan rootDir a.functions).wdirs ∨
    t ∈ (authPlan rootDir a.auth).wdirs ∨
    t ∈ (syncPlan rootDir a.sync).wdirs ∨
    t ∈ (dataSourcesPlan rootDir a.dataSources).wdirs ∨
    t ∈ (httpEndpointsPlan rootDir a.httpEndpoints).wdirs ∨
    t ∈ (triggersPlan rootDir a.triggers).wdirs := by
  simp only [fullPlan, wplan_append_wdirs, List.mem_append] at ht
  tauto

theorem mem_fullPlan_wfiles {rootDir : Path} {a : AppStructureV2}
    {f : Path × FileContent} (hf : f ∈ (fullPlan rootDir a).wfiles) :
    f ∈ (secretsPlan rootDir a.secrets).wfiles ∨
    f ∈ (environmentsPlan rootDir a.environments).wfiles ∨
    f ∈ (valuesPlan rootDir a.values).wfiles ∨
    f ∈ (graphqlPlan rootDir (graphqlArg a)).wfiles ∨
    f ∈ (servicesPlan rootDir a.services).wfiles ∨
    f ∈ (functionsPlan rootDir a.functions).wfiles ∨
    f ∈ (authPlan rootDir a.auth).wfiles ∨
    f ∈ (syncPlan rootDir a.sync).wfiles ∨
    f ∈ (dataSourcesPlan rootDir a.dataSources).wfiles ∨
    f ∈ (httpEndpointsPlan rootDir a.httpEndpoints).wfiles ∨
    f ∈ (triggersPlan rootDir a.triggers).wfiles := by
  simp only [fullPlan, wplan_append_wfiles, List.mem_append] at hf
  tauto

theorem written_isDir_of_mem {rootDir : Path} {a : AppStructureV2} {S : String}
    (h : rootDir ++ [S] ∈ (fullPlan rootDir a).wdirs) :
    (FS.empty.applyPlan (fullPlan rootDir a)).isDir (rootDir ++ [S]) = true :=
  (@isDir_iff (FS.empty.applyPlan (fullPlan rootDir a))
    ((fullPlan rootDir a).wdirs) rfl (rootDir ++ [S])).mpr
    (Or.inl ⟨_, h, List.prefix_rfl⟩)

theorem written_not_isDir {rootDir : Path} {a : AppStructureV2} {S : String}
    (hd : ∀ t ∈ (fullPlan rootDir a).wdirs, ¬ rootDir ++ [S] <+: t)
    (hf : ∀ f ∈ (fullPlan rootDir a).wfiles, ¬ rootDir ++ [S] <+: f.1) :
    (FS.empty.applyPlan (fullPlan rootDir a)).isDir (rootDir ++ [S]) = false := by
  rw [← Bool.not_eq_true, @isDir_iff (FS.empty.applyPlan (fullPlan rootDir a))
    ((fullPlan rootDir a).wdirs) rfl (rootDir ++ [S])]
  rintro (⟨t, ht, hpre⟩ | ⟨f, hfm, hpre, _⟩)
  · exact hd t ht hpre
  · have hp : f.1 ∈ (applyW [] (fullPlan rootDir a).wfiles).map Prod.fst :=
      List.mem_map_of_mem Prod.fst hfm
    rw [key_mem_applyW] at hp
    rcases hp with hp | hp
    · simp at hp
    · obtain ⟨g, hg, hge⟩ := List.mem_map.mp hp
      rw [← hge] at hpre
      exact hf g hg hpre

theorem shape_block {rootDir : Path} {S X : String} {t : Path}
    (h : secShape rootDir X t) (hne : S ≠ X) : ¬ rootDir ++ [S] <+: t :=
  secShape_npre h hne

theorem shape_block_file {rootDir : Path} {S X : String} {f1 : Path}
    (h : ∃ r, f1 = rootDir ++ X :: r) (hne : S ≠ X) :
    ¬ rootDir ++ [S] <+: f1 := by
  obtain ⟨r, rfl⟩ := h
  exact not_prefix_cons_ne hne

theorem secrets_dir_absent (rootDir : Path) (a : AppStructureV2)
    (h : a.secrets = none) :
    (FS.empty.applyPlan (fullPlan rootDir a)).isDir (rootDir ++ [NameSecrets]) = false := by
  refine written_not_isDir ?_ ?_
  · intro t ht
    rcases mem_fullPlan_wdirs ht with h1|h1|h1|h1|h1|h1|h1|h1|h1|h1|h1
    · rw [h] at h1; cases h1
    · exact shape_block ((environmentsPlan_shape rootDir a.environments).2 t h1) (by decide)
    · exact shape_block ((valuesPlan_shape rootDir a.values).2 t h1) (by decide)
    · exact shape_block ((graphqlPlan_shape rootDir (graphqlArg a)).2 t h1) (by decide)
    · exact shape_block ((servicesPlan_shape rootDir a.services).2 t h1) (by decide)
    · exact shape_block ((functionsPlan_shape rootDir a.functions).2 t h1) (by decide)
    · exact shape_block ((authPlan_shape rootDir a.auth).2 t h1) (by decide)
    · exact shape_block ((syncPlan_shape rootDir a.sync).2 t h1) (by decide)
    · exact shape_block ((dataSourcesPlan_shape rootDir a.dataSources).2 t h1) (by decide)
    · exact shape_block ((httpEndpointsPlan_shape rootDir a.httpEndpoints).2 t h1) (by decide)
    · exact shape_block ((triggersPlan_shape rootDir a.triggers).2 t h1) (by decide)
  · intro f hf
    rcases mem_fullPlan_wfiles hf with h1|h1|h1|h1|h1|h1|h1|h1|h1|h1|h1
    · rw [h] at h1; cases h1
    · exact shape_block_file ((environmentsPlan_shape rootDir a.environments).1 f h1) (by decide)
    · exact shape_block_file ((valuesPlan_shape rootDir a.values).1 f h1) (by decide)
    · exact shape_block_file ((graphqlPlan_shape rootDir (graphqlArg a)).1 f h1) (by decide)
    · exact shape_block_file ((servicesPlan_shape rootDir a.services).1 f h1) (by decide)
    · exact shape_block_file ((functionsPlan_shape rootDir a.functions).1 f h1) (by decide)
    · exact shape_block_file ((authPlan_shape rootDir a.auth).1 f h1) (by decide)
    · exact shape_block_file ((syncPlan_shape rootDir a.sync).1 f h1) (by decide)
    · exact shape_block_file ((dataSourcesPlan_shape rootDir a.dataSources).1 f h1) (by decide)
    · exact shape_block_file ((httpEndpointsPlan_shape rootDir a.httpEndpoints).1 f h1) (by decide)
    · exact shape_block_file ((triggersPlan_shape rootDir a.triggers).1 f h1) (by decide)

theorem environments_dir_absent (rootDir : Path) (a : AppStructureV2)
    (h : a.environments = none) :
    (FS.empty.applyPlan (fullPlan rootDir a)).isDir (rootDir ++ [NameEnvironments]) = false := by
  refine written_not_isDir ?_ ?_
  · intro t ht
    rcases mem_fullPlan_wdirs ht with h1|h1|h1|h1|h1|h1|h1|h1|h1|h1|h1
    · exact shape_block ((secretsPlan_shape rootDir a.secrets).2 t h1) (by decide)
    · rw [h] at h1; cases h1
    · exact shape_block ((valuesPlan_shape rootDir a.values).2 t h1) (by decide)
    · exact shape_block ((graphqlPlan_shape rootDir (graphqlArg a)).2 t h1) (by decide)
    · exact shape_block ((servicesPlan_shape rootDir a.services).2 t h1) (by decide)
    · exact shape_block ((functionsPlan_shape rootDir a.functions).2 t h1) (by decide)
    · exact shape_block ((authPlan_shape rootDir a.auth).2 t h1) (by decide)
    · exact shape_block ((syncPlan_shape rootDir a.sync).2 t h1) (by decide)
    · exact shape_block ((dataSourcesPlan_shape rootDir a.dataSources).2 t h1) (by decide)
    · exact shape_block ((httpEndpointsPlan_shape rootDir a.httpEndpoints).2 t h1) (by decide)
    · exact shape_block ((triggersPlan_shape rootDir a.triggers).2 t h1) (by decide)
  · intro f hf
    rcases mem_fullPlan_wfiles hf with h1|h1|h1|h1|h1|h1|h1|h1|h1|h1|h1
    · exact shape_block_file ((secretsPlan_shape rootDir a.secrets).1 f h1) (by decide)
    · rw [h] at h1; cases h1
    · exact shape_block_file ((valuesPlan_shape rootDir a.values).1 f h1) (by decide)
    · exact shape_block_file ((graphqlPlan_shape rootDir (graphqlArg a)).1 f h1) (by decide)
    · exact shape_block_file ((servicesPlan_shape rootDir a.services).1 f h1) (by decide)
    · exact shape_block_file ((functionsPlan_shape rootDir a.functions).1 f h1) (by decide)
    · exact shape_block_file ((authPlan_shape rootDir a.auth).1 f h1) (by decide)
    · exact shape_block_file ((syncPlan_shape rootDir a.sync).1 f h1) (by decide)
    · exact shape_block_file ((dataSourcesPlan_shape rootDir a.dataSources).1 f h1) (by decide)
    · exact shape_block_file ((httpEndpointsPlan_shape rootDir a.httpEndpoints).1 f h1) (by decide)
    · exact shape_block_file ((triggersPlan_shape rootDir a.triggers).1 f h1) (by decide)

theorem sync_dir_absent (rootDir : Path) (a : AppStructureV2)
    (h : (syncPlan rootDir a.sync).wdirs = [] ∧ (syncPlan rootDir a.sync).wfiles = []) :
    (FS.empty.applyPlan (fullPlan rootDir a)).isDir (rootDir ++ [NameSync]) = false := by
  refine written_not_isDir ?_ ?_
  · intro t ht
    rcases mem_fullPlan_wdirs ht with h1|h1|h1|h1|h1|h1|h1|h1|h1|h1|h1
    · exact shape_block ((secretsPlan_shape rootDir a.secrets).2 t h1) (by decide)
    · exact shape_block ((environmentsPlan_shape rootDir a.environments).2 t h1) (by decide)
    · exact shape_block ((valuesPlan_shape rootDir a.values).2 t h1) (by decide)
    · exact shape_block ((graphqlPlan_shape rootDir (graphqlArg a)).2 t h1) (by decide)
    · exact shape_block ((servicesPlan_shape rootDir a.services).2 t h1) (by decide)
    · exact shape_block ((functionsPlan_shape rootDir a.functions).2 t h1) (by decide)
    · exact shape_block ((authPlan_shape rootDir a.auth).2 t h1) (by decide)
    · rw [h.1] at h1; cases h1
    · exact shape_block ((dataSourcesPlan_shape rootDir a.dataSources).2 t h1) (by decide)
    · exact shape_block ((httpEndpointsPlan_shape rootDir a.httpEndpoints).2 t h1) (by decide)
    · exact shape_block ((triggersPlan_shape rootDir a.triggers).2 t h1) (by decide)
  · intro f hf
    rcases mem_fullPlan_wfiles hf with h1|h1|h1|h1|h1|h1|h1|h1|h1|h1|h1
    · exact shape_block_file ((secretsPlan_shape rootDir a.secrets).1 f h1) (by decide)
    · exact shape_block_file ((environmentsPlan_shape rootDir a.environments).1 f h1) (by decide)
    · exact shape_block_file ((valuesPlan_shape rootDir a.values).1 f h1) (by decide)
    · exact shape_block_file ((graphqlPlan_shape rootDir (graphqlArg a)).1 f h1) (by decide)
    · exact shape_block_file ((servicesPlan_shape rootDir a.services).1 f h1) (by decide)
    · exact shape_block_file ((functionsPlan_shape rootDir a.functions).1 f h1) (by decide)
    · exact shape_block_file ((authPlan_shape rootDir a.auth).1 f h1) (by decide)
    · rw [h.2] at h1; cases h1
    · exact shape_block_file ((dataSourcesPlan_shape rootDir a.dataSources).1 f h1) (by decide)
    · exact shape_block_file ((httpEndpointsPlan_shape rootDir a.httpEndpoints).1 f h1) (by decide)
    · exact shape_block_file ((triggersPlan_shape rootDir a.triggers).1 f h1) (by decide)

theorem auth_dir_absent (rootDir : Path) (a : AppStructureV2)
    (h : (authPlan rootDir a.auth).wdirs = [] ∧ (authPlan rootDir a.auth).wfiles = []) :
    (FS.empty.applyPlan (fullPlan rootDir a)).isDir (rootDir ++ [NameAuth]) = false := by
  refine written_not_isDir ?_ ?_
  · intro t ht
    rcases mem_fullPlan_wdirs ht with h1|h1|h1|h1|h1|h1|h1|h1|h1|h1|h1
    · exact shape_block ((secretsPlan_shape rootDir a.secrets).2 t h1) (by decide)
    · exact shape_block ((environmentsPlan_shape rootDir a.environments).2 t h1) (by decide)
    · exact shape_block ((valuesPlan_shape rootDir a.values).2 t h1) (by decide)
    · exact shape_block ((graphqlPlan_shape rootDir (graphqlArg a)).2 t h1) (by decide)
    · exact shape_block ((servicesPlan_shape rootDir a.services).2 t h1) (by decide)
    · exact shape_block ((functionsPlan_shape rootDir a.functions).2 t h1) (by decide)
    · rw [h.1] at h1; cases h1
    · exact shape_block ((syncPlan_shape rootDir a.sync).2 t h1) (by decide)
    · exact shape_block ((dataSourcesPlan_shape rootDir a.dataSources).2 t h1) (by decide)
    · exact shape_block ((httpEndpointsPlan_shape rootDir a.httpEndpoints).2 t h1) (by decide)
    · exact shape_block ((triggersPlan_shape rootDir a.triggers).2 t h1) (by decide)
  · intro f hf
    rcases mem_fullPlan_wfiles hf with h1|h1|h1|h1|h1|h1|h1|h1|h1|h1|h1
    · exact shape_block_file ((secretsPlan_shape rootDir a.secrets).1 f h1) (by decide)
    · exact shape_block_file ((environmentsPlan_shape rootDir a.environments).1 f h1) (by decide)
    · exact shape_block_file ((valuesPlan_shape rootDir a.values).1 f h1) (by decide)
    · exact shape_block_file ((graphqlPlan_shape rootDir (graphqlArg a)).1 f h1) (by decide)
    · exact shape_block_file ((servicesPlan_shape rootDir a.services).1 f h1) (by decide)
    · exact shape_block_file ((functionsPlan_shape rootDir a.functions).1 f h1) (by decide)
    · rw [h.2] at h1; cases h1
    · exact shape_block_file ((syncPlan_shape rootDir a.sync).1 f h1) (by decide)
    · exact shape_block_file ((dataSourcesPlan_shape rootDir a.dataSources).1 f h1) (by decide)
    · exact shape_block_file ((httpEndpointsPlan_shape rootDir a.httpEndpoints).1 f h1) (by decide)
    · exact shape_block_file ((triggersPlan_shape rootDir a.triggers).1 f h1) (by decide)

theorem written_dirs (rootDir : Path) (a : AppStructureV2) :
    (FS.empty.applyPlan (fullPlan rootDir a)).isDir (rootDir ++ [NameValues]) = true ∧
    (FS.empty.applyPlan (fullPlan rootDir a)).isDir (rootDir ++ [NameTriggers]) = true ∧
    (FS.empty.applyPlan (fullPlan rootDir a)).isDir (rootDir ++ [NameGraphQL]) = true ∧
    (FS.empty.applyPlan (fullPlan rootDir a)).isDir (rootDir ++ [NameServices]) = true ∧
    (FS.empty.applyPlan (fullPlan rootDir a)).isDir (rootDir ++ [NameFunctions]) = true ∧
    (FS.empty.applyPlan (fullPlan rootDir a)).isDir (rootDir ++ [NameDataSources]) = true ∧
    (FS.empty.applyPlan (fullPlan rootDir a)).isDir (rootDir ++ [NameHTTPEndpoints]) = true ∧
    (FS.empty.applyPlan (fullPlan rootDir a)).isDir (rootDir ++ [NameEnvironments]) =
      a.environments.isSome ∧
    (FS.empty.applyPlan (fullPlan rootDir a)).isDir (rootDir ++ [NameSecrets]) =
      a.secrets.isSome ∧
    (FS.empty.applyPlan (fullPlan rootDir a)).isDir (rootDir ++ [NameSync]) =
      (match a.sync with | none => false | some s => s.config.isSome) ∧
    (FS.empty.applyPlan (fullPlan rootDir a)).isDir (rootDir ++ [NameAuth]) =
      (match a.auth with
       | none => false
       | some au => au.providers.isSome || au.customUserData.isSome) := by
  refine ⟨?_, ?_, ?_, ?_, ?_, ?_, ?_, ?_, ?_, ?_, ?_⟩
  · refine written_isDir_of_mem ?_
    have hx : rootDir ++ [NameValues] ∈ (valuesPlan rootDir a.values).wdirs :=
      List.mem_cons_self _ _
    simp only [fullPlan, wplan_append_wdirs, List.mem_append]
    tauto
  · refine written_isDir_of_mem ?_
    have hx : rootDir ++ [NameTriggers] ∈ (triggersPlan rootDir a.triggers).wdirs :=
      List.mem_cons_self _ _
    simp only [fullPlan, wplan_append_wdirs, List.mem_append]
    tauto
  · refine written_isDir_of_mem ?_
    have hx : rootDir ++ [NameGraphQL] ∈ (graphqlPlan rootDir (graphqlArg a)).wdirs :=
      List.mem_cons_self _ _
    simp only [fullPlan, wplan_append_wdirs, List.mem_append]
    tauto
  · refine written_isDir_of_mem ?_
    have hx : rootDir ++ [NameServices] ∈ (servicesPlan rootDir a.services).wdirs :=
      List.mem_cons_self _ _
    simp only [fullPlan, wplan_append_wdirs, List.mem_append]
    tauto
  · refine written_isDir_of_mem ?_
    have hx : rootDir ++ [NameFunctions] ∈ (functionsPlan rootDir a.functions).wdirs :=
      List.mem_cons_self _ _
    simp only [fullPlan, wplan_append_wdirs, List.mem_append]
    tauto
  · refine written_isDir_of_mem ?_
    have hx : rootDir ++ [NameDataSources] ∈ (dataSourcesPlan rootDir a.dataSources).wdirs :=
      List.mem_cons_self _ _
    simp only [fullPlan, wplan_append_wdirs, List.mem_append]
    tauto
  · refine written_isDir_of_mem ?_
    have hx : rootDir ++ [NameHTTPEndpoints] ∈
        (httpEndpointsPlan rootDir a.httpEndpoints).wdirs :=
      List.mem_cons_self _ _
    simp only [fullPlan, wplan_append_wdirs, List.mem_append]
    tauto
  · cases henv : a.environments with
    | none =>
      rw [environments_dir_absent rootDir a henv]
      rfl
    | some l =>
      rw [show (some l).isSome = true from rfl]
      refine written_isDir_of_mem ?_
      have hx : rootDir ++ [NameEnvironments] ∈
          (environmentsPlan rootDir a.environments).wdirs := by
        rw [henv]
        exact List.mem_cons_self _ _
      simp only [fullPlan, wplan_append_wdirs, List.mem_append]
      tauto
  · cases hsec : a.secrets with
    | none =>
      rw [secrets_dir_absent rootDir a hsec]
      rfl
    | some s =>
      rw [show (some s).isSome = true from rfl]
      refine written_isDir_of_mem ?_
      have hx : rootDir ++ [NameSecrets] ∈ (secretsPlan rootDir a.secrets).wdirs := by
        rw [hsec]
        exact List.mem_singleton.mpr rfl
      simp only [fullPlan, wplan_append_wdirs, List.mem_append]
      tauto
  · cases hsy : a.sync with
    | none =>
      rw [sync_dir_absent rootDir a (by rw [hsy]; exact ⟨rfl, rfl⟩)]
    | some s =>
      cases hc : s.config with
      | none =>
        rw [sync_dir_absent rootDir a
          (by rw [hsy]; simp [syncPlan, hc])]
        simp [hc]
      | some d =>
        simp only [hc, Option.isSome_some]
        refine written_isDir_of_mem ?_
        have hx : rootDir ++ [NameSync] ∈ (syncPlan rootDir a.sync).wdirs := by
          rw [hsy]
          simp [syncPlan, hc]
        simp only [fullPlan, wplan_append_wdirs, List.mem_append]
        tauto
  · cases hau : a.auth with
    | none =>
      rw [auth_dir_absent rootDir a (by rw [hau]; exact ⟨rfl, rfl⟩)]
    | some au =>
      cases hp : au.providers with
      | some d =>
        simp only [hp, Option.isSome_some, Bool.true_or]
        refine written_isDir_of_mem ?_
        have hx : rootDir ++ [NameAuth] ∈ (authPlan rootDir a.auth).wdirs := by
          rw [hau]
          simp [authPlan, hp]
        simp only [fullPlan, wplan_append_wdirs, List.mem_append]
        tauto
      | none =>
        cases hcu : au.customUserData with
        | some d =>
          simp only [hp, hcu, Option.isSome_some, Option.isSome_none, Bool.false_or]
          refine written_isDir_of_mem ?_
          have hx : rootDir ++ [NameAuth] ∈ (authPlan rootDir a.auth).wdirs := by
            rw [hau]
            simp [authPlan, hp, hcu]
          simp only [fullPlan, wplan_append_wdirs, List.mem_append]
          tauto
        | none =>
          rw [auth_dir_absent rootDir a
            (by rw [hau]; simp [authPlan, hp, hcu])]
          simp [hp, hcu]

/-- **C5** (corrected): writing into an empty tree materializes the
directories of the collection-typed sections (values, triggers, graphql,
services, functions, data sources, HTTP endpoints) unconditionally — for
functions and graphql even when the section is nil.  The environments
section follows the claimed rule exactly: a nil (absent) environments map
is skipped with no directory, while a present one — even with zero
entries — has its directory created.  The remaining sections deviate: the
secrets directory appears only for a present section, the sync directory
only for a present section with a non-nil config, and the auth directory
only for a present section with at least one non-nil document. -/
theorem c5_section_dirs (rootDir : Path) (a : AppStructureV2) (fs' : FS)
    (h : AppDataV2.WriteData rootDir a FS.empty = .ok fs') :
    fs'.isDir (rootDir ++ [NameValues]) = true ∧
    fs'.isDir (rootDir ++ [NameTriggers]) = true ∧
    fs'.isDir (rootDir ++ [NameGraphQL]) = true ∧
    fs'.isDir (rootDir ++ [NameServices]) = true ∧
    fs'.isDir (rootDir ++ [NameFunctions]) = true ∧
    fs'.isDir (rootDir ++ [NameDataSources]) = true ∧
    fs'.isDir (rootDir ++ [NameHTTPEndpoints]) = true ∧
    fs'.isDir (rootDir ++ [NameEnvironments]) = a.environments.isSome ∧
    fs'.isDir (rootDir ++ [NameSecrets]) = a.secrets.isSome ∧
    fs'.isDir (rootDir ++ [NameSync]) =
      (match a.sync with | none => false | some s => s.config.isSome) ∧
    fs'.isDir (rootDir ++ [NameAuth]) =
      (match a.auth with
       | none => false
       | some au => au.providers.isSome || au.customUserData.isSome) := by
  have hok := writeData_ok rootDir a FS.empty fs' h
  rw [writeData_plan rootDir a FS.empty hok] at h
  obtain rfl := Except.ok.inj h
  exact written_dirs rootDir a

/-- Witness for C5 at a concrete model and root: a present sync section
with a nil config and nil secrets/auth get no directory, the
present-but-empty environments section gets its directory with zero
children, and all seven collection-typed section directories exist. -/
theorem c5_witness :
    AppDataV2.WriteData ["app"] c5Model FS.empty = .ok c5FSw ∧
    (c5FSw.isDir (["app"] ++ [NameValues]) = true ∧
     c5FSw.isDir (["app"] ++ [NameTriggers]) = true ∧
     c5FSw.isDir (["app"] ++ [NameGraphQL]) = true ∧
     c5FSw.isDir (["app"] ++ [NameServices]) = true ∧
     c5FSw.isDir (["app"] ++ [NameFunctions]) = true ∧
     c5FSw.isDir (["app"] ++ [NameDataSources]) = true ∧
     c5FSw.isDir (["app"] ++ [NameHTTPEndpoints]) = true ∧
     c5FSw.isDir (["app"] ++ [NameEnvironments]) = c5Model.environments.isSome ∧
     c5FSw.isDir (["app"] ++ [NameSecrets]) = c5Model.secrets.isSome ∧
     c5FSw.isDir (["app"] ++ [NameSync]) =
       (match c5Model.sync with | none => false | some s => s.config.isSome) ∧
     c5FSw.isDir (["app"] ++ [NameAuth]) =
       (match c5Model.auth with
        | none => false
        | some au => au.providers.isSome || au.customUserData.isSome)) :=
  ⟨by decide, c5_section_dirs ["app"] c5Model c5FSw (by decide)⟩

/-! ### The single-pass plan writes each path at most once (claim C1) -/

theorem pairwiseB_impl {α : Type} {lt1 lt2 : α → α → Bool}
    (h : ∀ x y, lt1 x y = true → lt2 x y = true) :
    ∀ (l : List α), pairwiseB lt1 l = true → pairwiseB lt2 l = true
  | [], _ => rfl
  | x :: l, hp => by
    obtain ⟨hx, hl⟩ := (pairwiseB_cons_iff lt1 x l).mp hp
    exact (pairwiseB_cons_iff lt2 x l).mpr
      ⟨fun y hy => h x y (hx y hy), pairwiseB_impl h l hl⟩

theorem pathLt_pair {S a b : String} (h : strLt a b = true) :
    pathLt [S, a] [S, b] = true := by
  simp [pathLt, strLt_irrefl, h]

theorem wf_parts {a : AppStructureV2} (h : wfModel a = true) :
    (match a.secrets with | none => true | some s => wfGoMapB s.config) = true ∧
    (a.environments.getD []).all (fun kv => strEndsWith kv.1 ".json" && wfGoMapB kv.2) = true ∧
    pairwiseB (fun x y => strLt x.1 y.1) (a.environments.getD []) = true ∧
    wfNamedB a.values = true ∧
    wfNamedB a.triggers = true ∧
    (match a.auth with
     | none => true
     | some au => (au.providers.isSome || au.customUserData.isSome)
         && wfGoMapB au.providers && wfGoMapB au.customUserData) = true ∧
    (match a.sync with
     | none => true
     | some s => s.config.isSome && wfGoMapB s.config) = true ∧
    (match a.functions with
     | none => false
     | some f => f.configs.all wfGoMapB
         && f.sources.all (fun ps => jsFileName ps.1)
         && pairwiseB (fun x y => pathLt x.1 y.1) f.sources) = true ∧
    (match a.graphql with
     | none => false
     | some g => wfGoMapB g.config) = true ∧
    a.services.all (fun svc => wfEndpointB svc.config svc.incomingWebhooks) = true ∧
    pairwiseB (fun x y => strLt (nameOf x.config) (nameOf y.config)) a.services = true ∧
    a.httpEndpoints.all (fun ep => wfEndpointB ep.config ep.incomingWebhooks) = true ∧
    pairwiseB (fun x y => strLt (nameOf x.config) (nameOf y.config)) a.httpEndpoints = true ∧
    a.dataSources.all wfDataSourceB = true ∧
    pairwiseB (fun x y => strLt (nameOf x.config) (nameOf y.config)) a.dataSources = true ∧
    a.services.all (fun svc => svc.incomingWebhooks.all
      (fun wh => decide (nameOf wh ≠ FileConfig))) = true ∧
    a.httpEndpoints.all (fun ep => ep.incomingWebhooks.all
      (fun wh => decide (nameOf wh ≠ FileConfig))) = true ∧
    a.dataSources.all (fun ds => ds.rules.all
      (fun r => decide (dbOf r ≠ FileConfig))) = true := by
  simp only [wfModel, Bool.and_eq_true, and_assoc] at h
  exact h

theorem wfEndpoint_parts {cfg : GoMap} {whs : List GoMap}
    (h : wfEndpointB cfg whs = true) :
    (goIndexStr cfg "name").isSome = true ∧ wfGoMapB cfg = true ∧
    whs.all wfWebhookB = true ∧
    pairwiseB (fun x y => strLt (nameOf x) (nameOf y)) whs = true := by
  simp only [wfEndpointB, Bool.and_eq_true, and_assoc] at h
  exact h

theorem wfDataSource_parts {ds : DataSourceStructure} (h : wfDataSourceB ds = true) :
    (goIndexStr ds.config "name").isSome = true ∧ wfGoMapB ds.config = true ∧
    ds.rules.all wfRuleB = true ∧ pairwiseB ruleLt ds.rules = true := by
  simp only [wfDataSourceB, Bool.and_eq_true, and_assoc] at h
  exact h

theorem wfNamed_parts {sec : List GoMap} (h : wfNamedB sec = true) :
    sec.all (fun v => (goIndexStr v "name").isSome && wfGoMapB v) = true ∧
    pairwiseB (fun x y => strLt (valueFileName x) (valueFileName y)) sec = true := by
  simp only [wfNamedB, Bool.and_eq_true, and_assoc] at h
  exact h

/-- Key lists of heterogeneous segments with distinct head components are
duplicate-free. -/
theorem nodup_keys_join :
    ∀ (segs : List (String × List (Path × FileContent))),
      (segs.map Prod.fst).Nodup →
      (∀ s ∈ segs, ∀ f ∈ s.2, ∃ r, f.1 = s.1 :: r) →
      (∀ s ∈ segs, (s.2.map Prod.fst).Nodup) →
      (((segs.map Prod.snd).flatten).map Prod.fst).Nodup
  | [], _, _, _ => by simp
  | s :: segs, hnd, hshape, hsnd => by
    simp only [List.map_cons, List.flatten_cons, List.map_append]
    rw [List.nodup_append]
    rw [List.map_cons, List.nodup_cons] at hnd
    refine ⟨hsnd s (by simp),
      nodup_keys_join segs hnd.2 (fun t ht f hf => hshape t (by simp [ht]) f hf)
        (fun t ht => hsnd t (by simp [ht])), ?_⟩
    intro p hp hq
    obtain ⟨f, hf, rfl⟩ := List.mem_map.mp hp
    obtain ⟨r, hr⟩ := hshape s (by simp) f hf
    obtain ⟨g, hg, hge⟩ := List.mem_map.mp hq
    obtain ⟨l, hl, hgl⟩ := List.mem_flatten.mp hg
    obtain ⟨t, ht, rfl⟩ := List.mem_map.mp hl
    obtain ⟨r2, hr2⟩ := hshape t (by simp [ht]) g hgl
    apply hnd.1
    have hst : s.1 = t.1 := by
      rw [hr] at hge
      rw [hr2] at hge
      injection hge with h1 h2
      exact h1.symm
    rw [hst]
    exact List.mem_map_of_mem Prod.fst ht

theorem webhooksPlan_byname (epDir : Path) (whs : List GoMap) :
    ∀ f ∈ (webhooksPlan epDir whs).wfiles,
      ∃ wh ∈ whs, ∃ x, f.1 = epDir ++ [nameOf wh, x] := by
  intro f hf
  simp only [webhooksPlan, List.mem_flatMap] at hf
  obtain ⟨wh, hm, hm2⟩ := hf
  simp only [List.mem_cons, List.mem_singleton] at hm2
  rcases hm2 with rfl | rfl | h
  · exact ⟨wh, hm, FileConfig, rfl⟩
  · exact ⟨wh, hm, FileSource, rfl⟩
  · cases h

theorem webhooksPlan_keys_nodup (epDir : Path) :
    ∀ (whs : List GoMap),
      pairwiseB (fun x y => strLt (nameOf x) (nameOf y)) whs = true →
      ((webhooksPlan epDir whs).wfiles.map Prod.fst).Nodup
  | [], _ => by simp [webhooksPlan]
  | wh :: whs, hsort => by
    obtain ⟨hlt, hrest⟩ :=
      (pairwiseB_cons_iff (fun x y => strLt (nameOf x) (nameOf y)) wh whs).mp hsort
    have hne : ∀ f ∈ (webhooksPlan epDir whs).wfiles,
        ∀ x, f.1 ≠ epDir ++ [nameOf wh, x] := by
      intro f hf x he
      obtain ⟨wh', hm', y, hy⟩ := webhooksPlan_byname epDir whs f hf
      rw [hy] at he
      have := List.append_cancel_left he
      have hn : nameOf wh' = nameOf wh := by
        simpa using (List.cons.injEq _ _ _ _ ▸ this).1
      exact strLt_ne (hlt wh' hm') hn.symm
    show ((webhooksPlan epDir (wh :: whs)).wfiles.map Prod.fst).Nodup
    simp only [webhooksPlan, List.flatMap_cons, List.map_append, List.map_cons,
      List.map_nil, List.append_eq, List.cons_append, List.nil_append]
    refine List.nodup_cons.mpr ⟨?_, List.nodup_cons.mpr ⟨?_, ?_⟩⟩
    · intro hmem
      rcases List.mem_cons.mp hmem with he | hmem
      · have := List.append_cancel_left he
        simp [FileConfig, FileSource] at this
      · obtain ⟨g, hg, hge⟩ := List.mem_map.mp hmem
        exact hne g hg FileConfig hge
    · intro hmem
      obtain ⟨g, hg, hge⟩ := List.mem_map.mp hmem
      exact hne g hg FileSource hge
    · exact webhooksPlan_keys_nodup epDir whs hrest

theorem rulesPlan_byname (dsDir : Path) (rules : List GoMap) :
    ∀ f ∈ (rulesPlan dsDir rules).wfiles,
      ∃ ru ∈ rules, ∃ x, f.1 = dsDir ++ [dbOf ru, collOf ru, x] := by
  intro f hf
  simp only [rulesPlan, List.mem_flatMap] at hf
  obtain ⟨ru, hm, hm2⟩ := hf
  simp only [List.mem_cons, List.mem_singleton] at hm2
  rcases hm2 with rfl | rfl | h
  · exact ⟨ru, hm, FileRules, rfl⟩
  · exact ⟨ru, hm, FileSchema, rfl⟩
  · cases h

theorem rulesPlan_keys_nodup (dsDir : Path) :
    ∀ (rules : List GoMap), pairwiseB ruleLt rules = true →
      ((rulesPlan dsDir rules).wfiles.map Prod.fst).Nodup
  | [], _ => by simp [rulesPlan]
  | ru :: rules, hsort => by
    obtain ⟨hlt, hrest⟩ := (pairwiseB_cons_iff ruleLt ru rules).mp hsort
    have hne : ∀ f ∈ (rulesPlan dsDir rules).wfiles,
        ∀ x, f.1 ≠ dsDir ++ [dbOf ru, collOf ru, x] := by
      intro f hf x he
      obtain ⟨ru', hm', y, hy⟩ := rulesPlan_byname dsDir rules f hf
      rw [hy] at he
      have h2 := List.append_cancel_left he
      simp only [List.cons.injEq, and_true] at h2
      exact ruleLt_key_ne (hlt ru' hm') ⟨h2.1.symm, h2.2.1.symm⟩
    show ((rulesPlan dsDir (ru :: rules)).wfiles.map Prod.fst).Nodup
    simp only [rulesPlan, List.flatMap_cons, List.map_append, List.map_cons,
      List.map_nil, List.append_eq, List.cons_append, List.nil_append]
    refine List.nodup_cons.mpr ⟨?_, List.nodup_cons.mpr ⟨?_, ?_⟩⟩
    · intro hmem
      rcases List.mem_cons.mp hmem with he | hmem
      · have := List.append_cancel_left he
        simp [FileRules, FileSchema] at this
      · obtain ⟨g, hg, hge⟩ := List.mem_map.mp hmem
        exact hne g hg FileRules hge
    · intro hmem
      obtain ⟨g, hg, hge⟩ := List.mem_map.mp hmem
      exact hne g hg FileSchema hge
    · exact rulesPlan_keys_nodup dsDir rules hrest

theorem servicesListPlan_byname (dir : Path) :
    ∀ (svcs : List ServiceStructure), ∀ f ∈ (servicesListPlan dir svcs).wfiles,
      ∃ svc ∈ svcs, ∃ r, f.1 = dir ++ nameOf svc.config :: r
  | [] => by simp [servicesListPlan]
  | svc :: rest => by
    intro f hf
    simp only [servicesListPlan, wplan_append_wfiles, List.mem_append,
      List.mem_singleton] at hf
    rcases hf with (rfl | hf) | hf
    · exact ⟨svc, by simp, [FileConfig], by simp⟩
    · obtain ⟨r, hr⟩ :=
        (webhooksPlan_rel (dir ++ [nameOf svc.config]) svc.incomingWebhooks).1 f hf
      exact ⟨svc, by simp, r, by rw [hr]; simp⟩
    · obtain ⟨svc', hm, r, hr⟩ := servicesListPlan_byname dir rest f hf
      exact ⟨svc', by simp [hm], r, hr⟩

theorem len_block_ne {dir : Path} {n a wn b : String} :
    dir ++ [n, a] ≠ (dir ++ [n]) ++ [wn, b] := by
  intro he
  have := congrArg List.length he
  simp only [List.length_append, List.length_cons, List.length_nil] at this
  omega

theorem servicesListPlan_keys_nodup (dir : Path) :
    ∀ (svcs : List ServiceStructure),
      svcs.all (fun svc => wfEndpointB svc.config svc.incomingWebhooks) = true →
      pairwiseB (fun x y => strLt (nameOf x.config) (nameOf y.config)) svcs = true →
      ((servicesListPlan dir svcs).wfiles.map Prod.fst).Nodup
  | [], _, _ => by simp [servicesListPlan]
  | svc :: rest, hall, hsort => by
    rw [List.all_cons, Bool.and_eq_true] at hall
    obtain ⟨hlt, hrest⟩ :=
      (pairwiseB_cons_iff (fun x y => strLt (nameOf x.config) (nameOf y.config))
        svc rest).mp hsort
    have hne : ∀ f ∈ (servicesListPlan dir rest).wfiles,
        ∀ r, f.1 ≠ dir ++ nameOf svc.config :: r := by
      intro f hf r he
      obtain ⟨svc', hm', r2, hr2⟩ := servicesListPlan_byname dir rest f hf
      rw [hr2] at he
      have h2 := List.append_cancel_left he
      exact strLt_ne (hlt svc' hm') ((List.cons.injEq _ _ _ _ ▸ h2).1).symm
    show ((servicesListPlan dir (svc :: rest)).wfiles.map Prod.fst).Nodup
    simp only [servicesListPlan, wplan_append_wfiles, List.map_append,
      List.map_cons, List.map_nil, List.append_eq, List.cons_append, List.nil_append]
    refine List.nodup_cons.mpr ⟨?_, ?_⟩
    · intro hmem
      rcases List.mem_append.mp hmem with hmem | hmem
      · obtain ⟨g, hg, hge⟩ := List.mem_map.mp hmem
        obtain ⟨r2, hr2⟩ :=
          (webhooksPlan_rel (dir ++ [nameOf svc.config]) svc.incomingWebhooks).1 g hg
        obtain ⟨wh, _, x, hx⟩ :=
          webhooksPlan_byname (dir ++ [nameOf svc.config]) svc.incomingWebhooks g hg
        rw [hx] at hge
        exact len_block_ne hge.symm
      · obtain ⟨g, hg, hge⟩ := List.mem_map.mp hmem
        exact hne g hg [FileConfig] (by rw [hge])
    · rw [List.nodup_append]
      refine ⟨webhooksPlan_keys_nodup _ _ (wfEndpoint_parts hall.1).2.2.2,
        servicesListPlan_keys_nodup dir rest hall.2 hrest, ?_⟩
      intro p hp hq
      obtain ⟨g, hg, hge⟩ := List.mem_map.mp hp
      obtain ⟨r2, hr2⟩ :=
        (webhooksPlan_rel (dir ++ [nameOf svc.config]) svc.incomingWebhooks).1 g hg
      obtain ⟨g2, hg2, hge2⟩ := List.mem_map.mp hq
      apply hne g2 hg2 r2
      rw [hge2, ← hge, hr2]
      simp

theorem endpointsListPlan_byname (dir : Path) :
    ∀ (eps : List HTTPEndpointStructure), ∀ f ∈ (endpointsListPlan dir eps).wfiles,
      ∃ ep ∈ eps, ∃ r, f.1 = dir ++ nameOf ep.config :: r
  | [] => by simp [endpointsListPlan]
  | ep :: rest => by
    intro f hf
    simp only [endpointsListPlan, wplan_append_wfiles, List.mem_append,
      List.mem_singleton] at hf
    rcases hf with (rfl | hf) | hf
    · exact ⟨ep, by simp, [FileConfig], by simp⟩
    · obtain ⟨r, hr⟩ :=
        (webhooksPlan_rel (dir ++ [nameOf ep.config]) ep.incomingWebhooks).1 f hf
      exact ⟨ep, by simp, r, by rw [hr]; simp⟩
    · obtain ⟨ep', hm, r, hr⟩ := endpointsListPlan_byname dir rest f hf
      exact ⟨ep', by simp [hm], r, hr⟩

theorem endpointsListPlan_keys_nodup (dir : Path) :
    ∀ (eps : List HTTPEndpointStructure),
      eps.all (fun ep => wfEndpointB ep.config ep.incomingWebhooks) = true →
      pairwiseB (fun x y => strLt (nameOf x.config) (nameOf y.config)) eps = true →
      ((endpointsListPlan dir eps).wfiles.map Prod.fst).Nodup
  | [], _, _ => by simp [endpointsListPlan]
  | ep :: rest, hall, hsort => by
    rw [List.all_cons, Bool.and_eq_true] at hall
    obtain ⟨hlt, hrest⟩ :=
      (pairwiseB_cons_iff (fun x y => strLt (nameOf x.config) (nameOf y.config))
        ep rest).mp hsort
    have hne : ∀ f ∈ (endpointsListPlan dir rest).wfiles,
        ∀ r, f.1 ≠ dir ++ nameOf ep.config :: r := by
      intro f hf r he
      obtain ⟨ep', hm', r2, hr2⟩ := endpointsListPlan_byname dir rest f hf
      rw [hr2] at he
      have h2 := List.append_cancel_left he
      exact strLt_ne (hlt ep' hm') ((List.cons.injEq _ _ _ _ ▸ h2).1).symm
    show ((endpointsListPlan dir (ep :: rest)).wfiles.map Prod.fst).Nodup
    simp only [endpointsListPlan, wplan_append_wfiles, List.map_append,
      List.map_cons, List.map_nil, List.append_eq, List.cons_append, List.nil_append]
    refine List.nodup_cons.mpr ⟨?_, ?_⟩
    · intro hmem
      rcases List.mem_append.mp hmem with hmem | hmem
      · obtain ⟨g, hg, hge⟩ := List.mem_map.mp hmem
        obtain ⟨r2, hr2⟩ :=
          (webhooksPlan_rel (dir ++ [nameOf ep.config]) ep.incomingWebhooks).1 g hg
        obtain ⟨wh, _, x, hx⟩ :=
          webhooksPlan_byname (dir ++ [nameOf ep.config]) ep.incomingWebhooks g hg
        rw [hx] at hge
        exact len_block_ne hge.symm
      · obtain ⟨g, hg, hge⟩ := List.mem_map.mp hmem
        exact hne g hg [FileConfig] (by rw [hge])
    · rw [List.nodup_append]
      refine ⟨webhooksPlan_keys_nodup _ _ (wfEndpoint_parts hall.1).2.2.2,
        endpointsListPlan_keys_nodup dir rest hall.2 hrest, ?_⟩
      intro p hp hq
      obtain ⟨g, hg, hge⟩ := List.mem_map.mp hp
      obtain ⟨r2, hr2⟩ :=
        (webhooksPlan_rel (dir ++ [nameOf ep.config]) ep.incomingWebhooks).1 g hg
      obtain ⟨g2, hg2, hge2⟩ := List.mem_map.mp hq
      apply hne g2 hg2 r2
      rw [hge2, ← hge, hr2]
      simp

theorem dataSourcesListPlan_byname (dir : Path) :
    ∀ (dss : List DataSourceStructure), ∀ f ∈ (dataSourcesListPlan dir dss).wfiles,
      ∃ ds ∈ dss, ∃ r, f.1 = dir ++ nameOf ds.config :: r
  | [] => by simp [dataSourcesListPlan]
  | ds :: rest => by
    intro f hf
    simp only [dataSourcesListPlan, wplan_append_wfiles, List.mem_append,
      List.mem_singleton] at hf
    rcases hf with (rfl | hf) | hf
    · exact ⟨ds, by simp, [FileConfig], by simp⟩
    · obtain ⟨r, hr⟩ :=
        (rulesPlan_rel (dir ++ [nameOf ds.config]) ds.rules).1 f hf
      exact ⟨ds, by simp, r, by rw [hr]; simp⟩
    · obtain ⟨ds', hm, r, hr⟩ := dataSourcesListPlan_byname dir rest f hf
      exact ⟨ds', by simp [hm], r, hr⟩

theorem len_rule_ne {dir : Path} {n a db coll b : String} :
    dir ++ [n, a] ≠ (dir ++ [n]) ++ [db, coll, b] := by
  intro he
  have := congrArg List.length he
  simp only [List.length_append, List.length_cons, List.length_nil] at this
  omega

theorem dataSourcesListPlan_keys_nodup (dir : Path) :
    ∀ (dss : List DataSourceStructure),
      dss.all wfDataSourceB = true →
      pairwiseB (fun x y => strLt (nameOf x.config) (nameOf y.config)) dss = true →
      ((dataSourcesListPlan dir dss).wfiles.map Prod.fst).Nodup
  | [], _, _ => by simp [dataSourcesListPlan]
  | ds :: rest, hall, hsort => by
    rw [List.all_cons, Bool.and_eq_true] at hall
    obtain ⟨hlt, hrest⟩ :=
      (pairwiseB_cons_iff (fun x y => strLt (nameOf x.config) (nameOf y.config))
        ds rest).mp hsort
    have hne : ∀ f ∈ (dataSourcesListPlan dir rest).wfiles,
        ∀ r, f.1 ≠ dir ++ nameOf ds.config :: r := by
      intro f hf r he
      obtain ⟨ds', hm', r2, hr2⟩ := dataSourcesListPlan_byname dir rest f hf
      rw [hr2] at he
      have h2 := List.append_cancel_left he
      exact strLt_ne (hlt ds' hm') ((List.cons.injEq _ _ _ _ ▸ h2).1).symm
    show ((dataSourcesListPlan dir (ds :: rest)).wfiles.map Prod.fst).Nodup
    simp only [dataSourcesListPlan, wplan_append_wfiles, List.map_append,
      List.map_cons, List.map_nil, List.append_eq, List.cons_append, List.nil_append]
    refine List.nodup_cons.mpr ⟨?_, ?_⟩
    · intro hmem
      rcases List.mem_append.mp hmem with hmem | hmem
      · obtain ⟨g, hg, hge⟩ := List.mem_map.mp hmem
        obtain ⟨ru, _, x, hx⟩ :=
          rulesPlan_byname (dir ++ [nameOf ds.config]) ds.rules g hg
        rw [hx] at hge
        exact len_rule_ne hge.symm
      · obtain ⟨g, hg, hge⟩ := List.mem_map.mp hmem
        exact hne g hg [FileConfig] (by rw [hge])
    · rw [List.nodup_append]
      refine ⟨rulesPlan_keys_nodup _ _ (wfDataSource_parts hall.1).2.2.2,
        dataSourcesListPlan_keys_nodup dir rest hall.2 hrest, ?_⟩
      intro p hp hq
      obtain ⟨g, hg, hge⟩ := List.mem_map.mp hp
      obtain ⟨r2, hr2⟩ :=
        (rulesPlan_rel (dir ++ [nameOf ds.config]) ds.rules).1 g hg
      obtain ⟨g2, hg2, hge2⟩ := List.mem_map.mp hq
      apply hne g2 hg2 r2
      rw [hge2, ← hge, hr2]
      simp

theorem pathLt_append_left (dir : Path) :
    ∀ {p q : Path}, pathLt p q = true → pathLt (dir ++ p) (dir ++ q) = true := by
  induction dir with
  | nil => exact fun h => h
  | cons d dir ih =>
    intro p q h
    simp only [List.cons_append, pathLt, strLt_irrefl d, if_false]
    exact ih h

theorem secretsPlan_keys_nodup (root : Path) (s : Option SecretsStructure) :
    ((secretsPlan root s).wfiles.map Prod.fst).Nodup := by
  cases s <;> simp [secretsPlan]

theorem syncPlan_keys_nodup (root : Path) (sync : Option SyncStructure) :
    ((syncPlan root sync).wfiles.map Prod.fst).Nodup := by
  cases sync with
  | none => simp [syncPlan]
  | some s =>
    by_cases hc : s.config.isSome = true
    · simp [syncPlan, if_pos hc]
    · simp [syncPlan, if_neg hc]

theorem graphqlPlan_keys_nodup (root : Path) (g : GraphQLStructure) :
    ((graphqlPlan root g).wfiles.map Prod.fst).Nodup := by
  by_cases hg : g.config.isSome = true
  · simp [graphqlPlan, if_pos hg]
  · simp [graphqlPlan, if_neg hg]

theorem authPlan_keys_nodup (root : Path) (auth : Option AuthStructure) :
    ((authPlan root auth).wfiles.map Prod.fst).Nodup := by
  cases auth with
  | none => simp [authPlan]
  | some au =>
    by_cases hp : au.providers.isSome = true
    · by_cases hc : au.customUserData.isSome = true
      · simp only [authPlan, if_pos hp, if_pos hc, List.cons_append,
          List.nil_append, List.map_cons, List.map_nil]
        refine List.nodup_cons.mpr ⟨?_, List.nodup_singleton _⟩
        intro hmem
        simp only [List.mem_singleton] at hmem
        have := List.append_cancel_left hmem
        simp [FileProviders, FileCustomUserData] at this
      · simp [authPlan, if_pos hp, if_neg hc]
    · by_cases hc : au.customUserData.isSome = true
      · simp [authPlan, if_pos hc, if_neg hp]
      · simp [authPlan, if_neg hp, if_neg hc]

theorem environmentsPlan_keys_nodup (envs : Option (List (String × GoMap)))
    (h : pairwiseB (fun x y => strLt x.1 y.1) (envs.getD []) = true) :
    ((environmentsPlan [] envs).wfiles.map Prod.fst).Nodup := by
  cases envs with
  | none => exact List.nodup_nil
  | some l =>
    have hkeys : (environmentsPlan [] (some l)).wfiles.map Prod.fst =
        l.map (fun kv => [NameEnvironments, kv.1]) := by
      simp [environmentsPlan]
    rw [hkeys]
    refine pairwiseB_nodup pathLt (fun hpq => pathLt_asymm hpq) _ ?_
    rw [pairwiseB_map]
    exact pairwiseB_impl (fun x y hxy => pathLt_pair hxy) l h

theorem valuesPlan_keys_nodup (vals : List GoMap)
    (h : pairwiseB (fun x y => strLt (valueFileName x) (valueFileName y)) vals = true) :
    ((valuesPlan [] vals).wfiles.map Prod.fst).Nodup := by
  have hkeys : (valuesPlan [] vals).wfiles.map Prod.fst =
      vals.map (fun v => [NameValues, nameOf v ++ ".json"]) := by
    simp [valuesPlan]
  rw [hkeys]
  refine pairwiseB_nodup pathLt (fun hpq => pathLt_asymm hpq) _ ?_
  rw [pairwiseB_map]
  exact pairwiseB_impl (fun x y hxy => pathLt_pair hxy) vals h

theorem triggersPlan_keys_nodup (trs : List GoMap)
    (h : pairwiseB (fun x y => strLt (valueFileName x) (valueFileName y)) trs = true) :
    ((triggersPlan [] trs).wfiles.map Prod.fst).Nodup := by
  have hkeys : (triggersPlan [] trs).wfiles.map Prod.fst =
      trs.map (fun v => [NameTriggers, nameOf v ++ ".json"]) := by
    simp [triggersPlan]
  rw [hkeys]
  refine pairwiseB_nodup pathLt (fun hpq => pathLt_asymm hpq) _ ?_
  rw [pairwiseB_map]
  exact pairwiseB_impl (fun x y hxy => pathLt_pair hxy) trs h

theorem functionsPlan_keys_nodup (f : FunctionsStructure)
    (hjs : f.sources.all (fun ps => jsFileName ps.1) = true)
    (hsort : pairwiseB (fun x y => pathLt x.1 y.1) f.sources = true) :
    ((functionsPlan [] (some f)).wfiles.map Prod.fst).Nodup := by
  have hkeys : (functionsPlan [] (some f)).wfiles.map Prod.fst =
      [NameFunctions, FileConfig] :: f.sources.map (fun ps => NameFunctions :: ps.1) := by
    simp [functionsPlan]
  rw [hkeys]
  refine List.nodup_cons.mpr ⟨?_, ?_⟩
  · intro hmem
    obtain ⟨ps, hps, hpe⟩ := List.mem_map.mp hmem
    have hconf : ps.1 = [FileConfig] := by
      injection hpe with h1 h2
    rw [List.all_eq_true] at hjs
    have hj := hjs ps hps
    rw [hconf] at hj
    exact absurd hj (by decide)
  · refine pairwiseB_nodup pathLt (fun hpq => pathLt_asymm hpq) _ ?_
    rw [pairwiseB_map]
    exact pairwiseB_impl
      (fun x y hxy => pathLt_append_left [NameFunctions] hxy) _ hsort

theorem oncePlan_keys_nodup (a : AppStructureV2) (h : wfModel a = true) :
    ((oncePlan [] a).wfiles.map Prod.fst).Nodup := by
  obtain ⟨hsec, henvA, henvS, hvals, htrs, hauth, hsync, hfn, hgq, hsvcA, hsvcS,
    hepA, hepS, hdsA, hdsS, _, _, _⟩ := wf_parts h
  have hjoin : (oncePlan [] a).wfiles =
      (([(NameSecrets, (secretsPlan [] a.secrets).wfiles),
         (NameEnvironments, (environmentsPlan [] a.environments).wfiles),
         (NameValues, (valuesPlan [] a.values).wfiles),
         (NameGraphQL, (graphqlPlan [] (graphqlArg a)).wfiles),
         (NameServices, (servicesPlan [] a.services).wfiles),
         (NameFunctions, (functionsPlan [] a.functions).wfiles),
         (NameAuth, (authPlan [] a.auth).wfiles),
         (NameSync, (syncPlan [] a.sync).wfiles),
         (NameDataSources, (dataSourcesPlan [] a.dataSources).wfiles),
         (NameHTTPEndpoints, (httpEndpointsPlan [] a.httpEndpoints).wfiles),
         (NameTriggers, (triggersPlan [] a.triggers).wfiles)]).map Prod.snd).flatten := by
    simp only [oncePlan, wplan_append_wfiles, List.map_cons, List.map_nil,
      List.flatten_cons, List.flatten_nil, List.append_nil, List.append_assoc]
  rw [hjoin]
  refine nodup_keys_join _ ?_ ?_ ?_
  · show ([NameSecrets, NameEnvironments, NameValues, NameGraphQL, NameServices,
      NameFunctions, NameAuth, NameSync, NameDataSources, NameHTTPEndpoints,
      NameTriggers] : List String).Nodup
    decide
  · intro s hs f hf
    simp only [List.mem_cons, List.not_mem_nil, or_false] at hs
    rcases hs with rfl|rfl|rfl|rfl|rfl|rfl|rfl|rfl|rfl|rfl|rfl
    · obtain ⟨r, hr⟩ := (secretsPlan_shape [] a.secrets).1 f hf
      exact ⟨r, by simpa using hr⟩
    · obtain ⟨r, hr⟩ := (environmentsPlan_shape [] a.environments).1 f hf
      exact ⟨r, by simpa using hr⟩
    · obtain ⟨r, hr⟩ := (valuesPlan_shape [] a.values).1 f hf
      exact ⟨r, by simpa using hr⟩
    · obtain ⟨r, hr⟩ := (graphqlPlan_shape [] (graphqlArg a)).1 f hf
      exact ⟨r, by simpa using hr⟩
    · obtain ⟨r, hr⟩ := (servicesPlan_shape [] a.services).1 f hf
      exact ⟨r, by simpa using hr⟩
    · obtain ⟨r, hr⟩ := (functionsPlan_shape [] a.functions).1 f hf
      exact ⟨r, by simpa using hr⟩
    · obtain ⟨r, hr⟩ := (authPlan_shape [] a.auth).1 f hf
      exact ⟨r, by simpa using hr⟩
    · obtain ⟨r, hr⟩ := (syncPlan_shape [] a.sync).1 f hf
      exact ⟨r, by simpa using hr⟩
    · obtain ⟨r, hr⟩ := (dataSourcesPlan_shape [] a.dataSources).1 f hf
      exact ⟨r, by simpa using hr⟩
    · obtain ⟨r, hr⟩ := (httpEndpointsPlan_shape [] a.httpEndpoints).1 f hf
      exact ⟨r, by simpa using hr⟩
    · obtain ⟨r, hr⟩ := (triggersPlan_shape [] a.triggers).1 f hf
      exact ⟨r, by simpa using hr⟩
  · intro s hs
    simp only [List.mem_cons, List.not_mem_nil, or_false] at hs
    rcases hs with rfl|rfl|rfl|rfl|rfl|rfl|rfl|rfl|rfl|rfl|rfl
    · exact secretsPlan_keys_nodup [] a.secrets
    · exact environmentsPlan_keys_nodup a.environments henvS
    · exact valuesPlan_keys_nodup a.values (wfNamed_parts hvals).2
    · exact graphqlPlan_keys_nodup [] (graphqlArg a)
    · exact servicesListPlan_keys_nodup ([] ++ [NameServices]) a.services hsvcA hsvcS
    · cases hfo : a.functions with
      | none => rw [hfo] at hfn; cases hfn
      | some fstr =>
        rw [hfo] at hfn
        simp only [Bool.and_eq_true] at hfn
        exact functionsPlan_keys_nodup fstr hfn.1.2 hfn.2
    · exact authPlan_keys_nodup [] a.auth
    · exact syncPlan_keys_nodup [] a.sync
    · exact dataSourcesListPlan_keys_nodup ([] ++ [NameDataSources]) a.dataSources hdsA hdsS
    · exact endpointsListPlan_keys_nodup ([] ++ [NameHTTPEndpoints]) a.httpEndpoints hepA hepS
    · exact triggersPlan_keys_nodup a.triggers (wfNamed_parts htrs).2

theorem writtenFS_files (a : AppStructureV2) (h : wfModel a = true) :
    (writtenFS a).files = (oncePlan [] a).wfiles := by
  show applyW [] (oncePlan [] a).wfiles = (oncePlan [] a).wfiles
  exact applyW_nil_nodup _ (oncePlan_keys_nodup a h)

/-! ### Evaluating the parsers on a written tree (claim C1) -/

theorem lookupL_skip_shape {X S : String} {q : List String}
    {A : List (Path × FileContent)} (B : List (Path × FileContent))
    (hA : ∀ f ∈ A, ∃ r, f.1 = [] ++ X :: r) (hSX : S ≠ X) :
    lookupL (A ++ B) (S :: q) = lookupL B (S :: q) := by
  refine lookupL_skip B ?_
  intro f hf he
  obtain ⟨r, hr⟩ := hA f hf
  rw [hr] at he
  simp only [List.nil_append] at he
  injection he with h1 h2
  exact hSX h1.symm

theorem isDir_of_mem_dirs {fs : FS} {q : Path} (h : q ∈ fs.dirs) :
    fs.isDir q = true := by
  simp only [FS.isDir, Bool.or_eq_true]
  exact Or.inl (Or.inl (List.elem_iff.mpr h))

theorem statOk_of_isDir {fs : FS} {p : Path} (h : fs.isDir p = true) :
    fs.statOk p = true := by
  simp [FS.statOk, h]

theorem statOk_of_isFile {fs : FS} {p : Path} (h : fs.isFile p = true) :
    fs.statOk p = true := by
  simp [FS.statOk, h]

theorem statOk_false {fs : FS} {p : Path} (hf : fs.isFile p = false)
    (hd : fs.isDir p = false) : fs.statOk p = false := by
  simp [FS.statOk, hf, hd]

theorem mem_oncePlan_wdirs {a : AppStructureV2} {t : Path}
    (ht : t ∈ (oncePlan [] a).wdirs) :
    t ∈ (secretsPlan [] a.secrets).wdirs ∨
    t ∈ (environmentsPlan [] a.environments).wdirs ∨
    t ∈ (valuesPlan [] a.values).wdirs ∨
    t ∈ (graphqlPlan [] (graphqlArg a)).wdirs ∨
    t ∈ (servicesPlan [] a.services).wdirs ∨
    t ∈ (functionsPlan [] a.functions).wdirs ∨
    t ∈ (authPlan [] a.auth).wdirs ∨
    t ∈ (syncPlan [] a.sync).wdirs ∨
    t ∈ (dataSourcesPlan [] a.dataSources).wdirs ∨
    t ∈ (httpEndpointsPlan [] a.httpEndpoints).wdirs ∨
    t ∈ (triggersPlan [] a.triggers).wdirs := by
  simp only [oncePlan, wplan_append_wdirs, List.mem_append] at ht
  tauto

theorem mem_oncePlan_wfiles {a : AppStructureV2} {f : Path × FileContent}
    (hf : f ∈ (oncePlan [] a).wfiles) :
    f ∈ (secretsPlan [] a.secrets).wfiles ∨
    f ∈ (environmentsPlan [] a.environments).wfiles ∨
    f ∈ (valuesPlan [] a.values).wfiles ∨
    f ∈ (graphqlPlan [] (graphqlArg a)).wfiles ∨
    f ∈ (servicesPlan [] a.services).wfiles ∨
    f ∈ (functionsPlan [] a.functions).wfiles ∨
    f ∈ (authPlan [] a.auth).wfiles ∨
    f ∈ (syncPlan [] a.sync).wfiles ∨
    f ∈ (dataSourcesPlan [] a.dataSources).wfiles ∨
    f ∈ (httpEndpointsPlan [] a.httpEndpoints).wfiles ∨
    f ∈ (triggersPlan [] a.triggers).wfiles := by
  simp only [oncePlan, wplan_append_wfiles, List.mem_append] at hf
  tauto

/-! ### Documents in marshal normal form -/

theorem mem_of_mem_doc_insert (k : String) (v : JValue) (y : String × JValue) :
    ∀ (d : Doc), y ∈ Doc.insert d k v → y = (k, v) ∨ y ∈ d
  | [], h => by simpa [Doc.insert] using h
  | (k0, v0) :: rest, h => by
    rw [Doc.insert] at h
    by_cases h1 : strLt k k0 = true
    · rw [if_pos h1] at h
      rw [List.mem_cons] at h
      exact h
    · rw [if_neg h1] at h
      by_cases h2 : k = k0
      · rw [if_pos h2] at h
        rw [List.mem_cons] at h
        rcases h with rfl | h
        · exact Or.inl rfl
        · exact Or.inr (List.mem_cons_of_mem _ h)
      · rw [if_neg h2] at h
        rw [List.mem_cons] at h
        rcases h with rfl | h
        · exact Or.inr (List.mem_cons_self _ _)
        · rcases mem_of_mem_doc_insert k v y rest h with h | h
          · exact Or.inl h
          · exact Or.inr (List.mem_cons_of_mem _ h)

theorem pairwiseB_keys_insert (k : String) (v : JValue) :
    ∀ (d : Doc), pairwiseB (fun x y => strLt x.1 y.1) d = true →
      pairwiseB (fun x y => strLt x.1 y.1) (Doc.insert d k v) = true
  | [], _ => rfl
  | (k0, v0) :: rest, h => by
    obtain ⟨hk0, hrest⟩ := (pairwiseB_cons_iff _ (k0, v0) rest).mp h
    rw [Doc.insert]
    by_cases h1 : strLt k k0 = true
    · rw [if_pos h1]
      refine (pairwiseB_cons_iff _ (k, v) _).mpr ⟨?_, h⟩
      intro y hy
      rw [List.mem_cons] at hy
      rcases hy with rfl | hy
      · exact h1
      · exact strLt_trans h1 (hk0 y hy)
    · rw [if_neg h1]
      by_cases h2 : k = k0
      · rw [if_pos h2]
        subst h2
        exact (pairwiseB_cons_iff _ (k, v) rest).mpr ⟨hk0, hrest⟩
      · rw [if_neg h2]
        refine (pairwiseB_cons_iff _ (k0, v0) _).mpr
          ⟨?_, pairwiseB_keys_insert k v rest hrest⟩
        intro y hy
        rcases mem_of_mem_doc_insert k v y rest hy with rfl | hy
        · rcases strLt_connex h2 with hc | hc
          · exact absurd hc h1
          · exact hc
        · exact hk0 y hy

theorem canonFields_keys_pairwise :
    ∀ (l : List (String × JValue)),
      pairwiseB (fun x y : String × JValue => strLt x.1 y.1) (canonFields l) = true
  | [] => rfl
  | (k, v) :: rest => by
    rw [canonFields]
    exact pairwiseB_keys_insert k (canonJ v) (canonFields rest)
      (canonFields_keys_pairwise rest)

theorem get_some_mem {k : String} {v : JValue} :
    ∀ {d : Doc}, d.get k = some v → (k, v) ∈ d
  | (k0, v0) :: rest, h => by
    rw [Doc.get] at h
    by_cases h0 : k0 = k
    · rw [if_pos h0] at h
      subst h0
      obtain rfl := Option.some.inj h
      exact List.mem_cons_self _ _
    · rw [if_neg h0] at h
      exact List.mem_cons_of_mem _ (get_some_mem h)

theorem erase_no_key {k : String} :
    ∀ {d : Doc}, (∀ kv ∈ d, kv.1 ≠ k) → d.erase k = d := by
  intro d h
  rw [Doc.erase]
  refine List.filter_eq_self.mpr ?_
  intro kv hkv
  simpa using h kv hkv

theorem insert_lt_front {k : String} {v : JValue} :
    ∀ {d : Doc}, (∀ kv ∈ d, strLt k kv.1 = true) → Doc.insert d k v = (k, v) :: d
  | [], _ => rfl
  | (k0, v0) :: rest, h => by
    rw [Doc.insert, if_pos (h (k0, v0) (List.mem_cons_self _ _))]

theorem wfDoc_sorted {d : Doc} (h : wfDocB d = true) :
    pairwiseB (fun x y : String × JValue => strLt x.1 y.1) d = true := by
  rw [wfDocB, decide_eq_true_eq] at h
  have := canonFields_keys_pairwise d
  rw [show canonFields d = canonDoc d from rfl, h] at this
  exact this

theorem insert_erase_get {k : String} {v : JValue} :
    ∀ {d : Doc}, pairwiseB (fun x y : String × JValue => strLt x.1 y.1) d = true →
      d.get k = some v → Doc.insert (d.erase k) k v = d
  | (k0, v0) :: rest, hs, hg => by
    obtain ⟨hk0, hrest⟩ := (pairwiseB_cons_iff _ (k0, v0) rest).mp hs
    rw [Doc.get] at hg
    by_cases h0 : k0 = k
    · rw [if_pos h0] at hg
      obtain rfl := Option.some.inj hg
      subst h0
      have herase : Doc.erase ((k0, v0) :: rest) k0 = rest := by
        rw [Doc.erase, List.filter_cons, if_neg (by simp)]
        refine List.filter_eq_self.mpr ?_
        intro kv hkv
        simpa using Ne.symm (strLt_ne (hk0 kv hkv))
      rw [herase]
      refine insert_lt_front ?_
      intro kv hkv
      exact hk0 kv hkv
    · rw [if_neg h0] at hg
      have herase : Doc.erase ((k0, v0) :: rest) k = (k0, v0) :: Doc.erase rest k := by
        rw [Doc.erase, List.filter_cons, if_pos (by simp [h0])]
        rfl
      rw [herase, Doc.insert]
      have hk0k : strLt k0 k = true := by
        have hmem := get_some_mem hg
        exact hk0 (k, v) hmem
      rw [if_neg (by rw [strLt_asymm hk0k]; exact fun he => absurd he (by simp)),
        if_neg (fun he => h0 he.symm)]
      rw [insert_erase_get hrest hg]

theorem goIndexStr_get {d : Doc} {k s : String}
    (h : goIndexStr (some d) k = some s) : d.get k = some (.str s) := by
  rw [goIndexStr, goIndex] at h
  cases hg : d.get k with
  | none => rw [hg] at h; cases h
  | some w =>
    rw [hg] at h
    cases w with
    | str s2 =>
      obtain rfl := Option.some.inj h
      rfl
    | null => cases h
    | bool b => cases h
    | num n => cases h
    | arr es => cases h
    | obj fs => cases h

theorem lookupL_append_none {p : Path} {A B : List (Path × FileContent)}
    (h : lookupL B p = none) : lookupL (A ++ B) p = lookupL A p := by
  rw [lookupL_append, h]
  cases lookupL A p <;> rfl

theorem lookupL_none_shape {X S : String} {q : List String}
    {A : List (Path × FileContent)}
    (hA : ∀ f ∈ A, ∃ r, f.1 = [] ++ X :: r) (hSX : S ≠ X) :
    lookupL A (S :: q) = none := by
  refine lookupL_none_of_ne _ _ ?_
  intro f hf he
  obtain ⟨r, hr⟩ := hA f hf
  rw [hr] at he
  simp only [List.nil_append] at he
  injection he with h1 h2
  exact hSX h1.symm

theorem writtenFS_isFile_false (a : AppStructureV2) (h : wfModel a = true)
    (p : Path) (hall : ∀ f ∈ (oncePlan [] a).wfiles, f.1 ≠ p) :
    (writtenFS a).isFile p = false := by
  rw [FS.isFile, FS.lookupFile, writtenFS_files a h,
    lookupL_none_of_ne p _ hall]
  rfl

theorem writtenFS_isDir_false (a : AppStructureV2) (h : wfModel a = true)
    (q : Path)
    (hd : ∀ t ∈ (oncePlan [] a).wdirs, ¬ q <+: t)
    (hf : ∀ f ∈ (oncePlan [] a).wfiles, ¬ (q <+: f.1 ∧ q ≠ f.1)) :
    (writtenFS a).isDir q = false := by
  rw [← Bool.not_eq_true, @isDir_iff (writtenFS a) ((oncePlan [] a).wdirs) rfl q]
  rintro (⟨t, ht, hp⟩ | ⟨f, hfm, hp, hne⟩)
  · exact hd t ht hp
  · rw [writtenFS_files a h] at hfm
    exact hf f hfm ⟨hp, hne⟩

theorem written_isDir_false_gen (a : AppStructureV2) (h : wfModel a = true)
    (p : Path)
    (hnd : ∀ t ∈ (oncePlan [] a).wdirs, ∀ k, t ≠ p ++ k)
    (hnf : ∀ f ∈ (oncePlan [] a).wfiles, ∀ k, f.1 ≠ p ++ k) :
    (writtenFS a).isDir p = false := by
  refine writtenFS_isDir_false a h p ?_ ?_
  · intro t ht hp
    obtain ⟨k, hk⟩ := hp
    exact hnd t ht k hk.symm
  · rintro f hf ⟨hp, _⟩
    obtain ⟨k, hk⟩ := hp
    exact hnf f hf k hk.symm

theorem written_no_head (a : AppStructureV2) (h : wfModel a = true) (S : String)
    (hnd : ∀ t ∈ (oncePlan [] a).wdirs, ∀ r, t ≠ S :: r)
    (hnf : ∀ f ∈ (oncePlan [] a).wfiles, ∀ r, f.1 ≠ S :: r)
    (q : List String) :
    (writtenFS a).statOk (S :: q) = false := by
  refine statOk_false ?_ ?_
  · exact writtenFS_isFile_false a h _ (fun f hf he => hnf f hf q he)
  · refine written_isDir_false_gen a h _ ?_ ?_
    · intro t ht k hk
      exact hnd t ht (q ++ k) (by rw [hk]; rfl)
    · intro f hf k hk
      exact hnf f hf (q ++ k) (by rw [hk]; rfl)

theorem parseJSON_absent (a : AppStructureV2) (h : wfModel a = true) (p : Path)
    (hnf : ∀ f ∈ (oncePlan [] a).wfiles, ∀ k, f.1 ≠ p ++ k)
    (hnd : ∀ t ∈ (oncePlan [] a).wdirs, ∀ k, t ≠ p ++ k) :
    parseJSON (writtenFS a) p = .ok none := by
  have hl : (writtenFS a).lookupFile p = none := by
    rw [FS.lookupFile, writtenFS_files a h]
    exact lookupL_none_of_ne _ _
      (fun f hf he => hnf f hf [] (by rw [he, List.append_nil]))
  rw [parseJSON, hl]
  rw [written_isDir_false_gen a h p hnd hnf]
  rfl

/-- After a normal-form write, the marshalled document at a found path
parses back to the original document. -/
theorem parseJSON_marshal (a : AppStructureV2) (h : wfModel a = true) (p : Path)
    (m : GoMap) (hm : wfGoMapB m = true)
    (hl : lookupL (oncePlan [] a).wfiles p = some (.json (marshalGoMap m))) :
    parseJSON (writtenFS a) p = .ok m := by
  have hlf : (writtenFS a).lookupFile p = some (.json (marshalGoMap m)) := by
    rw [FS.lookupFile, writtenFS_files a h]
    exact hl
  rw [parseJSON, hlf]
  cases m with
  | none => rfl
  | some d =>
    rw [wfGoMapB, wfDocB, decide_eq_true_eq] at hm
    show Except.ok (some (canonDoc (canonDoc d))) = Except.ok (some d)
    rw [hm, hm]

theorem secretsPlan_lookup (s : SecretsStructure) :
    lookupL (secretsPlan [] (some s)).wfiles (NameSecrets :: [FileConfig]) =
      some (.json (marshalGoMap s.config)) := by
  rw [show (secretsPlan [] (some s)).wfiles =
    [([] ++ [NameSecrets, FileConfig], .json (marshalGoMap s.config))] from rfl]
  simp [lookupL]

theorem secShape_head_ne {X S : String} {t : Path} {r : List String}
    (h : secShape [] X t) (hne : S ≠ X) : t ≠ S :: r := by
  rcases h with rfl | ⟨r2, rfl⟩
  · exact fun he => by cases he
  · intro he
    simp only [List.nil_append] at he
    injection he with h1 _
    exact hne h1.symm

theorem files_head_ne {X S : String} {f1 : Path} {r : List String}
    (h : ∃ r2, f1 = [] ++ X :: r2) (hne : S ≠ X) : f1 ≠ S :: r := by
  obtain ⟨r2, rfl⟩ := h
  intro he
  simp only [List.nil_append] at he
  injection he with h1 _
  exact hne h1.symm

theorem parseSecrets_eval (a : AppStructureV2) (h : wfModel a = true) :
    parseSecrets (writtenFS a) [] = .ok a.secrets := by
  obtain ⟨hsec, _, _, _, _, _, _, _, _, _, _, _, _, _, _⟩ := wf_parts h
  rw [parseSecrets]
  cases hs : a.secrets with
  | none =>
    have hstat : (writtenFS a).statOk ([] ++ [NameSecrets]) = false := by
      refine written_no_head a h NameSecrets ?_ ?_ []
      · intro t ht r htr
        rcases mem_oncePlan_wdirs ht with h1|h1|h1|h1|h1|h1|h1|h1|h1|h1|h1
        · rw [hs] at h1; cases h1
        · exact secShape_head_ne ((environmentsPlan_shape [] a.environments).2 t h1) (by decide) htr
        · exact secShape_head_ne ((valuesPlan_shape [] a.values).2 t h1) (by decide) htr
        · exact secShape_head_ne ((graphqlPlan_shape [] (graphqlArg a)).2 t h1) (by decide) htr
        · exact secShape_head_ne ((servicesPlan_shape [] a.services).2 t h1) (by decide) htr
        · exact secShape_head_ne ((functionsPlan_shape [] a.functions).2 t h1) (by decide) htr
        · exact secShape_head_ne ((authPlan_shape [] a.auth).2 t h1) (by decide) htr
        · exact secShape_head_ne ((syncPlan_shape [] a.sync).2 t h1) (by decide) htr
        · exact secShape_head_ne ((dataSourcesPlan_shape [] a.dataSources).2 t h1) (by decide) htr
        · exact secShape_head_ne ((httpEndpointsPlan_shape [] a.httpEndpoints).2 t h1) (by decide) htr
        · exact secShape_head_ne ((triggersPlan_shape [] a.triggers).2 t h1) (by decide) htr
      · intro f hf r hfr
        rcases mem_oncePlan_wfiles hf with h1|h1|h1|h1|h1|h1|h1|h1|h1|h1|h1
        · rw [hs] at h1; cases h1
        · exact files_head_ne ((environmentsPlan_shape [] a.environments).1 f h1) (by decide) hfr
        · exact files_head_ne ((valuesPlan_shape [] a.values).1 f h1) (by decide) hfr
        · exact files_head_ne ((graphqlPlan_shape [] (graphqlArg a)).1 f h1) (by decide) hfr
        · exact files_head_ne ((servicesPlan_shape [] a.services).1 f h1) (by decide) hfr
        · exact files_head_ne ((functionsPlan_shape [] a.functions).1 f h1) (by decide) hfr
        · exact files_head_ne ((authPlan_shape [] a.auth).1 f h1) (by decide) hfr
        · exact files_head_ne ((syncPlan_shape [] a.sync).1 f h1) (by decide) hfr
        · exact files_head_ne ((dataSourcesPlan_shape [] a.dataSources).1 f h1) (by decide) hfr
        · exact files_head_ne ((httpEndpointsPlan_shape [] a.httpEndpoints).1 f h1) (by decide) hfr
        · exact files_head_ne ((triggersPlan_shape [] a.triggers).1 f h1) (by decide) hfr
    rw [if_neg (by rw [hstat]; exact fun he => absurd he (by simp))]
  | some s =>
    have hdm : ([] ++ [NameSecrets] : Path) ∈ (writtenFS a).dirs := by
      have hx : ([] ++ [NameSecrets] : Path) ∈ (secretsPlan [] a.secrets).wdirs := by
        rw [hs]
        exact List.mem_singleton.mpr rfl
      have hm : ([] ++ [NameSecrets] : Path) ∈ (oncePlan [] a).wdirs := by
        simp only [oncePlan, wplan_append_wdirs, List.mem_append]
        tauto
      show ([] ++ [NameSecrets] : Path) ∈ applyDirs [] (oncePlan [] a).wdirs
      rw [mem_applyDirs]
      exact Or.inr ⟨_, hm, (mem_pathPrefixes _ _).mpr List.prefix_rfl⟩
    rw [if_pos (statOk_of_isDir (isDir_of_mem_dirs hdm))]
    have hlook : lookupL (oncePlan [] a).wfiles ([] ++ [NameSecrets] ++ [FileConfig]) =
        some (.json (marshalGoMap s.config)) := by
      show lookupL (oncePlan [] a).wfiles (NameSecrets :: [FileConfig]) = _
      simp only [oncePlan, wplan_append_wfiles, List.append_assoc]
      rw [lookupL_append, hs, secretsPlan_lookup s]
    have hwfc : wfGoMapB s.config = true := by
      rw [hs] at hsec
      exact hsec
    simp only [Bind.bind, Except.bind]
    rw [parseJSON_marshal a h _ s.config hwfc hlook]

theorem parseSync_eval (a : AppStructureV2) (h : wfModel a = true) :
    parseSync (writtenFS a) [] = .ok a.sync := by
  obtain ⟨_, _, _, _, _, _, hsy, _, _, _, _, _, _, _, _⟩ := wf_parts h
  rw [parseSync]
  cases hs : a.sync with
  | none =>
    have hstat : (writtenFS a).statOk ([] ++ [NameSync]) = false := by
      refine written_no_head a h NameSync ?_ ?_ []
      · intro t ht r htr
        rcases mem_oncePlan_wdirs ht with h1|h1|h1|h1|h1|h1|h1|h1|h1|h1|h1
        · exact secShape_head_ne ((secretsPlan_shape [] a.secrets).2 t h1) (by decide) htr
        · exact secShape_head_ne ((environmentsPlan_shape [] a.environments).2 t h1) (by decide) htr
        · exact secShape_head_ne ((valuesPlan_shape [] a.values).2 t h1) (by decide) htr
        · exact secShape_head_ne ((graphqlPlan_shape [] (graphqlArg a)).2 t h1) (by decide) htr
        · exact secShape_head_ne ((servicesPlan_shape [] a.services).2 t h1) (by decide) htr
        · exact secShape_head_ne ((functionsPlan_shape [] a.functions).2 t h1) (by decide) htr
        · exact secShape_head_ne ((authPlan_shape [] a.auth).2 t h1) (by decide) htr
        · rw [hs] at h1; cases h1
        · exact secShape_head_ne ((dataSourcesPlan_shape [] a.dataSources).2 t h1) (by decide) htr
        · exact secShape_head_ne ((httpEndpointsPlan_shape [] a.httpEndpoints).2 t h1) (by decide) htr
        · exact secShape_head_ne ((triggersPlan_shape [] a.triggers).2 t h1) (by decide) htr
      · intro f hf r hfr
        rcases mem_oncePlan_wfiles hf with h1|h1|h1|h1|h1|h1|h1|h1|h1|h1|h1
        · exact files_head_ne ((secretsPlan_shape [] a.secrets).1 f h1) (by decide) hfr
        · exact files_head_ne ((environmentsPlan_shape [] a.environments).1 f h1) (by decide) hfr
        · exact files_head_ne ((valuesPlan_shape [] a.values).1 f h1) (by decide) hfr
        · exact files_head_ne ((graphqlPlan_shape [] (graphqlArg a)).1 f h1) (by decide) hfr
        · exact files_head_ne ((servicesPlan_shape [] a.services).1 f h1) (by decide) hfr
        · exact files_head_ne ((functionsPlan_shape [] a.functions).1 f h1) (by decide) hfr
        · exact files_head_ne ((authPlan_shape [] a.auth).1 f h1) (by decide) hfr
        · rw [hs] at h1; cases h1
        · exact files_head_ne ((dataSourcesPlan_shape [] a.dataSources).1 f h1) (by decide) hfr
        · exact files_head_ne ((httpEndpointsPlan_shape [] a.httpEndpoints).1 f h1) (by decide) hfr
        · exact files_head_ne ((triggersPlan_shape [] a.triggers).1 f h1) (by decide) hfr
    rw [if_neg (by rw [hstat]; exact fun he => absurd he (by simp))]
  | some s =>
    rw [hs] at hsy
    rw [Bool.and_eq_true] at hsy
    obtain ⟨hcs, hwfc⟩ := hsy
    obtain ⟨d, hd⟩ := Option.isSome_iff_exists.mp hcs
    have hplan : syncPlan [] (some s) =
        ⟨[([] ++ [NameSync, FileConfig], .json (marshalGoMap s.config))],
         [[] ++ [NameSync]]⟩ := by
      rw [syncPlan, if_pos hcs]
    have hdm : ([] ++ [NameSync] : Path) ∈ (writtenFS a).dirs := by
      have hx : ([] ++ [NameSync] : Path) ∈ (syncPlan [] a.sync).wdirs := by
        rw [hs, hplan]
        exact List.mem_singleton.mpr rfl
      have hm : ([] ++ [NameSync] : Path) ∈ (oncePlan [] a).wdirs := by
        simp only [oncePlan, wplan_append_wdirs, List.mem_append]
        tauto
      show ([] ++ [NameSync] : Path) ∈ applyDirs [] (oncePlan [] a).wdirs
      rw [mem_applyDirs]
      exact Or.inr ⟨_, hm, (mem_pathPrefixes _ _).mpr List.prefix_rfl⟩
    rw [if_pos (statOk_of_isDir (isDir_of_mem_dirs hdm))]
    have hseg : lookupL (syncPlan [] a.sync).wfiles (NameSync :: [FileConfig]) =
        some (.json (marshalGoMap s.config)) := by
      rw [hs, hplan]
      simp [lookupL]
    have hlook : lookupL (oncePlan [] a).wfiles ([] ++ [NameSync] ++ [FileConfig]) =
        some (.json (marshalGoMap s.config)) := by
      show lookupL (oncePlan [] a).wfiles (NameSync :: [FileConfig]) = _
      simp only [oncePlan, wplan_append_wfiles, List.append_assoc]
      refine Eq.trans (lookupL_skip_shape _ (secretsPlan_shape [] a.secrets).1 (by decide)) ?_
      refine Eq.trans (lookupL_skip_shape _ (environmentsPlan_shape [] a.environments).1 (by decide)) ?_
      refine Eq.trans (lookupL_skip_shape _ (valuesPlan_shape [] a.values).1 (by decide)) ?_
      refine Eq.trans (lookupL_skip_shape _ (graphqlPlan_shape [] (graphqlArg a)).1 (by decide)) ?_
      refine Eq.trans (lookupL_skip_shape _ (servicesPlan_shape [] a.services).1 (by decide)) ?_
      refine Eq.trans (lookupL_skip_shape _ (functionsPlan_shape [] a.functions).1 (by decide)) ?_
      refine Eq.trans (lookupL_skip_shape _ (authPlan_shape [] a.auth).1 (by decide)) ?_
      rw [lookupL_append, hseg]
    simp only [Bind.bind, Except.bind]
    rw [parseJSON_marshal a h _ s.config hwfc hlook]

theorem parseGraphQL_eval (a : AppStructureV2) (h : wfModel a = true)
    (g : GraphQLStructure) (hg : a.graphql = some g) :
    parseGraphQL (writtenFS a) [] = .ok (g, true) := by
  obtain ⟨_, _, _, _, _, _, _, _, hgq, _, _, _, _, _, _⟩ := wf_parts h
  rw [hg] at hgq
  have hga : graphqlArg a = g := by
    rw [graphqlArg, hg]
  rw [parseGraphQL]
  have hdm : ([] ++ [NameGraphQL] : Path) ∈ (writtenFS a).dirs := by
    have hx : ([] ++ [NameGraphQL] : Path) ∈ (graphqlPlan [] (graphqlArg a)).wdirs :=
      List.mem_cons_self _ _
    have hm : ([] ++ [NameGraphQL] : Path) ∈ (oncePlan [] a).wdirs := by
      simp only [oncePlan, wplan_append_wdirs, List.mem_append]
      tauto
    show ([] ++ [NameGraphQL] : Path) ∈ applyDirs [] (oncePlan [] a).wdirs
    rw [mem_applyDirs]
    exact Or.inr ⟨_, hm, (mem_pathPrefixes _ _).mpr List.prefix_rfl⟩
  rw [if_pos (statOk_of_isDir (isDir_of_mem_dirs hdm))]
  cases hc : g.config with
  | some d =>
    have hcs : (graphqlArg a).config.isSome = true := by
      rw [hga, hc]
      rfl
    have hseg : lookupL (graphqlPlan [] (graphqlArg a)).wfiles
        (NameGraphQL :: [FileConfig]) =
        some (.json (marshalGoMap (graphqlArg a).config)) := by
      rw [show (graphqlPlan [] (graphqlArg a)).wfiles =
        (if (graphqlArg a).config.isSome then
          [(([] ++ [NameGraphQL]) ++ [FileConfig],
            .json (marshalGoMap (graphqlArg a).config))]
        else []) from rfl]
      rw [if_pos hcs]
      simp [lookupL]
    have hlook : lookupL (oncePlan [] a).wfiles
        ([] ++ [NameGraphQL] ++ [FileConfig]) =
        some (.json (marshalGoMap g.config)) := by
      show lookupL (oncePlan [] a).wfiles (NameGraphQL :: [FileConfig]) = _
      simp only [oncePlan, wplan_append_wfiles, List.append_assoc]
      refine Eq.trans (lookupL_skip_shape _ (secretsPlan_shape [] a.secrets).1 (by decide)) ?_
      refine Eq.trans (lookupL_skip_shape _ (environmentsPlan_shape [] a.environments).1 (by decide)) ?_
      refine Eq.trans (lookupL_skip_shape _ (valuesPlan_shape [] a.values).1 (by decide)) ?_
      rw [lookupL_append, hseg, hga]
    simp only [Bind.bind, Except.bind]
    rw [parseJSON_marshal a h _ g.config hgq hlook]
  | none =>
    have habs : parseJSON (writtenFS a) ([] ++ [NameGraphQL] ++ [FileConfig]) = .ok none := by
      refine parseJSON_absent a h _ ?_ ?_
      · intro f hf k hfk
        rcases mem_oncePlan_wfiles hf with h1|h1|h1|h1|h1|h1|h1|h1|h1|h1|h1
        · exact files_head_ne ((secretsPlan_shape [] a.secrets).1 f h1) (by decide) hfk
        · exact files_head_ne ((environmentsPlan_shape [] a.environments).1 f h1) (by decide) hfk
        · exact files_head_ne ((valuesPlan_shape [] a.values).1 f h1) (by decide) hfk
        · rw [show (graphqlPlan [] (graphqlArg a)).wfiles =
            (if (graphqlArg a).config.isSome then
              [(([] ++ [NameGraphQL]) ++ [FileConfig],
                .json (marshalGoMap (graphqlArg a).config))]
            else []) from rfl,
            if_neg (by rw [hga, hc]; exact fun he => absurd he (by simp))] at h1
          cases h1
        · exact files_head_ne ((servicesPlan_shape [] a.services).1 f h1) (by decide) hfk
        · exact files_head_ne ((functionsPlan_shape [] a.functions).1 f h1) (by decide) hfk
        · exact files_head_ne ((authPlan_shape [] a.auth).1 f h1) (by decide) hfk
        · exact files_head_ne ((syncPlan_shape [] a.sync).1 f h1) (by decide) hfk
        · exact files_head_ne ((dataSourcesPlan_shape [] a.dataSources).1 f h1) (by decide) hfk
        · exact files_head_ne ((httpEndpointsPlan_shape [] a.httpEndpoints).1 f h1) (by decide) hfk
        · exact files_head_ne ((triggersPlan_shape [] a.triggers).1 f h1) (by decide) hfk
      · intro t ht k htk
        rcases mem_oncePlan_wdirs ht with h1|h1|h1|h1|h1|h1|h1|h1|h1|h1|h1
        · exact secShape_head_ne ((secretsPlan_shape [] a.secrets).2 t h1) (by decide) htk
        · exact secShape_head_ne ((environmentsPlan_shape [] a.environments).2 t h1) (by decide) htk
        · exact secShape_head_ne ((valuesPlan_shape [] a.values).2 t h1) (by decide) htk
        · rw [show (graphqlPlan [] (graphqlArg a)).wdirs =
            (([] ++ [NameGraphQL]) ::
              (if (graphqlArg a).config.isSome then [[] ++ [NameGraphQL]] else [])) from rfl,
            if_neg (by rw [hga, hc]; exact fun he => absurd he (by simp))] at h1
          simp only [List.mem_singleton] at h1
          subst h1
          have := congrArg List.length htk
          simp only [List.nil_append, List.length_append, List.length_cons,
            List.length_singleton] at this
          omega
        · exact secShape_head_ne ((servicesPlan_shape [] a.services).2 t h1) (by decide) htk
        · exact secShape_head_ne ((functionsPlan_shape [] a.functions).2 t h1) (by decide) htk
        · exact secShape_head_ne ((authPlan_shape [] a.auth).2 t h1) (by decide) htk
        · exact secShape_head_ne ((syncPlan_shape [] a.sync).2 t h1) (by decide) htk
        · exact secShape_head_ne ((dataSourcesPlan_shape [] a.dataSources).2 t h1) (by decide) htk
        · exact secShape_head_ne ((httpEndpointsPlan_shape [] a.httpEndpoints).2 t h1) (by decide) htk
        · exact secShape_head_ne ((triggersPlan_shape [] a.triggers).2 t h1) (by decide) htk
    simp only [Bind.bind, Except.bind]
    rw [habs]
    have hge : (⟨none⟩ : GraphQLStructure) = g := by
      have hge2 : g = ⟨g.config⟩ := rfl
      rw [hge2, hc]
    show Except.ok ((⟨none⟩ : GraphQLStructure), true) = Except.ok (g, true)
    rw [hge]

theorem authPlan_some (au : AuthStructure) :
    authPlan [] (some au) =
      ⟨(if au.providers.isSome then
          [(([] ++ [NameAuth]) ++ [FileProviders], .json (marshalGoMap au.providers))]
        else [])
        ++ (if au.customUserData.isSome then
              [(([] ++ [NameAuth]) ++ [FileCustomUserData],
                .json (marshalGoMap au.customUserData))]
            else []),
       (if au.providers.isSome then [[] ++ [NameAuth]] else [])
         ++ (if au.customUserData.isSome then [[] ++ [NameAuth]] else [])⟩ := rfl

theorem auth_lookup_cud (au : AuthStructure) :
    lookupL (authPlan [] (some au)).wfiles (NameAuth :: [FileCustomUserData]) =
      (if au.customUserData.isSome then
        some (.json (marshalGoMap au.customUserData)) else none) := by
  rw [authPlan_some]
  by_cases hps : au.providers.isSome = true
  · rw [if_pos hps]
    by_cases hcs : au.customUserData.isSome = true
    · rw [if_pos hcs, if_pos hcs]
      simp [lookupL, FileProviders, FileCustomUserData, NameAuth, hps, hcs]
    · rw [if_neg hcs, if_neg hcs]
      simp [lookupL, FileProviders, FileCustomUserData, NameAuth, hps, hcs]
  · rw [if_neg hps]
    by_cases hcs : au.customUserData.isSome = true
    · rw [if_pos hcs, if_pos hcs]
      simp [lookupL, FileProviders, FileCustomUserData, NameAuth, hps, hcs]
    · rw [if_neg hcs, if_neg hcs]
      simp [lookupL, FileProviders, FileCustomUserData, NameAuth, hps, hcs]

theorem auth_lookup_prov (au : AuthStructure) :
    lookupL (authPlan [] (some au)).wfiles (NameAuth :: [FileProviders]) =
      (if au.providers.isSome then
        some (.json (marshalGoMap au.providers)) else none) := by
  rw [authPlan_some]
  by_cases hps : au.providers.isSome = true
  · rw [if_pos hps, if_pos hps]
    by_cases hcs : au.customUserData.isSome = true
    · rw [if_pos hcs]
      simp [lookupL, FileProviders, FileCustomUserData, NameAuth, hps, hcs]
    · rw [if_neg hcs]
      simp [lookupL, FileProviders, FileCustomUserData, NameAuth, hps, hcs]
  · rw [if_neg hps, if_neg hps]
    by_cases hcs : au.customUserData.isSome = true
    · rw [if_pos hcs]
      simp [lookupL, FileProviders, FileCustomUserData, NameAuth, hps, hcs]
    · rw [if_neg hcs]
      simp [lookupL, FileProviders, FileCustomUserData, NameAuth, hps, hcs]

theorem lookup_route_auth (a : AppStructureV2) (q : List String) :
    lookupL (oncePlan [] a).wfiles (NameAuth :: q) =
      match lookupL (authPlan [] a.auth).wfiles (NameAuth :: q) with
      | some c => some c
      | none =>
        lookupL ((syncPlan [] a.sync).wfiles
          ++ ((dataSourcesPlan [] a.dataSources).wfiles
            ++ ((httpEndpointsPlan [] a.httpEndpoints).wfiles
              ++ (triggersPlan [] a.triggers).wfiles))) (NameAuth :: q) := by
  simp only [oncePlan, wplan_append_wfiles, List.append_assoc]
  refine Eq.trans (lookupL_skip_shape _ (secretsPlan_shape [] a.secrets).1 (by decide)) ?_
  refine Eq.trans (lookupL_skip_shape _ (environmentsPlan_shape [] a.environments).1 (by decide)) ?_
  refine Eq.trans (lookupL_skip_shape _ (valuesPlan_shape [] a.values).1 (by decide)) ?_
  refine Eq.trans (lookupL_skip_shape _ (graphqlPlan_shape [] (graphqlArg a)).1 (by decide)) ?_
  refine Eq.trans (lookupL_skip_shape _ (servicesPlan_shape [] a.services).1 (by decide)) ?_
  refine Eq.trans (lookupL_skip_shape _ (functionsPlan_shape [] a.functions).1 (by decide)) ?_
  exact lookupL_append _ _ _

theorem auth_lookup_none_tail (a : AppStructureV2) (q : List String) :
    lookupL ((syncPlan [] a.sync).wfiles
      ++ ((dataSourcesPlan [] a.dataSources).wfiles
        ++ ((httpEndpointsPlan [] a.httpEndpoints).wfiles
          ++ (triggersPlan [] a.triggers).wfiles))) (NameAuth :: q) = none := by
  refine Eq.trans (lookupL_skip_shape _ (syncPlan_shape [] a.sync).1 (by decide)) ?_
  refine Eq.trans (lookupL_skip_shape _ (dataSourcesPlan_shape [] a.dataSources).1 (by decide)) ?_
  refine Eq.trans (lookupL_skip_shape _ (httpEndpointsPlan_shape [] a.httpEndpoints).1 (by decide)) ?_
  exact lookupL_none_shape (triggersPlan_shape [] a.triggers).1 (by decide)

theorem ne_of_lookupL_none {p : Path} :
    ∀ {F : List (Path × FileContent)}, lookupL F p = none → ∀ f ∈ F, f.1 ≠ p
  | f0 :: F, h, f, hf => by
    rw [lookupL] at h
    by_cases h0 : f0.1 = p
    · rw [if_pos h0] at h
      cases h
    · rw [if_neg h0] at h
      rcases List.mem_cons.mp hf with rfl | hf2
      · exact h0
      · exact ne_of_lookupL_none h f hf2

theorem parseAuth_file (a : AppStructureV2) (h : wfModel a = true)
    (au : AuthStructure) (hs : a.auth = some au) (fn : String)
    (m : GoMap) (hwf : wfGoMapB m = true)
    (hseg : lookupL (authPlan [] a.auth).wfiles (NameAuth :: [fn]) =
      (if m.isSome then some (.json (marshalGoMap m)) else none)) :
    parseJSON (writtenFS a) ([] ++ [NameAuth] ++ [fn]) = .ok m := by
  cases hm : m with
  | some d =>
    subst hm
    refine parseJSON_marshal a h _ (some d) hwf ?_
    show lookupL (oncePlan [] a).wfiles (NameAuth :: [fn]) = _
    rw [lookup_route_auth, hseg]
    simp
  | none =>
    subst hm
    simp only [Option.isSome_none, Bool.false_eq_true, if_false] at hseg
    have hl : (writtenFS a).lookupFile ([] ++ [NameAuth] ++ [fn]) = none := by
      rw [FS.lookupFile, writtenFS_files a h]
      show lookupL (oncePlan [] a).wfiles (NameAuth :: [fn]) = none
      rw [lookup_route_auth, hseg]
      exact auth_lookup_none_tail a [fn]
    rw [parseJSON, hl]
    have hdirfalse : (writtenFS a).isDir ([] ++ [NameAuth] ++ [fn]) = false := by
      refine written_isDir_false_gen a h _ ?_ ?_
      · intro t ht k htk
        rcases mem_oncePlan_wdirs ht with h1|h1|h1|h1|h1|h1|h1|h1|h1|h1|h1
        · exact secShape_head_ne ((secretsPlan_shape [] a.secrets).2 t h1) (by decide) htk
        · exact secShape_head_ne ((environmentsPlan_shape [] a.environments).2 t h1) (by decide) htk
        · exact secShape_head_ne ((valuesPlan_shape [] a.values).2 t h1) (by decide) htk
        · exact secShape_head_ne ((graphqlPlan_shape [] (graphqlArg a)).2 t h1) (by decide) htk
        · exact secShape_head_ne ((servicesPlan_shape [] a.services).2 t h1) (by decide) htk
        · exact secShape_head_ne ((functionsPlan_shape [] a.functions).2 t h1) (by decide) htk
        · rw [hs, authPlan_some] at h1
          have hlen : t.length = 1 := by
            rcases List.mem_append.mp h1 with h2 | h2
            · by_cases hps : au.providers.isSome = true
              · rw [if_pos hps] at h2
                simp only [List.mem_singleton] at h2
                subst h2
                rfl
              · rw [if_neg hps] at h2
                cases h2
            · by_cases hcs : au.customUserData.isSome = true
              · rw [if_pos hcs] at h2
                simp only [List.mem_singleton] at h2
                subst h2
                rfl
              · rw [if_neg hcs] at h2
                cases h2
          have hlen2 := congrArg List.length htk
          rw [hlen] at hlen2
          simp only [List.nil_append, List.length_append, List.length_cons] at hlen2
          omega
        · exact secShape_head_ne ((syncPlan_shape [] a.sync).2 t h1) (by decide) htk
        · exact secShape_head_ne ((dataSourcesPlan_shape [] a.dataSources).2 t h1) (by decide) htk
        · exact secShape_head_ne ((httpEndpointsPlan_shape [] a.httpEndpoints).2 t h1) (by decide) htk
        · exact secShape_head_ne ((triggersPlan_shape [] a.triggers).2 t h1) (by decide) htk
      · intro f hf k hfk
        rcases mem_oncePlan_wfiles hf with h1|h1|h1|h1|h1|h1|h1|h1|h1|h1|h1
        · exact files_head_ne ((secretsPlan_shape [] a.secrets).1 f h1) (by decide) hfk
        · exact files_head_ne ((environmentsPlan_shape [] a.environments).1 f h1) (by decide) hfk
        · exact files_head_ne ((valuesPlan_shape [] a.values).1 f h1) (by decide) hfk
        · exact files_head_ne ((graphqlPlan_shape [] (graphqlArg a)).1 f h1) (by decide) hfk
        · exact files_head_ne ((servicesPlan_shape [] a.services).1 f h1) (by decide) hfk
        · exact files_head_ne ((functionsPlan_shape [] a.functions).1 f h1) (by decide) hfk
        · have hlenf : f.1.length = 2 := by
            rw [hs, authPlan_some] at h1
            rcases List.mem_append.mp h1 with h2 | h2
            · by_cases hps : au.providers.isSome = true
              · rw [if_pos hps] at h2
                simp only [List.mem_singleton] at h2
                rw [h2]
                rfl
              · rw [if_neg hps] at h2
                cases h2
            · by_cases hcs : au.customUserData.isSome = true
              · rw [if_pos hcs] at h2
                simp only [List.mem_singleton] at h2
                rw [h2]
                rfl
              · rw [if_neg hcs] at h2
                cases h2
          have hk : k = [] := by
            have hlen2 := congrArg List.length hfk
            rw [hlenf] at hlen2
            simp only [List.nil_append, List.length_append, List.length_cons] at hlen2
            cases k with
            | nil => rfl
            | cons y ys => simp at hlen2
          subst hk
          rw [List.append_nil] at hfk
          exact ne_of_lookupL_none hseg f h1 hfk
        · exact files_head_ne ((syncPlan_shape [] a.sync).1 f h1) (by decide) hfk
        · exact files_head_ne ((dataSourcesPlan_shape [] a.dataSources).1 f h1) (by decide) hfk
        · exact files_head_ne ((httpEndpointsPlan_shape [] a.httpEndpoints).1 f h1) (by decide) hfk
        · exact files_head_ne ((triggersPlan_shape [] a.triggers).1 f h1) (by decide) hfk
    rw [hdirfalse]
    rfl

theorem parseAuth_eval (a : AppStructureV2) (h : wfModel a = true) :
    parseAuth (writtenFS a) [] = .ok a.auth := by
  obtain ⟨_, _, _, _, _, hau, _, _, _, _, _, _, _, _, _⟩ := wf_parts h
  rw [parseAuth]
  cases hs : a.auth with
  | none =>
    have hstat : (writtenFS a).statOk ([] ++ [NameAuth]) = false := by
      refine written_no_head a h NameAuth ?_ ?_ []
      · intro t ht r htr
        rcases mem_oncePlan_wdirs ht with h1|h1|h1|h1|h1|h1|h1|h1|h1|h1|h1
        · exact secShape_head_ne ((secretsPlan_shape [] a.secrets).2 t h1) (by decide) htr
        · exact secShape_head_ne ((environmentsPlan_shape [] a.environments).2 t h1) (by decide) htr
        · exact secShape_head_ne ((valuesPlan_shape [] a.values).2 t h1) (by decide) htr
        · exact secShape_head_ne ((graphqlPlan_shape [] (graphqlArg a)).2 t h1) (by decide) htr
        · exact secShape_head_ne ((servicesPlan_shape [] a.services).2 t h1) (by decide) htr
        · exact secShape_head_ne ((functionsPlan_shape [] a.functions).2 t h1) (by decide) htr
        · rw [hs] at h1
          cases h1
        · exact secShape_head_ne ((syncPlan_shape [] a.sync).2 t h1) (by decide) htr
        · exact secShape_head_ne ((dataSourcesPlan_shape [] a.dataSources).2 t h1) (by decide) htr
        · exact secShape_head_ne ((httpEndpointsPlan_shape [] a.httpEndpoints).2 t h1) (by decide) htr
        · exact secShape_head_ne ((triggersPlan_shape [] a.triggers).2 t h1) (by decide) htr
      · intro f hf r hfr
        rcases mem_oncePlan_wfiles hf with h1|h1|h1|h1|h1|h1|h1|h1|h1|h1|h1
        · exact files_head_ne ((secretsPlan_shape [] a.secrets).1 f h1) (by decide) hfr
        · exact files_head_ne ((environmentsPlan_shape [] a.environments).1 f h1) (by decide) hfr
        · exact files_head_ne ((valuesPlan_shape [] a.values).1 f h1) (by decide) hfr
        · exact files_head_ne ((graphqlPlan_shape [] (graphqlArg a)).1 f h1) (by decide) hfr
        · exact files_head_ne ((servicesPlan_shape [] a.services).1 f h1) (by decide) hfr
        · exact files_head_ne ((functionsPlan_shape [] a.functions).1 f h1) (by decide) hfr
        · rw [hs] at h1
          cases h1
        · exact files_head_ne ((syncPlan_shape [] a.sync).1 f h1) (by decide) hfr
        · exact files_head_ne ((dataSourcesPlan_shape [] a.dataSources).1 f h1) (by decide) hfr
        · exact files_head_ne ((httpEndpointsPlan_shape [] a.httpEndpoints).1 f h1) (by decide) hfr
        · exact files_head_ne ((triggersPlan_shape [] a.triggers).1 f h1) (by decide) hfr
    rw [if_neg (by rw [hstat]; exact fun he => absurd he (by simp))]
  | some au =>
    rw [hs] at hau
    simp only [Bool.and_eq_true, Bool.or_eq_true] at hau
    obtain ⟨⟨hor, hwp⟩, hwc⟩ := hau
    have hdm : ([] ++ [NameAuth] : Path) ∈ (writtenFS a).dirs := by
      have hx : ([] ++ [NameAuth] : Path) ∈ (authPlan [] a.auth).wdirs := by
        rw [hs, authPlan_some]
        rcases hor with hps | hcs
        · refine List.mem_append.mpr (Or.inl ?_)
          rw [if_pos hps]
          exact List.mem_singleton.mpr rfl
        · refine List.mem_append.mpr (Or.inr ?_)
          rw [if_pos hcs]
          exact List.mem_singleton.mpr rfl
      have hm : ([] ++ [NameAuth] : Path) ∈ (oncePlan [] a).wdirs := by
        simp only [oncePlan, wplan_append_wdirs, List.mem_append]
        tauto
      show ([] ++ [NameAuth] : Path) ∈ applyDirs [] (oncePlan [] a).wdirs
      rw [mem_applyDirs]
      exact Or.inr ⟨_, hm, (mem_pathPrefixes _ _).mpr List.prefix_rfl⟩
    rw [if_pos (statOk_of_isDir (isDir_of_mem_dirs hdm))]
    have hcud : parseJSON (writtenFS a) ([] ++ [NameAuth] ++ [FileCustomUserData]) =
        .ok au.customUserData := by
      refine parseAuth_file a h au hs FileCustomUserData au.customUserData hwc ?_
      rw [hs]
      exact auth_lookup_cud au
    have hprov : parseJSON (writtenFS a) ([] ++ [NameAuth] ++ [FileProviders]) =
        .ok au.providers := by
      refine parseAuth_file a h au hs FileProviders au.providers hwp ?_
      rw [hs]
      exact auth_lookup_prov au
    simp only [Bind.bind, Except.bind]
    rw [hcud, hprov]


/-! ### Head-restriction: written entries with a given head component come
from that section's plan segment -/

theorem prefix_head_ne {X S : String} {f1 : Path} {w : List String}
    (h : ∃ r2, f1 = [] ++ X :: r2) (hne : S ≠ X) : ¬ S :: w <+: f1 := by
  obtain ⟨r2, rfl⟩ := h
  intro hp
  simp only [List.nil_append] at hp
  exact hne (List.cons_prefix_cons.mp hp).1

theorem append_cons_prefix_head {p : Path} {x n : String} {r : List String}
    (h : p ++ [x] <+: p ++ n :: r) : x = n :=
  (List.cons_prefix_cons.mp ((List.prefix_append_right_inj p).mp h)).1

theorem prefix_cons_self (p : Path) (n : String) (r : List String) :
    p ++ [n] <+: p ++ n :: r :=
  (List.prefix_append_right_inj p).mpr
    (List.cons_prefix_cons.mpr ⟨rfl, List.nil_prefix⟩)

theorem strEndsWith_append (s t : String) : strEndsWith (s ++ t) t = true := by
  rw [strEndsWith]
  refine List.isSuffixOf_iff_suffix.mpr ⟨s.data, ?_⟩
  cases s
  cases t
  rfl

theorem pairwiseB_impl_mem {α : Type} {lt1 lt2 : α → α → Bool} :
    ∀ {l : List α}, (∀ x ∈ l, ∀ y ∈ l, lt1 x y = true → lt2 x y = true) →
      pairwiseB lt1 l = true → pairwiseB lt2 l = true
  | [], _, _ => rfl
  | x :: l, h, hp => by
    obtain ⟨hx, hl⟩ := (pairwiseB_cons_iff lt1 x l).mp hp
    refine (pairwiseB_cons_iff lt2 x l).mpr ⟨?_, ?_⟩
    · intro y hy
      exact h x (List.mem_cons_self _ _) y (List.mem_cons_of_mem _ hy) (hx y hy)
    · exact pairwiseB_impl_mem
        (fun u hu v hv => h u (List.mem_cons_of_mem _ hu) v (List.mem_cons_of_mem _ hv)) hl

theorem filterMap_if_eq {α β : Type} (p : α → Bool) (g : α → β) :
    ∀ (l : List α),
      l.filterMap (fun x => if p x then some (g x) else none) = (l.filter p).map g
  | [] => rfl
  | x :: l => by
    rw [List.filterMap_cons, List.filter_cons]
    by_cases hx : p x = true
    · rw [if_pos hx, if_pos hx, List.map_cons, filterMap_if_eq p g l]
    · rw [if_neg hx, if_neg hx, filterMap_if_eq p g l]

/-- Look up a mapped entry list at one of its own keys (first field
distinct along the list). -/
theorem lookupL_map_entry {α : Type} (g : α → String) (cf : α → FileContent)
    (S : String) :
    ∀ (l : List α) (v : α), v ∈ l →
      pairwiseB (fun x y => strLt (g x) (g y)) l = true →
      lookupL (l.map (fun u => (S :: [g u], cf u))) (S :: [g v]) = some (cf v)
  | u :: l, v, hv, hs => by
    obtain ⟨hu, hl⟩ := (pairwiseB_cons_iff _ u l).mp hs
    rw [List.map_cons, lookupL]
    rcases List.mem_cons.mp hv with rfl | hv2
    · rw [if_pos rfl]
    · rw [if_neg ?_]
      · exact lookupL_map_entry g cf S l v hv2 hl
      · intro he
        have h2 : g u = g v := by
          have := (List.cons.injEq _ _ _ _).mp he
          have := (List.cons.injEq _ _ _ _).mp this.2
          exact this.1
        exact strLt_ne (hu v hv2) h2

theorem dirs_head_envs (a : AppStructureV2) :
    ∀ t ∈ (oncePlan [] a).wdirs, ∀ w : List String,
      NameEnvironments :: w <+: t → t ∈ (environmentsPlan [] a.environments).wdirs := by
  intro t ht w hw
  rcases mem_oncePlan_wdirs ht with h1|h1|h1|h1|h1|h1|h1|h1|h1|h1|h1
  · exact absurd hw (@secShape_npre [] NameEnvironments NameSecrets w t
      ((secretsPlan_shape [] a.secrets).2 t h1) (by decide))
  · exact h1
  · exact absurd hw (@secShape_npre [] NameEnvironments NameValues w t
      ((valuesPlan_shape [] a.values).2 t h1) (by decide))
  · exact absurd hw (@secShape_npre [] NameEnvironments NameGraphQL w t
      ((graphqlPlan_shape [] (graphqlArg a)).2 t h1) (by decide))
  · exact absurd hw (@secShape_npre [] NameEnvironments NameServices w t
      ((servicesPlan_shape [] a.services).2 t h1) (by decide))
  · exact absurd hw (@secShape_npre [] NameEnvironments NameFunctions w t
      ((functionsPlan_shape [] a.functions).2 t h1) (by decide))
  · exact absurd hw (@secShape_npre [] NameEnvironments NameAuth w t
      ((authPlan_shape [] a.auth).2 t h1) (by decide))
  · exact absurd hw (@secShape_npre [] NameEnvironments NameSync w t
      ((syncPlan_shape [] a.sync).2 t h1) (by decide))
  · exact absurd hw (@secShape_npre [] NameEnvironments NameDataSources w t
      ((dataSourcesPlan_shape [] a.dataSources).2 t h1) (by decide))
  · exact absurd hw (@secShape_npre [] NameEnvironments NameHTTPEndpoints w t
      ((httpEndpointsPlan_shape [] a.httpEndpoints).2 t h1) (by decide))
  · exact absurd hw (@secShape_npre [] NameEnvironments NameTriggers w t
      ((triggersPlan_shape [] a.triggers).2 t h1) (by decide))

theorem files_head_envs (a : AppStructureV2) :
    ∀ f ∈ (oncePlan [] a).wfiles, ∀ w : List String,
      NameEnvironments :: w <+: f.1 → f ∈ (environmentsPlan [] a.environments).wfiles := by
  intro f hf w hw
  rcases mem_oncePlan_wfiles hf with h1|h1|h1|h1|h1|h1|h1|h1|h1|h1|h1
  · exact absurd hw (prefix_head_ne ((secretsPlan_shape [] a.secrets).1 f h1) (by decide))
  · exact h1
  · exact absurd hw (prefix_head_ne ((valuesPlan_shape [] a.values).1 f h1) (by decide))
  · exact absurd hw (prefix_head_ne ((graphqlPlan_shape [] (graphqlArg a)).1 f h1) (by decide))
  · exact absurd hw (prefix_head_ne ((servicesPlan_shape [] a.services).1 f h1) (by decide))
  · exact absurd hw (prefix_head_ne ((functionsPlan_shape [] a.functions).1 f h1) (by decide))
  · exact absurd hw (prefix_head_ne ((authPlan_shape [] a.auth).1 f h1) (by decide))
  · exact absurd hw (prefix_head_ne ((syncPlan_shape [] a.sync).1 f h1) (by decide))
  · exact absurd hw (prefix_head_ne ((dataSourcesPlan_shape [] a.dataSources).1 f h1) (by decide))
  · exact absurd hw (prefix_head_ne ((httpEndpointsPlan_shape [] a.httpEndpoints).1 f h1) (by decide))
  · exact absurd hw (prefix_head_ne ((triggersPlan_shape [] a.triggers).1 f h1) (by decide))

theorem lookup_sec_envs (a : AppStructureV2) (q : List String) :
    lookupL (oncePlan [] a).wfiles (NameEnvironments :: q) =
      lookupL (environmentsPlan [] a.environments).wfiles (NameEnvironments :: q) := by
  simp only [oncePlan, wplan_append_wfiles, List.append_assoc]
  refine Eq.trans (lookupL_skip_shape _ (secretsPlan_shape [] a.secrets).1 (by decide)) ?_
  refine lookupL_append_none ?_
  refine Eq.trans (lookupL_skip_shape _ (valuesPlan_shape [] a.values).1 (by decide)) ?_
  refine Eq.trans (lookupL_skip_shape _ (graphqlPlan_shape [] (graphqlArg a)).1 (by decide)) ?_
  refine Eq.trans (lookupL_skip_shape _ (servicesPlan_shape [] a.services).1 (by decide)) ?_
  refine Eq.trans (lookupL_skip_shape _ (functionsPlan_shape [] a.functions).1 (by decide)) ?_
  refine Eq.trans (lookupL_skip_shape _ (authPlan_shape [] a.auth).1 (by decide)) ?_
  refine Eq.trans (lookupL_skip_shape _ (syncPlan_shape [] a.sync).1 (by decide)) ?_
  refine Eq.trans (lookupL_skip_shape _ (dataSourcesPlan_shape [] a.dataSources).1 (by decide)) ?_
  refine Eq.trans (lookupL_skip_shape _ (httpEndpointsPlan_shape [] a.httpEndpoints).1 (by decide)) ?_
  exact lookupL_none_shape (triggersPlan_shape [] a.triggers).1 (by decide)

theorem dirs_head_values (a : AppStructureV2) :
    ∀ t ∈ (oncePlan [] a).wdirs, ∀ w : List String,
      NameValues :: w <+: t → t ∈ (valuesPlan [] a.values).wdirs := by
  intro t ht w hw
  rcases mem_oncePlan_wdirs ht with h1|h1|h1|h1|h1|h1|h1|h1|h1|h1|h1
  · exact absurd hw (@secShape_npre [] NameValues NameSecrets w t
      ((secretsPlan_shape [] a.secrets).2 t h1) (by decide))
  · exact absurd hw (@secShape_npre [] NameValues NameEnvironments w t
      ((environmentsPlan_shape [] a.environments).2 t h1) (by decide))
  · exact h1
  · exact absurd hw (@secShape_npre [] NameValues NameGraphQL w t
      ((graphqlPlan_shape [] (graphqlArg a)).2 t h1) (by decide))
  · exact absurd hw (@secShape_npre [] NameValues NameServices w t
      ((servicesPlan_shape [] a.services).2 t h1) (by decide))
  · exact absurd hw (@secShape_npre [] NameValues NameFunctions w t
      ((functionsPlan_shape [] a.functions).2 t h1) (by decide))
  · exact absurd hw (@secShape_npre [] NameValues NameAuth w t
      ((authPlan_shape [] a.auth).2 t h1) (by decide))
  · exact absurd hw (@secShape_npre [] NameValues NameSync w t
      ((syncPlan_shape [] a.sync).2 t h1) (by decide))
  · exact absurd hw (@secShape_npre [] NameValues NameDataSources w t
      ((dataSourcesPlan_shape [] a.dataSources).2 t h1) (by decide))
  · exact absurd hw (@secShape_npre [] NameValues NameHTTPEndpoints w t
      ((httpEndpointsPlan_shape [] a.httpEndpoints).2 t h1) (by decide))
  · exact absurd hw (@secShape_npre [] NameValues NameTriggers w t
      ((triggersPlan_shape [] a.triggers).2 t h1) (by decide))

theorem files_head_values (a : AppStructureV2) :
    ∀ f ∈ (oncePlan [] a).wfiles, ∀ w : List String,
      NameValues :: w <+: f.1 → f ∈ (valuesPlan [] a.values).wfiles := by
  intro f hf w hw
  rcases mem_oncePlan_wfiles hf with h1|h1|h1|h1|h1|h1|h1|h1|h1|h1|h1
  · exact absurd hw (prefix_head_ne ((secretsPlan_shape [] a.secrets).1 f h1) (by decide))
  · exact absurd hw (prefix_head_ne ((environmentsPlan_shape [] a.environments).1 f h1) (by decide))
  · exact h1
  · exact absurd hw (prefix_head_ne ((graphqlPlan_shape [] (graphqlArg a)).1 f h1) (by decide))
  · exact absurd hw (prefix_head_ne ((servicesPlan_shape [] a.services).1 f h1) (by decide))
  · exact absurd hw (prefix_head_ne ((functionsPlan_shape [] a.functions).1 f h1) (by decide))
  · exact absurd hw (prefix_head_ne ((authPlan_shape [] a.auth).1 f h1) (by decide))
  · exact absurd hw (prefix_head_ne ((syncPlan_shape [] a.sync).1 f h1) (by decide))
  · exact absurd hw (prefix_head_ne ((dataSourcesPlan_shape [] a.dataSources).1 f h1) (by decide))
  · exact absurd hw (prefix_head_ne ((httpEndpointsPlan_shape [] a.httpEndpoints).1 f h1) (by decide))
  · exact absurd hw (prefix_head_ne ((triggersPlan_shape [] a.triggers).1 f h1) (by decide))

theorem lookup_sec_values (a : AppStructureV2) (q : List String) :
    lookupL (oncePlan [] a).wfiles (NameValues :: q) =
      lookupL (valuesPlan [] a.values).wfiles (NameValues :: q) := by
  simp only [oncePlan, wplan_append_wfiles, List.append_assoc]
  refine Eq.trans (lookupL_skip_shape _ (secretsPlan_shape [] a.secrets).1 (by decide)) ?_
  refine Eq.trans (lookupL_skip_shape _ (environmentsPlan_shape [] a.environments).1 (by decide)) ?_
  refine lookupL_append_none ?_
  refine Eq.trans (lookupL_skip_shape _ (graphqlPlan_shape [] (graphqlArg a)).1 (by decide)) ?_
  refine Eq.trans (lookupL_skip_shape _ (servicesPlan_shape [] a.services).1 (by decide)) ?_
  refine Eq.trans (lookupL_skip_shape _ (functionsPlan_shape [] a.functions).1 (by decide)) ?_
  refine Eq.trans (lookupL_skip_shape _ (authPlan_shape [] a.auth).1 (by decide)) ?_
  refine Eq.trans (lookupL_skip_shape _ (syncPlan_shape [] a.sync).1 (by decide)) ?_
  refine Eq.trans (lookupL_skip_shape _ (dataSourcesPlan_shape [] a.dataSources).1 (by decide)) ?_
  refine Eq.trans (lookupL_skip_shape _ (httpEndpointsPlan_shape [] a.httpEndpoints).1 (by decide)) ?_
  exact lookupL_none_shape (triggersPlan_shape [] a.triggers).1 (by decide)

theorem dirs_head_services (a : AppStructureV2) :
    ∀ t ∈ (oncePlan [] a).wdirs, ∀ w : List String,
      NameServices :: w <+: t → t ∈ (servicesPlan [] a.services).wdirs := by
  intro t ht w hw
  rcases mem_oncePlan_wdirs ht with h1|h1|h1|h1|h1|h1|h1|h1|h1|h1|h1
  · exact absurd hw (@secShape_npre [] NameServices NameSecrets w t
      ((secretsPlan_shape [] a.secrets).2 t h1) (by decide))
  · exact absurd hw (@secShape_npre [] NameServices NameEnvironments w t
      ((environmentsPlan_shape [] a.environments).2 t h1) (by decide))
  · exact absurd hw (@secShape_npre [] NameServices NameValues w t
      ((valuesPlan_shape [] a.values).2 t h1) (by decide))
  · exact absurd hw (@secShape_npre [] NameServices NameGraphQL w t
      ((graphqlPlan_shape [] (graphqlArg a)).2 t h1) (by decide))
  · exact h1
  · exact absurd hw (@secShape_npre [] NameServices NameFunctions w t
      ((functionsPlan_shape [] a.functions).2 t h1) (by decide))
  · exact absurd hw (@secShape_npre [] NameServices NameAuth w t
      ((authPlan_shape [] a.auth).2 t h1) (by decide))
  · exact absurd hw (@secShape_npre [] NameServices NameSync w t
      ((syncPlan_shape [] a.sync).2 t h1) (by decide))
  · exact absurd hw (@secShape_npre [] NameServices NameDataSources w t
      ((dataSourcesPlan_shape [] a.dataSources).2 t h1) (by decide))
  · exact absurd hw (@secShape_npre [] NameServices NameHTTPEndpoints w t
      ((httpEndpointsPlan_shape [] a.httpEndpoints).2 t h1) (by decide))
  · exact absurd hw (@secShape_npre [] NameServices NameTriggers w t
      ((triggersPlan_shape [] a.triggers).2 t h1) (by decide))

theorem files_head_services (a : AppStructureV2) :
    ∀ f ∈ (oncePlan [] a).wfiles, ∀ w : List String,
      NameServices :: w <+: f.1 → f ∈ (servicesPlan [] a.services).wfiles := by
  intro f hf w hw
  rcases mem_oncePlan_wfiles hf with h1|h1|h1|h1|h1|h1|h1|h1|h1|h1|h1
  · exact absurd hw (prefix_head_ne ((secretsPlan_shape [] a.secrets).1 f h1) (by decide))
  · exact absurd hw (prefix_head_ne ((environmentsPlan_shape [] a.environments).1 f h1) (by decide))
  · exact absurd hw (prefix_head_ne ((valuesPlan_shape [] a.values).1 f h1) (by decide))
  · exact absurd hw (prefix_head_ne ((graphqlPlan_shape [] (graphqlArg a)).1 f h1) (by decide))
  · exact h1
  · exact absurd hw (prefix_head_ne ((functionsPlan_shape [] a.functions).1 f h1) (by decide))
  · exact absurd hw (prefix_head_ne ((authPlan_shape [] a.auth).1 f h1) (by decide))
  · exact absurd hw (prefix_head_ne ((syncPlan_shape [] a.sync).1 f h1) (by decide))
  · exact absurd hw (prefix_head_ne ((dataSourcesPlan_shape [] a.dataSources).1 f h1) (by decide))
  · exact absurd hw (prefix_head_ne ((httpEndpointsPlan_shape [] a.httpEndpoints).1 f h1) (by decide))
  · exact absurd hw (prefix_head_ne ((triggersPlan_shape [] a.triggers).1 f h1) (by decide))

theorem lookup_sec_services (a : AppStructureV2) (q : List String) :
    lookupL (oncePlan [] a).wfiles (NameServices :: q) =
      lookupL (servicesPlan [] a.services).wfiles (NameServices :: q) := by
  simp only [oncePlan, wplan_append_wfiles, List.append_assoc]
  refine Eq.trans (lookupL_skip_shape _ (secretsPlan_shape [] a.secrets).1 (by decide)) ?_
  refine Eq.trans (lookupL_skip_shape _ (environmentsPlan_shape [] a.environments).1 (by decide)) ?_
  refine Eq.trans (lookupL_skip_shape _ (valuesPlan_shape [] a.values).1 (by decide)) ?_
  refine Eq.trans (lookupL_skip_shape _ (graphqlPlan_shape [] (graphqlArg a)).1 (by decide)) ?_
  refine lookupL_append_none ?_
  refine Eq.trans (lookupL_skip_shape _ (functionsPlan_shape [] a.functions).1 (by decide)) ?_
  refine Eq.trans (lookupL_skip_shape _ (authPlan_shape [] a.auth).1 (by decide)) ?_
  refine Eq.trans (lookupL_skip_shape _ (syncPlan_shape [] a.sync).1 (by decide)) ?_
  refine Eq.trans (lookupL_skip_shape _ (dataSourcesPlan_shape [] a.dataSources).1 (by decide)) ?_
  refine Eq.trans (lookupL_skip_shape _ (httpEndpointsPlan_shape [] a.httpEndpoints).1 (by decide)) ?_
  exact lookupL_none_shape (triggersPlan_shape [] a.triggers).1 (by decide)

theorem dirs_head_functions (a : AppStructureV2) :
    ∀ t ∈ (oncePlan [] a).wdirs, ∀ w : List String,
      NameFunctions :: w <+: t → t ∈ (functionsPlan [] a.functions).wdirs := by
  intro t ht w hw
  rcases mem_oncePlan_wdirs ht with h1|h1|h1|h1|h1|h1|h1|h1|h1|h1|h1
  · exact absurd hw (@secShape_npre [] NameFunctions NameSecrets w t
      ((secretsPlan_shape [] a.secrets).2 t h1) (by decide))
  · exact absurd hw (@secShape_npre [] NameFunctions NameEnvironments w t
      ((environmentsPlan_shape [] a.environments).2 t h1) (by decide))
  · exact absurd hw (@secShape_npre [] NameFunctions NameValues w t
      ((valuesPlan_shape [] a.values).2 t h1) (by decide))
  · exact absurd hw (@secShape_npre [] NameFunctions NameGraphQL w t
      ((graphqlPlan_shape [] (graphqlArg a)).2 t h1) (by decide))
  · exact absurd hw (@secShape_npre [] NameFunctions NameServices w t
      ((servicesPlan_shape [] a.services).2 t h1) (by decide))
  · exact h1
  · exact absurd hw (@secShape_npre [] NameFunctions NameAuth w t
      ((authPlan_shape [] a.auth).2 t h1) (by decide))
  · exact absurd hw (@secShape_npre [] NameFunctions NameSync w t
      ((syncPlan_shape [] a.sync).2 t h1) (by decide))
  · exact absurd hw (@secShape_npre [] NameFunctions NameDataSources w t
      ((dataSourcesPlan_shape [] a.dataSources).2 t h1) (by decide))
  · exact absurd hw (@secShape_npre [] NameFunctions NameHTTPEndpoints w t
      ((httpEndpointsPlan_shape [] a.httpEndpoints).2 t h1) (by decide))
  · exact absurd hw (@secShape_npre [] NameFunctions NameTriggers w t
      ((triggersPlan_shape [] a.triggers).2 t h1) (by decide))

theorem files_head_functions (a : AppStructureV2) :
    ∀ f ∈ (oncePlan [] a).wfiles, ∀ w : List String,
      NameFunctions :: w <+: f.1 → f ∈ (functionsPlan [] a.functions).wfiles := by
  intro f hf w hw
  rcases mem_oncePlan_wfiles hf with h1|h1|h1|h1|h1|h1|h1|h1|h1|h1|h1
  · exact absurd hw (prefix_head_ne ((secretsPlan_shape [] a.secrets).1 f h1) (by decide))
  · exact absurd hw (prefix_head_ne ((environmentsPlan_shape [] a.environments).1 f h1) (by decide))
  · exact absurd hw (prefix_head_ne ((valuesPlan_shape [] a.values).1 f h1) (by decide))
  · exact absurd hw (prefix_head_ne ((graphqlPlan_shape [] (graphqlArg a)).1 f h1) (by decide))
  · exact absurd hw (prefix_head_ne ((servicesPlan_shape [] a.services).1 f h1) (by decide))
  · exact h1
  · exact absurd hw (prefix_head_ne ((authPlan_shape [] a.auth).1 f h1) (by decide))
  · exact absurd hw (prefix_head_ne ((syncPlan_shape [] a.sync).1 f h1) (by decide))
  · exact absurd hw (prefix_head_ne ((dataSourcesPlan_shape [] a.dataSources).1 f h1) (by decide))
  · exact absurd hw (prefix_head_ne ((httpEndpointsPlan_shape [] a.httpEndpoints).1 f h1) (by decide))
  · exact absurd hw (prefix_head_ne ((triggersPlan_shape [] a.triggers).1 f h1) (by decide))

theorem lookup_sec_functions (a : AppStructureV2) (q : List String) :
    lookupL (oncePlan [] a).wfiles (NameFunctions :: q) =
      lookupL (functionsPlan [] a.functions).wfiles (NameFunctions :: q) := by
  simp only [oncePlan, wplan_append_wfiles, List.append_assoc]
  refine Eq.trans (lookupL_skip_shape _ (secretsPlan_shape [] a.secrets).1 (by decide)) ?_
  refine Eq.trans (lookupL_skip_shape _ (environmentsPlan_shape [] a.environments).1 (by decide)) ?_
  refine Eq.trans (lookupL_skip_shape _ (valuesPlan_shape [] a.values).1 (by decide)) ?_
  refine Eq.trans (lookupL_skip_shape _ (graphqlPlan_shape [] (graphqlArg a)).1 (by decide)) ?_
  refine Eq.trans (lookupL_skip_shape _ (servicesPlan_shape [] a.services).1 (by decide)) ?_
  refine lookupL_append_none ?_
  refine Eq.trans (lookupL_skip_shape _ (authPlan_shape [] a.auth).1 (by decide)) ?_
  refine Eq.trans (lookupL_skip_shape _ (syncPlan_shape [] a.sync).1 (by decide)) ?_
  refine Eq.trans (lookupL_skip_shape _ (dataSourcesPlan_shape [] a.dataSources).1 (by decide)) ?_
  refine Eq.trans (lookupL_skip_shape _ (httpEndpointsPlan_shape [] a.httpEndpoints).1 (by decide)) ?_
  exact lookupL_none_shape (triggersPlan_shape [] a.triggers).1 (by decide)

theorem dirs_head_ds (a : AppStructureV2) :
    ∀ t ∈ (oncePlan [] a).wdirs, ∀ w : List String,
      NameDataSources :: w <+: t → t ∈ (dataSourcesPlan [] a.dataSources).wdirs := by
  intro t ht w hw
  rcases mem_oncePlan_wdirs ht with h1|h1|h1|h1|h1|h1|h1|h1|h1|h1|h1
  · exact absurd hw (@secShape_npre [] NameDataSources NameSecrets w t
      ((secretsPlan_shape [] a.secrets).2 t h1) (by decide))
  · exact absurd hw (@secShape_npre [] NameDataSources NameEnvironments w t
      ((environmentsPlan_shape [] a.environments).2 t h1) (by decide))
  · exact absurd hw (@secShape_npre [] NameDataSources NameValues w t
      ((valuesPlan_shape [] a.values).2 t h1) (by decide))
  · exact absurd hw (@secShape_npre [] NameDataSources NameGraphQL w t
      ((graphqlPlan_shape [] (graphqlArg a)).2 t h1) (by decide))
  · exact absurd hw (@secShape_npre [] NameDataSources NameServices w t
      ((servicesPlan_shape [] a.services).2 t h1) (by decide))
  · exact absurd hw (@secShape_npre [] NameDataSources NameFunctions w t
      ((functionsPlan_shape [] a.functions).2 t h1) (by decide))
  · exact absurd hw (@secShape_npre [] NameDataSources NameAuth w t
      ((authPlan_shape [] a.auth).2 t h1) (by decide))
  · exact absurd hw (@secShape_npre [] NameDataSources NameSync w t
      ((syncPlan_shape [] a.sync).2 t h1) (by decide))
  · exact h1
  · exact absurd hw (@secShape_npre [] NameDataSources NameHTTPEndpoints w t
      ((httpEndpointsPlan_shape [] a.httpEndpoints).2 t h1) (by decide))
  · exact absurd hw (@secShape_npre [] NameDataSources NameTriggers w t
      ((triggersPlan_shape [] a.triggers).2 t h1) (by decide))

theorem files_head_ds (a : AppStructureV2) :
    ∀ f ∈ (oncePlan [] a).wfiles, ∀ w : List String,
      NameDataSources :: w <+: f.1 → f ∈ (dataSourcesPlan [] a.dataSources).wfiles := by
  intro f hf w hw
  rcases mem_oncePlan_wfiles hf with h1|h1|h1|h1|h1|h1|h1|h1|h1|h1|h1
  · exact absurd hw (prefix_head_ne ((secretsPlan_shape [] a.secrets).1 f h1) (by decide))
  · exact absurd hw (prefix_head_ne ((environmentsPlan_shape [] a.environments).1 f h1) (by decide))
  · exact absurd hw (prefix_head_ne ((valuesPlan_shape [] a.values).1 f h1) (by decide))
  · exact absurd hw (prefix_head_ne ((graphqlPlan_shape [] (graphqlArg a)).1 f h1) (by decide))
  · exact absurd hw (prefix_head_ne ((servicesPlan_shape [] a.services).1 f h1) (by decide))
  · exact absurd hw (prefix_head_ne ((functionsPlan_shape [] a.functions).1 f h1) (by decide))
  · exact absurd hw (prefix_head_ne ((authPlan_shape [] a.auth).1 f h1) (by decide))
  · exact absurd hw (prefix_head_ne ((syncPlan_shape [] a.sync).1 f h1) (by decide))
  · exact h1
  · exact absurd hw (prefix_head_ne ((httpEndpointsPlan_shape [] a.httpEndpoints).1 f h1) (by decide))
  · exact absurd hw (prefix_head_ne ((triggersPlan_shape [] a.triggers).1 f h1) (by decide))

theorem lookup_sec_ds (a : AppStructureV2) (q : List String) :
    lookupL (oncePlan [] a).wfiles (NameDataSources :: q) =
      lookupL (dataSourcesPlan [] a.dataSources).wfiles (NameDataSources :: q) := by
  simp only [oncePlan, wplan_append_wfiles, List.append_assoc]
  refine Eq.trans (lookupL_skip_shape _ (secretsPlan_shape [] a.secrets).1 (by decide)) ?_
  refine Eq.trans (lookupL_skip_shape _ (environmentsPlan_shape [] a.environments).1 (by decide)) ?_
  refine Eq.trans (lookupL_skip_shape _ (valuesPlan_shape [] a.values).1 (by decide)) ?_
  refine Eq.trans (lookupL_skip_shape _ (graphqlPlan_shape [] (graphqlArg a)).1 (by decide)) ?_
  refine Eq.trans (lookupL_skip_shape _ (servicesPlan_shape [] a.services).1 (by decide)) ?_
  refine Eq.trans (lookupL_skip_shape _ (functionsPlan_shape [] a.functions).1 (by decide)) ?_
  refine Eq.trans (lookupL_skip_shape _ (authPlan_shape [] a.auth).1 (by decide)) ?_
  refine Eq.trans (lookupL_skip_shape _ (syncPlan_shape [] a.sync).1 (by decide)) ?_
  refine lookupL_append_none ?_
  refine Eq.trans (lookupL_skip_shape _ (httpEndpointsPlan_shape [] a.httpEndpoints).1 (by decide)) ?_
  exact lookupL_none_shape (triggersPlan_shape [] a.triggers).1 (by decide)

theorem dirs_head_http (a : AppStructureV2) :
    ∀ t ∈ (oncePlan [] a).wdirs, ∀ w : List String,
      NameHTTPEndpoints :: w <+: t → t ∈ (httpEndpointsPlan [] a.httpEndpoints).wdirs := by
  intro t ht w hw
  rcases mem_oncePlan_wdirs ht with h1|h1|h1|h1|h1|h1|h1|h1|h1|h1|h1
  · exact absurd hw (@secShape_npre [] NameHTTPEndpoints NameSecrets w t
      ((secretsPlan_shape [] a.secrets).2 t h1) (by decide))
  · exact absurd hw (@secShape_npre [] NameHTTPEndpoints NameEnvironments w t
      ((environmentsPlan_shape [] a.environments).2 t h1) (by decide))
  · exact absurd hw (@secShape_npre [] NameHTTPEndpoints NameValues w t
      ((valuesPlan_shape [] a.values).2 t h1) (by decide))
  · exact absurd hw (@secShape_npre [] NameHTTPEndpoints NameGraphQL w t
      ((graphqlPlan_shape [] (graphqlArg a)).2 t h1) (by decide))
  · exact absurd hw (@secShape_npre [] NameHTTPEndpoints NameServices w t
      ((servicesPlan_shape [] a.services).2 t h1) (by decide))
  · exact absurd hw (@secShape_npre [] NameHTTPEndpoints NameFunctions w t
      ((functionsPlan_shape [] a.functions).2 t h1) (by decide))
  · exact absurd hw (@secShape_npre [] NameHTTPEndpoints NameAuth w t
      ((authPlan_shape [] a.auth).2 t h1) (by decide))
  · exact absurd hw (@secShape_npre [] NameHTTPEndpoints NameSync w t
      ((syncPlan_shape [] a.sync).2 t h1) (by decide))
  · exact absurd hw (@secShape_npre [] NameHTTPEndpoints NameDataSources w t
      ((dataSourcesPlan_shape [] a.dataSources).2 t h1) (by decide))
  · exact h1
  · exact absurd hw (@secShape_npre [] NameHTTPEndpoints NameTriggers w t
      ((triggersPlan_shape [] a.triggers).2 t h1) (by decide))

theorem files_head_http (a : AppStructureV2) :
    ∀ f ∈ (oncePlan [] a).wfiles, ∀ w : List String,
      NameHTTPEndpoints :: w <+: f.1 → f ∈ (httpEndpointsPlan [] a.httpEndpoints).wfiles := by
  intro f hf w hw
  rcases mem_oncePlan_wfiles hf with h1|h1|h1|h1|h1|h1|h1|h1|h1|h1|h1
  · exact absurd hw (prefix_head_ne ((secretsPlan_shape [] a.secrets).1 f h1) (by decide))
  · exact absurd hw (prefix_head_ne ((environmentsPlan_shape [] a.environments).1 f h1) (by decide))
  · exact absurd hw (prefix_head_ne ((valuesPlan_shape [] a.values).1 f h1) (by decide))
  · exact absurd hw (prefix_head_ne ((graphqlPlan_shape [] (graphqlArg a)).1 f h1) (by decide))
  · exact absurd hw (prefix_head_ne ((servicesPlan_shape [] a.services).1 f h1) (by decide))
  · exact absurd hw (prefix_head_ne ((functionsPlan_shape [] a.functions).1 f h1) (by decide))
  · exact absurd hw (prefix_head_ne ((authPlan_shape [] a.auth).1 f h1) (by decide))
  · exact absurd hw (prefix_head_ne ((syncPlan_shape [] a.sync).1 f h1) (by decide))
  · exact absurd hw (prefix_head_ne ((dataSourcesPlan_shape [] a.dataSources).1 f h1) (by decide))
  · exact h1
  · exact absurd hw (prefix_head_ne ((triggersPlan_shape [] a.triggers).1 f h1) (by decide))

theorem lookup_sec_http (a : AppStructureV2) (q : List String) :
    lookupL (oncePlan [] a).wfiles (NameHTTPEndpoints :: q) =
      lookupL (httpEndpointsPlan [] a.httpEndpoints).wfiles (NameHTTPEndpoints :: q) := by
  simp only [oncePlan, wplan_append_wfiles, List.append_assoc]
  refine Eq.trans (lookupL_skip_shape _ (secretsPlan_shape [] a.secrets).1 (by decide)) ?_
  refine Eq.trans (lookupL_skip_shape _ (environmentsPlan_shape [] a.environments).1 (by decide)) ?_
  refine Eq.trans (lookupL_skip_shape _ (valuesPlan_shape [] a.values).1 (by decide)) ?_
  refine Eq.trans (lookupL_skip_shape _ (graphqlPlan_shape [] (graphqlArg a)).1 (by decide)) ?_
  refine Eq.trans (lookupL_skip_shape _ (servicesPlan_shape [] a.services).1 (by decide)) ?_
  refine Eq.trans (lookupL_skip_shape _ (functionsPlan_shape [] a.functions).1 (by decide)) ?_
  refine Eq.trans (lookupL_skip_shape _ (authPlan_shape [] a.auth).1 (by decide)) ?_
  refine Eq.trans (lookupL_skip_shape _ (syncPlan_shape [] a.sync).1 (by decide)) ?_
  refine Eq.trans (lookupL_skip_shape _ (dataSourcesPlan_shape [] a.dataSources).1 (by decide)) ?_
  refine lookupL_append_none ?_
  exact lookupL_none_shape (triggersPlan_shape [] a.triggers).1 (by decide)

theorem dirs_head_trig (a : AppStructureV2) :
    ∀ t ∈ (oncePlan [] a).wdirs, ∀ w : List String,
      NameTriggers :: w <+: t → t ∈ (triggersPlan [] a.triggers).wdirs := by
  intro t ht w hw
  rcases mem_oncePlan_wdirs ht with h1|h1|h1|h1|h1|h1|h1|h1|h1|h1|h1
  · exact absurd hw (@secShape_npre [] NameTriggers NameSecrets w t
      ((secretsPlan_shape [] a.secrets).2 t h1) (by decide))
  · exact absurd hw (@secShape_npre [] NameTriggers NameEnvironments w t
      ((environmentsPlan_shape [] a.environments).2 t h1) (by decide))
  · exact absurd hw (@secShape_npre [] NameTriggers NameValues w t
      ((valuesPlan_shape [] a.values).2 t h1) (by decide))
  · exact absurd hw (@secShape_npre [] NameTriggers NameGraphQL w t
      ((graphqlPlan_shape [] (graphqlArg a)).2 t h1) (by decide))
  · exact absurd hw (@secShape_npre [] NameTriggers NameServices w t
      ((servicesPlan_shape [] a.services).2 t h1) (by decide))
  · exact absurd hw (@secShape_npre [] NameTriggers NameFunctions w t
      ((functionsPlan_shape [] a.functions).2 t h1) (by decide))
  · exact absurd hw (@secShape_npre [] NameTriggers NameAuth w t
      ((authPlan_shape [] a.auth).2 t h1) (by decide))
  · exact absurd hw (@secShape_npre [] NameTriggers NameSync w t
      ((syncPlan_shape [] a.sync).2 t h1) (by decide))
  · exact absurd hw (@secShape_npre [] NameTriggers NameDataSources w t
      ((dataSourcesPlan_shape [] a.dataSources).2 t h1) (by decide))
  · exact absurd hw (@secShape_npre [] NameTriggers NameHTTPEndpoints w t
      ((httpEndpointsPlan_shape [] a.httpEndpoints).2 t h1) (by decide))
  · exact h1

theorem files_head_trig (a : AppStructureV2) :
    ∀ f ∈ (oncePlan [] a).wfiles, ∀ w : List String,
      NameTriggers :: w <+: f.1 → f ∈ (triggersPlan [] a.triggers).wfiles := by
  intro f hf w hw
  rcases mem_oncePlan_wfiles hf with h1|h1|h1|h1|h1|h1|h1|h1|h1|h1|h1
  · exact absurd hw (prefix_head_ne ((secretsPlan_shape [] a.secrets).1 f h1) (by decide))
  · exact absurd hw (prefix_head_ne ((environmentsPlan_shape [] a.environments).1 f h1) (by decide))
  · exact absurd hw (prefix_head_ne ((valuesPlan_shape [] a.values).1 f h1) (by decide))
  · exact absurd hw (prefix_head_ne ((graphqlPlan_shape [] (graphqlArg a)).1 f h1) (by decide))
  · exact absurd hw (prefix_head_ne ((servicesPlan_shape [] a.services).1 f h1) (by decide))
  · exact absurd hw (prefix_head_ne ((functionsPlan_shape [] a.functions).1 f h1) (by decide))
  · exact absurd hw (prefix_head_ne ((authPlan_shape [] a.auth).1 f h1) (by decide))
  · exact absurd hw (prefix_head_ne ((syncPlan_shape [] a.sync).1 f h1) (by decide))
  · exact absurd hw (prefix_head_ne ((dataSourcesPlan_shape [] a.dataSources).1 f h1) (by decide))
  · exact absurd hw (prefix_head_ne ((httpEndpointsPlan_shape [] a.httpEndpoints).1 f h1) (by decide))
  · exact h1

theorem lookup_sec_trig (a : AppStructureV2) (q : List String) :
    lookupL (oncePlan [] a).wfiles (NameTriggers :: q) =
      lookupL (triggersPlan [] a.triggers).wfiles (NameTriggers :: q) := by
  simp only [oncePlan, wplan_append_wfiles, List.append_assoc]
  refine Eq.trans (lookupL_skip_shape _ (secretsPlan_shape [] a.secrets).1 (by decide)) ?_
  refine Eq.trans (lookupL_skip_shape _ (environmentsPlan_shape [] a.environments).1 (by decide)) ?_
  refine Eq.trans (lookupL_skip_shape _ (valuesPlan_shape [] a.values).1 (by decide)) ?_
  refine Eq.trans (lookupL_skip_shape _ (graphqlPlan_shape [] (graphqlArg a)).1 (by decide)) ?_
  refine Eq.trans (lookupL_skip_shape _ (servicesPlan_shape [] a.services).1 (by decide)) ?_
  refine Eq.trans (lookupL_skip_shape _ (functionsPlan_shape [] a.functions).1 (by decide)) ?_
  refine Eq.trans (lookupL_skip_shape _ (authPlan_shape [] a.auth).1 (by decide)) ?_
  refine Eq.trans (lookupL_skip_shape _ (syncPlan_shape [] a.sync).1 (by decide)) ?_
  refine Eq.trans (lookupL_skip_shape _ (dataSourcesPlan_shape [] a.dataSources).1 (by decide)) ?_
  refine Eq.trans (lookupL_skip_shape _ (httpEndpointsPlan_shape [] a.httpEndpoints).1 (by decide)) ?_
  rfl


/-! ### Environments: listing and parse evaluation -/

theorem parseEnvironmentsList_of (fs : FS) (dir : Path) :
    ∀ (l : List (String × GoMap)),
      (∀ kv ∈ l, parseJSON fs (dir ++ [kv.1]) = .ok kv.2) →
      parseEnvironmentsList fs dir (l.map Prod.fst) = .ok l
  | [], _ => rfl
  | kv :: l, hp => by
    rw [List.map_cons, parseEnvironmentsList]
    simp only [Bind.bind, Except.bind]
    rw [hp kv (List.mem_cons_self _ _), parseEnvironmentsList_of fs dir l
      (fun kv2 h2 => hp kv2 (List.mem_cons_of_mem _ h2))]

theorem envsPlan_lookup (envs : List (String × GoMap))
    (hs : pairwiseB (fun x y => strLt x.1 y.1) envs = true)
    (kv : String × GoMap) (hkv : kv ∈ envs) :
    lookupL (environmentsPlan [] (some envs)).wfiles (NameEnvironments :: [kv.1]) =
      some (.json (marshalGoMap kv.2)) := by
  rw [show (environmentsPlan [] (some envs)).wfiles =
      envs.map (fun u => ((NameEnvironments :: [u.1] : Path),
        FileContent.json (marshalGoMap u.2))) from rfl]
  exact lookupL_map_entry (fun u => u.1) (fun u => .json (marshalGoMap u.2))
    NameEnvironments envs kv hkv hs

theorem envs_childNames (a : AppStructureV2) (h : wfModel a = true)
    (l : List (String × GoMap)) (henv : a.environments = some l) :
    (writtenFS a).childNames ([] ++ [NameEnvironments]) = l.map Prod.fst := by
  obtain ⟨_, _, henvS, _⟩ := wf_parts h
  have henvS2 : pairwiseB (fun x y => strLt x.1 y.1) l = true := by
    rw [henv] at henvS
    exact henvS
  have hchar : ∀ x, x ∈ (writtenFS a).childNames ([] ++ [NameEnvironments]) ↔
      x ∈ l.map Prod.fst := by
    intro x
    rw [@mem_childNames (writtenFS a) ((oncePlan [] a).wdirs) rfl ([] ++ [NameEnvironments]) x]
    constructor
    · rintro (⟨t, ht, hpre⟩ | ⟨f, hf, hpre⟩)
      · have ht2 := dirs_head_envs a t ht [x] hpre
        rw [henv] at ht2
        simp only [environmentsPlan, List.mem_cons, List.mem_map] at ht2
        rcases ht2 with rfl | ⟨kv, _, rfl⟩
        · have hlen := hpre.length_le
          simp only [List.length_append, List.length_cons, List.length_nil] at hlen
          omega
        · have hlen := hpre.length_le
          simp only [List.length_append, List.length_cons, List.length_nil] at hlen
          omega
      · rw [writtenFS_files a h] at hf
        have hf2 := files_head_envs a f hf [x] hpre
        rw [henv] at hf2
        simp only [environmentsPlan, List.mem_map] at hf2
        obtain ⟨kv, hkv, hfe⟩ := hf2
        have hpre2 : ([] ++ [NameEnvironments] : Path) ++ [x] <+:
            [] ++ [NameEnvironments, kv.1] := by
          rw [← hfe] at hpre
          exact hpre
        have hx := @append_cons_prefix_head ([] ++ [NameEnvironments]) x kv.1 [] hpre2
        rw [hx]
        exact List.mem_map_of_mem Prod.fst hkv
    · intro hx
      obtain ⟨kv, hkv, rfl⟩ := List.mem_map.mp hx
      refine Or.inr ⟨([] ++ [NameEnvironments, kv.1], .json (marshalGoMap kv.2)), ?_, ?_⟩
      · rw [writtenFS_files a h]
        simp only [oncePlan, wplan_append_wfiles, List.mem_append]
        have : ([] ++ [NameEnvironments, kv.1], FileContent.json (marshalGoMap kv.2)) ∈
            (environmentsPlan [] a.environments).wfiles := by
          rw [henv]
          exact List.mem_map.mpr ⟨kv, hkv, rfl⟩
        tauto
      · exact prefix_cons_self ([] ++ [NameEnvironments]) kv.1 []
  rw [FS.childNames]
  refine sortDedup_eq_of ?_ ?_
  · rw [pairwiseB_map strLt Prod.fst]
    exact henvS2
  · intro x
    exact (mem_sortDedup x _).symm.trans (hchar x)

theorem envs_isFile_name (a : AppStructureV2) (h : wfModel a = true)
    (l : List (String × GoMap)) (henv : a.environments = some l)
    (kv : String × GoMap) (hkv : kv ∈ l) :
    (writtenFS a).isFile (([] ++ [NameEnvironments]) ++ [kv.1]) = true := by
  obtain ⟨_, _, henvS, _⟩ := wf_parts h
  have henvS2 : pairwiseB (fun x y => strLt x.1 y.1) l = true := by
    rw [henv] at henvS
    exact henvS
  rw [FS.isFile, FS.lookupFile, writtenFS_files a h]
  show (lookupL (oncePlan [] a).wfiles (NameEnvironments :: [kv.1])).isSome = true
  rw [lookup_sec_envs, henv, envsPlan_lookup l henvS2 kv hkv]
  rfl

theorem parseEnvironments_eval (a : AppStructureV2) (h : wfModel a = true) :
    parseEnvironments (writtenFS a) [] = .ok a.environments := by
  obtain ⟨_, henvA, henvS, _⟩ := wf_parts h
  rw [parseEnvironments]
  cases henv : a.environments with
  | none =>
    have hstat : (writtenFS a).statOk ([] ++ [NameEnvironments]) = false := by
      refine written_no_head a h NameEnvironments ?_ ?_ []
      · intro t ht r htr
        rcases mem_oncePlan_wdirs ht with h1|h1|h1|h1|h1|h1|h1|h1|h1|h1|h1
        · exact secShape_head_ne ((secretsPlan_shape [] a.secrets).2 t h1) (by decide) htr
        · rw [henv] at h1; cases h1
        · exact secShape_head_ne ((valuesPlan_shape [] a.values).2 t h1) (by decide) htr
        · exact secShape_head_ne ((graphqlPlan_shape [] (graphqlArg a)).2 t h1) (by decide) htr
        · exact secShape_head_ne ((servicesPlan_shape [] a.services).2 t h1) (by decide) htr
        · exact secShape_head_ne ((functionsPlan_shape [] a.functions).2 t h1) (by decide) htr
        · exact secShape_head_ne ((authPlan_shape [] a.auth).2 t h1) (by decide) htr
        · exact secShape_head_ne ((syncPlan_shape [] a.sync).2 t h1) (by decide) htr
        · exact secShape_head_ne ((dataSourcesPlan_shape [] a.dataSources).2 t h1) (by decide) htr
        · exact secShape_head_ne ((httpEndpointsPlan_shape [] a.httpEndpoints).2 t h1) (by decide) htr
        · exact secShape_head_ne ((triggersPlan_shape [] a.triggers).2 t h1) (by decide) htr
      · intro f hf r hfr
        rcases mem_oncePlan_wfiles hf with h1|h1|h1|h1|h1|h1|h1|h1|h1|h1|h1
        · exact files_head_ne ((secretsPlan_shape [] a.secrets).1 f h1) (by decide) hfr
        · rw [henv] at h1; cases h1
        · exact files_head_ne ((valuesPlan_shape [] a.values).1 f h1) (by decide) hfr
        · exact files_head_ne ((graphqlPlan_shape [] (graphqlArg a)).1 f h1) (by decide) hfr
        · exact files_head_ne ((servicesPlan_shape [] a.services).1 f h1) (by decide) hfr
        · exact files_head_ne ((functionsPlan_shape [] a.functions).1 f h1) (by decide) hfr
        · exact files_head_ne ((authPlan_shape [] a.auth).1 f h1) (by decide) hfr
        · exact files_head_ne ((syncPlan_shape [] a.sync).1 f h1) (by decide) hfr
        · exact files_head_ne ((dataSourcesPlan_shape [] a.dataSources).1 f h1) (by decide) hfr
        · exact files_head_ne ((httpEndpointsPlan_shape [] a.httpEndpoints).1 f h1) (by decide) hfr
        · exact files_head_ne ((triggersPlan_shape [] a.triggers).1 f h1) (by decide) hfr
    have hfile : (writtenFS a).isFile ([] ++ [NameEnvironments]) = false := by
      cases hb : (writtenFS a).isFile ([] ++ [NameEnvironments]) with
      | false => rfl
      | true =>
        rw [FS.statOk, hb] at hstat
        simp at hstat
    rw [if_neg (by rw [hfile]; simp),
      if_neg (by rw [hstat]; exact fun he => absurd he (by simp))]
  | some l =>
    have henvA2 : l.all (fun kv => strEndsWith kv.1 ".json" && wfGoMapB kv.2) = true := by
      rw [henv] at henvA
      exact henvA
    have henvS2 : pairwiseB (fun x y => strLt x.1 y.1) l = true := by
      rw [henv] at henvS
      exact henvS
    have hfile : (writtenFS a).isFile ([] ++ [NameEnvironments]) = false := by
      rw [FS.isFile, FS.lookupFile, writtenFS_files a h]
      show (lookupL (oncePlan [] a).wfiles (NameEnvironments :: [])).isSome = false
      rw [lookup_sec_envs, henv]
      rw [lookupL_none_of_ne _ _ ?_]
      · rfl
      · intro f hf he
        simp only [environmentsPlan, List.mem_map] at hf
        obtain ⟨kv, _, hfe⟩ := hf
        rw [← hfe] at he
        have he2 : ([NameEnvironments, kv.1] : Path) = [NameEnvironments] := he
        have := congrArg List.length he2
        simp at this
    have hdm : ([] ++ [NameEnvironments] : Path) ∈ (writtenFS a).dirs := by
      have hx : ([] ++ [NameEnvironments] : Path) ∈
          (environmentsPlan [] a.environments).wdirs := by
        rw [henv]
        exact List.mem_cons_self _ _
      have hm : ([] ++ [NameEnvironments] : Path) ∈ (oncePlan [] a).wdirs := by
        simp only [oncePlan, wplan_append_wdirs, List.mem_append]
        tauto
      show ([] ++ [NameEnvironments] : Path) ∈ applyDirs [] (oncePlan [] a).wdirs
      rw [mem_applyDirs]
      exact Or.inr ⟨_, hm, (mem_pathPrefixes _ _).mpr List.prefix_rfl⟩
    rw [if_neg (by rw [hfile]; simp),
      if_pos (statOk_of_isDir (isDir_of_mem_dirs hdm))]
    have hnames : (writtenFS a).childFileNames ([] ++ [NameEnvironments]) =
        l.map Prod.fst := by
      rw [FS.childFileNames, envs_childNames a h l henv]
      refine List.filter_eq_self.mpr ?_
      intro x hx
      obtain ⟨kv, hkv, rfl⟩ := List.mem_map.mp hx
      exact envs_isFile_name a h l henv kv hkv
    rw [hnames]
    have hjson : (l.map Prod.fst).filter (fun n => strEndsWith n ".json") =
        l.map Prod.fst := by
      refine List.filter_eq_self.mpr ?_
      intro x hx
      obtain ⟨kv, hkv, rfl⟩ := List.mem_map.mp hx
      have := List.all_eq_true.mp henvA2 kv hkv
      simp only [Bool.and_eq_true] at this
      exact this.1
    rw [hjson]
    have hlist : parseEnvironmentsList (writtenFS a) ([] ++ [NameEnvironments])
        (l.map Prod.fst) = .ok l := by
      refine parseEnvironmentsList_of (writtenFS a) ([] ++ [NameEnvironments]) l ?_
      intro kv hkv
      have := List.all_eq_true.mp henvA2 kv hkv
      simp only [Bool.and_eq_true] at this
      refine parseJSON_marshal a h _ kv.2 this.2 ?_
      show lookupL (oncePlan [] a).wfiles (NameEnvironments :: [kv.1]) = _
      rw [lookup_sec_envs, henv]
      exact envsPlan_lookup l henvS2 kv hkv
    simp only [Bind.bind, Except.bind]
    rw [hlist]


/-! ### Values and triggers: listing and parse evaluation -/

theorem parseJSONFilesList_of (fs : FS) (dir : Path) :
    ∀ (l : List GoMap),
      (∀ v ∈ l, parseJSON fs (dir ++ [valueFileName v]) = .ok v) →
      parseJSONFilesList fs dir (l.map valueFileName) = .ok l
  | [], _ => rfl
  | v :: l, hp => by
    rw [List.map_cons, parseJSONFilesList]
    simp only [Bind.bind, Except.bind]
    rw [hp v (List.mem_cons_self _ _), parseJSONFilesList_of fs dir l
      (fun v2 h2 => hp v2 (List.mem_cons_of_mem _ h2))]

theorem valuesPlan_lookup (vals : List GoMap)
    (hs : pairwiseB (fun x y => strLt (valueFileName x) (valueFileName y)) vals = true)
    (v : GoMap) (hv : v ∈ vals) :
    lookupL (valuesPlan [] vals).wfiles (NameValues :: [valueFileName v]) =
      some (.json (marshalGoMap v)) := by
  rw [show (valuesPlan [] vals).wfiles =
      vals.map (fun u => ((NameValues :: [valueFileName u] : Path),
        FileContent.json (marshalGoMap u))) from rfl]
  exact lookupL_map_entry valueFileName (fun u => .json (marshalGoMap u))
    NameValues vals v hv hs

theorem values_childNames (a : AppStructureV2) (h : wfModel a = true)
    (hS : pairwiseB (fun x y => strLt (valueFileName x) (valueFileName y)) a.values = true) :
    (writtenFS a).childNames ([] ++ [NameValues]) = a.values.map valueFileName := by
  have hchar : ∀ x, x ∈ (writtenFS a).childNames ([] ++ [NameValues]) ↔
      x ∈ a.values.map valueFileName := by
    intro x
    rw [@mem_childNames (writtenFS a) ((oncePlan [] a).wdirs) rfl ([] ++ [NameValues]) x]
    constructor
    · rintro (⟨t, ht, hpre⟩ | ⟨f, hf, hpre⟩)
      · have ht2 := dirs_head_values a t ht [x] hpre
        simp only [valuesPlan, List.mem_cons, List.mem_map] at ht2
        rcases ht2 with rfl | ⟨v, _, rfl⟩
        · have hlen := hpre.length_le
          simp only [List.length_append, List.length_cons, List.length_nil] at hlen
          omega
        · have hlen := hpre.length_le
          simp only [List.length_append, List.length_cons, List.length_nil] at hlen
          omega
      · rw [writtenFS_files a h] at hf
        have hf2 := files_head_values a f hf [x] hpre
        simp only [valuesPlan, List.mem_map] at hf2
        obtain ⟨v, hvm, hfe⟩ := hf2
        have hpre2 : ([] ++ [NameValues] : Path) ++ [x] <+:
            ([] ++ [NameValues]) ++ [valueFileName v] := by
          rw [← hfe] at hpre
          exact hpre
        have hx := @append_cons_prefix_head ([] ++ [NameValues]) x (valueFileName v) [] hpre2
        rw [hx]
        exact List.mem_map_of_mem valueFileName hvm
    · intro hx
      obtain ⟨v, hvm, rfl⟩ := List.mem_map.mp hx
      refine Or.inr ⟨(([] ++ [NameValues]) ++ [valueFileName v],
        .json (marshalGoMap v)), ?_, ?_⟩
      · rw [writtenFS_files a h]
        simp only [oncePlan, wplan_append_wfiles, List.mem_append]
        have : (([] ++ [NameValues]) ++ [valueFileName v],
            FileContent.json (marshalGoMap v)) ∈ (valuesPlan [] a.values).wfiles :=
          List.mem_map.mpr ⟨v, hvm, rfl⟩
        tauto
      · exact prefix_cons_self ([] ++ [NameValues]) (valueFileName v) []
  rw [FS.childNames]
  refine sortDedup_eq_of ?_ ?_
  · rw [pairwiseB_map strLt valueFileName]
    exact hS
  · intro x
    exact (mem_sortDedup x _).symm.trans (hchar x)

theorem parseJSONFiles_values_eval (a : AppStructureV2) (h : wfModel a = true) :
    parseJSONFiles (writtenFS a) ([] ++ [NameValues]) = .ok a.values := by
  obtain ⟨hA, hS⟩ := wfNamed_parts (wf_parts h).2.2.2.1
  rw [parseJSONFiles]
  have hfile : (writtenFS a).isFile ([] ++ [NameValues]) = false := by
    rw [FS.isFile, FS.lookupFile, writtenFS_files a h]
    show (lookupL (oncePlan [] a).wfiles (NameValues :: [])).isSome = false
    rw [lookup_sec_values]
    rw [lookupL_none_of_ne _ _ ?_]
    · rfl
    · intro f hf he
      simp only [valuesPlan, List.mem_map] at hf
      obtain ⟨v, _, hfe⟩ := hf
      rw [← hfe] at he
      have he2 : (([] ++ [NameValues] : Path)) ++ [valueFileName v] = [NameValues] := he
      have := congrArg List.length he2
      simp at this
  rw [if_neg (by rw [hfile]; simp)]
  have hnames : (writtenFS a).childFileNames ([] ++ [NameValues]) =
      a.values.map valueFileName := by
    rw [FS.childFileNames, values_childNames a h hS]
    refine List.filter_eq_self.mpr ?_
    intro x hx
    obtain ⟨v, hvm, rfl⟩ := List.mem_map.mp hx
    rw [FS.isFile, FS.lookupFile, writtenFS_files a h]
    show (lookupL (oncePlan [] a).wfiles (NameValues :: [valueFileName v])).isSome = true
    rw [lookup_sec_values, valuesPlan_lookup a.values hS v hvm]
    rfl
  rw [hnames]
  have hjson : (a.values.map valueFileName).filter (fun n => strEndsWith n ".json") =
      a.values.map valueFileName := by
    refine List.filter_eq_self.mpr ?_
    intro x hx
    obtain ⟨v, _, rfl⟩ := List.mem_map.mp hx
    exact strEndsWith_append (nameOf v) ".json"
  rw [hjson]
  refine parseJSONFilesList_of (writtenFS a) ([] ++ [NameValues]) a.values ?_
  intro v hvm
  have hw := List.all_eq_true.mp hA v hvm
  simp only [Bool.and_eq_true] at hw
  refine parseJSON_marshal a h _ v hw.2 ?_
  show lookupL (oncePlan [] a).wfiles (NameValues :: [valueFileName v]) = _
  rw [lookup_sec_values]
  exact valuesPlan_lookup a.values hS v hvm

theorem trigPlan_lookup (vals : List GoMap)
    (hs : pairwiseB (fun x y => strLt (valueFileName x) (valueFileName y)) vals = true)
    (v : GoMap) (hv : v ∈ vals) :
    lookupL (triggersPlan [] vals).wfiles (NameTriggers :: [valueFileName v]) =
      some (.json (marshalGoMap v)) := by
  rw [show (triggersPlan [] vals).wfiles =
      vals.map (fun u => ((NameTriggers :: [valueFileName u] : Path),
        FileContent.json (marshalGoMap u))) from rfl]
  exact lookupL_map_entry valueFileName (fun u => .json (marshalGoMap u))
    NameTriggers vals v hv hs

theorem trig_childNames (a : AppStructureV2) (h : wfModel a = true)
    (hS : pairwiseB (fun x y => strLt (valueFileName x) (valueFileName y)) a.triggers = true) :
    (writtenFS a).childNames ([] ++ [NameTriggers]) = a.triggers.map valueFileName := by
  have hchar : ∀ x, x ∈ (writtenFS a).childNames ([] ++ [NameTriggers]) ↔
      x ∈ a.triggers.map valueFileName := by
    intro x
    rw [@mem_childNames (writtenFS a) ((oncePlan [] a).wdirs) rfl ([] ++ [NameTriggers]) x]
    constructor
    · rintro (⟨t, ht, hpre⟩ | ⟨f, hf, hpre⟩)
      · have ht2 := dirs_head_trig a t ht [x] hpre
        simp only [triggersPlan, List.mem_cons, List.mem_map] at ht2
        rcases ht2 with rfl | ⟨v, _, rfl⟩
        · have hlen := hpre.length_le
          simp only [List.length_append, List.length_cons, List.length_nil] at hlen
          omega
        · have hlen := hpre.length_le
          simp only [List.length_append, List.length_cons, List.length_nil] at hlen
          omega
      · rw [writtenFS_files a h] at hf
        have hf2 := files_head_trig a f hf [x] hpre
        simp only [triggersPlan, List.mem_map] at hf2
        obtain ⟨v, hvm, hfe⟩ := hf2
        have hpre2 : ([] ++ [NameTriggers] : Path) ++ [x] <+:
            ([] ++ [NameTriggers]) ++ [valueFileName v] := by
          rw [← hfe] at hpre
          exact hpre
        have hx := @append_cons_prefix_head ([] ++ [NameTriggers]) x (valueFileName v) [] hpre2
        rw [hx]
        exact List.mem_map_of_mem valueFileName hvm
    · intro hx
      obtain ⟨v, hvm, rfl⟩ := List.mem_map.mp hx
      refine Or.inr ⟨(([] ++ [NameTriggers]) ++ [valueFileName v],
        .json (marshalGoMap v)), ?_, ?_⟩
      · rw [writtenFS_files a h]
        simp only [oncePlan, wplan_append_wfiles, List.mem_append]
        have : (([] ++ [NameTriggers]) ++ [valueFileName v],
            FileContent.json (marshalGoMap v)) ∈ (triggersPlan [] a.triggers).wfiles :=
          List.mem_map.mpr ⟨v, hvm, rfl⟩
        tauto
      · exact prefix_cons_self ([] ++ [NameTriggers]) (valueFileName v) []
  rw [FS.childNames]
  refine sortDedup_eq_of ?_ ?_
  · rw [pairwiseB_map strLt valueFileName]
    exact hS
  · intro x
    exact (mem_sortDedup x _).symm.trans (hchar x)

theorem parseJSONFiles_trig_eval (a : AppStructureV2) (h : wfModel a = true) :
    parseJSONFiles (writtenFS a) ([] ++ [NameTriggers]) = .ok a.triggers := by
  obtain ⟨hA, hS⟩ := wfNamed_parts (wf_parts h).2.2.2.2.1
  rw [parseJSONFiles]
  have hfile : (writtenFS a).isFile ([] ++ [NameTriggers]) = false := by
    rw [FS.isFile, FS.lookupFile, writtenFS_files a h]
    show (lookupL (oncePlan [] a).wfiles (NameTriggers :: [])).isSome = false
    rw [lookup_sec_trig]
    rw [lookupL_none_of_ne _ _ ?_]
    · rfl
    · intro f hf he
      simp only [triggersPlan, List.mem_map] at hf
      obtain ⟨v, _, hfe⟩ := hf
      rw [← hfe] at he
      have he2 : (([] ++ [NameTriggers] : Path)) ++ [valueFileName v] = [NameTriggers] := he
      have := congrArg List.length he2
      simp at this
  rw [if_neg (by rw [hfile]; simp)]
  have hnames : (writtenFS a).childFileNames ([] ++ [NameTriggers]) =
      a.triggers.map valueFileName := by
    rw [FS.childFileNames, trig_childNames a h hS]
    refine List.filter_eq_self.mpr ?_
    intro x hx
    obtain ⟨v, hvm, rfl⟩ := List.mem_map.mp hx
    rw [FS.isFile, FS.lookupFile, writtenFS_files a h]
    show (lookupL (oncePlan [] a).wfiles (NameTriggers :: [valueFileName v])).isSome = true
    rw [lookup_sec_trig, trigPlan_lookup a.triggers hS v hvm]
    rfl
  rw [hnames]
  have hjson : (a.triggers.map valueFileName).filter (fun n => strEndsWith n ".json") =
      a.triggers.map valueFileName := by
    refine List.filter_eq_self.mpr ?_
    intro x hx
    obtain ⟨v, _, rfl⟩ := List.mem_map.mp hx
    exact strEndsWith_append (nameOf v) ".json"
  rw [hjson]
  refine parseJSONFilesList_of (writtenFS a) ([] ++ [NameTriggers]) a.triggers ?_
  intro v hvm
  have hw := List.all_eq_true.mp hA v hvm
  simp only [Bool.and_eq_true] at hw
  refine parseJSON_marshal a h _ v hw.2 ?_
  show lookupL (oncePlan [] a).wfiles (NameTriggers :: [valueFileName v]) = _
  rw [lookup_sec_trig]
  exact trigPlan_lookup a.triggers hS v hvm


/-! ### Functions: config array, source discovery and parse evaluation -/

theorem decodeDocList_eval (p : Path) :
    ∀ (ms : List GoMap), ms.all wfGoMapB = true →
      decodeDocList p (ms.map marshalGoMap) = .ok ms
  | [], _ => rfl
  | m :: ms, hall => by
    rw [List.all_cons, Bool.and_eq_true] at hall
    obtain ⟨hm, hms⟩ := hall
    cases m with
    | none =>
      show Except.bind (decodeDocList p (ms.map marshalGoMap))
        (fun r => Except.ok (none :: r)) = _
      rw [decodeDocList_eval p ms hms]
      rfl
    | some d =>
      rw [wfGoMapB, wfDocB, decide_eq_true_eq] at hm
      show Except.bind (decodeDocList p (ms.map marshalGoMap))
        (fun r => Except.ok (some (canonDoc (canonDoc d)) :: r)) = _
      rw [decodeDocList_eval p ms hms]
      show Except.ok (some (canonDoc (canonDoc d)) :: ms) = _
      rw [hm, hm]

theorem functionsPlan_lookup_config (fstr : FunctionsStructure) :
    lookupL (functionsPlan [] (some fstr)).wfiles (NameFunctions :: [FileConfig]) =
      some (.json (marshalGoMapList fstr.configs)) := by
  rw [show (functionsPlan [] (some fstr)).wfiles =
    ((([] ++ [NameFunctions] : Path) ++ [FileConfig],
        FileContent.json (marshalGoMapList fstr.configs)) ::
      fstr.sources.map (fun ps => (([] ++ [NameFunctions] : Path) ++ ps.1,
        FileContent.text ps.2))) from rfl, lookupL]
  rw [if_pos (by rfl)]

theorem filterMap_all_some {α β : Type} (f : α → Option β) (g : α → β) :
    ∀ (l : List α), (∀ x ∈ l, f x = some (g x)) → l.filterMap f = l.map g
  | [], _ => rfl
  | x :: l, hp => by
    rw [List.filterMap_cons, hp x (List.mem_cons_self _ _), List.map_cons,
      filterMap_all_some f g l (fun y hy => hp y (List.mem_cons_of_mem _ hy))]

theorem filterMap_drop_nil {X : String} {A : List (Path × FileContent)}
    (hA : ∀ f ∈ A, ∃ r, f.1 = [] ++ X :: r) (hne : NameFunctions ≠ X) :
    A.filterMap (fun f =>
      if ([] ++ [NameFunctions] : Path).isPrefixOf f.1 ∧
          ([] ++ [NameFunctions] : Path) ≠ f.1
      then some (f.1.drop ([] ++ [NameFunctions] : Path).length, f.2) else none) = [] := by
  rw [List.filterMap_eq_nil]
  intro f hf
  rw [if_neg ?_]
  rintro ⟨hp, _⟩
  obtain ⟨r, hr⟩ := hA f hf
  rw [hr] at hp
  have hp2 := List.isPrefixOf_iff_prefix.mp hp
  simp only [List.nil_append] at hp2
  exact hne (List.cons_prefix_cons.mp hp2).1

/-- The relative-path predicate of `filesUnder` at the functions directory,
evaluated on a functions-section target. -/
theorem dropPred_pos (c : FileContent) (r : List String) (hr : r ≠ []) :
    (fun f : Path × FileContent =>
      if ([] ++ [NameFunctions] : Path).isPrefixOf f.1 ∧
          ([] ++ [NameFunctions] : Path) ≠ f.1
      then some (f.1.drop ([] ++ [NameFunctions] : Path).length, f.2) else none)
      ((([] ++ [NameFunctions] : Path) ++ r, c)) = some (r, c) := by
  show (if ([] ++ [NameFunctions] : Path).isPrefixOf
        (([] ++ [NameFunctions] : Path) ++ r) ∧
        ([] ++ [NameFunctions] : Path) ≠ ([] ++ [NameFunctions] : Path) ++ r
    then some (((([] ++ [NameFunctions] : Path) ++ r).drop
        ([] ++ [NameFunctions] : Path).length, c))
    else none) = some (r, c)
  rw [if_pos ?_]
  · rw [List.drop_left]
  · refine ⟨List.isPrefixOf_iff_prefix.mpr (List.prefix_append _ _), ?_⟩
    intro he
    have hlen := congrArg List.length he
    simp only [List.length_append] at hlen
    exact hr (List.eq_nil_of_length_eq_zero (by omega))

theorem functionsL_eval (a : AppStructureV2) (fstr : FunctionsStructure)
    (hfo : a.functions = some fstr)
    (hjs : fstr.sources.all (fun ps => jsFileName ps.1) = true) :
    (oncePlan [] a).wfiles.filterMap (fun f =>
      if ([] ++ [NameFunctions] : Path).isPrefixOf f.1 ∧
          ([] ++ [NameFunctions] : Path) ≠ f.1
      then some (f.1.drop ([] ++ [NameFunctions] : Path).length, f.2) else none) =
    ([FileConfig], .json (marshalGoMapList fstr.configs))
      :: fstr.sources.map (fun ps => (ps.1, FileContent.text ps.2)) := by
  simp only [oncePlan, wplan_append_wfiles, List.append_assoc, List.filterMap_append]
  rw [filterMap_drop_nil (secretsPlan_shape [] a.secrets).1 (by decide),
    filterMap_drop_nil (environmentsPlan_shape [] a.environments).1 (by decide),
    filterMap_drop_nil (valuesPlan_shape [] a.values).1 (by decide),
    filterMap_drop_nil (graphqlPlan_shape [] (graphqlArg a)).1 (by decide),
    filterMap_drop_nil (servicesPlan_shape [] a.services).1 (by decide),
    filterMap_drop_nil (authPlan_shape [] a.auth).1 (by decide),
    filterMap_drop_nil (syncPlan_shape [] a.sync).1 (by decide),
    filterMap_drop_nil (dataSourcesPlan_shape [] a.dataSources).1 (by decide),
    filterMap_drop_nil (httpEndpointsPlan_shape [] a.httpEndpoints).1 (by decide),
    filterMap_drop_nil (triggersPlan_shape [] a.triggers).1 (by decide)]
  show (functionsPlan [] a.functions).wfiles.filterMap (fun f =>
      if ([] ++ [NameFunctions] : Path).isPrefixOf f.1 ∧
          ([] ++ [NameFunctions] : Path) ≠ f.1
      then some (f.1.drop ([] ++ [NameFunctions] : Path).length, f.2) else none)
    ++ [] = _
  rw [List.append_nil, hfo]
  rw [show (functionsPlan [] (some fstr)).wfiles =
    ((([] ++ [NameFunctions] : Path) ++ [FileConfig],
        FileContent.json (marshalGoMapList fstr.configs)) ::
      fstr.sources.map (fun ps => (([] ++ [NameFunctions] : Path) ++ ps.1,
        FileContent.text ps.2))) from rfl]
  refine Eq.trans (filterMap_all_some _
    (fun f : Path × FileContent =>
      (f.1.drop ([] ++ [NameFunctions] : Path).length, f.2)) _ ?_) ?_
  · intro x hx
    rcases List.mem_cons.mp hx with rfl | hx2
    · exact dropPred_pos (FileContent.json (marshalGoMapList fstr.configs))
        [FileConfig] (by decide)
    · obtain ⟨ps, hps, hpse⟩ := List.mem_map.mp hx2
      rw [← hpse]
      have hjsps : jsFileName ps.1 = true := List.all_eq_true.mp hjs ps hps
      have hne : ps.1 ≠ [] := by
        intro hnil
        rw [hnil] at hjsps
        have hfalse : jsFileName ([] : Path) = false := by decide
        rw [hfalse] at hjsps
        cases hjsps
      exact dropPred_pos (FileContent.text ps.2) ps.1 hne
  · rw [List.map_cons, List.map_map]
    rfl

theorem parseFunctionsV2_eval (a : AppStructureV2) (h : wfModel a = true) :
    parseFunctionsV2 (writtenFS a) [] = .ok a.functions := by
  have hfn := (wf_parts h).2.2.2.2.2.2.2.1
  cases hfo : a.functions with
  | none =>
    rw [hfo] at hfn
    cases hfn
  | some fstr =>
    rw [hfo] at hfn
    simp only [Bool.and_eq_true] at hfn
    obtain ⟨⟨hcfg, hsrcjs⟩, hsrcS⟩ := hfn
    rw [parseFunctionsV2]
    have hdm : ([] ++ [NameFunctions] : Path) ∈ (writtenFS a).dirs := by
      have hx : ([] ++ [NameFunctions] : Path) ∈ (functionsPlan [] a.functions).wdirs :=
        List.mem_cons_self _ _
      have hm2 : ([] ++ [NameFunctions] : Path) ∈ (oncePlan [] a).wdirs := by
        simp only [oncePlan, wplan_append_wdirs, List.mem_append]
        tauto
      show ([] ++ [NameFunctions] : Path) ∈ applyDirs [] (oncePlan [] a).wdirs
      rw [mem_applyDirs]
      exact Or.inr ⟨_, hm2, (mem_pathPrefixes _ _).mpr List.prefix_rfl⟩
    rw [if_pos (statOk_of_isDir (isDir_of_mem_dirs hdm))]
    have harr : parseJSONArray (writtenFS a) (([] ++ [NameFunctions]) ++ [FileConfig]) =
        .ok fstr.configs := by
      have hlf : (writtenFS a).lookupFile (([] ++ [NameFunctions]) ++ [FileConfig]) =
          some (.json (marshalGoMapList fstr.configs)) := by
        rw [FS.lookupFile, writtenFS_files a h]
        show lookupL (oncePlan [] a).wfiles (NameFunctions :: [FileConfig]) = _
        rw [lookup_sec_functions, hfo]
        exact functionsPlan_lookup_config fstr
      rw [parseJSONArray, hlf]
      show decodeDocList (([] ++ [NameFunctions]) ++ [FileConfig])
        (fstr.configs.map marshalGoMap) = _
      exact decodeDocList_eval _ fstr.configs hcfg
    have hnodup : ((([FileConfig], FileContent.json (marshalGoMapList fstr.configs))
        :: fstr.sources.map (fun ps => (ps.1, FileContent.text ps.2))).map
          Prod.fst).Nodup := by
      rw [List.map_cons]
      refine List.nodup_cons.mpr ⟨?_, ?_⟩
      · intro hmem
        rw [List.map_map] at hmem
        obtain ⟨ps, hps, hpse⟩ := List.mem_map.mp hmem
        have hpse2 : ps.1 = [FileConfig] := hpse
        have hjsps : jsFileName ps.1 = true := List.all_eq_true.mp hsrcjs ps hps
        rw [hpse2] at hjsps
        have hfalse : jsFileName [FileConfig] = false := by decide
        rw [hfalse] at hjsps
        cases hjsps
      · rw [List.map_map]
        refine pairwiseB_nodup pathLt (fun hlt => pathLt_asymm hlt) _ ?_
        have hpm : pairwiseB pathLt
            (fstr.sources.map (fun ps : Path × String => ps.1)) = true := by
          rw [pairwiseB_map]
          exact hsrcS
        exact hpm
    obtain ⟨hpw, hmem⟩ := foldl_insSortRel_eval _ [] hnodup rfl (by simp)
    have hfueq : (writtenFS a).filesUnder ([] ++ [NameFunctions]) =
        (([FileConfig], FileContent.json (marshalGoMapList fstr.configs))
          :: fstr.sources.map (fun ps => (ps.1, FileContent.text ps.2))).foldl
            (fun acc x => insSortRel x acc) [] := by
      rw [FS.filesUnder, writtenFS_files a h, functionsL_eval a fstr hfo hsrcjs]
    have hsrc : ((writtenFS a).filesUnder ([] ++ [NameFunctions])).filterMap
        (fun f => if jsFileName f.1 then some (f.1, f.2.asText) else none) =
        fstr.sources := by
      rw [hfueq]
      refine Eq.trans (filterMap_if_eq (fun f : Path × FileContent => jsFileName f.1)
        (fun f : Path × FileContent => (f.1, f.2.asText)) _) ?_
      refine pairwiseB_ext (fun u v => pathLt u.1 v.1) (fun hlt => pathLt_asymm hlt)
        _ _ ?_ hsrcS ?_
      · have hgoal : pairwiseB
            (fun x y : Path × FileContent => pathLt x.1 y.1)
            ((((([FileConfig], FileContent.json (marshalGoMapList fstr.configs))
              :: fstr.sources.map (fun ps => (ps.1, FileContent.text ps.2))).foldl
                (fun acc x => insSortRel x acc) []).filter
                  (fun f => jsFileName f.1))) = true :=
          pairwiseB_filter _ _ _ hpw
        rw [pairwiseB_map]
        exact hgoal
      · intro z
        rw [List.mem_map]
        constructor
        · rintro ⟨x, hx, rfl⟩
          have hxm := (hmem x).mp (List.mem_of_mem_filter hx)
          simp only [List.not_mem_nil, false_or] at hxm
          have hxjs0 := (List.mem_filter.mp hx).2
          have hxjs : jsFileName x.1 = true := hxjs0
          rcases List.mem_cons.mp hxm with rfl | hx2
          · have hfalse : jsFileName ([FileConfig] : Path) = false := by decide
            rw [show (([FileConfig] : Path),
              FileContent.json (marshalGoMapList fstr.configs)).1 = [FileConfig]
              from rfl] at hxjs
            rw [hfalse] at hxjs
            cases hxjs
          · obtain ⟨ps, hps, hpse⟩ := List.mem_map.mp hx2
            rw [← hpse]
            show ((ps.1 : Path), ps.2) ∈ fstr.sources
            exact hps
        · intro hz
          refine ⟨(z.1, .text z.2), ?_, ?_⟩
          · refine List.mem_filter.mpr ⟨?_, ?_⟩
            · refine (hmem _).mpr (Or.inr ?_)
              refine List.mem_cons_of_mem _ ?_
              exact List.mem_map.mpr ⟨z, hz, rfl⟩
            · exact List.all_eq_true.mp hsrcjs z hz
          · rfl
    simp only [Bind.bind, Except.bind]
    rw [harr, hsrc]


/-! ### Entity-block analysis for services, HTTP endpoints and data sources -/

theorem prefix_two {p : Path} {u v a b : String} {r : List String}
    (h : p ++ [u, v] <+: p ++ a :: b :: r) : u = a ∧ v = b := by
  have h2 := (List.prefix_append_right_inj p).mp h
  obtain ⟨h3, h4⟩ := List.cons_prefix_cons.mp h2
  obtain ⟨h5, _⟩ := List.cons_prefix_cons.mp h4
  exact ⟨h3, h5⟩

theorem prefix_three {p : Path} {u v w a b c : String} {r : List String}
    (h : p ++ [u, v, w] <+: p ++ a :: b :: c :: r) : u = a ∧ v = b ∧ w = c := by
  have h2 := (List.prefix_append_right_inj p).mp h
  obtain ⟨h3, h4⟩ := List.cons_prefix_cons.mp h2
  obtain ⟨h5, h6⟩ := List.cons_prefix_cons.mp h4
  obtain ⟨h7, _⟩ := List.cons_prefix_cons.mp h6
  exact ⟨h3, h5, h7⟩

theorem block_key_ne {dir : Path} {n0 n : String} {r q : List String}
    (hne : n0 ≠ n) : dir ++ n0 :: r ≠ dir ++ n :: q := by
  intro he
  have h2 := List.append_cancel_left he
  injection h2 with h3 _
  exact hne h3

/-- In a list whose key projection is strictly increasing, elements are
determined by their key. -/
theorem mem_name_unique {α : Type} (g : α → String) :
    ∀ {l : List α}, pairwiseB (fun x y => strLt (g x) (g y)) l = true →
      ∀ {u v : α}, u ∈ l → v ∈ l → g u = g v → u = v
  | w :: rest, hs, u, v, hu, hv, hg => by
    obtain ⟨hw, hrest⟩ := (pairwiseB_cons_iff _ w rest).mp hs
    rcases List.mem_cons.mp hu with rfl | hu2
    · rcases List.mem_cons.mp hv with rfl | hv2
      · rfl
      · exact absurd hg (strLt_ne (hw v hv2))
    · rcases List.mem_cons.mp hv with rfl | hv2
      · exact absurd hg.symm (strLt_ne (hw u hu2))
      · exact mem_name_unique g hrest hu2 hv2 hg

theorem servicesListPlan_files_mem (dir : Path) :
    ∀ (svcs : List ServiceStructure), ∀ f ∈ (servicesListPlan dir svcs).wfiles,
      ∃ svc ∈ svcs,
        f = (dir ++ [nameOf svc.config, FileConfig], .json (marshalGoMap svc.config))
        ∨ ∃ wh ∈ svc.incomingWebhooks,
          f = ((dir ++ [nameOf svc.config]) ++ [nameOf wh, FileConfig],
            .json (.obj (canonDoc ((wh.getD []).erase NameSource))))
          ∨ f = ((dir ++ [nameOf svc.config]) ++ [nameOf wh, FileSource],
            .text (srcOf wh))
  | svc :: rest, f, hf => by
    simp only [servicesListPlan, wplan_append_wfiles, List.mem_append,
      List.mem_singleton] at hf
    rcases hf with (rfl | hf) | hf
    · exact ⟨svc, List.mem_cons_self _ _, Or.inl rfl⟩
    · simp only [webhooksPlan, List.mem_flatMap] at hf
      obtain ⟨wh, hwh, hm⟩ := hf
      simp only [List.mem_cons, List.mem_singleton] at hm
      rcases hm with rfl | rfl | hm0
      · exact ⟨svc, List.mem_cons_self _ _, Or.inr ⟨wh, hwh, Or.inl rfl⟩⟩
      · exact ⟨svc, List.mem_cons_self _ _, Or.inr ⟨wh, hwh, Or.inr rfl⟩⟩
      · cases hm0
    · obtain ⟨svc2, hm2, hcase⟩ := servicesListPlan_files_mem dir rest f hf
      exact ⟨svc2, List.mem_cons_of_mem _ hm2, hcase⟩

theorem servicesListPlan_dirs_mem (dir : Path) :
    ∀ (svcs : List ServiceStructure), ∀ t ∈ (servicesListPlan dir svcs).wdirs,
      ∃ svc ∈ svcs,
        t = dir ++ [nameOf svc.config]
        ∨ ∃ wh ∈ svc.incomingWebhooks,
          t = (dir ++ [nameOf svc.config]) ++ [nameOf wh]
  | svc :: rest, t, ht => by
    simp only [servicesListPlan, wplan_append_wdirs, List.mem_append,
      List.mem_singleton] at ht
    rcases ht with (rfl | ht) | ht
    · exact ⟨svc, List.mem_cons_self _ _, Or.inl rfl⟩
    · simp only [webhooksPlan, List.mem_flatMap] at ht
      obtain ⟨wh, hwh, hm⟩ := ht
      simp only [List.mem_cons, List.mem_singleton] at hm
      rcases hm with rfl | rfl | hm0
      · exact ⟨svc, List.mem_cons_self _ _, Or.inr ⟨wh, hwh, rfl⟩⟩
      · exact ⟨svc, List.mem_cons_self _ _, Or.inr ⟨wh, hwh, rfl⟩⟩
      · cases hm0
    · obtain ⟨svc2, hm2, hcase⟩ := servicesListPlan_dirs_mem dir rest t ht
      exact ⟨svc2, List.mem_cons_of_mem _ hm2, hcase⟩

theorem endpointsListPlan_files_mem (dir : Path) :
    ∀ (eps : List HTTPEndpointStructure), ∀ f ∈ (endpointsListPlan dir eps).wfiles,
      ∃ ep ∈ eps,
        f = (dir ++ [nameOf ep.config, FileConfig], .json (marshalGoMap ep.config))
        ∨ ∃ wh ∈ ep.incomingWebhooks,
          f = ((dir ++ [nameOf ep.config]) ++ [nameOf wh, FileConfig],
            .json (.obj (canonDoc ((wh.getD []).erase NameSource))))
          ∨ f = ((dir ++ [nameOf ep.config]) ++ [nameOf wh, FileSource],
            .text (srcOf wh))
  | ep :: rest, f, hf => by
    simp only [endpointsListPlan, wplan_append_wfiles, List.mem_append,
      List.mem_singleton] at hf
    rcases hf with (rfl | hf) | hf
    · exact ⟨ep, List.mem_cons_self _ _, Or.inl rfl⟩
    · simp only [webhooksPlan, List.mem_flatMap] at hf
      obtain ⟨wh, hwh, hm⟩ := hf
      simp only [List.mem_cons, List.mem_singleton] at hm
      rcases hm with rfl | rfl | hm0
      · exact ⟨ep, List.mem_cons_self _ _, Or.inr ⟨wh, hwh, Or.inl rfl⟩⟩
      · exact ⟨ep, List.mem_cons_self _ _, Or.inr ⟨wh, hwh, Or.inr rfl⟩⟩
      · cases hm0
    · obtain ⟨ep2, hm2, hcase⟩ := endpointsListPlan_files_mem dir rest f hf
      exact ⟨ep2, List.mem_cons_of_mem _ hm2, hcase⟩

theorem endpointsListPlan_dirs_mem (dir : Path) :
    ∀ (eps : List HTTPEndpointStructure), ∀ t ∈ (endpointsListPlan dir eps).wdirs,
      ∃ ep ∈ eps,
        t = dir ++ [nameOf ep.config]
        ∨ ∃ wh ∈ ep.incomingWebhooks,
          t = (dir ++ [nameOf ep.config]) ++ [nameOf wh]
  | ep :: rest, t, ht => by
    simp only [endpointsListPlan, wplan_append_wdirs, List.mem_append,
      List.mem_singleton] at ht
    rcases ht with (rfl | ht) | ht
    · exact ⟨ep, List.mem_cons_self _ _, Or.inl rfl⟩
    · simp only [webhooksPlan, List.mem_flatMap] at ht
      obtain ⟨wh, hwh, hm⟩ := ht
      simp only [List.mem_cons, List.mem_singleton] at hm
      rcases hm with rfl | rfl | hm0
      · exact ⟨ep, List.mem_cons_self _ _, Or.inr ⟨wh, hwh, rfl⟩⟩
      · exact ⟨ep, List.mem_cons_self _ _, Or.inr ⟨wh, hwh, rfl⟩⟩
      · cases hm0
    · obtain ⟨ep2, hm2, hcase⟩ := endpointsListPlan_dirs_mem dir rest t ht
      exact ⟨ep2, List.mem_cons_of_mem _ hm2, hcase⟩

theorem dataSourcesListPlan_files_mem (dir : Path) :
    ∀ (dss : List DataSourceStructure), ∀ f ∈ (dataSourcesListPlan dir dss).wfiles,
      ∃ ds ∈ dss,
        f = (dir ++ [nameOf ds.config, FileConfig], .json (marshalGoMap ds.config))
        ∨ ∃ ru ∈ ds.rules,
          f = ((dir ++ [nameOf ds.config]) ++ [dbOf ru, collOf ru, FileRules],
            .json (.obj (canonDoc ((ru.getD []).erase NameSchema))))
          ∨ f = ((dir ++ [nameOf ds.config]) ++ [dbOf ru, collOf ru, FileSchema],
            .json (jsonOfOpt (goIndex ru NameSchema)))
  | ds :: rest, f, hf => by
    simp only [dataSourcesListPlan, wplan_append_wfiles, List.mem_append,
      List.mem_singleton] at hf
    rcases hf with (rfl | hf) | hf
    · exact ⟨ds, List.mem_cons_self _ _, Or.inl rfl⟩
    · simp only [rulesPlan, List.mem_flatMap] at hf
      obtain ⟨ru, hru, hm⟩ := hf
      simp only [List.mem_cons, List.mem_singleton] at hm
      rcases hm with rfl | rfl | hm0
      · exact ⟨ds, List.mem_cons_self _ _, Or.inr ⟨ru, hru, Or.inl rfl⟩⟩
      · exact ⟨ds, List.mem_cons_self _ _, Or.inr ⟨ru, hru, Or.inr rfl⟩⟩
      · cases hm0
    · obtain ⟨ds2, hm2, hcase⟩ := dataSourcesListPlan_files_mem dir rest f hf
      exact ⟨ds2, List.mem_cons_of_mem _ hm2, hcase⟩

theorem dataSourcesListPlan_dirs_mem (dir : Path) :
    ∀ (dss : List DataSourceStructure), ∀ t ∈ (dataSourcesListPlan dir dss).wdirs,
      ∃ ds ∈ dss,
        t = dir ++ [nameOf ds.config]
        ∨ ∃ ru ∈ ds.rules,
          t = (dir ++ [nameOf ds.config]) ++ [dbOf ru, collOf ru]
  | ds :: rest, t, ht => by
    simp only [dataSourcesListPlan, wplan_append_wdirs, List.mem_append,
      List.mem_singleton] at ht
    rcases ht with (rfl | ht) | ht
    · exact ⟨ds, List.mem_cons_self _ _, Or.inl rfl⟩
    · simp only [rulesPlan, List.mem_flatMap] at ht
      obtain ⟨ru, hru, hm⟩ := ht
      simp only [List.mem_cons, List.mem_singleton] at hm
      rcases hm with rfl | rfl | hm0
      · exact ⟨ds, List.mem_cons_self _ _, Or.inr ⟨ru, hru, rfl⟩⟩
      · exact ⟨ds, List.mem_cons_self _ _, Or.inr ⟨ru, hru, rfl⟩⟩
      · cases hm0
    · obtain ⟨ds2, hm2, hcase⟩ := dataSourcesListPlan_dirs_mem dir rest t ht
      exact ⟨ds2, List.mem_cons_of_mem _ hm2, hcase⟩


/-! ### In-segment lookups for the entity-block sections -/

theorem block_key_ne3 {dir : Path} {n a b : String} (h : a ≠ b) :
    dir ++ [n, a] ≠ dir ++ [n, b] := by
  intro he
  have h2 := List.append_cancel_left he
  injection h2 with _ h3
  injection h3 with h4 _
  exact h h4

theorem triple_key_ne {dir : Path} {x y z a b c : String}
    (h : ¬ (x = a ∧ y = b)) : dir ++ [x, y, z] ≠ dir ++ [a, b, c] := by
  intro he
  have h2 := List.append_cancel_left he
  injection h2 with h3 h4
  injection h4 with h5 _
  exact h ⟨h3, h5⟩

theorem webhooksPlan_lookup_cfg (epDir : Path) :
    ∀ (whs : List GoMap) (wh : GoMap), wh ∈ whs →
      pairwiseB (fun x y => strLt (nameOf x) (nameOf y)) whs = true →
      lookupL (webhooksPlan epDir whs).wfiles (epDir ++ [nameOf wh, FileConfig]) =
        some (.json (.obj (canonDoc ((wh.getD []).erase NameSource))))
  | w0 :: rest, wh, hwh, hs => by
    obtain ⟨h0, hrest⟩ := (pairwiseB_cons_iff _ w0 rest).mp hs
    rw [show (webhooksPlan epDir (w0 :: rest)).wfiles =
      (epDir ++ [nameOf w0, FileConfig],
        FileContent.json (.obj (canonDoc ((w0.getD []).erase NameSource)))) ::
      (epDir ++ [nameOf w0, FileSource], FileContent.text (srcOf w0)) ::
      (webhooksPlan epDir rest).wfiles from rfl]
    rcases List.mem_cons.mp hwh with rfl | hwh2
    · rw [lookupL, if_pos rfl]
    · have hne : nameOf w0 ≠ nameOf wh := strLt_ne (h0 wh hwh2)
      rw [lookupL, if_neg (block_key_ne hne), lookupL, if_neg (block_key_ne hne)]
      exact webhooksPlan_lookup_cfg epDir rest wh hwh2 hrest

theorem webhooksPlan_lookup_src (epDir : Path) :
    ∀ (whs : List GoMap) (wh : GoMap), wh ∈ whs →
      pairwiseB (fun x y => strLt (nameOf x) (nameOf y)) whs = true →
      lookupL (webhooksPlan epDir whs).wfiles (epDir ++ [nameOf wh, FileSource]) =
        some (.text (srcOf wh))
  | w0 :: rest, wh, hwh, hs => by
    obtain ⟨h0, hrest⟩ := (pairwiseB_cons_iff _ w0 rest).mp hs
    rw [show (webhooksPlan epDir (w0 :: rest)).wfiles =
      (epDir ++ [nameOf w0, FileConfig],
        FileContent.json (.obj (canonDoc ((w0.getD []).erase NameSource)))) ::
      (epDir ++ [nameOf w0, FileSource], FileContent.text (srcOf w0)) ::
      (webhooksPlan epDir rest).wfiles from rfl]
    rcases List.mem_cons.mp hwh with rfl | hwh2
    · rw [lookupL, if_neg (block_key_ne3 (by decide)), lookupL, if_pos rfl]
    · have hne : nameOf w0 ≠ nameOf wh := strLt_ne (h0 wh hwh2)
      rw [lookupL, if_neg (block_key_ne hne), lookupL, if_neg (block_key_ne hne)]
      exact webhooksPlan_lookup_src epDir rest wh hwh2 hrest

theorem rulesPlan_lookup_rules (dsDir : Path) :
    ∀ (rules : List GoMap) (ru : GoMap), ru ∈ rules →
      pairwiseB ruleLt rules = true →
      lookupL (rulesPlan dsDir rules).wfiles
          (dsDir ++ [dbOf ru, collOf ru, FileRules]) =
        some (.json (.obj (canonDoc ((ru.getD []).erase NameSchema))))
  | r0 :: rest, ru, hru, hs => by
    obtain ⟨h0, hrest⟩ := (pairwiseB_cons_iff _ r0 rest).mp hs
    rw [show (rulesPlan dsDir (r0 :: rest)).wfiles =
      (dsDir ++ [dbOf r0, collOf r0, FileRules],
        FileContent.json (.obj (canonDoc ((r0.getD []).erase NameSchema)))) ::
      (dsDir ++ [dbOf r0, collOf r0, FileSchema],
        FileContent.json (jsonOfOpt (goIndex r0 NameSchema))) ::
      (rulesPlan dsDir rest).wfiles from rfl]
    rcases List.mem_cons.mp hru with rfl | hru2
    · rw [lookupL, if_pos rfl]
    · have hne := ruleLt_key_ne (h0 ru hru2)
      rw [lookupL, if_neg (triple_key_ne hne), lookupL, if_neg (triple_key_ne hne)]
      exact rulesPlan_lookup_rules dsDir rest ru hru2 hrest

theorem rulesPlan_lookup_schema (dsDir : Path) :
    ∀ (rules : List GoMap) (ru : GoMap), ru ∈ rules →
      pairwiseB ruleLt rules = true →
      lookupL (rulesPlan dsDir rules).wfiles
          (dsDir ++ [dbOf ru, collOf ru, FileSchema]) =
        some (.json (jsonOfOpt (goIndex ru NameSchema)))
  | r0 :: rest, ru, hru, hs => by
    obtain ⟨h0, hrest⟩ := (pairwiseB_cons_iff _ r0 rest).mp hs
    rw [show (rulesPlan dsDir (r0 :: rest)).wfiles =
      (dsDir ++ [dbOf r0, collOf r0, FileRules],
        FileContent.json (.obj (canonDoc ((r0.getD []).erase NameSchema)))) ::
      (dsDir ++ [dbOf r0, collOf r0, FileSchema],
        FileContent.json (jsonOfOpt (goIndex r0 NameSchema))) ::
      (rulesPlan dsDir rest).wfiles from rfl]
    rcases List.mem_cons.mp hru with rfl | hru2
    · rw [lookupL, if_neg ?_, lookupL, if_pos rfl]
      intro he
      have h2 := List.append_cancel_left he
      injection h2 with _ h3
      injection h3 with _ h4
      injection h4 with h5 _
      exact absurd h5 (by decide)
    · have hne := ruleLt_key_ne (h0 ru hru2)
      rw [lookupL, if_neg (triple_key_ne hne), lookupL, if_neg (triple_key_ne hne)]
      exact rulesPlan_lookup_schema dsDir rest ru hru2 hrest

theorem servicesListPlan_route (dir : Path) :
    ∀ (svcs : List ServiceStructure) (svc : ServiceStructure), svc ∈ svcs →
      pairwiseB (fun x y => strLt (nameOf x.config) (nameOf y.config)) svcs = true →
      ∀ (r : List String),
      lookupL (servicesListPlan dir svcs).wfiles (dir ++ nameOf svc.config :: r) =
        lookupL ((dir ++ [nameOf svc.config, FileConfig],
            .json (marshalGoMap svc.config)) ::
          (webhooksPlan (dir ++ [nameOf svc.config]) svc.incomingWebhooks).wfiles)
          (dir ++ nameOf svc.config :: r)
  | svc0 :: rest, svc, hsvc, hs, r => by
    obtain ⟨h0, hrest⟩ := (pairwiseB_cons_iff _ svc0 rest).mp hs
    rw [show (servicesListPlan dir (svc0 :: rest)).wfiles =
      ((dir ++ [nameOf svc0.config, FileConfig],
          FileContent.json (marshalGoMap svc0.config)) ::
        (webhooksPlan (dir ++ [nameOf svc0.config]) svc0.incomingWebhooks).wfiles)
      ++ (servicesListPlan dir rest).wfiles from rfl]
    rcases List.mem_cons.mp hsvc with rfl | hsvc2
    · refine lookupL_append_none ?_
      refine lookupL_none_of_ne _ _ ?_
      intro f hf
      obtain ⟨svc2, hm2, r2, hr2⟩ := servicesListPlan_byname dir rest f hf
      rw [hr2]
      exact block_key_ne (Ne.symm (strLt_ne (h0 svc2 hm2)))
    · have hne : nameOf svc0.config ≠ nameOf svc.config :=
        strLt_ne (h0 svc hsvc2)
      refine Eq.trans (lookupL_skip _ ?_)
        (servicesListPlan_route dir rest svc hsvc2 hrest r)
      intro f hf
      rcases List.mem_cons.mp hf with rfl | hf2
      · exact block_key_ne hne
      · obtain ⟨wh, _, x, hx⟩ := webhooksPlan_byname _ _ f hf2
        rw [hx, List.append_assoc]
        exact block_key_ne hne

theorem endpointsListPlan_route (dir : Path) :
    ∀ (eps : List HTTPEndpointStructure) (ep : HTTPEndpointStructure), ep ∈ eps →
      pairwiseB (fun x y => strLt (nameOf x.config) (nameOf y.config)) eps = true →
      ∀ (r : List String),
      lookupL (endpointsListPlan dir eps).wfiles (dir ++ nameOf ep.config :: r) =
        lookupL ((dir ++ [nameOf ep.config, FileConfig],
            .json (marshalGoMap ep.config)) ::
          (webhooksPlan (dir ++ [nameOf ep.config]) ep.incomingWebhooks).wfiles)
          (dir ++ nameOf ep.config :: r)
  | ep0 :: rest, ep, hep, hs, r => by
    obtain ⟨h0, hrest⟩ := (pairwiseB_cons_iff _ ep0 rest).mp hs
    rw [show (endpointsListPlan dir (ep0 :: rest)).wfiles =
      ((dir ++ [nameOf ep0.config, FileConfig],
          FileContent.json (marshalGoMap ep0.config)) ::
        (webhooksPlan (dir ++ [nameOf ep0.config]) ep0.incomingWebhooks).wfiles)
      ++ (endpointsListPlan dir rest).wfiles from rfl]
    rcases List.mem_cons.mp hep with rfl | hep2
    · refine lookupL_append_none ?_
      refine lookupL_none_of_ne _ _ ?_
      intro f hf
      obtain ⟨ep2, hm2, r2, hr2⟩ := endpointsListPlan_byname dir rest f hf
      rw [hr2]
      exact block_key_ne (Ne.symm (strLt_ne (h0 ep2 hm2)))
    · have hne : nameOf ep0.config ≠ nameOf ep.config :=
        strLt_ne (h0 ep hep2)
      refine Eq.trans (lookupL_skip _ ?_)
        (endpointsListPlan_route dir rest ep hep2 hrest r)
      intro f hf
      rcases List.mem_cons.mp hf with rfl | hf2
      · exact block_key_ne hne
      · obtain ⟨wh, _, x, hx⟩ := webhooksPlan_byname _ _ f hf2
        rw [hx, List.append_assoc]
        exact block_key_ne hne

theorem dataSourcesListPlan_route (dir : Path) :
    ∀ (dss : List DataSourceStructure) (ds : DataSourceStructure), ds ∈ dss →
      pairwiseB (fun x y => strLt (nameOf x.config) (nameOf y.config)) dss = true →
      ∀ (r : List String),
      lookupL (dataSourcesListPlan dir dss).wfiles (dir ++ nameOf ds.config :: r) =
        lookupL ((dir ++ [nameOf ds.config, FileConfig],
            .json (marshalGoMap ds.config)) ::
          (rulesPlan (dir ++ [nameOf ds.config]) ds.rules).wfiles)
          (dir ++ nameOf ds.config :: r)
  | ds0 :: rest, ds, hds, hs, r => by
    obtain ⟨h0, hrest⟩ := (pairwiseB_cons_iff _ ds0 rest).mp hs
    rw [show (dataSourcesListPlan dir (ds0 :: rest)).wfiles =
      ((dir ++ [nameOf ds0.config, FileConfig],
          FileContent.json (marshalGoMap ds0.config)) ::
        (rulesPlan (dir ++ [nameOf ds0.config]) ds0.rules).wfiles)
      ++ (dataSourcesListPlan dir rest).wfiles from rfl]
    rcases List.mem_cons.mp hds with rfl | hds2
    · refine lookupL_append_none ?_
      refine lookupL_none_of_ne _ _ ?_
      intro f hf
      obtain ⟨ds2, hm2, r2, hr2⟩ := dataSourcesListPlan_byname dir rest f hf
      rw [hr2]
      exact block_key_ne (Ne.symm (strLt_ne (h0 ds2 hm2)))
    · have hne : nameOf ds0.config ≠ nameOf ds.config :=
        strLt_ne (h0 ds hds2)
      refine Eq.trans (lookupL_skip _ ?_)
        (dataSourcesListPlan_route dir rest ds hds2 hrest r)
      intro f hf
      rcases List.mem_cons.mp hf with rfl | hf2
      · exact block_key_ne hne
      · obtain ⟨ru, _, x, hx⟩ := rulesPlan_byname _ _ f hf2
        rw [hx, List.append_assoc]
        exact block_key_ne hne


/-! ### Segment-level lookups at the written roots -/

theorem servicesSeg_lookup_cfg (svcs : List ServiceStructure) (svc : ServiceStructure)
    (hsvc : svc ∈ svcs)
    (hs : pairwiseB (fun x y => strLt (nameOf x.config) (nameOf y.config)) svcs = true) :
    lookupL (servicesPlan [] svcs).wfiles
      (NameServices :: [nameOf svc.config, FileConfig]) =
      some (.json (marshalGoMap svc.config)) := by
  refine Eq.trans (servicesListPlan_route ([] ++ [NameServices]) svcs svc hsvc hs
    [FileConfig]) ?_
  rw [lookupL, if_pos rfl]

theorem servicesSeg_lookup_whcfg (svcs : List ServiceStructure)
    (svc : ServiceStructure) (hsvc : svc ∈ svcs)
    (hs : pairwiseB (fun x y => strLt (nameOf x.config) (nameOf y.config)) svcs = true)
    (wh : GoMap) (hwh : wh ∈ svc.incomingWebhooks)
    (hws : pairwiseB (fun x y => strLt (nameOf x) (nameOf y))
      svc.incomingWebhooks = true) :
    lookupL (servicesPlan [] svcs).wfiles
      (NameServices :: [nameOf svc.config, nameOf wh, FileConfig]) =
      some (.json (.obj (canonDoc ((wh.getD []).erase NameSource)))) := by
  refine Eq.trans (servicesListPlan_route ([] ++ [NameServices]) svcs svc hsvc hs
    [nameOf wh, FileConfig]) ?_
  have hne2 : (([] ++ [NameServices] : Path) ++ [nameOf svc.config, FileConfig]) ≠
      ([] ++ [NameServices] : Path) ++ nameOf svc.config :: [nameOf wh, FileConfig] := by
    intro he
    have hlen := congrArg List.length he
    simp only [List.length_append, List.length_cons] at hlen
    omega
  rw [lookupL, if_neg hne2]
  exact webhooksPlan_lookup_cfg (([] ++ [NameServices]) ++ [nameOf svc.config])
    svc.incomingWebhooks wh hwh hws

theorem servicesSeg_lookup_whsrc (svcs : List ServiceStructure)
    (svc : ServiceStructure) (hsvc : svc ∈ svcs)
    (hs : pairwiseB (fun x y => strLt (nameOf x.config) (nameOf y.config)) svcs = true)
    (wh : GoMap) (hwh : wh ∈ svc.incomingWebhooks)
    (hws : pairwiseB (fun x y => strLt (nameOf x) (nameOf y))
      svc.incomingWebhooks = true) :
    lookupL (servicesPlan [] svcs).wfiles
      (NameServices :: [nameOf svc.config, nameOf wh, FileSource]) =
      some (.text (srcOf wh)) := by
  refine Eq.trans (servicesListPlan_route ([] ++ [NameServices]) svcs svc hsvc hs
    [nameOf wh, FileSource]) ?_
  have hne2 : (([] ++ [NameServices] : Path) ++ [nameOf svc.config, FileConfig]) ≠
      ([] ++ [NameServices] : Path) ++ nameOf svc.config :: [nameOf wh, FileSource] := by
    intro he
    have hlen := congrArg List.length he
    simp only [List.length_append, List.length_cons] at hlen
    omega
  rw [lookupL, if_neg hne2]
  exact webhooksPlan_lookup_src (([] ++ [NameServices]) ++ [nameOf svc.config])
    svc.incomingWebhooks wh hwh hws

theorem httpSeg_lookup_cfg (eps : List HTTPEndpointStructure)
    (ep : HTTPEndpointStructure) (hep : ep ∈ eps)
    (hs : pairwiseB (fun x y => strLt (nameOf x.config) (nameOf y.config)) eps = true) :
    lookupL (httpEndpointsPlan [] eps).wfiles
      (NameHTTPEndpoints :: [nameOf ep.config, FileConfig]) =
      some (.json (marshalGoMap ep.config)) := by
  refine Eq.trans (endpointsListPlan_route ([] ++ [NameHTTPEndpoints]) eps ep hep hs
    [FileConfig]) ?_
  rw [lookupL, if_pos rfl]

theorem httpSeg_lookup_whcfg (eps : List HTTPEndpointStructure)
    (ep : HTTPEndpointStructure) (hep : ep ∈ eps)
    (hs : pairwiseB (fun x y => strLt (nameOf x.config) (nameOf y.config)) eps = true)
    (wh : GoMap) (hwh : wh ∈ ep.incomingWebhooks)
    (hws : pairwiseB (fun x y => strLt (nameOf x) (nameOf y))
      ep.incomingWebhooks = true) :
    lookupL (httpEndpointsPlan [] eps).wfiles
      (NameHTTPEndpoints :: [nameOf ep.config, nameOf wh, FileConfig]) =
      some (.json (.obj (canonDoc ((wh.getD []).erase NameSource)))) := by
  refine Eq.trans (endpointsListPlan_route ([] ++ [NameHTTPEndpoints]) eps ep hep hs
    [nameOf wh, FileConfig]) ?_
  have hne2 : (([] ++ [NameHTTPEndpoints] : Path) ++ [nameOf ep.config, FileConfig]) ≠
      ([] ++ [NameHTTPEndpoints] : Path) ++
        nameOf ep.config :: [nameOf wh, FileConfig] := by
    intro he
    have hlen := congrArg List.length he
    simp only [List.length_append, List.length_cons] at hlen
    omega
  rw [lookupL, if_neg hne2]
  exact webhooksPlan_lookup_cfg (([] ++ [NameHTTPEndpoints]) ++ [nameOf ep.config])
    ep.incomingWebhooks wh hwh hws

theorem httpSeg_lookup_whsrc (eps : List HTTPEndpointStructure)
    (ep : HTTPEndpointStructure) (hep : ep ∈ eps)
    (hs : pairwiseB (fun x y => strLt (nameOf x.config) (nameOf y.config)) eps = true)
    (wh : GoMap) (hwh : wh ∈ ep.incomingWebhooks)
    (hws : pairwiseB (fun x y => strLt (nameOf x) (nameOf y))
      ep.incomingWebhooks = true) :
    lookupL (httpEndpointsPlan [] eps).wfiles
      (NameHTTPEndpoints :: [nameOf ep.config, nameOf wh, FileSource]) =
      some (.text (srcOf wh)) := by
  refine Eq.trans (endpointsListPlan_route ([] ++ [NameHTTPEndpoints]) eps ep hep hs
    [nameOf wh, FileSource]) ?_
  have hne2 : (([] ++ [NameHTTPEndpoints] : Path) ++ [nameOf ep.config, FileConfig]) ≠
      ([] ++ [NameHTTPEndpoints] : Path) ++
        nameOf ep.config :: [nameOf wh, FileSource] := by
    intro he
    have hlen := congrArg List.length he
    simp only [List.length_append, List.length_cons] at hlen
    omega
  rw [lookupL, if_neg hne2]
  exact webhooksPlan_lookup_src (([] ++ [NameHTTPEndpoints]) ++ [nameOf ep.config])
    ep.incomingWebhooks wh hwh hws

theorem dsSeg_lookup_cfg (dss : List DataSourceStructure)
    (ds : DataSourceStructure) (hds : ds ∈ dss)
    (hs : pairwiseB (fun x y => strLt (nameOf x.config) (nameOf y.config)) dss = true) :
    lookupL (dataSourcesPlan [] dss).wfiles
      (NameDataSources :: [nameOf ds.config, FileConfig]) =
      some (.json (marshalGoMap ds.config)) := by
  refine Eq.trans (dataSourcesListPlan_route ([] ++ [NameDataSources]) dss ds hds hs
    [FileConfig]) ?_
  rw [lookupL, if_pos rfl]

theorem dsSeg_lookup_rules (dss : List DataSourceStructure)
    (ds : DataSourceStructure) (hds : ds ∈ dss)
    (hs : pairwiseB (fun x y => strLt (nameOf x.config) (nameOf y.config)) dss = true)
    (ru : GoMap) (hru : ru ∈ ds.rules)
    (hrs : pairwiseB ruleLt ds.rules = true) :
    lookupL (dataSourcesPlan [] dss).wfiles
      (NameDataSources :: [nameOf ds.config, dbOf ru, collOf ru, FileRules]) =
      some (.json (.obj (canonDoc ((ru.getD []).erase NameSchema)))) := by
  refine Eq.trans (dataSourcesListPlan_route ([] ++ [NameDataSources]) dss ds hds hs
    [dbOf ru, collOf ru, FileRules]) ?_
  have hne2 : (([] ++ [NameDataSources] : Path) ++ [nameOf ds.config, FileConfig]) ≠
      ([] ++ [NameDataSources] : Path) ++
        nameOf ds.config :: [dbOf ru, collOf ru, FileRules] := by
    intro he
    have hlen := congrArg List.length he
    simp only [List.length_append, List.length_cons] at hlen
    omega
  rw [lookupL, if_neg hne2]
  exact rulesPlan_lookup_rules (([] ++ [NameDataSources]) ++ [nameOf ds.config])
    ds.rules ru hru hrs

theorem dsSeg_lookup_schema (dss : List DataSourceStructure)
    (ds : DataSourceStructure) (hds : ds ∈ dss)
    (hs : pairwiseB (fun x y => strLt (nameOf x.config) (nameOf y.config)) dss = true)
    (ru : GoMap) (hru : ru ∈ ds.rules)
    (hrs : pairwiseB ruleLt ds.rules = true) :
    lookupL (dataSourcesPlan [] dss).wfiles
      (NameDataSources :: [nameOf ds.config, dbOf ru, collOf ru, FileSchema]) =
      some (.json (jsonOfOpt (goIndex ru NameSchema))) := by
  refine Eq.trans (dataSourcesListPlan_route ([] ++ [NameDataSources]) dss ds hds hs
    [dbOf ru, collOf ru, FileSchema]) ?_
  have hne2 : (([] ++ [NameDataSources] : Path) ++ [nameOf ds.config, FileConfig]) ≠
      ([] ++ [NameDataSources] : Path) ++
        nameOf ds.config :: [dbOf ru, collOf ru, FileSchema] := by
    intro he
    have hlen := congrArg List.length he
    simp only [List.length_append, List.length_cons] at hlen
    omega
  rw [lookupL, if_neg hne2]
  exact rulesPlan_lookup_schema (([] ++ [NameDataSources]) ++ [nameOf ds.config])
    ds.rules ru hru hrs

/-! ### Entity-list parser evaluations from pointwise facts -/

theorem parseServicesList_of (fs : FS) (dir : Path) :
    ∀ (l : List ServiceStructure),
      (∀ svc ∈ l, parseJSON fs (dir ++ [nameOf svc.config, FileConfig]) =
          .ok svc.config ∧
        parseFunctions fs (dir ++ [nameOf svc.config]) = .ok svc.incomingWebhooks) →
      parseServicesList fs dir (l.map (fun svc => nameOf svc.config)) = .ok l
  | [], _ => rfl
  | svc :: l, hp => by
    obtain ⟨hcfg, hwh⟩ := hp svc (List.mem_cons_self _ _)
    rw [List.map_cons, parseServicesList]
    simp only [Bind.bind, Except.bind]
    rw [hcfg, hwh, parseServicesList_of fs dir l
      (fun s2 h2 => hp s2 (List.mem_cons_of_mem _ h2))]

theorem parseHTTPEndpointsList_of (fs : FS) (dir : Path) :
    ∀ (l : List HTTPEndpointStructure),
      (∀ ep ∈ l, parseJSON fs (dir ++ [nameOf ep.config, FileConfig]) =
          .ok ep.config ∧
        parseFunctions fs (dir ++ [nameOf ep.config]) = .ok ep.incomingWebhooks) →
      parseHTTPEndpointsList fs dir (l.map (fun ep => nameOf ep.config)) = .ok l
  | [], _ => rfl
  | ep :: l, hp => by
    obtain ⟨hcfg, hwh⟩ := hp ep (List.mem_cons_self _ _)
    rw [List.map_cons, parseHTTPEndpointsList]
    simp only [Bind.bind, Except.bind]
    rw [hcfg, hwh, parseHTTPEndpointsList_of fs dir l
      (fun s2 h2 => hp s2 (List.mem_cons_of_mem _ h2))]

theorem parseWebhooksList_of (fs : FS) (dir : Path) :
    ∀ (whs : List GoMap),
      (∀ wh ∈ whs, ∃ cfgm s,
        parseJSON fs (dir ++ [nameOf wh, FileConfig]) = .ok cfgm ∧
        fs.lookupFile (dir ++ [nameOf wh, FileSource]) = some (.text s) ∧
        some (Doc.insert (cfgm.getD []) NameSource (.str s)) = wh) →
      parseWebhooksList fs dir (whs.map nameOf) = .ok whs
  | [], _ => rfl
  | wh :: whs, hp => by
    obtain ⟨cfgm, s, hcfg, hsrc, hwh⟩ := hp wh (List.mem_cons_self _ _)
    rw [List.map_cons, parseWebhooksList]
    simp only [Bind.bind, Except.bind]
    rw [hcfg, hsrc, parseWebhooksList_of fs dir whs
      (fun w2 h2 => hp w2 (List.mem_cons_of_mem _ h2))]
    show Except.ok (some (Doc.insert (cfgm.getD []) NameSource (.str s)) :: whs) = _
    rw [hwh]

theorem parseColls_of (fs : FS) (dbPath : Path) :
    ∀ (l : List GoMap),
      (∀ r ∈ l, parseOneColl fs (dbPath ++ [collOf r]) = .ok (some r)) →
      parseColls fs dbPath (l.map collOf) = .ok l
  | [], _ => rfl
  | r :: l, hp => by
    rw [List.map_cons, parseColls]
    simp only [Bind.bind, Except.bind]
    rw [hp r (List.mem_cons_self _ _), parseColls_of fs dbPath l
      (fun s h2 => hp s (List.mem_cons_of_mem _ h2))]

theorem parseDBs_of (fs : FS) (dsPath : Path) :
    ∀ (groups : List (String × List GoMap)),
      (∀ g ∈ groups, fs.childDirNames (dsPath ++ [g.1]) = g.2.map collOf ∧
        parseColls fs (dsPath ++ [g.1]) (g.2.map collOf) = .ok g.2) →
      parseDBs fs dsPath (groups.map Prod.fst) = .ok ((groups.map Prod.snd).flatten)
  | [], _ => rfl
  | g :: gs, hp => by
    obtain ⟨hcd, hpc⟩ := hp g (List.mem_cons_self _ _)
    rw [List.map_cons, parseDBs, hcd]
    simp only [Bind.bind, Except.bind]
    rw [hpc, parseDBs_of fs dsPath gs (fun g2 h2 => hp g2 (List.mem_cons_of_mem _ h2))]
    rfl

theorem parseDataSourcesList_of (fs : FS) (dir : Path) :
    ∀ (l : List DataSourceStructure),
      (∀ ds ∈ l, parseJSON fs (dir ++ [nameOf ds.config, FileConfig]) =
          .ok ds.config ∧
        parseDBs fs (dir ++ [nameOf ds.config])
          (fs.childDirNames (dir ++ [nameOf ds.config])) = .ok ds.rules) →
      parseDataSourcesList fs dir (l.map (fun ds => nameOf ds.config)) = .ok l
  | [], _ => rfl
  | ds :: l, hp => by
    obtain ⟨hcfg, hdbs⟩ := hp ds (List.mem_cons_self _ _)
    rw [List.map_cons, parseDataSourcesList]
    simp only [Bind.bind, Except.bind]
    rw [hcfg, hdbs, parseDataSourcesList_of fs dir l
      (fun s2 h2 => hp s2 (List.mem_cons_of_mem _ h2))]


/-! ### Grouping lex-sorted rules by database directory -/

theorem insSortStr_lt_front {d : String} :
    ∀ {S : List String}, (∀ y ∈ S, strLt d y = true) → insSortStr d S = d :: S
  | [], _ => rfl
  | y :: ys, h => by
    rw [insSortStr, if_pos (h y (List.mem_cons_self _ _))]

theorem sorted_mem_min_head {d : String} :
    ∀ {S : List String}, pairwiseB strLt S = true → d ∈ S →
      (∀ y ∈ S, strLt y d = false) → ∃ D, S = d :: D
  | s :: S', hs, hd, hmin => by
    obtain ⟨h0, _⟩ := (pairwiseB_cons_iff strLt s S').mp hs
    rcases List.mem_cons.mp hd with rfl | hd2
    · exact ⟨S', rfl⟩
    · have h1 := h0 d hd2
      have h2 := hmin s (List.mem_cons_self _ _)
      rw [h2] at h1
      cases h1

/-- A rule sequence sorted lexicographically by (database, collection)
equals the concatenation, over its deduplicated sorted database names, of
its per-database groups. -/
theorem groupFlatten :
    ∀ (rules : List GoMap), pairwiseB ruleLt rules = true →
      ((sortDedup (rules.map dbOf)).map
        (fun d => rules.filter (fun s => decide (dbOf s = d)))).flatten = rules
  | [], _ => rfl
  | r :: rest, hs => by
    obtain ⟨hlt, hrest⟩ := (pairwiseB_cons_iff ruleLt r rest).mp hs
    have hIH := groupFlatten rest hrest
    have hmin : ∀ y ∈ rest.map dbOf, strLt y (dbOf r) = false := by
      intro y hy
      obtain ⟨s, hsm, rfl⟩ := List.mem_map.mp hy
      have h1 := hlt s hsm
      rw [ruleLt, Bool.or_eq_true] at h1
      rcases h1 with h1 | h1
      · exact strLt_asymm h1
      · rw [Bool.and_eq_true, decide_eq_true_eq] at h1
        rw [← h1.1]
        exact strLt_irrefl _
    have hsd : sortDedup ((r :: rest).map dbOf) =
        insSortStr (dbOf r) (sortDedup (rest.map dbOf)) := rfl
    by_cases hdmem : dbOf r ∈ rest.map dbOf
    · obtain ⟨D, hD⟩ := sorted_mem_min_head (pairwiseB_sortDedup _)
        ((mem_sortDedup _ _).mpr hdmem)
        (fun y hy => hmin y ((mem_sortDedup y _).mp hy))
      have hDne : ∀ d ∈ D, d ≠ dbOf r := by
        intro d hd
        have hpw := pairwiseB_sortDedup (rest.map dbOf)
        rw [hD] at hpw
        obtain ⟨h0, _⟩ := (pairwiseB_cons_iff strLt (dbOf r) D).mp hpw
        exact Ne.symm (strLt_ne (h0 d hd))
      rw [hsd, hD, insSortStr, if_neg (by rw [strLt_irrefl]; simp), if_pos rfl]
      rw [List.map_cons, List.flatten_cons]
      rw [show (r :: rest).filter (fun s => decide (dbOf s = dbOf r)) =
        r :: rest.filter (fun s => decide (dbOf s = dbOf r)) from by
        rw [List.filter_cons, if_pos (by simp)]]
      have hmapD : D.map (fun d => (r :: rest).filter (fun s => decide (dbOf s = d))) =
          D.map (fun d => rest.filter (fun s => decide (dbOf s = d))) := by
        refine List.map_congr_left ?_
        intro d hd
        rw [List.filter_cons, if_neg (by
          simp only [decide_eq_true_eq]
          exact fun he => hDne d hd he.symm)]
      rw [hmapD, List.cons_append]
      refine congrArg (List.cons r) ?_
      show ((dbOf r :: D).map
        (fun d => rest.filter (fun s => decide (dbOf s = d)))).flatten = rest
      rw [← hD]
      exact hIH
    · have hnotin : dbOf r ∉ sortDedup (rest.map dbOf) :=
        fun hc => hdmem ((mem_sortDedup _ _).mp hc)
      have hfront : insSortStr (dbOf r) (sortDedup (rest.map dbOf)) =
          dbOf r :: sortDedup (rest.map dbOf) := by
        refine insSortStr_lt_front ?_
        intro y hy
        have hy2 := (mem_sortDedup y _).mp hy
        have hne : y ≠ dbOf r := fun he => hnotin (he ▸ hy)
        rcases strLt_connex hne with hc | hc
        · rw [hmin y hy2] at hc
          cases hc
        · exact hc
      rw [hsd, hfront]
      rw [List.map_cons, List.flatten_cons]
      rw [show (r :: rest).filter (fun s => decide (dbOf s = dbOf r)) =
        r :: rest.filter (fun s => decide (dbOf s = dbOf r)) from by
        rw [List.filter_cons, if_pos (by simp)]]
      have hnil : rest.filter (fun s => decide (dbOf s = dbOf r)) = [] := by
        rw [List.filter_eq_nil_iff]
        intro s hsm
        simp only [decide_eq_true_eq]
        intro he
        exact hdmem (List.mem_map.mpr ⟨s, hsm, he⟩)
      rw [hnil]
      have hmapS : (sortDedup (rest.map dbOf)).map
          (fun d => (r :: rest).filter (fun s => decide (dbOf s = d))) =
          (sortDedup (rest.map dbOf)).map
          (fun d => rest.filter (fun s => decide (dbOf s = d))) := by
        refine List.map_congr_left ?_
        intro d hd
        rw [List.filter_cons, if_neg (by
          simp only [decide_eq_true_eq]
          exact fun he => hdmem (he ▸ (mem_sortDedup d _).mp hd))]
      rw [hmapS]
      show r :: ((sortDedup (rest.map dbOf)).map
        (fun d => rest.filter (fun s => decide (dbOf s = d)))).flatten = r :: rest
      exact congrArg (List.cons r) hIH


/-! ### Services: listings and parse evaluation -/

theorem written_dir_of_oncePlan {a : AppStructureV2} {t : Path}
    (ht : t ∈ (oncePlan [] a).wdirs) : t ∈ (writtenFS a).dirs := by
  show t ∈ applyDirs [] (oncePlan [] a).wdirs
  rw [mem_applyDirs]
  exact Or.inr ⟨t, ht, (mem_pathPrefixes _ _).mpr List.prefix_rfl⟩

theorem oncePlan_mem_services {a : AppStructureV2} {t : Path}
    (h : t ∈ (servicesPlan [] a.services).wdirs) : t ∈ (oncePlan [] a).wdirs := by
  simp only [oncePlan, wplan_append_wdirs, List.mem_append]
  tauto

theorem oncePlan_mem_http {a : AppStructureV2} {t : Path}
    (h : t ∈ (httpEndpointsPlan [] a.httpEndpoints).wdirs) :
    t ∈ (oncePlan [] a).wdirs := by
  simp only [oncePlan, wplan_append_wdirs, List.mem_append]
  tauto

theorem oncePlan_mem_ds {a : AppStructureV2} {t : Path}
    (h : t ∈ (dataSourcesPlan [] a.dataSources).wdirs) :
    t ∈ (oncePlan [] a).wdirs := by
  simp only [oncePlan, wplan_append_wdirs, List.mem_append]
  tauto

theorem servicesListPlan_dir_mem_self (dir : Path) :
    ∀ (svcs : List ServiceStructure), ∀ svc ∈ svcs,
      dir ++ [nameOf svc.config] ∈ (servicesListPlan dir svcs).wdirs
  | svc0 :: rest, svc, hsvc => by
    simp only [servicesListPlan, wplan_append_wdirs, List.mem_append,
      List.mem_singleton]
    rcases List.mem_cons.mp hsvc with rfl | hsvc2
    · exact Or.inl (Or.inl rfl)
    · exact Or.inr (servicesListPlan_dir_mem_self dir rest svc hsvc2)

theorem servicesListPlan_whdir_mem_self (dir : Path) :
    ∀ (svcs : List ServiceStructure), ∀ svc ∈ svcs, ∀ wh ∈ svc.incomingWebhooks,
      (dir ++ [nameOf svc.config]) ++ [nameOf wh] ∈ (servicesListPlan dir svcs).wdirs
  | svc0 :: rest, svc, hsvc, wh, hwh => by
    simp only [servicesListPlan, wplan_append_wdirs, List.mem_append,
      List.mem_singleton]
    rcases List.mem_cons.mp hsvc with rfl | hsvc2
    · refine Or.inl (Or.inr ?_)
      simp only [webhooksPlan, List.mem_flatMap]
      exact ⟨wh, hwh, List.mem_cons_self _ _⟩
    · exact Or.inr (servicesListPlan_whdir_mem_self dir rest svc hsvc2 wh hwh)

theorem wfWebhook_parts {wh : GoMap} (h : wfWebhookB wh = true) :
    ∃ d, wh = some d ∧ (goIndexStr (some d) NameSource).isSome = true ∧
      (goIndexStr (some d) "name").isSome = true ∧ wfDocB d = true ∧
      wfDocB (d.erase NameSource) = true := by
  cases wh with
  | none => cases h
  | some d =>
    rw [wfWebhookB] at h
    simp only [Bool.and_eq_true] at h
    exact ⟨d, rfl, h.1.1.1, h.1.1.2, h.1.2, h.2⟩

theorem services_childDirNames (a : AppStructureV2) (h : wfModel a = true) :
    (writtenFS a).childDirNames ([] ++ [NameServices]) =
      a.services.map (fun svc => nameOf svc.config) := by
  have hsvcS := (wf_parts h).2.2.2.2.2.2.2.2.2.2.1
  rw [FS.childDirNames]
  refine pairwiseB_ext strLt (fun hlt => strLt_asymm hlt) _ _ ?_ ?_ ?_
  · exact pairwiseB_filter _ _ _ (pairwiseB_sortDedup _)
  · rw [pairwiseB_map]
    exact hsvcS
  · intro x
    rw [List.mem_filter]
    constructor
    · rintro ⟨_, hdir⟩
      have hdir2 : (writtenFS a).isDir (([] ++ [NameServices]) ++ [x]) = true := hdir
      rcases (@isDir_iff (writtenFS a) ((oncePlan [] a).wdirs) rfl _).mp hdir2 with
        ⟨t, ht, hpre⟩ | ⟨f, hf, hpre, hne⟩
      · have ht2 := dirs_head_services a t ht [x] hpre
        rcases List.mem_cons.mp ht2 with rfl | ht3
        · have hlen := hpre.length_le
          simp only [List.length_append, List.length_cons, List.length_nil] at hlen
          omega
        · obtain ⟨svc, hsvc, hcase⟩ := servicesListPlan_dirs_mem _ _ t ht3
          rcases hcase with rfl | ⟨wh, hwh, rfl⟩
          · have hx := @append_cons_prefix_head ([] ++ [NameServices]) x
              (nameOf svc.config) [] hpre
            rw [hx]
            exact List.mem_map.mpr ⟨svc, hsvc, rfl⟩
          · have hx := @append_cons_prefix_head ([] ++ [NameServices]) x
              (nameOf svc.config) [nameOf wh] hpre
            rw [hx]
            exact List.mem_map.mpr ⟨svc, hsvc, rfl⟩
      · rw [writtenFS_files a h] at hf
        have hf2 := files_head_services a f hf [x] hpre
        obtain ⟨svc, hsvc, hcase⟩ := servicesListPlan_files_mem _ _ f hf2
        rcases hcase with rfl | ⟨wh, hwh, rfl | rfl⟩
        · have hx := @append_cons_prefix_head ([] ++ [NameServices]) x
            (nameOf svc.config) [FileConfig] hpre
          rw [hx]
          exact List.mem_map.mpr ⟨svc, hsvc, rfl⟩
        · have hx := @append_cons_prefix_head ([] ++ [NameServices]) x
            (nameOf svc.config) [nameOf wh, FileConfig] hpre
          rw [hx]
          exact List.mem_map.mpr ⟨svc, hsvc, rfl⟩
        · have hx := @append_cons_prefix_head ([] ++ [NameServices]) x
            (nameOf svc.config) [nameOf wh, FileSource] hpre
          rw [hx]
          exact List.mem_map.mpr ⟨svc, hsvc, rfl⟩
    · intro hx
      obtain ⟨svc, hsvc, rfl⟩ := List.mem_map.mp hx
      have hdm : ([] ++ [NameServices]) ++ [nameOf svc.config] ∈
          (oncePlan [] a).wdirs :=
        oncePlan_mem_services
          (List.mem_cons_of_mem _ (servicesListPlan_dir_mem_self _ _ svc hsvc))
      refine ⟨?_, ?_⟩
      · show nameOf svc.config ∈ (writtenFS a).childNames ([] ++ [NameServices])
        rw [@mem_childNames (writtenFS a) ((oncePlan [] a).wdirs) rfl _ _]
        exact Or.inl ⟨([] ++ [NameServices]) ++ [nameOf svc.config], hdm,
          List.prefix_rfl⟩
      · show (writtenFS a).isDir (([] ++ [NameServices]) ++ [nameOf svc.config]) = true
        exact isDir_of_mem_dirs (written_dir_of_oncePlan hdm)

theorem services_entity_childDirNames (a : AppStructureV2) (h : wfModel a = true)
    (svc : ServiceStructure) (hsvc : svc ∈ a.services) :
    (writtenFS a).childDirNames (([] ++ [NameServices]) ++ [nameOf svc.config]) =
      svc.incomingWebhooks.map nameOf := by
  have hsvcA := (wf_parts h).2.2.2.2.2.2.2.2.2.1
  have hsvcS := (wf_parts h).2.2.2.2.2.2.2.2.2.2.1
  rw [FS.childDirNames]
  refine pairwiseB_ext strLt (fun hlt => strLt_asymm hlt) _ _ ?_ ?_ ?_
  · exact pairwiseB_filter _ _ _ (pairwiseB_sortDedup _)
  · rw [pairwiseB_map]
    exact (wfEndpoint_parts (List.all_eq_true.mp hsvcA svc hsvc)).2.2.2
  · intro x
    rw [List.mem_filter]
    constructor
    · rintro ⟨_, hdir⟩
      have hdir2 : (writtenFS a).isDir
          ((([] ++ [NameServices]) ++ [nameOf svc.config]) ++ [x]) = true := hdir
      rcases (@isDir_iff (writtenFS a) ((oncePlan [] a).wdirs) rfl _).mp hdir2 with
        ⟨t, ht, hpre⟩ | ⟨f, hf, hpre, hne⟩
      · have ht2 := dirs_head_services a t ht (nameOf svc.config :: [x]) hpre
        rcases List.mem_cons.mp ht2 with rfl | ht3
        · have hlen := hpre.length_le
          simp only [List.length_append, List.length_cons, List.length_nil] at hlen
          omega
        · obtain ⟨svc2, hsvc2, hcase⟩ := servicesListPlan_dirs_mem _ _ t ht3
          rcases hcase with rfl | ⟨wh, hwh, rfl⟩
          · have hlen := hpre.length_le
            simp only [List.length_append, List.length_cons, List.length_nil] at hlen
            omega
          · obtain ⟨hn, hx⟩ := @prefix_two ([] ++ [NameServices]) (nameOf svc.config)
              x (nameOf svc2.config) (nameOf wh) [] hpre
            have huniq := mem_name_unique (fun s : ServiceStructure => nameOf s.config)
              hsvcS hsvc2 hsvc hn.symm
            subst huniq
            rw [hx]
            exact List.mem_map.mpr ⟨wh, hwh, rfl⟩
      · rw [writtenFS_files a h] at hf
        have hf2 := files_head_services a f hf (nameOf svc.config :: [x]) hpre
        obtain ⟨svc2, hsvc2, hcase⟩ := servicesListPlan_files_mem _ _ f hf2
        rcases hcase with rfl | ⟨wh, hwh, rfl | rfl⟩
        · obtain ⟨hn, hx⟩ := @prefix_two ([] ++ [NameServices]) (nameOf svc.config)
            x (nameOf svc2.config) FileConfig [] hpre
          refine absurd ?_ hne
          show (([] ++ [NameServices]) ++ [nameOf svc.config]) ++ [x] =
            ([] ++ [NameServices] ++ [nameOf svc2.config, FileConfig],
              FileContent.json (marshalGoMap svc2.config)).1
          rw [hn, hx]
          rfl
        · obtain ⟨hn, hx⟩ := @prefix_two ([] ++ [NameServices]) (nameOf svc.config)
            x (nameOf svc2.config) (nameOf wh) [FileConfig] hpre
          have huniq := mem_name_unique (fun s : ServiceStructure => nameOf s.config)
            hsvcS hsvc2 hsvc hn.symm
          subst huniq
          rw [hx]
          exact List.mem_map.mpr ⟨wh, hwh, rfl⟩
        · obtain ⟨hn, hx⟩ := @prefix_two ([] ++ [NameServices]) (nameOf svc.config)
            x (nameOf svc2.config) (nameOf wh) [FileSource] hpre
          have huniq := mem_name_unique (fun s : ServiceStructure => nameOf s.config)
            hsvcS hsvc2 hsvc hn.symm
          subst huniq
          rw [hx]
          exact List.mem_map.mpr ⟨wh, hwh, rfl⟩
    · intro hx
      obtain ⟨wh, hwh, rfl⟩ := List.mem_map.mp hx
      have hdm : (([] ++ [NameServices]) ++ [nameOf svc.config]) ++ [nameOf wh] ∈
          (oncePlan [] a).wdirs :=
        oncePlan_mem_services (List.mem_cons_of_mem _
          (servicesListPlan_whdir_mem_self _ _ svc hsvc wh hwh))
      refine ⟨?_, ?_⟩
      · show nameOf wh ∈ (writtenFS a).childNames
          (([] ++ [NameServices]) ++ [nameOf svc.config])
        rw [@mem_childNames (writtenFS a) ((oncePlan [] a).wdirs) rfl _ _]
        exact Or.inl ⟨(([] ++ [NameServices]) ++ [nameOf svc.config]) ++ [nameOf wh],
          hdm, List.prefix_rfl⟩
      · show (writtenFS a).isDir
          ((([] ++ [NameServices]) ++ [nameOf svc.config]) ++ [nameOf wh]) = true
        exact isDir_of_mem_dirs (written_dir_of_oncePlan hdm)

theorem services_isFile_top (a : AppStructureV2) (h : wfModel a = true) :
    (writtenFS a).isFile ([] ++ [NameServices]) = false := by
  rw [FS.isFile, FS.lookupFile, writtenFS_files a h]
  show (lookupL (oncePlan [] a).wfiles (NameServices :: [])).isSome = false
  rw [lookup_sec_services, lookupL_none_of_ne _ _ ?_]
  · rfl
  · intro f hf he
    obtain ⟨svc, _, hcase⟩ := servicesListPlan_files_mem _ _ f hf
    rcases hcase with rfl | ⟨wh, _, rfl | rfl⟩
    · have he2 : ([] ++ [NameServices] : Path) ++ [nameOf svc.config, FileConfig] =
        NameServices :: [] := he
      have := congrArg List.length he2
      simp at this
    · have he2 : (([] ++ [NameServices] : Path) ++ [nameOf svc.config]) ++
        [nameOf wh, FileConfig] = NameServices :: [] := he
      have := congrArg List.length he2
      simp at this
    · have he2 : (([] ++ [NameServices] : Path) ++ [nameOf svc.config]) ++
        [nameOf wh, FileSource] = NameServices :: [] := he
      have := congrArg List.length he2
      simp at this

theorem services_isFile_entity (a : AppStructureV2) (h : wfModel a = true)
    (n : String) :
    (writtenFS a).isFile (([] ++ [NameServices]) ++ [n]) = false := by
  rw [FS.isFile, FS.lookupFile, writtenFS_files a h]
  show (lookupL (oncePlan [] a).wfiles (NameServices :: [n])).isSome = false
  rw [lookup_sec_services, lookupL_none_of_ne _ _ ?_]
  · rfl
  · intro f hf he
    obtain ⟨svc, _, hcase⟩ := servicesListPlan_files_mem _ _ f hf
    rcases hcase with rfl | ⟨wh, _, rfl | rfl⟩
    · have he2 : ([] ++ [NameServices] : Path) ++ [nameOf svc.config, FileConfig] =
        NameServices :: [n] := he
      have := congrArg List.length he2
      simp at this
    · have he2 : (([] ++ [NameServices] : Path) ++ [nameOf svc.config]) ++
        [nameOf wh, FileConfig] = NameServices :: [n] := he
      have := congrArg List.length he2
      simp at this
    · have he2 : (([] ++ [NameServices] : Path) ++ [nameOf svc.config]) ++
        [nameOf wh, FileSource] = NameServices :: [n] := he
      have := congrArg List.length he2
      simp at this

theorem parseServices_eval (a : AppStructureV2) (h : wfModel a = true) :
    parseServices (writtenFS a) [] = .ok a.services := by
  have hsvcA := (wf_parts h).2.2.2.2.2.2.2.2.2.1
  have hsvcS := (wf_parts h).2.2.2.2.2.2.2.2.2.2.1
  rw [parseServices]
  rw [if_neg (by rw [services_isFile_top a h]; simp)]
  rw [services_childDirNames a h]
  refine parseServicesList_of (writtenFS a) ([] ++ [NameServices]) a.services ?_
  intro svc hsvc
  obtain ⟨hname, hcfgwf, hwhsA, hwhsS⟩ :=
    wfEndpoint_parts (List.all_eq_true.mp hsvcA svc hsvc)
  constructor
  · refine parseJSON_marshal a h _ svc.config hcfgwf ?_
    show lookupL (oncePlan [] a).wfiles
      (NameServices :: [nameOf svc.config, FileConfig]) = _
    rw [lookup_sec_services]
    exact servicesSeg_lookup_cfg a.services svc hsvc hsvcS
  · rw [parseFunctions]
    rw [if_neg (by rw [services_isFile_entity a h (nameOf svc.config)]; simp)]
    rw [services_entity_childDirNames a h svc hsvc]
    refine parseWebhooksList_of (writtenFS a)
      (([] ++ [NameServices]) ++ [nameOf svc.config]) svc.incomingWebhooks ?_
    intro wh hwh
    obtain ⟨d, rfl, hsrcS, hnameS, hdwf, hdewf⟩ :=
      wfWebhook_parts (List.all_eq_true.mp hwhsA wh hwh)
    refine ⟨some (d.erase NameSource), srcOf (some d), ?_, ?_, ?_⟩
    · refine parseJSON_marshal a h _ (some (d.erase NameSource)) hdewf ?_
      show lookupL (oncePlan [] a).wfiles
        (NameServices :: [nameOf svc.config, nameOf (some d), FileConfig]) = _
      rw [lookup_sec_services]
      exact servicesSeg_lookup_whcfg a.services svc hsvc hsvcS (some d) hwh hwhsS
    · show (writtenFS a).lookupFile _ = _
      rw [FS.lookupFile, writtenFS_files a h]
      show lookupL (oncePlan [] a).wfiles
        (NameServices :: [nameOf svc.config, nameOf (some d), FileSource]) = _
      rw [lookup_sec_services]
      exact servicesSeg_lookup_whsrc a.services svc hsvc hsvcS (some d) hwh hwhsS
    · show some (Doc.insert ((some (d.erase NameSource)).getD []) NameSource
        (.str (srcOf (some d)))) = some d
      refine congrArg some ?_
      show Doc.insert (d.erase NameSource) NameSource (.str (srcOf (some d))) = d
      obtain ⟨s0, hs0⟩ := Option.isSome_iff_exists.mp hsrcS
      have hget := goIndexStr_get hs0
      have hsrc : srcOf (some d) = s0 := by
        rw [srcOf, hs0]
        rfl
      rw [hsrc]
      exact insert_erase_get (wfDoc_sorted hdwf) hget


/-! ### HTTP endpoints: listings and parse evaluation -/

theorem endpointsListPlan_dir_mem_self (dir : Path) :
    ∀ (eps : List HTTPEndpointStructure), ∀ ep ∈ eps,
      dir ++ [nameOf ep.config] ∈ (endpointsListPlan dir eps).wdirs
  | ep0 :: rest, ep, hep => by
    simp only [endpointsListPlan, wplan_append_wdirs, List.mem_append,
      List.mem_singleton]
    rcases List.mem_cons.mp hep with rfl | hep2
    · exact Or.inl (Or.inl rfl)
    · exact Or.inr (endpointsListPlan_dir_mem_self dir rest ep hep2)

theorem endpointsListPlan_whdir_mem_self (dir : Path) :
    ∀ (eps : List HTTPEndpointStructure), ∀ ep ∈ eps, ∀ wh ∈ ep.incomingWebhooks,
      (dir ++ [nameOf ep.config]) ++ [nameOf wh] ∈ (endpointsListPlan dir eps).wdirs
  | ep0 :: rest, ep, hep, wh, hwh => by
    simp only [endpointsListPlan, wplan_append_wdirs, List.mem_append,
      List.mem_singleton]
    rcases List.mem_cons.mp hep with rfl | hep2
    · refine Or.inl (Or.inr ?_)
      simp only [webhooksPlan, List.mem_flatMap]
      exact ⟨wh, hwh, List.mem_cons_self _ _⟩
    · exact Or.inr (endpointsListPlan_whdir_mem_self dir rest ep hep2 wh hwh)

theorem http_childDirNames (a : AppStructureV2) (h : wfModel a = true) :
    (writtenFS a).childDirNames ([] ++ [NameHTTPEndpoints]) =
      a.httpEndpoints.map (fun ep => nameOf ep.config) := by
  have hepS := (wf_parts h).2.2.2.2.2.2.2.2.2.2.2.2.1
  rw [FS.childDirNames]
  refine pairwiseB_ext strLt (fun hlt => strLt_asymm hlt) _ _ ?_ ?_ ?_
  · exact pairwiseB_filter _ _ _ (pairwiseB_sortDedup _)
  · rw [pairwiseB_map]
    exact hepS
  · intro x
    rw [List.mem_filter]
    constructor
    · rintro ⟨_, hdir⟩
      have hdir2 : (writtenFS a).isDir (([] ++ [NameHTTPEndpoints]) ++ [x]) = true := hdir
      rcases (@isDir_iff (writtenFS a) ((oncePlan [] a).wdirs) rfl _).mp hdir2 with
        ⟨t, ht, hpre⟩ | ⟨f, hf, hpre, hne⟩
      · have ht2 := dirs_head_http a t ht [x] hpre
        rcases List.mem_cons.mp ht2 with rfl | ht3
        · have hlen := hpre.length_le
          simp only [List.length_append, List.length_cons, List.length_nil] at hlen
          omega
        · obtain ⟨ep, hep, hcase⟩ := endpointsListPlan_dirs_mem _ _ t ht3
          rcases hcase with rfl | ⟨wh, hwh, rfl⟩
          · have hx := @append_cons_prefix_head ([] ++ [NameHTTPEndpoints]) x
              (nameOf ep.config) [] hpre
            rw [hx]
            exact List.mem_map.mpr ⟨ep, hep, rfl⟩
          · have hx := @append_cons_prefix_head ([] ++ [NameHTTPEndpoints]) x
              (nameOf ep.config) [nameOf wh] hpre
            rw [hx]
            exact List.mem_map.mpr ⟨ep, hep, rfl⟩
      · rw [writtenFS_files a h] at hf
        have hf2 := files_head_http a f hf [x] hpre
        obtain ⟨ep, hep, hcase⟩ := endpointsListPlan_files_mem _ _ f hf2
        rcases hcase with rfl | ⟨wh, hwh, rfl | rfl⟩
        · have hx := @append_cons_prefix_head ([] ++ [NameHTTPEndpoints]) x
            (nameOf ep.config) [FileConfig] hpre
          rw [hx]
          exact List.mem_map.mpr ⟨ep, hep, rfl⟩
        · have hx := @append_cons_prefix_head ([] ++ [NameHTTPEndpoints]) x
            (nameOf ep.config) [nameOf wh, FileConfig] hpre
          rw [hx]
          exact List.mem_map.mpr ⟨ep, hep, rfl⟩
        · have hx := @append_cons_prefix_head ([] ++ [NameHTTPEndpoints]) x
            (nameOf ep.config) [nameOf wh, FileSource] hpre
          rw [hx]
          exact List.mem_map.mpr ⟨ep, hep, rfl⟩
    · intro hx
      obtain ⟨ep, hep, rfl⟩ := List.mem_map.mp hx
      have hdm : ([] ++ [NameHTTPEndpoints]) ++ [nameOf ep.config] ∈
          (oncePlan [] a).wdirs :=
        oncePlan_mem_http
          (List.mem_cons_of_mem _ (endpointsListPlan_dir_mem_self _ _ ep hep))
      refine ⟨?_, ?_⟩
      · show nameOf ep.config ∈ (writtenFS a).childNames ([] ++ [NameHTTPEndpoints])
        rw [@mem_childNames (writtenFS a) ((oncePlan [] a).wdirs) rfl _ _]
        exact Or.inl ⟨([] ++ [NameHTTPEndpoints]) ++ [nameOf ep.config], hdm,
          List.prefix_rfl⟩
      · show (writtenFS a).isDir (([] ++ [NameHTTPEndpoints]) ++ [nameOf ep.config]) = true
        exact isDir_of_mem_dirs (written_dir_of_oncePlan hdm)

theorem http_entity_childDirNames (a : AppStructureV2) (h : wfModel a = true)
    (ep : HTTPEndpointStructure) (hep : ep ∈ a.httpEndpoints) :
    (writtenFS a).childDirNames (([] ++ [NameHTTPEndpoints]) ++ [nameOf ep.config]) =
      ep.incomingWebhooks.map nameOf := by
  have hepA := (wf_parts h).2.2.2.2.2.2.2.2.2.2.2.1
  have hepS := (wf_parts h).2.2.2.2.2.2.2.2.2.2.2.2.1
  rw [FS.childDirNames]
  refine pairwiseB_ext strLt (fun hlt => strLt_asymm hlt) _ _ ?_ ?_ ?_
  · exact pairwiseB_filter _ _ _ (pairwiseB_sortDedup _)
  · rw [pairwiseB_map]
    exact (wfEndpoint_parts (List.all_eq_true.mp hepA ep hep)).2.2.2
  · intro x
    rw [List.mem_filter]
    constructor
    · rintro ⟨_, hdir⟩
      have hdir2 : (writtenFS a).isDir
          ((([] ++ [NameHTTPEndpoints]) ++ [nameOf ep.config]) ++ [x]) = true := hdir
      rcases (@isDir_iff (writtenFS a) ((oncePlan [] a).wdirs) rfl _).mp hdir2 with
        ⟨t, ht, hpre⟩ | ⟨f, hf, hpre, hne⟩
      · have ht2 := dirs_head_http a t ht (nameOf ep.config :: [x]) hpre
        rcases List.mem_cons.mp ht2 with rfl | ht3
        · have hlen := hpre.length_le
          simp only [List.length_append, List.length_cons, List.length_nil] at hlen
          omega
        · obtain ⟨ep2, hep2, hcase⟩ := endpointsListPlan_dirs_mem _ _ t ht3
          rcases hcase with rfl | ⟨wh, hwh, rfl⟩
          · have hlen := hpre.length_le
            simp only [List.length_append, List.length_cons, List.length_nil] at hlen
            omega
          · obtain ⟨hn, hx⟩ := @prefix_two ([] ++ [NameHTTPEndpoints]) (nameOf ep.config)
              x (nameOf ep2.config) (nameOf wh) [] hpre
            have huniq := mem_name_unique (fun s : HTTPEndpointStructure => nameOf s.config)
              hepS hep2 hep hn.symm
            subst huniq
            rw [hx]
            exact List.mem_map.mpr ⟨wh, hwh, rfl⟩
      · rw [writtenFS_files a h] at hf
        have hf2 := files_head_http a f hf (nameOf ep.config :: [x]) hpre
        obtain ⟨ep2, hep2, hcase⟩ := endpointsListPlan_files_mem _ _ f hf2
        rcases hcase with rfl | ⟨wh, hwh, rfl | rfl⟩
        · obtain ⟨hn, hx⟩ := @prefix_two ([] ++ [NameHTTPEndpoints]) (nameOf ep.config)
            x (nameOf ep2.config) FileConfig [] hpre
          refine absurd ?_ hne
          show (([] ++ [NameHTTPEndpoints]) ++ [nameOf ep.config]) ++ [x] =
            ([] ++ [NameHTTPEndpoints] ++ [nameOf ep2.config, FileConfig],
              FileContent.json (marshalGoMap ep2.config)).1
          rw [hn, hx]
          rfl
        · obtain ⟨hn, hx⟩ := @prefix_two ([] ++ [NameHTTPEndpoints]) (nameOf ep.config)
            x (nameOf ep2.config) (nameOf wh) [FileConfig] hpre
          have huniq := mem_name_unique (fun s : HTTPEndpointStructure => nameOf s.config)
            hepS hep2 hep hn.symm
          subst huniq
          rw [hx]
          exact List.mem_map.mpr ⟨wh, hwh, rfl⟩
        · obtain ⟨hn, hx⟩ := @prefix_two ([] ++ [NameHTTPEndpoints]) (nameOf ep.config)
            x (nameOf ep2.config) (nameOf wh) [FileSource] hpre
          have huniq := mem_name_unique (fun s : HTTPEndpointStructure => nameOf s.config)
            hepS hep2 hep hn.symm
          subst huniq
          rw [hx]
          exact List.mem_map.mpr ⟨wh, hwh, rfl⟩
    · intro hx
      obtain ⟨wh, hwh, rfl⟩ := List.mem_map.mp hx
      have hdm : (([] ++ [NameHTTPEndpoints]) ++ [nameOf ep.config]) ++ [nameOf wh] ∈
          (oncePlan [] a).wdirs :=
        oncePlan_mem_http (List.mem_cons_of_mem _
          (endpointsListPlan_whdir_mem_self _ _ ep hep wh hwh))
      refine ⟨?_, ?_⟩
      · show nameOf wh ∈ (writtenFS a).childNames
          (([] ++ [NameHTTPEndpoints]) ++ [nameOf ep.config])
        rw [@mem_childNames (writtenFS a) ((oncePlan [] a).wdirs) rfl _ _]
        exact Or.inl ⟨(([] ++ [NameHTTPEndpoints]) ++ [nameOf ep.config]) ++ [nameOf wh],
          hdm, List.prefix_rfl⟩
      · show (writtenFS a).isDir
          ((([] ++ [NameHTTPEndpoints]) ++ [nameOf ep.config]) ++ [nameOf wh]) = true
        exact isDir_of_mem_dirs (written_dir_of_oncePlan hdm)

theorem http_isFile_top (a : AppStructureV2) (h : wfModel a = true) :
    (writtenFS a).isFile ([] ++ [NameHTTPEndpoints]) = false := by
  rw [FS.isFile, FS.lookupFile, writtenFS_files a h]
  show (lookupL (oncePlan [] a).wfiles (NameHTTPEndpoints :: [])).isSome = false
  rw [lookup_sec_http, lookupL_none_of_ne _ _ ?_]
  · rfl
  · intro f hf he
    obtain ⟨ep, _, hcase⟩ := endpointsListPlan_files_mem _ _ f hf
    rcases hcase with rfl | ⟨wh, _, rfl | rfl⟩
    · have he2 : ([] ++ [NameHTTPEndpoints] : Path) ++ [nameOf ep.config, FileConfig] =
        NameHTTPEndpoints :: [] := he
      have := congrArg List.length he2
      simp at this
    · have he2 : (([] ++ [NameHTTPEndpoints] : Path) ++ [nameOf ep.config]) ++
        [nameOf wh, FileConfig] = NameHTTPEndpoints :: [] := he
      have := congrArg List.length he2
      simp at this
    · have he2 : (([] ++ [NameHTTPEndpoints] : Path) ++ [nameOf ep.config]) ++
        [nameOf wh, FileSource] = NameHTTPEndpoints :: [] := he
      have := congrArg List.length he2
      simp at this

theorem http_isFile_entity (a : AppStructureV2) (h : wfModel a = true)
    (n : String) :
    (writtenFS a).isFile (([] ++ [NameHTTPEndpoints]) ++ [n]) = false := by
  rw [FS.isFile, FS.lookupFile, writtenFS_files a h]
  show (lookupL (oncePlan [] a).wfiles (NameHTTPEndpoints :: [n])).isSome = false
  rw [lookup_sec_http, lookupL_none_of_ne _ _ ?_]
  · rfl
  · intro f hf he
    obtain ⟨ep, _, hcase⟩ := endpointsListPlan_files_mem _ _ f hf
    rcases hcase with rfl | ⟨wh, _, rfl | rfl⟩
    · have he2 : ([] ++ [NameHTTPEndpoints] : Path) ++ [nameOf ep.config, FileConfig] =
        NameHTTPEndpoints :: [n] := he
      have := congrArg List.length he2
      simp at this
    · have he2 : (([] ++ [NameHTTPEndpoints] : Path) ++ [nameOf ep.config]) ++
        [nameOf wh, FileConfig] = NameHTTPEndpoints :: [n] := he
      have := congrArg List.length he2
      simp at this
    · have he2 : (([] ++ [NameHTTPEndpoints] : Path) ++ [nameOf ep.config]) ++
        [nameOf wh, FileSource] = NameHTTPEndpoints :: [n] := he
      have := congrArg List.length he2
      simp at this

theorem parseHTTPEndpoints_eval (a : AppStructureV2) (h : wfModel a = true) :
    parseHTTPEndpoints (writtenFS a) [] = .ok a.httpEndpoints := by
  have hepA := (wf_parts h).2.2.2.2.2.2.2.2.2.2.2.1
  have hepS := (wf_parts h).2.2.2.2.2.2.2.2.2.2.2.2.1
  rw [parseHTTPEndpoints]
  rw [if_neg (by rw [http_isFile_top a h]; simp)]
  rw [http_childDirNames a h]
  refine parseHTTPEndpointsList_of (writtenFS a) ([] ++ [NameHTTPEndpoints]) a.httpEndpoints ?_
  intro ep hep
  obtain ⟨hname, hcfgwf, hwhsA, hwhsS⟩ :=
    wfEndpoint_parts (List.all_eq_true.mp hepA ep hep)
  constructor
  · refine parseJSON_marshal a h _ ep.config hcfgwf ?_
    show lookupL (oncePlan [] a).wfiles
      (NameHTTPEndpoints :: [nameOf ep.config, FileConfig]) = _
    rw [lookup_sec_http]
    exact httpSeg_lookup_cfg a.httpEndpoints ep hep hepS
  · rw [parseFunctions]
    rw [if_neg (by rw [http_isFile_entity a h (nameOf ep.config)]; simp)]
    rw [http_entity_childDirNames a h ep hep]
    refine parseWebhooksList_of (writtenFS a)
      (([] ++ [NameHTTPEndpoints]) ++ [nameOf ep.config]) ep.incomingWebhooks ?_
    intro wh hwh
    obtain ⟨d, rfl, hsrcS, hnameS, hdwf, hdewf⟩ :=
      wfWebhook_parts (List.all_eq_true.mp hwhsA wh hwh)
    refine ⟨some (d.erase NameSource), srcOf (some d), ?_, ?_, ?_⟩
    · refine parseJSON_marshal a h _ (some (d.erase NameSource)) hdewf ?_
      show lookupL (oncePlan [] a).wfiles
        (NameHTTPEndpoints :: [nameOf ep.config, nameOf (some d), FileConfig]) = _
      rw [lookup_sec_http]
      exact httpSeg_lookup_whcfg a.httpEndpoints ep hep hepS (some d) hwh hwhsS
    · show (writtenFS a).lookupFile _ = _
      rw [FS.lookupFile, writtenFS_files a h]
      show lookupL (oncePlan [] a).wfiles
        (NameHTTPEndpoints :: [nameOf ep.config, nameOf (some d), FileSource]) = _
      rw [lookup_sec_http]
      exact httpSeg_lookup_whsrc a.httpEndpoints ep hep hepS (some d) hwh hwhsS
    · show some (Doc.insert ((some (d.erase NameSource)).getD []) NameSource
        (.str (srcOf (some d)))) = some d
      refine congrArg some ?_
      show Doc.insert (d.erase NameSource) NameSource (.str (srcOf (some d))) = d
      obtain ⟨s0, hs0⟩ := Option.isSome_iff_exists.mp hsrcS
      have hget := goIndexStr_get hs0
      have hsrc : srcOf (some d) = s0 := by
        rw [srcOf, hs0]
        rfl
      rw [hsrc]
      exact insert_erase_get (wfDoc_sorted hdwf) hget



/-! ### Data sources: listings -/

theorem dataSourcesListPlan_dir_mem_self (dir : Path) :
    ∀ (dss : List DataSourceStructure), ∀ ds ∈ dss,
      dir ++ [nameOf ds.config] ∈ (dataSourcesListPlan dir dss).wdirs
  | ds0 :: rest, ds, hds => by
    simp only [dataSourcesListPlan, wplan_append_wdirs, List.mem_append,
      List.mem_singleton]
    rcases List.mem_cons.mp hds with rfl | hds2
    · exact Or.inl (Or.inl rfl)
    · exact Or.inr (dataSourcesListPlan_dir_mem_self dir rest ds hds2)

theorem dataSourcesListPlan_ruledir_mem_self (dir : Path) :
    ∀ (dss : List DataSourceStructure), ∀ ds ∈ dss, ∀ ru ∈ ds.rules,
      (dir ++ [nameOf ds.config]) ++ [dbOf ru, collOf ru] ∈
        (dataSourcesListPlan dir dss).wdirs
  | ds0 :: rest, ds, hds, ru, hru => by
    simp only [dataSourcesListPlan, wplan_append_wdirs, List.mem_append,
      List.mem_singleton]
    rcases List.mem_cons.mp hds with rfl | hds2
    · refine Or.inl (Or.inr ?_)
      simp only [rulesPlan, List.mem_flatMap]
      exact ⟨ru, hru, List.mem_cons_self _ _⟩
    · exact Or.inr (dataSourcesListPlan_ruledir_mem_self dir rest ds hds2 ru hru)

theorem wfRule_parts {r : GoMap} (h : wfRuleB r = true) :
    ∃ d, r = some d ∧ wfDocB d = true ∧ wfDocB (d.erase NameSchema) = true ∧
      wfSchemaVal (d.get NameSchema) = true := by
  cases r with
  | none => cases h
  | some d =>
    rw [wfRuleB] at h
    simp only [Bool.and_eq_true] at h
    exact ⟨d, rfl, h.1.1, h.1.2, h.2⟩

theorem ds_childDirNames (a : AppStructureV2) (h : wfModel a = true) :
    (writtenFS a).childDirNames ([] ++ [NameDataSources]) =
      a.dataSources.map (fun ds => nameOf ds.config) := by
  have hdsS := (wf_parts h).2.2.2.2.2.2.2.2.2.2.2.2.2.2.1
  rw [FS.childDirNames]
  refine pairwiseB_ext strLt (fun hlt => strLt_asymm hlt) _ _ ?_ ?_ ?_
  · exact pairwiseB_filter _ _ _ (pairwiseB_sortDedup _)
  · rw [pairwiseB_map]
    exact hdsS
  · intro x
    rw [List.mem_filter]
    constructor
    · rintro ⟨_, hdir⟩
      have hdir2 : (writtenFS a).isDir (([] ++ [NameDataSources]) ++ [x]) = true := hdir
      rcases (@isDir_iff (writtenFS a) ((oncePlan [] a).wdirs) rfl _).mp hdir2 with
        ⟨t, ht, hpre⟩ | ⟨f, hf, hpre, hne⟩
      · have ht2 := dirs_head_ds a t ht [x] hpre
        rcases List.mem_cons.mp ht2 with rfl | ht3
        · have hlen := hpre.length_le
          simp only [List.length_append, List.length_cons, List.length_nil] at hlen
          omega
        · obtain ⟨ds, hds, hcase⟩ := dataSourcesListPlan_dirs_mem _ _ t ht3
          rcases hcase with rfl | ⟨ru, hru, rfl⟩
          · have hx := @append_cons_prefix_head ([] ++ [NameDataSources]) x
              (nameOf ds.config) [] hpre
            rw [hx]
            exact List.mem_map.mpr ⟨ds, hds, rfl⟩
          · have hx := @append_cons_prefix_head ([] ++ [NameDataSources]) x
              (nameOf ds.config) [dbOf ru, collOf ru] hpre
            rw [hx]
            exact List.mem_map.mpr ⟨ds, hds, rfl⟩
      · rw [writtenFS_files a h] at hf
        have hf2 := files_head_ds a f hf [x] hpre
        obtain ⟨ds, hds, hcase⟩ := dataSourcesListPlan_files_mem _ _ f hf2
        rcases hcase with rfl | ⟨ru, hru, rfl | rfl⟩
        · have hx := @append_cons_prefix_head ([] ++ [NameDataSources]) x
            (nameOf ds.config) [FileConfig] hpre
          rw [hx]
          exact List.mem_map.mpr ⟨ds, hds, rfl⟩
        · have hx := @append_cons_prefix_head ([] ++ [NameDataSources]) x
            (nameOf ds.config) [dbOf ru, collOf ru, FileRules] hpre
          rw [hx]
          exact List.mem_map.mpr ⟨ds, hds, rfl⟩
        · have hx := @append_cons_prefix_head ([] ++ [NameDataSources]) x
            (nameOf ds.config) [dbOf ru, collOf ru, FileSchema] hpre
          rw [hx]
          exact List.mem_map.mpr ⟨ds, hds, rfl⟩
    · intro hx
      obtain ⟨ds, hds, rfl⟩ := List.mem_map.mp hx
      have hdm : ([] ++ [NameDataSources]) ++ [nameOf ds.config] ∈
          (oncePlan [] a).wdirs :=
        oncePlan_mem_ds
          (List.mem_cons_of_mem _ (dataSourcesListPlan_dir_mem_self _ _ ds hds))
      refine ⟨?_, ?_⟩
      · show nameOf ds.config ∈ (writtenFS a).childNames ([] ++ [NameDataSources])
        rw [@mem_childNames (writtenFS a) ((oncePlan [] a).wdirs) rfl _ _]
        exact Or.inl ⟨([] ++ [NameDataSources]) ++ [nameOf ds.config], hdm,
          List.prefix_rfl⟩
      · show (writtenFS a).isDir (([] ++ [NameDataSources]) ++ [nameOf ds.config]) = true
        exact isDir_of_mem_dirs (written_dir_of_oncePlan hdm)

theorem ds_entity_childDirNames (a : AppStructureV2) (h : wfModel a = true)
    (ds : DataSourceStructure) (hds : ds ∈ a.dataSources) :
    (writtenFS a).childDirNames (([] ++ [NameDataSources]) ++ [nameOf ds.config]) =
      sortDedup (ds.rules.map dbOf) := by
  have hdsS := (wf_parts h).2.2.2.2.2.2.2.2.2.2.2.2.2.2.1
  rw [FS.childDirNames]
  refine pairwiseB_ext strLt (fun hlt => strLt_asymm hlt) _ _ ?_ ?_ ?_
  · exact pairwiseB_filter _ _ _ (pairwiseB_sortDedup _)
  · exact pairwiseB_sortDedup _
  · intro x
    rw [List.mem_filter, mem_sortDedup]
    constructor
    · rintro ⟨_, hdir⟩
      have hdir2 : (writtenFS a).isDir
          ((([] ++ [NameDataSources]) ++ [nameOf ds.config]) ++ [x]) = true := hdir
      rcases (@isDir_iff (writtenFS a) ((oncePlan [] a).wdirs) rfl _).mp hdir2 with
        ⟨t, ht, hpre⟩ | ⟨f, hf, hpre, hne⟩
      · have ht2 := dirs_head_ds a t ht (nameOf ds.config :: [x]) hpre
        rcases List.mem_cons.mp ht2 with rfl | ht3
        · have hlen := hpre.length_le
          simp only [List.length_append, List.length_cons, List.length_nil] at hlen
          omega
        · obtain ⟨ds2, hds2, hcase⟩ := dataSourcesListPlan_dirs_mem _ _ t ht3
          rcases hcase with rfl | ⟨ru, hru, rfl⟩
          · have hlen := hpre.length_le
            simp only [List.length_append, List.length_cons, List.length_nil] at hlen
            omega
          · obtain ⟨hn, hx⟩ := @prefix_two ([] ++ [NameDataSources]) (nameOf ds.config)
              x (nameOf ds2.config) (dbOf ru) [collOf ru] hpre
            have huniq := mem_name_unique
              (fun s : DataSourceStructure => nameOf s.config) hdsS hds2 hds hn.symm
            subst huniq
            rw [hx]
            exact List.mem_map.mpr ⟨ru, hru, rfl⟩
      · rw [writtenFS_files a h] at hf
        have hf2 := files_head_ds a f hf (nameOf ds.config :: [x]) hpre
        obtain ⟨ds2, hds2, hcase⟩ := dataSourcesListPlan_files_mem _ _ f hf2
        rcases hcase with rfl | ⟨ru, hru, rfl | rfl⟩
        · obtain ⟨hn, hx⟩ := @prefix_two ([] ++ [NameDataSources]) (nameOf ds.config)
            x (nameOf ds2.config) FileConfig [] hpre
          refine absurd ?_ hne
          show (([] ++ [NameDataSources]) ++ [nameOf ds.config]) ++ [x] =
            ([] ++ [NameDataSources] ++ [nameOf ds2.config, FileConfig],
              FileContent.json (marshalGoMap ds2.config)).1
          rw [hn, hx]
          rfl
        · obtain ⟨hn, hx⟩ := @prefix_two ([] ++ [NameDataSources]) (nameOf ds.config)
            x (nameOf ds2.config) (dbOf ru) (collOf ru :: [FileRules]) hpre
          have huniq := mem_name_unique
            (fun s : DataSourceStructure => nameOf s.config) hdsS hds2 hds hn.symm
          subst huniq
          rw [hx]
          exact List.mem_map.mpr ⟨ru, hru, rfl⟩
        · obtain ⟨hn, hx⟩ := @prefix_two ([] ++ [NameDataSources]) (nameOf ds.config)
            x (nameOf ds2.config) (dbOf ru) (collOf ru :: [FileSchema]) hpre
          have huniq := mem_name_unique
            (fun s : DataSourceStructure => nameOf s.config) hdsS hds2 hds hn.symm
          subst huniq
          rw [hx]
          exact List.mem_map.mpr ⟨ru, hru, rfl⟩
    · intro hx
      obtain ⟨ru, hru, rfl⟩ := List.mem_map.mp hx
      have hdm : (([] ++ [NameDataSources]) ++ [nameOf ds.config]) ++
          [dbOf ru, collOf ru] ∈ (oncePlan [] a).wdirs :=
        oncePlan_mem_ds (List.mem_cons_of_mem _
          (dataSourcesListPlan_ruledir_mem_self _ _ ds hds ru hru))
      refine ⟨?_, ?_⟩
      · show dbOf ru ∈ (writtenFS a).childNames
          (([] ++ [NameDataSources]) ++ [nameOf ds.config])
        rw [@mem_childNames (writtenFS a) ((oncePlan [] a).wdirs) rfl _ _]
        refine Or.inl ⟨(([] ++ [NameDataSources]) ++ [nameOf ds.config]) ++
          [dbOf ru, collOf ru], hdm, ?_⟩
        exact prefix_cons_self (([] ++ [NameDataSources]) ++ [nameOf ds.config])
          (dbOf ru) [collOf ru]
      · show (writtenFS a).isDir
          ((([] ++ [NameDataSources]) ++ [nameOf ds.config]) ++ [dbOf ru]) = true
        refine (@isDir_iff (writtenFS a) ((oncePlan [] a).wdirs) rfl _).mpr ?_
        refine Or.inl ⟨(([] ++ [NameDataSources]) ++ [nameOf ds.config]) ++
          [dbOf ru, collOf ru], hdm, ?_⟩
        exact prefix_cons_self (([] ++ [NameDataSources]) ++ [nameOf ds.config])
          (dbOf ru) [collOf ru]

theorem ds_db_childDirNames (a : AppStructureV2) (h : wfModel a = true)
    (ds : DataSourceStructure) (hds : ds ∈ a.dataSources) (d : String) :
    (writtenFS a).childDirNames
        ((([] ++ [NameDataSources]) ++ [nameOf ds.config]) ++ [d]) =
      (ds.rules.filter (fun s => decide (dbOf s = d))).map collOf := by
  have hdsA := (wf_parts h).2.2.2.2.2.2.2.2.2.2.2.2.2.1
  have hdsS := (wf_parts h).2.2.2.2.2.2.2.2.2.2.2.2.2.2.1
  have hrulesS := (wfDataSource_parts (List.all_eq_true.mp hdsA ds hds)).2.2.2
  rw [FS.childDirNames]
  refine pairwiseB_ext strLt (fun hlt => strLt_asymm hlt) _ _ ?_ ?_ ?_
  · exact pairwiseB_filter _ _ _ (pairwiseB_sortDedup _)
  · rw [pairwiseB_map]
    refine pairwiseB_impl_mem ?_ (pairwiseB_filter _ _ _ hrulesS)
    intro u hu v hv hlt
    have hdu : dbOf u = d := by
      have := (List.mem_filter.mp hu).2
      simpa using this
    have hdv : dbOf v = d := by
      have := (List.mem_filter.mp hv).2
      simpa using this
    rw [ruleLt, hdu, hdv, strLt_irrefl] at hlt
    simpa using hlt
  · intro x
    rw [List.mem_filter]
    constructor
    · rintro ⟨_, hdir⟩
      have hdir2 : (writtenFS a).isDir
          (((([] ++ [NameDataSources]) ++ [nameOf ds.config]) ++ [d]) ++ [x]) =
            true := hdir
      rcases (@isDir_iff (writtenFS a) ((oncePlan [] a).wdirs) rfl _).mp hdir2 with
        ⟨t, ht, hpre⟩ | ⟨f, hf, hpre, hne⟩
      · have ht2 := dirs_head_ds a t ht (nameOf ds.config :: d :: [x]) hpre
        rcases List.mem_cons.mp ht2 with rfl | ht3
        · have hlen := hpre.length_le
          simp only [List.length_append, List.length_cons, List.length_nil] at hlen
          omega
        · obtain ⟨ds2, hds2, hcase⟩ := dataSourcesListPlan_dirs_mem _ _ t ht3
          rcases hcase with rfl | ⟨ru, hru, rfl⟩
          · have hlen := hpre.length_le
            simp only [List.length_append, List.length_cons, List.length_nil] at hlen
            omega
          · obtain ⟨hn, hd, hx⟩ := @prefix_three ([] ++ [NameDataSources])
              (nameOf ds.config) d x (nameOf ds2.config) (dbOf ru) (collOf ru) []
              hpre
            have huniq := mem_name_unique
              (fun s : DataSourceStructure => nameOf s.config) hdsS hds2 hds hn.symm
            subst huniq
            rw [hx]
            refine List.mem_map.mpr ⟨ru, ?_, rfl⟩
            refine List.mem_filter.mpr ⟨hru, ?_⟩
            simp only [decide_eq_true_eq]
            exact hd.symm
      · rw [writtenFS_files a h] at hf
        have hf2 := files_head_ds a f hf (nameOf ds.config :: d :: [x]) hpre
        obtain ⟨ds2, hds2, hcase⟩ := dataSourcesListPlan_files_mem _ _ f hf2
        rcases hcase with rfl | ⟨ru, hru, rfl | rfl⟩
        · have hlen := hpre.length_le
          simp only [List.length_append, List.length_cons, List.length_nil] at hlen
          omega
        · obtain ⟨hn, hd, hx⟩ := @prefix_three ([] ++ [NameDataSources])
            (nameOf ds.config) d x (nameOf ds2.config) (dbOf ru) (collOf ru)
            [FileRules] hpre
          have huniq := mem_name_unique
            (fun s : DataSourceStructure => nameOf s.config) hdsS hds2 hds hn.symm
          subst huniq
          rw [hx]
          refine List.mem_map.mpr ⟨ru, ?_, rfl⟩
          refine List.mem_filter.mpr ⟨hru, ?_⟩
          simp only [decide_eq_true_eq]
          exact hd.symm
        · obtain ⟨hn, hd, hx⟩ := @prefix_three ([] ++ [NameDataSources])
            (nameOf ds.config) d x (nameOf ds2.config) (dbOf ru) (collOf ru)
            [FileSchema] hpre
          have huniq := mem_name_unique
            (fun s : DataSourceStructure => nameOf s.config) hdsS hds2 hds hn.symm
          subst huniq
          rw [hx]
          refine List.mem_map.mpr ⟨ru, ?_, rfl⟩
          refine List.mem_filter.mpr ⟨hru, ?_⟩
          simp only [decide_eq_true_eq]
          exact hd.symm
    · intro hx
      obtain ⟨ru, hrum, rfl⟩ := List.mem_map.mp hx
      obtain ⟨hru, hrud⟩ := List.mem_filter.mp hrum
      have hrud2 : dbOf ru = d := by
        simpa using hrud
      have hdm : (([] ++ [NameDataSources]) ++ [nameOf ds.config]) ++
          [dbOf ru, collOf ru] ∈ (oncePlan [] a).wdirs :=
        oncePlan_mem_ds (List.mem_cons_of_mem _
          (dataSourcesListPlan_ruledir_mem_self _ _ ds hds ru hru))
      rw [← hrud2]
      refine ⟨?_, ?_⟩
      · show collOf ru ∈ (writtenFS a).childNames
          ((([] ++ [NameDataSources]) ++ [nameOf ds.config]) ++ [dbOf ru])
        rw [@mem_childNames (writtenFS a) ((oncePlan [] a).wdirs) rfl _ _]
        refine Or.inl ⟨(([] ++ [NameDataSources]) ++ [nameOf ds.config]) ++
          [dbOf ru, collOf ru], hdm, ?_⟩
        exact List.prefix_rfl
      · show (writtenFS a).isDir
          (((([] ++ [NameDataSources]) ++ [nameOf ds.config]) ++ [dbOf ru]) ++
            [collOf ru]) = true
        exact isDir_of_mem_dirs (written_dir_of_oncePlan hdm)


/-! ### Data sources: parse evaluation -/

theorem ds_isFile_top (a : AppStructureV2) (h : wfModel a = true) :
    (writtenFS a).isFile ([] ++ [NameDataSources]) = false := by
  rw [FS.isFile, FS.lookupFile, writtenFS_files a h]
  show (lookupL (oncePlan [] a).wfiles (NameDataSources :: [])).isSome = false
  rw [lookup_sec_ds, lookupL_none_of_ne _ _ ?_]
  · rfl
  · intro f hf he
    obtain ⟨ds, _, hcase⟩ := dataSourcesListPlan_files_mem _ _ f hf
    rcases hcase with rfl | ⟨ru, _, rfl | rfl⟩
    · have he2 : ([] ++ [NameDataSources] : Path) ++ [nameOf ds.config, FileConfig] =
        NameDataSources :: [] := he
      have := congrArg List.length he2
      simp at this
    · have he2 : (([] ++ [NameDataSources] : Path) ++ [nameOf ds.config]) ++
        [dbOf ru, collOf ru, FileRules] = NameDataSources :: [] := he
      have := congrArg List.length he2
      simp at this
    · have he2 : (([] ++ [NameDataSources] : Path) ++ [nameOf ds.config]) ++
        [dbOf ru, collOf ru, FileSchema] = NameDataSources :: [] := he
      have := congrArg List.length he2
      simp at this

theorem parseOneColl_eval (a : AppStructureV2) (h : wfModel a = true)
    (ds : DataSourceStructure) (hds : ds ∈ a.dataSources)
    (ru : GoMap) (hru : ru ∈ ds.rules) :
    parseOneColl (writtenFS a)
      ((([] ++ [NameDataSources]) ++ [nameOf ds.config]) ++ [dbOf ru, collOf ru]) =
      .ok (some ru) := by
  have hdsA := (wf_parts h).2.2.2.2.2.2.2.2.2.2.2.2.2.1
  have hdsS := (wf_parts h).2.2.2.2.2.2.2.2.2.2.2.2.2.2.1
  obtain ⟨hnm, hcwf, hrulesA, hrulesS⟩ :=
    wfDataSource_parts (List.all_eq_true.mp hdsA ds hds)
  obtain ⟨d, rfl, hdwf, hdewf, hschv⟩ :=
    wfRule_parts (List.all_eq_true.mp hrulesA ru hru)
  rw [parseOneColl]
  have hlr : lookupL (oncePlan [] a).wfiles
      (NameDataSources ::
        [nameOf ds.config, dbOf (some d), collOf (some d), FileRules]) =
      some (.json (.obj (canonDoc (d.erase NameSchema)))) := by
    rw [lookup_sec_ds]
    exact dsSeg_lookup_rules a.dataSources ds hds hdsS (some d) hru hrulesS
  have hstat : (writtenFS a).statOk
      (((([] ++ [NameDataSources]) ++ [nameOf ds.config]) ++
        [dbOf (some d), collOf (some d)]) ++ [FileRules]) = true := by
    refine statOk_of_isFile ?_
    rw [FS.isFile, FS.lookupFile, writtenFS_files a h]
    show (lookupL (oncePlan [] a).wfiles (NameDataSources ::
      [nameOf ds.config, dbOf (some d), collOf (some d), FileRules])).isSome = true
    rw [hlr]
    rfl
  rw [if_pos hstat]
  have hrule : parseJSON (writtenFS a)
      (((([] ++ [NameDataSources]) ++ [nameOf ds.config]) ++
        [dbOf (some d), collOf (some d)]) ++ [FileRules]) =
      .ok (some (d.erase NameSchema)) := by
    refine parseJSON_marshal a h _ (some (d.erase NameSchema)) hdewf ?_
    show lookupL (oncePlan [] a).wfiles (NameDataSources ::
      [nameOf ds.config, dbOf (some d), collOf (some d), FileRules]) = _
    exact hlr
  have hgidx : goIndex (some d) NameSchema = d.get NameSchema := rfl
  cases hgv : d.get NameSchema with
  | none =>
    rw [hgv] at hschv
    simp [wfSchemaVal] at hschv
  | some v =>
    rw [hgv] at hschv
    cases v with
    | null =>
      have hsch : parseJSON (writtenFS a)
          (((([] ++ [NameDataSources]) ++ [nameOf ds.config]) ++
            [dbOf (some d), collOf (some d)]) ++ [FileSchema]) = .ok none := by
        refine parseJSON_marshal a h _ none rfl ?_
        show lookupL (oncePlan [] a).wfiles (NameDataSources ::
          [nameOf ds.config, dbOf (some d), collOf (some d), FileSchema]) = _
        rw [lookup_sec_ds]
        refine Eq.trans
          (dsSeg_lookup_schema a.dataSources ds hds hdsS (some d) hru hrulesS) ?_
        rw [hgidx, hgv]
        rfl
      simp only [Bind.bind, Except.bind]
      rw [hrule, hsch]
      show Except.ok (some (some (Doc.insert (d.erase NameSchema) NameSchema
        (marshalGoMap none)))) = Except.ok (some (some d))
      rw [show marshalGoMap none = JValue.null from rfl,
        insert_erase_get (wfDoc_sorted hdwf) hgv]
    | obj s =>
      have hswf : wfDocB s = true := hschv
      have hsch : parseJSON (writtenFS a)
          (((([] ++ [NameDataSources]) ++ [nameOf ds.config]) ++
            [dbOf (some d), collOf (some d)]) ++ [FileSchema]) = .ok (some s) := by
        refine parseJSON_marshal a h _ (some s) hswf ?_
        show lookupL (oncePlan [] a).wfiles (NameDataSources ::
          [nameOf ds.config, dbOf (some d), collOf (some d), FileSchema]) = _
        rw [lookup_sec_ds]
        refine Eq.trans
          (dsSeg_lookup_schema a.dataSources ds hds hdsS (some d) hru hrulesS) ?_
        rw [hgidx, hgv]
        rfl
      simp only [Bind.bind, Except.bind]
      rw [hrule, hsch]
      show Except.ok (some (some (Doc.insert (d.erase NameSchema) NameSchema
        (marshalGoMap (some s))))) = Except.ok (some (some d))
      have hms : marshalGoMap (some s) = JValue.obj s := by
        show JValue.obj (canonDoc s) = JValue.obj s
        rw [wfDocB, decide_eq_true_eq] at hswf
        rw [hswf]
      rw [hms, insert_erase_get (wfDoc_sorted hdwf) hgv]
    | bool b =>
      simp [wfSchemaVal] at hschv
    | num n =>
      simp [wfSchemaVal] at hschv
    | str s =>
      simp [wfSchemaVal] at hschv
    | arr es =>
      simp [wfSchemaVal] at hschv

theorem parseDataSources_eval (a : AppStructureV2) (h : wfModel a = true) :
    parseDataSources (writtenFS a) [] = .ok a.dataSources := by
  have hdsA := (wf_parts h).2.2.2.2.2.2.2.2.2.2.2.2.2.1
  have hdsS := (wf_parts h).2.2.2.2.2.2.2.2.2.2.2.2.2.2.1
  rw [parseDataSources]
  rw [if_neg (by rw [ds_isFile_top a h]; simp)]
  rw [ds_childDirNames a h]
  refine parseDataSourcesList_of (writtenFS a) ([] ++ [NameDataSources])
    a.dataSources ?_
  intro ds hds
  obtain ⟨hnm, hcwf, hrulesA, hrulesS⟩ :=
    wfDataSource_parts (List.all_eq_true.mp hdsA ds hds)
  constructor
  · refine parseJSON_marshal a h _ ds.config hcwf ?_
    show lookupL (oncePlan [] a).wfiles
      (NameDataSources :: [nameOf ds.config, FileConfig]) = _
    rw [lookup_sec_ds]
    exact dsSeg_lookup_cfg a.dataSources ds hds hdsS
  · rw [ds_entity_childDirNames a h ds hds]
    have hpoint : ∀ g ∈ (sortDedup (ds.rules.map dbOf)).map
        (fun d => (d, ds.rules.filter (fun s => decide (dbOf s = d)))),
        (writtenFS a).childDirNames
            ((([] ++ [NameDataSources]) ++ [nameOf ds.config]) ++ [g.1]) =
          g.2.map collOf ∧
        parseColls (writtenFS a)
            ((([] ++ [NameDataSources]) ++ [nameOf ds.config]) ++ [g.1])
            (g.2.map collOf) = .ok g.2 := by
      intro g hg
      obtain ⟨d, hd, rfl⟩ := List.mem_map.mp hg
      constructor
      · exact ds_db_childDirNames a h ds hds d
      · refine parseColls_of (writtenFS a)
          ((([] ++ [NameDataSources]) ++ [nameOf ds.config]) ++ [d])
          (ds.rules.filter (fun s => decide (dbOf s = d))) ?_
        intro r hrm
        obtain ⟨hr, hrd⟩ := List.mem_filter.mp hrm
        have hrd2 : dbOf r = d := by
          simpa using hrd
        have heval := parseOneColl_eval a h ds hds r hr
        rw [hrd2] at heval
        exact heval
    have hgroups := parseDBs_of (writtenFS a)
      (([] ++ [NameDataSources]) ++ [nameOf ds.config])
      ((sortDedup (ds.rules.map dbOf)).map
        (fun d => (d, ds.rules.filter (fun s => decide (dbOf s = d))))) hpoint
    have hfst : (((sortDedup (ds.rules.map dbOf)).map
        (fun d => (d, ds.rules.filter (fun s => decide (dbOf s = d))))).map
          Prod.fst) = sortDedup (ds.rules.map dbOf) := by
      rw [List.map_map]
      exact List.map_id _
    have hflat : ((((sortDedup (ds.rules.map dbOf)).map
        (fun d => (d, ds.rules.filter (fun s => decide (dbOf s = d))))).map
          Prod.snd).flatten) = ds.rules := by
      rw [List.map_map]
      exact groupFlatten ds.rules hrulesS
    rw [hfst, hflat] at hgroups
    exact hgroups


/-! ### The round trip on normal-form models (claim C1) -/

theorem wf_writeOk (a : AppStructureV2) (h : wfModel a = true) :
    writeOkB a = true := by
  obtain ⟨_, _, _, hvals, htrs, _, _, _, _, hsvcA, _, hepA, _, hdsA, _, _, _, _⟩ :=
    wf_parts h
  rw [writeOkB]
  simp only [Bool.and_eq_true]
  refine ⟨⟨⟨⟨?_, ?_⟩, ?_⟩, ?_⟩, ?_⟩
  · rw [valuesOkB, List.all_eq_true]
    intro v hv
    have hv2 := List.all_eq_true.mp (wfNamed_parts hvals).1 v hv
    simp only [Bool.and_eq_true] at hv2
    exact hv2.1
  · rw [servicesOkB, List.all_eq_true]
    intro svc hsvc
    obtain ⟨hname, _, hwhsA, _⟩ :=
      wfEndpoint_parts (List.all_eq_true.mp hsvcA svc hsvc)
    show ((goIndexStr svc.config "name").isSome
      && webhooksOkB svc.incomingWebhooks) = true
    rw [Bool.and_eq_true]
    refine ⟨hname, ?_⟩
    rw [webhooksOkB, List.all_eq_true]
    intro wh hwh
    obtain ⟨d, rfl, hsrcS, hnameS, _, _⟩ :=
      wfWebhook_parts (List.all_eq_true.mp hwhsA wh hwh)
    show ((goIndexStr (some d) NameSource).isSome
      && (goIndexStr (some d) "name").isSome) = true
    rw [Bool.and_eq_true]
    exact ⟨hsrcS, hnameS⟩
  · rw [dataSourcesOkB, List.all_eq_true]
    intro ds hds
    exact (wfDataSource_parts (List.all_eq_true.mp hdsA ds hds)).1
  · rw [endpointsOkB, List.all_eq_true]
    intro ep hep
    obtain ⟨hname, _, hwhsA, _⟩ :=
      wfEndpoint_parts (List.all_eq_true.mp hepA ep hep)
    show ((goIndexStr ep.config "name").isSome
      && webhooksOkB ep.incomingWebhooks) = true
    rw [Bool.and_eq_true]
    refine ⟨hname, ?_⟩
    rw [webhooksOkB, List.all_eq_true]
    intro wh hwh
    obtain ⟨d, rfl, hsrcS, hnameS, _, _⟩ :=
      wfWebhook_parts (List.all_eq_true.mp hwhsA wh hwh)
    show ((goIndexStr (some d) NameSource).isSome
      && (goIndexStr (some d) "name").isSome) = true
    rw [Bool.and_eq_true]
    exact ⟨hsrcS, hnameS⟩
  · rw [valuesOkB, List.all_eq_true]
    intro v hv
    have hv2 := List.all_eq_true.mp (wfNamed_parts htrs).1 v hv
    simp only [Bool.and_eq_true] at hv2
    exact hv2.1

theorem loadData_writtenFS (a : AppStructureV2) (h : wfModel a = true) :
    AppDataV2.LoadData (writtenFS a) [] = .ok a := by
  have hgq := (wf_parts h).2.2.2.2.2.2.2.2.1
  cases hgo : a.graphql with
  | none =>
    rw [hgo] at hgq
    cases hgq
  | some g =>
    rw [AppDataV2.LoadData]
    simp only [Bind.bind, Except.bind]
    rw [parseSecrets_eval a h, parseEnvironments_eval a h,
      parseJSONFiles_values_eval a h, parseAuth_eval a h, parseSync_eval a h,
      parseFunctionsV2_eval a h, parseJSONFiles_trig_eval a h,
      parseGraphQL_eval a h g hgo, parseServices_eval a h,
      parseDataSources_eval a h, parseHTTPEndpoints_eval a h]
    show Except.ok
      { environments := a.environments
        values := a.values
        auth := a.auth
        functions := a.functions
        triggers := a.triggers
        dataSources := a.dataSources
        httpEndpoints := a.httpEndpoints
        services := a.services
        graphql := some g
        sync := a.sync
        secrets := a.secrets } = Except.ok a
    rw [← hgo]

/-- C1: the spec's round-trip law — `LoadData` after `WriteData` on the
same root reconstructs the model up to document key ordering and the
absent/present-empty normalization — is refuted by `c1_counterexample`
(a present-but-contentless auth or sync section reloads as absent, and
data source sequences reload re-sorted by name).  The corrected law: for
every model in load normal form (`wfModel`: canonically marshalled
documents, walker-sorted sequences, contentful optional sections, and
entity names distinct from the reserved file names), `WriteData` into an
empty tree succeeds and `LoadData` of the written tree reconstructs the
model exactly. -/
theorem c1_normal_roundtrip (a : AppStructureV2) (h : wfModel a = true) :
    ∃ fs', AppDataV2.WriteData [] a FS.empty = .ok fs' ∧
      AppDataV2.LoadData fs' [] = .ok a := by
  refine ⟨FS.empty.applyPlan (fullPlan [] a),
    writeData_plan [] a FS.empty (wf_writeOk a h), ?_⟩
  rw [applyPlan_full_once]
  exact loadData_writtenFS a h

/-- C1 witness: the round trip at a concrete normal-form model exercising
every section. -/
theorem c1_witness :
    wfModel c1Model = true ∧
      ∃ fs', AppDataV2.WriteData [] c1Model FS.empty = .ok fs' ∧
        AppDataV2.LoadData fs' [] = .ok c1Model :=
  ⟨by decide, c1_normal_roundtrip c1Model (by decide)⟩

end RealmCLI
